import Mathlib

/-!
# The k-mer graph engine of pandora (`src/src/kmergraph.cpp`)

A shallow embedding of `KmerGraph` and of the operations on it.

Modelling conventions.

* `KmerNode*` values are addresses into an object store (`KmerGraph.store`);
  `KmerGraph.nodes` is the `vector<KmerNode*>` of the class.  An address is the
  index at which the object was allocated, so it is stable under
  `sort_topologically`, which permutes `nodes` only.
* Dereferencing an address that holds no object is undefined behaviour in the
  source; here the operation yields `none`.
* A failed `assert` aborts the process; here the operation yields `none`.
* `Path` is declared outside the translated file.  It is a type parameter `P`
  carrying a linear order (`<` and `==` of the class) and a length accessor
  `plen`.
* Node counts and ids are assumed to stay below `2^32` (the vector is reserved
  for 60000 nodes), so the `uint32_t` id counter is a natural number.
-/

namespace Pandora

/-! ## Data model -/

/-- A vertex of the k-mer graph: identity, Path, the two coverage slots, the
auxiliary tag, the content hash and the two adjacency lists of node
references. -/
structure KmerNode (P : Type) where
  id : Nat
  path : P
  covg0 : Nat
  covg1 : Nat
  num_AT : Nat
  khash : Nat
  outNodes : List Nat
  inNodes : List Nat
deriving DecidableEq

/-- Modelled from the spec: the constructor `KmerNode(id, path)` (kmernode.cpp is
not among the sources).  A new node has the given identity and Path, zero
coverage in both slots, zero tag and hash, and empty adjacency lists. -/
def KmerNode.new {P : Type} (i : Nat) (p : P) : KmerNode P :=
  { id := i, path := p, covg0 := 0, covg1 := 0, num_AT := 0, khash := 0,
    outNodes := [], inNodes := [] }

/-- The graph object: the object store, the node vector and the scalar
fields of the class. -/
structure KmerGraph (P : Type) where
  store : List (KmerNode P)
  nodes : List Nat
  next_id : Nat
  num_reads : Nat
  shortest_path_length : Nat
  k : Nat
  p : ℚ
deriving DecidableEq

/-- The constructor `KmerGraph::KmerGraph()`. -/
def KmerGraph.init (P : Type) : KmerGraph P :=
  { store := [], nodes := [], next_id := 0, num_reads := 0,
    shortest_path_length := 0, k := 0, p := 1 }

/-- Dereference of a node pointer. -/
def KmerGraph.deref {P : Type} (g : KmerGraph P) (a : Nat) : Option (KmerNode P) :=
  g.store[a]?

/-! ## Node and edge construction -/

/-- Modelled from the spec: `pointer_values_equal<KmerNode>` (utils.h) applies
`KmerNode::operator==` (kmernode.cpp) to the pointees, and that operator
compares the Paths ("an existing node with an equal Path (equality, not
identity)"). -/
def pointer_values_equal {P : Type} [DecidableEq P] (n other : KmerNode P) : Bool :=
  decide (n.path = other.path)

/-- The functor `condition`: `kn->path == q`. -/
def condition {P : Type} [DecidableEq P] (q : P) (kn : KmerNode P) : Bool :=
  decide (kn.path = q)

/-- `std::find_if` over a vector of node pointers, the predicate reading
the pointee.  `some none` is the end iterator, `some (some a)` the pointer
stored at the first position whose pointee satisfies the predicate. -/
def find_if {P : Type} (store : List (KmerNode P)) (pred : KmerNode P → Bool) :
    List Nat → Option (Option Nat)
  | [] => some none
  | a :: rest =>
    match store[a]? with
    | none => none
    | some n => if pred n then some (some a) else find_if store pred rest

/-- `KmerGraph::add_node`: returns the graph after the call and the pointer
returned by the call. -/
def add_node {P : Type} [DecidableEq P] (plen : P → Nat) (g : KmerGraph P) (p : P) :
    Option (KmerGraph P × Nat) :=
  let n := KmerNode.new g.next_id p
  match find_if g.store (pointer_values_equal n) g.nodes with
  | none => none
  | some (some a) => some (g, a)
  | some none =>
    if g.k = 0 ∨ plen p = 0 ∨ plen p = g.k then
      some ({ g with
                store := g.store ++ [n]
                nodes := g.nodes ++ [g.store.length]
                k := if g.k = 0 ∧ 0 < plen p then plen p else g.k
                next_id := g.next_id + 1 },
            g.store.length)
    else none

/-- The body shared by both overloads of `add_edge` (lines 96-101 and 110-115):
`std::find` of the pointer `t` in `f->outNodes`, and when it is absent
`f->outNodes.push_back(t)` followed by `t->inNodes.push_back(f)`. -/
def push_edge {P : Type} (g : KmerGraph P) (f t : Nat) : Option (KmerGraph P) :=
  match g.store[f]? with
  | none => none
  | some nf =>
    if t ∈ nf.outNodes then some g
    else
      let store1 := g.store.set f { nf with outNodes := nf.outNodes ++ [t] }
      match store1[t]? with
      | none => none
      | some nt =>
        some { g with store := store1.set t { nt with inNodes := nt.inNodes ++ [f] } }

/-- `KmerGraph::add_edge(const Path&, const Path&)`. -/
def add_edge {P : Type} [LinearOrder P] (g : KmerGraph P) (from_path to_path : P) :
    Option (KmerGraph P) :=
  if ¬ from_path < to_path then none
  else if from_path = to_path then some g
  else
    match find_if g.store (condition from_path) g.nodes,
          find_if g.store (condition to_path) g.nodes with
    | some (some from_it), some (some to_it) => push_edge g from_it to_it
    | _, _ => none

/-- `KmerGraph::add_edge(KmerNode*, KmerNode*)`. -/
def add_edge_nodes {P : Type} [LinearOrder P] (g : KmerGraph P) (from_node to_node : Nat) :
    Option (KmerGraph P) :=
  match g.store[from_node]?, g.store[to_node]? with
  | some nf, some nt =>
    if ¬ nf.path < nt.path then none else push_edge g from_node to_node
  | _, _ => none

/-- The out-neighbour pointers of the node at address `a` (empty when `a`
holds no node). -/
def out_of {P : Type} (g : KmerGraph P) (a : Nat) : List Nat :=
  match g.store[a]? with
  | some n => n.outNodes
  | none => []

/-- The in-neighbour pointers of the node at address `a`. -/
def in_of {P : Type} (g : KmerGraph P) (a : Nat) : List Nat :=
  match g.store[a]? with
  | some n => n.inNodes
  | none => []

/-- Graphs obtained from the constructor by calls of `add_node` and of the two
overloads of `add_edge` that returned normally. -/
inductive Built {P : Type} [LinearOrder P] (plen : P → Nat) : KmerGraph P → Prop
  | init : Built plen (KmerGraph.init P)
  | add_node (g g1 : KmerGraph P) (p : P) (n : Nat) :
      Built plen g → add_node plen g p = some (g1, n) → Built plen g1
  | add_edge (g g1 : KmerGraph P) (from_path to_path : P) :
      Built plen g → add_edge g from_path to_path = some g1 → Built plen g1
  | add_edge_nodes (g g1 : KmerGraph P) (from_node to_node : Nat) :
      Built plen g → add_edge_nodes g from_node to_node = some g1 → Built plen g1

/-- The structural invariant of graphs under construction: the node vector
lists the store in allocation order, ids are positions, Paths are pairwise
distinct, adjacency lists are duplicate-free, mutually reciprocal, every
edge goes from a smaller Path to a larger one, and the coverage counters and
the tag of every node are still zero. -/
structure Wf {P : Type} [LinearOrder P] (g : KmerGraph P) : Prop where
  nodes_eq : g.nodes = List.range g.store.length
  next_eq : g.next_id = g.store.length
  id_eq : ∀ (a : Nat) (n : KmerNode P), g.store[a]? = some n → n.id = a
  paths_nodup : (g.store.map KmerNode.path).Nodup
  out_nodup : ∀ a, (out_of g a).Nodup
  in_nodup : ∀ a, (in_of g a).Nodup
  recip : ∀ a b, b ∈ out_of g a ↔ a ∈ in_of g b
  forward : ∀ a b, b ∈ out_of g a →
    ∃ na nb, g.store[a]? = some na ∧ g.store[b]? = some nb ∧ na.path < nb.path
  counters_zero : ∀ (a : Nat) (n : KmerNode P), g.store[a]? = some n →
    n.covg0 = 0 ∧ n.covg1 = 0 ∧ n.num_AT = 0

/-- A graph with the two Paths `3` and `5` stored and no edge. -/
def two_nodes : KmerGraph Nat :=
  { store := [KmerNode.new 0 3, KmerNode.new 1 5], nodes := [0, 1], next_id := 2,
    num_reads := 0, shortest_path_length := 0, k := 1, p := 1 }

/-- The graph `two_nodes` with the edge from Path `3` to Path `5`. -/
def two_nodes_linked : KmerGraph Nat :=
  { store := [{ KmerNode.new 0 3 with outNodes := [1] }, { KmerNode.new 1 5 with inNodes := [0] }],
    nodes := [0, 1], next_id := 2,
    num_reads := 0, shortest_path_length := 0, k := 1, p := 1 }

/-- A sequence of `add_edge` calls on one pair of endpoints, each call made
through the Path overload (`true`) or through the node overload (`false`). -/
def add_edge_calls {P : Type} [LinearOrder P] (g : KmerGraph P) (from_path to_path : P)
    (from_node to_node : Nat) : List Bool → Option (KmerGraph P)
  | [] => some g
  | byPath :: rest =>
    match (if byPath then add_edge g from_path to_path
           else add_edge_nodes g from_node to_node) with
    | none => none
    | some g1 => add_edge_calls g1 from_path to_path from_node to_node rest

/-! ## Topological finalization -/

/-- The node at array position `i`: `*nodes[i]`. -/
def KmerGraph.node_at {P : Type} (g : KmerGraph P) (i : Nat) : Option (KmerNode P) :=
  match g.nodes[i]? with
  | some a => g.store[a]?
  | none => none

/-- The comparator `pCompKmerNode`: `lhs->path < rhs->path`. -/
def pCompKmerNode {P : Type} [LinearOrder P] (lhs rhs : KmerNode P) : Bool :=
  decide (lhs.path < rhs.path)

/-- The order in which `std::sort` leaves two elements under `pCompKmerNode`:
the second is not strictly before the first. -/
def sort_le {P : Type} [LinearOrder P] (x y : Nat × KmerNode P) : Prop :=
  pCompKmerNode y.2 x.2 = false

instance sort_le_decidable {P : Type} [LinearOrder P] :
    DecidableRel (sort_le : Nat × KmerNode P → Nat × KmerNode P → Prop) :=
  fun x y => inferInstanceAs (Decidable (pCompKmerNode y.2 x.2 = false))

instance sort_le_total {P : Type} [LinearOrder P] :
    IsTotal (Nat × KmerNode P) sort_le :=
  ⟨fun x y => by
    simp only [sort_le, pCompKmerNode, decide_eq_false_iff_not, not_lt]
    exact le_total _ _⟩

instance sort_le_trans {P : Type} [LinearOrder P] :
    IsTrans (Nat × KmerNode P) sort_le :=
  ⟨fun x y z hxy hyz => by
    simp only [sort_le, pCompKmerNode, decide_eq_false_iff_not, not_lt] at hxy hyz ⊢
    exact le_trans hxy hyz⟩

/-- Every pointer of the vector paired with its pointee, as the comparator
reads it during the sort. -/
def deref_all {P : Type} (store : List (KmerNode P)) : List Nat → Option (List (Nat × KmerNode P))
  | [] => some []
  | a :: rest =>
    match store[a]?, deref_all store rest with
    | some n, some ps => some ((a, n) :: ps)
    | _, _ => none

/-- The loop `for (uint i=0; i!=nodes.size(); ++i) nodes[i]->id = i;`, started
at position `i`. -/
def assign_ids {P : Type} (store : List (KmerNode P)) : List Nat → Nat →
    Option (List (KmerNode P))
  | [], _ => some store
  | a :: rest, i =>
    match store[a]? with
    | none => none
    | some n => assign_ids (store.set a { n with id := i }) rest (i + 1)

/-- `KmerGraph::sort_topologically`.  `std::sort` leaves the relative order of
elements that the comparator does not separate unspecified; the model orders
them as a stable sort does.  When the Paths of the graph are pairwise distinct
the outcome of `std::sort` is determined and is the one computed here. -/
def sort_topologically {P : Type} [LinearOrder P] (g : KmerGraph P) : Option (KmerGraph P) :=
  match deref_all g.store g.nodes with
  | none => none
  | some ps =>
    let sorted := (List.insertionSort sort_le ps).map Prod.fst
    match assign_ids g.store sorted 0 with
    | none => none
    | some st => some { g with store := st, nodes := sorted }

/-- Three nodes inserted out of Path order (`5`, `3`, `9`) with the edges
`3 → 5` and `5 → 9`. -/
def unsorted_chain : KmerGraph Nat :=
  { store := [{ KmerNode.new 0 5 with outNodes := [2], inNodes := [1] },
              { KmerNode.new 1 3 with outNodes := [0] },
              { KmerNode.new 2 9 with inNodes := [0] }],
    nodes := [0, 1, 2], next_id := 3,
    num_reads := 0, shortest_path_length := 0, k := 1, p := 1 }

/-! ## Invariant checking -/

/-- The inner loop of `check` over `c->outNodes`: the two assertions on every
edge `c → d`. -/
def check_edges {P : Type} [LinearOrder P] (g : KmerGraph P) (c : KmerNode P) :
    List Nat → Option Unit
  | [] => some ()
  | d :: rest =>
    match g.store[d]? with
    | none => none
    | some nd => if c.path < nd.path ∧ c.id < nd.id then check_edges g c rest else none

/-- The outer loop of `check` over the node vector: the two degree
assertions, then the edges of the node. -/
def check_nodes {P : Type} [LinearOrder P] (g : KmerGraph P) : List Nat → Option Unit
  | [] => some ()
  | c :: rest =>
    match g.store[c]? with
    | none => none
    | some nc =>
      if ¬ (0 < nc.inNodes.length ∨ nc.id = 0) then none
      else if ¬ (0 < nc.outNodes.length ∨ nc.id = g.nodes.length - 1) then none
      else
        match check_edges g nc nc.outNodes with
        | none => none
        | some _ => check_nodes g rest

/-- `KmerGraph::check`: the graph after the call when every assertion holds. -/
def check {P : Type} [LinearOrder P] (g : KmerGraph P) (num_minikmers : Nat) :
    Option (KmerGraph P) :=
  if ¬ (num_minikmers = 0 ∨ g.nodes.length = num_minikmers) then none
  else
    match check_nodes g g.nodes with
    | none => none
    | some _ => some g

/-- The node at every array position carries that position as its id. -/
def ids_are_positions {P : Type} (g : KmerGraph P) : Prop :=
  ∀ i : Nat, i < g.nodes.length → (g.node_at i).map KmerNode.id = some i

instance ids_are_positions_decidable {P : Type} (g : KmerGraph P) :
    Decidable (ids_are_positions g) :=
  inferInstanceAs (Decidable (∀ i : Nat, i < g.nodes.length →
    (g.node_at i).map KmerNode.id = some i))

/-- A finalized chain `source → a → b → c → sink` over the Paths `0 … 4`, with
`num_reads = 1` and every interior node covered once (in slot 0). -/
def chain5 : KmerGraph Nat :=
  { store := [{ KmerNode.new 0 0 with outNodes := [1] },
              { KmerNode.new 1 1 with covg0 := 1, outNodes := [2], inNodes := [0] },
              { KmerNode.new 2 2 with covg0 := 1, outNodes := [3], inNodes := [1] },
              { KmerNode.new 3 3 with covg0 := 1, outNodes := [4], inNodes := [2] },
              { KmerNode.new 4 4 with inNodes := [3] }],
    nodes := [0, 1, 2, 3, 4], next_id := 5,
    num_reads := 1, shortest_path_length := 0, k := 1, p := 1 }

/-! ## Coverage model and maximum-probability path decoder, in exact arithmetic

In this section `float` and `double` values are idealised as exact rationals:
rounding, overflow and the infinities are not modelled, and a product
`0 * log(0)`, a NaN in the source and in the `float` translation
(`prob_full_coverage_nan`), is `0 * F.log 0 = 0`.  The one non-finite
value the decoder itself produces, the quotient `M[i]/len[i]` of an entry that
was never written (`0.0/0`, a NaN, on which every comparison is false), is
modelled: see `visit_edge`.  The idealisation carries the statement that is
relative to whatever the tables hold (C8), the estimate of `p` (C12) and the
numeric counterexamples.  The statements that depend on which values are finite
or on rounding (C7, C9, C16, C17, C18) are made about the translation of the
section "The decoder in `float` arithmetic". -/

/-- The library functions the probability model calls: `exp` and `log` of the
C library, and `lognchoosek2`, which is declared in utils.h and defined outside
the translated file.  They are parameters of the model. -/
structure FloatOps where
  exp : ℚ → ℚ
  log : ℚ → ℚ
  lognchoosek2 : Nat → Nat → Nat → ℚ

/-- The sum `covg[0]+covg[1]` of two `uint32_t` counters. -/
def total_covg {P : Type} (n : KmerNode P) : Nat :=
  (n.covg0 + n.covg1) % 2 ^ 32

/-- `KmerGraph::prob`. -/
def prob {P : Type} (F : FloatOps) (g : KmerGraph P) (j : Nat) : Option ℚ :=
  if j = 0 ∨ j = g.nodes.length - 1 then some 0
  else
    match g.node_at j with
    | none => none
    | some n =>
      if g.num_reads < total_covg n then
        some (F.lognchoosek2 (total_covg n) n.covg0 n.covg1
              + (total_covg n : ℚ) * F.log (g.p / 2))
      else
        some (F.lognchoosek2 g.num_reads n.covg0 n.covg1
              + (total_covg n : ℚ) * F.log (g.p / 2)
              + ((g.num_reads - total_covg n : Nat) : ℚ) * F.log (1 - g.p))

/-- The loop of `discover_p` that fills `kmer_covgs`, from position `j` down
to position 1. -/
def kmer_covgs {P : Type} (g : KmerGraph P) : Nat → Option (List Nat)
  | 0 => some []
  | j + 1 =>
    match g.node_at (j + 1), kmer_covgs g j with
    | some n, some rest => some (if 4 < total_covg n then total_covg n :: rest else rest)
    | _, _ => none

/-- `KmerGraph::discover_p`: the graph with the new value of `p`. -/
def discover_p {P : Type} (F : FloatOps) (g : KmerGraph P) (e_rate : ℚ) :
    Option (KmerGraph P) :=
  let g1 := { g with p := 1 / F.exp (e_rate * (g.k : ℚ)) }
  if 40 < g.num_reads then
    if g.nodes.length = 0 then none
    else
      match kmer_covgs g (g.nodes.length - 1) with
      | none => none
      | some covgs =>
        if covgs.length = 0 then some g1
        else
          some { g1 with p := ((covgs.sum : ℚ) / (covgs.length : ℚ)) / (g.num_reads : ℚ) }
  else some g1

/-- `numeric_limits<float>::lowest()`. -/
def float_lowest : ℚ := -(2 ^ 128 - 2 ^ 104)

/-- The literal `0.000001`. -/
def tolerance : ℚ := 1 / 1000000

/-- The local state of `find_max_path`: the vectors `M`, `len`, `prev`
and the variables `max_mean`, `max_len`.  `len` never holds a negative
value. -/
structure Sweep where
  M : Nat → ℚ
  len : Nat → Nat
  prev : Nat → Nat
  max_mean : ℚ
  max_len : Nat

/-- One iteration of the inner loop of `find_max_path` at node `j`, for the
out-neighbour with id `sid`; `pj` is `prob(j)`.  An entry of `len` is zero
exactly when it was never written, and then the entry of `M` is zero too, so
the quotient `M[sid]/len[sid]` with `len[sid] = 0` is `0.0/0`, on which both
comparisons are false. -/
def visit_edge (F : FloatOps) (size : Nat) (pj : ℚ) (j : Nat) (s : Sweep) (sid : Nat) : Sweep :=
  if (sid = size - 1 ∧ s.max_mean + tolerance < -25)
      ∨ (s.len sid ≠ 0 ∧ s.max_mean + tolerance < s.M sid / (s.len sid : ℚ))
      ∨ (s.len sid ≠ 0 ∧ s.max_mean - s.M sid / (s.len sid : ℚ) ≤ tolerance
          ∧ s.max_len < s.len sid) then
    let M1 := Function.update s.M j (pj + s.M sid)
    let len1 := Function.update s.len j (1 + s.len sid)
    let prev1 := Function.update s.prev j sid
    if sid ≠ size - 1 then
      { M := M1, len := len1, prev := prev1,
        max_mean := M1 sid / (len1 sid : ℚ), max_len := len1 sid }
    else
      { M := M1, len := len1, prev := prev1,
        max_mean := F.log (5 / 1000), max_len := s.max_len }
  else s

/-- The inner loop of `find_max_path` over the out-neighbours of node `j`. -/
def scan_edges {P : Type} (F : FloatOps) (g : KmerGraph P) (pj : ℚ) (j : Nat) :
    Sweep → List Nat → Option Sweep
  | s, [] => some s
  | s, a :: rest =>
    match g.store[a]? with
    | none => none
    | some n =>
      if n.id < g.nodes.length then
        scan_edges F g pj j (visit_edge F g.nodes.length pj j s n.id) rest
      else none

/-- The outer loop of `find_max_path`: `sweep F g n s` runs the iterations
`j = n, n-1, …, 1`, which treat the nodes `n-1, …, 0`. -/
def sweep {P : Type} (F : FloatOps) (g : KmerGraph P) : Nat → Sweep → Option Sweep
  | 0, s => some s
  | j + 1, s =>
    match g.node_at j, prob F g j with
    | some n, some pj =>
      match scan_edges F g pj j { s with max_mean := float_lowest, max_len := 0 } n.outNodes with
      | none => none
      | some s1 => sweep F g j s1
    | _, _ => none

/-- The vectors as `find_max_path` creates them. -/
def Sweep.init (size : Nat) : Sweep :=
  { M := fun _ => 0, len := fun _ => 0, prev := fun _ => size - 1,
    max_mean := float_lowest, max_len := 0 }

/-- The loop that extracts the path.  The loop runs for as long as
`prev_node < nodes.size() - 1`; `fuel` bounds the number of iterations, and
`none` is returned when it is used up (with `fuel = nodes.size()` this
happens only when the loop of the source does not terminate). -/
def extract_path {P : Type} (g : KmerGraph P) (prev : Nat → Nat) :
    Nat → Nat → List Nat → Option (List Nat)
  | fuel, prev_node, maxpath =>
    if prev_node < g.nodes.length - 1 then
      match fuel with
      | 0 => none
      | fuel1 + 1 =>
        match g.nodes[prev_node]? with
        | none => none
        | some a => extract_path g prev fuel1 (prev prev_node) (maxpath ++ [a])
    else some maxpath

/-- The tables of `find_max_path` after the sweep, on the graph as
`discover_p` leaves it. -/
def max_path_tables {P : Type} (F : FloatOps) (g : KmerGraph P) : Option Sweep :=
  if g.nodes.length = 0 then none
  else sweep F g (g.nodes.length - 1) (Sweep.init g.nodes.length)

/-- `KmerGraph::find_max_path`: the returned score (`none` when it is the
quotient `0.0/0`), the vector `maxpath` after the call and the graph after
the call. -/
def find_max_path {P : Type} (F : FloatOps) (g : KmerGraph P) (e_rate : ℚ)
    (maxpath : List Nat) : Option (Option ℚ × List Nat × KmerGraph P) :=
  match discover_p F g e_rate with
  | none => none
  | some g1 =>
    match max_path_tables F g1 with
    | none => none
    | some s =>
      match extract_path g1 s.prev g1.nodes.length (s.prev 0) maxpath with
      | none => none
      | some mp =>
        some (if s.len 0 = 0 then none else some (s.M 0 / (s.len 0 : ℚ)), mp, g1)

/-- The adjacency of the graph can be decoded: the graph has a node, every
position before the last holds a node, and the id of every out-neighbour of
such a node indexes the tables of `find_max_path`. -/
def decodable {P : Type} (g : KmerGraph P) : Prop :=
  g.nodes.length ≠ 0 ∧ ∀ j : Nat, j < g.nodes.length - 1 →
    ∃ nd : KmerNode P, g.node_at j = some nd
      ∧ ∀ a ∈ nd.outNodes, ∃ na : KmerNode P, g.store[a]? = some na ∧ na.id < g.nodes.length

/-- The graph is the straight-line chain `src → a → b → c → snk` of five nodes
and four edges, finalized (the id of every node is its array position). -/
def straight_line {P : Type} (g : KmerGraph P) (src a b c snk : Nat) : Prop :=
  g.nodes = [src, a, b, c, snk] ∧ ids_are_positions g
    ∧ out_of g src = [a] ∧ out_of g a = [b] ∧ out_of g b = [c] ∧ out_of g c = [snk]
    ∧ out_of g snk = []

/-- Values of the library functions at the arguments that occur in the
examples below (graphs with `num_reads = 1`, `k = 1` and error rate `0.5108`),
rounded to three decimals: `exp(0.5108) ≈ 5/3`, `log(0.3) ≈ -1.204`,
`log(0.4) ≈ -0.916`, `log(0.005) ≈ -5.298`, and `lognchoosek2(1, _, _) = 0`
(as is `lognchoosek2(n, 0, 0)` for every `n`). -/
def sample_ops : FloatOps :=
  { exp := fun x => if x = 5108 / 10000 then 5 / 3 else 1
    log := fun x =>
      if x = 3 / 10 then -1204 / 1000
      else if x = 2 / 5 then -916 / 1000
      else if x = 5 / 1000 then -5298 / 1000
      else 0
    lognchoosek2 := fun _ _ _ => 0 }

/-- A finalized graph with two branches from the source to the sink, the short
one `0 → 1 → 4` and the long one `0 → 2 → 3 → 4`; one read, every interior
node covered once, `p = 3/5`. -/
def tie5 : KmerGraph Nat :=
  { store := [{ KmerNode.new 0 0 with outNodes := [1, 2] },
              { KmerNode.new 1 1 with covg0 := 1, outNodes := [4], inNodes := [0] },
              { KmerNode.new 2 2 with covg0 := 1, outNodes := [3], inNodes := [0] },
              { KmerNode.new 3 3 with covg0 := 1, outNodes := [4], inNodes := [2] },
              { KmerNode.new 4 4 with inNodes := [1, 3] }],
    nodes := [0, 1, 2, 3, 4], next_id := 5,
    num_reads := 1, shortest_path_length := 0, k := 1, p := 3 / 5 }

/-- A line of the graph file.  `segment id path covg num_AT` is
`S\t<id>\t<path>\tRC:i:<covg>[\t<num_AT>]`; `link a o1 b o2` is
`L\t<a>\t<o1>\t<b>\t<o2>\t0M`, an orientation field being `true` for `+`. -/
inductive Line (P : Type) where
  | header : Line P
  | segment (id : Nat) (path : P) (covg : Nat) (num_AT : Option Nat) : Line P
  | link (a : Nat) (o1 : Bool) (b : Nat) (o2 : Bool) : Line P
deriving DecidableEq

/-- The inner loop of `save`: one link line per out-neighbour. -/
def save_links {P : Type} (g : KmerGraph P) (id : Nat) : List Nat → Option (List (Line P))
  | [] => some []
  | o :: rest =>
    match g.store[o]?, save_links g id rest with
    | some no, some ls => some (Line.link id true no.id true :: ls)
    | _, _ => none

/-- The outer loop of `save`: the segment line of a node, then its link
lines. -/
def save_nodes {P : Type} (g : KmerGraph P) : List Nat → Option (List (Line P))
  | [] => some []
  | a :: rest =>
    match g.store[a]? with
    | none => none
    | some n =>
      match save_links g n.id n.outNodes, save_nodes g rest with
      | some ls, some more =>
        some (Line.segment n.id n.path n.covg1 (some n.num_AT) :: (ls ++ more))
      | _, _ => none

/-- `KmerGraph::save`: the lines written to the file. -/
def save {P : Type} (g : KmerGraph P) : Option (List (Line P)) :=
  match save_nodes g g.nodes with
  | none => none
  | some body => some (Line.header :: body)

/-- `std::stoi` on a field holding the decimal form of `n`: values beyond
`INT_MAX` raise `std::out_of_range`, which nothing catches. -/
def stoi (n : Nat) : Option Nat :=
  if n < 2 ^ 31 then some n else none

/-- The first pass of `load`, over the segment lines. -/
def load_segments {P : Type} (plen : P → Nat) : KmerGraph P → List (Line P) →
    Option (KmerGraph P)
  | g, [] => some g
  | g, Line.segment id p covg num_AT :: rest =>
    match stoi id, stoi covg with
    | some id1, some covg1 =>
      if g.next_id = id1 then
        match (match num_AT with
               | none => some 0
               | some t => (stoi t).map (fun v => v % 256)) with
        | none => none
        | some tag =>
          load_segments plen
            { g with
                store := g.store ++ [{ KmerNode.new g.next_id p with covg0 := covg1, num_AT := tag }]
                nodes := g.nodes ++ [g.store.length]
                next_id := g.next_id + 1
                k := if g.k = 0 ∧ 0 < plen p then plen p else g.k }
            rest
      else none
    | _, _ => none
  | g, _ :: rest => load_segments plen g rest

/-- The two statements `nodes[from]->outNodes.push_back(nodes[to]);
nodes[to]->inNodes.push_back(nodes[from]);` of `load`. -/
def load_edge {P : Type} (g : KmerGraph P) (from_id to_id : Nat) : Option (KmerGraph P) :=
  match g.nodes[from_id]?, g.nodes[to_id]? with
  | some f, some t =>
    match g.store[f]? with
    | none => none
    | some nf =>
      let store1 := g.store.set f { nf with outNodes := nf.outNodes ++ [t] }
      match store1[t]? with
      | none => none
      | some nt =>
        some { g with store := store1.set t { nt with inNodes := nt.inNodes ++ [f] } }
  | _, _ => none

/-- The second pass of `load`, over the link lines. -/
def load_links {P : Type} : KmerGraph P → List (Line P) → Option (KmerGraph P)
  | g, [] => some g
  | g, Line.link a o1 b o2 :: rest =>
    match stoi a, stoi b with
    | some a1, some b1 =>
      match (if o1 = o2 then load_edge g a1 b1 else load_edge g b1 a1) with
      | none => none
      | some g1 => load_links g1 rest
    | _, _ => none
  | g, _ :: rest => load_links g rest

/-- `KmerGraph::load`, on a file that could be opened. -/
def load {P : Type} (plen : P → Nat) (g : KmerGraph P) (lines : List (Line P)) :
    Option (KmerGraph P) :=
  match load_segments plen g lines with
  | none => none
  | some g1 => load_links g1 lines

/-- The innermost loop of `operator==`: every out-neighbour of the node of
`x` has a counterpart with an equal Path among the out-neighbours `ys` of the
matched node of `y`. -/
def eq_out_nodes {P : Type} [DecidableEq P] (x y : KmerGraph P) (ys : List Nat) :
    List Nat → Option Bool
  | [] => some true
  | o :: rest =>
    match x.store[o]? with
    | none => none
    | some no =>
      match find_if y.store (pointer_values_equal no) ys with
      | none => none
      | some none => some false
      | some (some _) => eq_out_nodes x y ys rest

/-- The outer loop of `operator==` over the nodes of `x`. -/
def eq_nodes {P : Type} [DecidableEq P] (x y : KmerGraph P) : List Nat → Option Bool
  | [] => some true
  | c :: rest =>
    match x.store[c]? with
    | none => none
    | some nc =>
      match find_if y.store (pointer_values_equal nc) y.nodes with
      | none => none
      | some none => some false
      | some (some found) =>
        match y.store[found]? with
        | none => none
        | some nf =>
          if nc.outNodes.length ≠ nf.outNodes.length then some false
          else if nc.inNodes.length ≠ nf.inNodes.length then some false
          else
            match eq_out_nodes x y nf.outNodes nc.outNodes with
            | none => none
            | some false => some false
            | some true => eq_nodes x y rest

/-- `KmerGraph::operator==`, with `x` the object the operator is called on. -/
def graph_eq {P : Type} [DecidableEq P] (x y : KmerGraph P) : Option Bool :=
  if y.nodes.length ≠ x.nodes.length then some false
  else eq_nodes x y x.nodes

/-- The number of segment lines of a file. -/
def count_segments {P : Type} : List (Line P) → Nat
  | [] => 0
  | Line.segment _ _ _ _ :: rest => count_segments rest + 1
  | _ :: rest => count_segments rest

/-- The number of link lines of a file. -/
def count_links {P : Type} : List (Line P) → Nat
  | [] => 0
  | Line.link _ _ _ _ :: rest => count_links rest + 1
  | _ :: rest => count_links rest

/-- The number of edges of a graph: the out-degrees summed over the node
vector. -/
def edge_count {P : Type} (g : KmerGraph P) : Nat :=
  (g.nodes.map (fun a => (out_of g a).length)).sum

/-- The lines `save` writes for one node: its segment line and its link
lines, when the id of every out-neighbour is its address. -/
def node_block {P : Type} (n : KmerNode P) : List (Line P) :=
  Line.segment n.id n.path n.covg1 (some n.num_AT)
    :: n.outNodes.map (fun b => Line.link n.id true b true)

/-- The node `load` creates from the segment line of `n`. -/
def loaded_node {P : Type} (n : KmerNode P) : KmerNode P :=
  { KmerNode.new n.id n.path with covg0 := n.covg1, num_AT := n.num_AT % 256 }

/-- The link line of an edge given by the ids of its endpoints. -/
def to_link {P : Type} (e : Nat × Nat) : Line P :=
  Line.link e.1 true e.2 true

/-- The edges of a list of nodes, in the order of their link lines. -/
def edges_of {P : Type} (ns : List (KmerNode P)) : List (Nat × Nat) :=
  ns.flatMap (fun n => n.outNodes.map (fun b => (n.id, b)))

/-- Two graphs laid out alike: node vectors in allocation order, and at every
address the same Path, the same out-neighbours and the same in-degree. -/
structure Similar {P : Type} (x y : KmerGraph P) : Prop where
  nodes_x : x.nodes = List.range x.store.length
  nodes_y : y.nodes = List.range y.store.length
  len : x.store.length = y.store.length
  paths_nodup : (y.store.map KmerNode.path).Nodup
  same : ∀ (a : Nat) (nx : KmerNode P), x.store[a]? = some nx →
    ∃ ny : KmerNode P, y.store[a]? = some ny ∧ ny.path = nx.path
      ∧ ny.outNodes = nx.outNodes ∧ ny.inNodes.length = nx.inNodes.length
  out_valid : ∀ (a : Nat) (nx : KmerNode P), x.store[a]? = some nx →
    ∀ o ∈ nx.outNodes, o < x.store.length

/-! ## The file of a graph with coverage -/

/-- The node at address `a` as the lines of `save` show it: the pointee, each
out-neighbour pointer replaced by the id of its pointee. -/
def file_node {P : Type} (g : KmerGraph P) (a : Nat) : Option (KmerNode P) :=
  (g.store[a]?).map (fun n =>
    { n with outNodes := n.outNodes.filterMap (fun o => (g.store[o]?).map KmerNode.id) })

/-- The nodes of the graph in array order, as the lines of `save` show them. -/
def file_nodes {P : Type} (g : KmerGraph P) : List (KmerNode P) :=
  g.nodes.filterMap (file_node g)

/-- The graph can be written by `save` and read back by `load`: the id of
every node is its array position, every out-neighbour is a node whose id is an
array position, and the numbers written are in the range `load` reads (at most
`2^31` nodes, slot 1 of the coverage below `2^31`, the tag a `uint8_t`). -/
def saveable {P : Type} (g : KmerGraph P) : Prop :=
  ids_are_positions g ∧ g.nodes.length ≤ 2 ^ 31
    ∧ ∀ (i : Nat) (nd : KmerNode P), g.node_at i = some nd →
        nd.covg1 < 2 ^ 31 ∧ nd.num_AT < 256
          ∧ ∀ a ∈ nd.outNodes, ∃ na : KmerNode P,
              g.store[a]? = some na ∧ na.id < g.nodes.length

/-- Two linked nodes with coverage: the first was seen 3 times on one strand
and 5 times on the other and carries the tag 2, the second was seen once. -/
def covered_pair : KmerGraph Nat :=
  { store := [{ KmerNode.new 0 3 with covg0 := 3, covg1 := 5, num_AT := 2, outNodes := [1] },
              { KmerNode.new 1 5 with covg0 := 1, inNodes := [0] }],
    nodes := [0, 1], next_id := 2,
    num_reads := 0, shortest_path_length := 0, k := 1, p := 1 }

/-! ## The reference definition of the error-rate parameter -/

/-- The coverage totals the reference definition averages: the totals
`covg[0]+covg[1]` of the interior nodes, every position except the first
(source) and the last (sink), that exceed 4. -/
def interior_totals {P : Type} (g : KmerGraph P) : List Nat :=
  (((List.range (g.nodes.length - 1)).tail.filterMap (fun i => g.node_at i)).map
    total_covg).filter (fun c => 4 < c)

/-- The value of `p` after `discover_p` as the specification defines it: the
mean of the qualifying interior totals divided by `num_reads` when
`num_reads > 40` and some interior total qualifies, `exp(-e_rate*k)`
otherwise. -/
def discover_p_reference {P : Type} (F : FloatOps) (g : KmerGraph P) (e_rate : ℚ) : ℚ :=
  if 40 < g.num_reads ∧ interior_totals g ≠ [] then
    (((interior_totals g).sum : ℚ) / ((interior_totals g).length : ℚ)) / (g.num_reads : ℚ)
  else F.exp (-(e_rate * (g.k : ℚ)))

/-- A finalized chain `source → a → sink` read 41 times, whose interior node
has total coverage 9 and whose sink has total coverage 5. -/
def covered_sink : KmerGraph Nat :=
  { store := [{ KmerNode.new 0 0 with outNodes := [1] },
              { KmerNode.new 1 1 with covg0 := 9, outNodes := [2], inNodes := [0] },
              { KmerNode.new 2 2 with covg0 := 5, inNodes := [1] }],
    nodes := [0, 1, 2], next_id := 3,
    num_reads := 41, shortest_path_length := 0, k := 1, p := 1 }

/-! ## Longest path length (`min_path_length`) -/

/-- The inner loop of `min_path_length` at node `j`, over its out-neighbours:
`len[j]` is raised to `len[id] + 1` for every out-neighbour id that gives more.
An out-neighbour id beyond the vector `len` is an access out of bounds. -/
def longest_step {P : Type} (g : KmerGraph P) (j : Nat) :
    (Nat → Nat) → List Nat → Option (Nat → Nat)
  | len, [] => some len
  | len, a :: rest =>
    match g.store[a]? with
    | none => none
    | some n =>
      if n.id < g.nodes.length then
        longest_step g j
          (if len j < len n.id + 1 then Function.update len j (len n.id + 1) else len) rest
      else none

/-- The outer loop of `min_path_length`: `path_length_sweep g n len` runs the
iterations `j = n, n-1, …, 1`, which treat the nodes `n-1, …, 0`. -/
def path_length_sweep {P : Type} (g : KmerGraph P) : Nat → (Nat → Nat) → Option (Nat → Nat)
  | 0, len => some len
  | j + 1, len =>
    match g.node_at j with
    | none => none
    | some nd =>
      match longest_step g j len nd.outNodes with
      | none => none
      | some len1 => path_length_sweep g j len1

/-- `KmerGraph::min_path_length`: the returned value and the graph after the
call.  On a graph without nodes the loop starts from `(uint)(0 - 1)` and reads
`nodes[j-1]` out of bounds. -/
def min_path_length {P : Type} (g : KmerGraph P) : Option (Nat × KmerGraph P) :=
  if 0 < g.shortest_path_length then some (g.shortest_path_length, g)
  else if g.nodes.length = 0 then none
  else
    match path_length_sweep g (g.nodes.length - 1) (fun _ => 0) with
    | none => none
    | some len => some (len 0, { g with shortest_path_length := len 0 })

/-- The graph has an edge from the node at position `u` to a node with id
`v`. -/
def edge_between {P : Type} (g : KmerGraph P) (u v : Nat) : Prop :=
  ∃ (nd : KmerNode P) (a : Nat) (na : KmerNode P),
    g.node_at u = some nd ∧ a ∈ nd.outNodes ∧ g.store[a]? = some na ∧ na.id = v

/-- A path of the graph, as the list of the ids it visits: every two
consecutive ids are joined by an edge. -/
def is_walk {P : Type} (g : KmerGraph P) (w : List Nat) : Prop :=
  List.Chain' (edge_between g) w

/-- A sorted graph: the id of every node is its array position, and every edge
leads to a node of the graph with a larger id. -/
def sorted_graph {P : Type} (g : KmerGraph P) : Prop :=
  ids_are_positions g ∧ ∀ (j : Nat) (nd : KmerNode P), g.node_at j = some nd →
    ∀ a ∈ nd.outNodes, ∃ na : KmerNode P,
      g.store[a]? = some na ∧ j < na.id ∧ na.id < g.nodes.length

/-- A finalized graph with the two source-to-sink paths `0 → 3` (one edge) and
`0 → 1 → 2 → 3` (three edges); the direct edge stands first in the out-list of
the source. -/
def branch4 : KmerGraph Nat :=
  { store := [{ KmerNode.new 0 0 with outNodes := [3, 1] },
              { KmerNode.new 1 1 with outNodes := [2], inNodes := [0] },
              { KmerNode.new 2 2 with outNodes := [3], inNodes := [1] },
              { KmerNode.new 3 3 with inNodes := [0, 2] }],
    nodes := [0, 1, 2, 3], next_id := 4,
    num_reads := 0, shortest_path_length := 0, k := 1, p := 1 }

/-! ## Path lengths -/

/-- A graph holding the single Path `3`; in the examples on Path lengths a
Path is a number and its length is that number, so `k = 3`. -/
def one_kmer : KmerGraph Nat :=
  { store := [KmerNode.new 0 3], nodes := [0], next_id := 1,
    num_reads := 0, shortest_path_length := 0, k := 3, p := 1 }

/-! ## The path selected by the decoder -/

/-- Every node before the last array position has an out-edge, and each of its
edges leads to a node of the graph with a larger id. -/
def forward_edges {P : Type} (g : KmerGraph P) : Prop :=
  ∀ j : Nat, j < g.nodes.length - 1 →
    ∃ nd : KmerNode P, g.node_at j = some nd ∧ nd.outNodes ≠ []
      ∧ ∀ a ∈ nd.outNodes, ∃ na : KmerNode P,
          g.store[a]? = some na ∧ j < na.id ∧ na.id < g.nodes.length

/-- The ids the extraction loop of `find_max_path` visits from `v` on: `v`,
`prev[v]`, … for as long as the id is below `size - 1`; `fuel` bounds their
number. -/
def follow (prev : Nat → Nat) (size : Nat) : Nat → Nat → List Nat
  | 0, _ => []
  | fuel + 1, v => if v < size - 1 then v :: follow prev size fuel (prev v) else []

/-- Values of the library functions for a run with error rate `0` (so
`p = 1/exp(0) = 1`): `exp(0) = 1`, `log(1/2) ≈ -0.693`, and `log(0)`, which is
`-∞` in C, stands as a value below every `float`, on which the comparisons of
the decoder come out as on `-∞`. -/
def log_zero_ops : FloatOps :=
  { exp := fun _ => 1
    log := fun x => if x = 0 then 2 * float_lowest else if x = 1 / 2 then -693 / 1000 else 0
    lognchoosek2 := fun _ _ _ => 0 }

/-- A finalized chain `source → a → b → sink` read once, no node of which was
seen in the read. -/
def bare_chain : KmerGraph Nat :=
  { store := [{ KmerNode.new 0 0 with outNodes := [1] },
              { KmerNode.new 1 1 with outNodes := [2], inNodes := [0] },
              { KmerNode.new 2 2 with outNodes := [3], inNodes := [1] },
              { KmerNode.new 3 3 with inNodes := [2] }],
    nodes := [0, 1, 2, 3], next_id := 4,
    num_reads := 1, shortest_path_length := 0, k := 1, p := 1 }

/-- A finalized graph `source → a → sink` with a direct edge `source → sink`
that stands first in the out-list of the source; ten reads, none of which
showed `a`; `p = 3/5`. -/
def sink_first : KmerGraph Nat :=
  { store := [{ KmerNode.new 0 0 with outNodes := [2, 1] },
              { KmerNode.new 1 1 with outNodes := [2], inNodes := [0] },
              { KmerNode.new 2 2 with inNodes := [0, 1] }],
    nodes := [0, 1, 2], next_id := 3,
    num_reads := 10, shortest_path_length := 0, k := 1, p := 3 / 5 }

/-- The graph `sink_first` with the two out-edges of the source in the other
order. -/
def sink_last : KmerGraph Nat :=
  { store := [{ KmerNode.new 0 0 with outNodes := [1, 2] },
              { KmerNode.new 1 1 with outNodes := [2], inNodes := [0] },
              { KmerNode.new 2 2 with inNodes := [1, 0] }],
    nodes := [0, 1, 2], next_id := 3,
    num_reads := 10, shortest_path_length := 0, k := 1, p := 3 / 5 }

/-! ## Tagged insertion, clearing, and the reachable states -/

/-- `KmerGraph::add_node_with_kh`: `add_node`, then the hash and the tag are
written through the returned pointer; the assertion requires the hash to be
below the largest `uint64_t`. -/
def add_node_with_kh {P : Type} [DecidableEq P] (plen : P → Nat) (g : KmerGraph P) (p : P)
    (kh num : Nat) : Option (KmerGraph P × Nat) :=
  match add_node plen g p with
  | none => none
  | some (g1, n) =>
    match g1.store[n]? with
    | none => none
    | some nd =>
      if kh < 2 ^ 64 - 1 then
        some ({ g1 with store := g1.store.set n { nd with khash := kh, num_AT := num } }, n)
      else none

/-- `KmerGraph::clear`: every node is deleted, the vector is emptied and the
scalar fields are reset to the values the constructor gives them. -/
def clear {P : Type} (g : KmerGraph P) : KmerGraph P :=
  { g with store := [], nodes := [], next_id := 0, num_reads := 0,
           shortest_path_length := 0, k := 0, p := 1 }

/-- An order in which `std::sort` may leave the pointer vector `nodes`: a
rearrangement `sorted` of the same pointers in which no node is followed by one
that the comparator puts strictly before it.  `std::sort` is not stable, so
among nodes with equal Paths every relative order is possible. -/
def std_sort_outcome {P : Type} [LinearOrder P] (store : List (KmerNode P))
    (nodes sorted : List Nat) : Prop :=
  sorted.Perm nodes ∧ ∃ ps, deref_all store sorted = some ps ∧ ps.Sorted sort_le

/-- `KmerGraph::sort_topologically` when `std::sort` leaves the vector in the
order `sorted`: the ids are then reassigned along the vector. -/
def sort_topologically_to {P : Type} (g : KmerGraph P) (sorted : List Nat) :
    Option (KmerGraph P) :=
  match assign_ids g.store sorted 0 with
  | none => none
  | some st => some { g with store := st, nodes := sorted }

/-- Graphs obtained from the constructor by calls of `add_node`,
`add_node_with_kh`, the two overloads of `add_edge`, `sort_topologically`,
`clear` and `load` that returned normally.  A call of `sort_topologically` may
leave the vector in any order that `std::sort` can produce. -/
inductive Reachable {P : Type} [LinearOrder P] (plen : P → Nat) : KmerGraph P → Prop
  | init : Reachable plen (KmerGraph.init P)
  | add_node (g g1 : KmerGraph P) (p : P) (n : Nat) :
      Reachable plen g → add_node plen g p = some (g1, n) → Reachable plen g1
  | add_node_with_kh (g g1 : KmerGraph P) (p : P) (kh num n : Nat) :
      Reachable plen g → add_node_with_kh plen g p kh num = some (g1, n) → Reachable plen g1
  | add_edge (g g1 : KmerGraph P) (from_path to_path : P) :
      Reachable plen g → add_edge g from_path to_path = some g1 → Reachable plen g1
  | add_edge_nodes (g g1 : KmerGraph P) (from_node to_node : Nat) :
      Reachable plen g → add_edge_nodes g from_node to_node = some g1 → Reachable plen g1
  | sort_topologically (g g1 : KmerGraph P) (sorted : List Nat) :
      Reachable plen g → std_sort_outcome g.store g.nodes sorted →
      sort_topologically_to g sorted = some g1 → Reachable plen g1
  | clear (g : KmerGraph P) : Reachable plen g → Reachable plen (clear g)
  | load (g g1 : KmerGraph P) (lines : List (Line P)) :
      Reachable plen g → load plen g lines = some g1 → Reachable plen g1

/-- The indexing invariant of the graph state: the id counter is the node
count, the vector holds pairwise distinct pointers to live nodes, and the id
of every node is its array position. -/
structure Indexed {P : Type} (g : KmerGraph P) : Prop where
  next_eq : g.next_id = g.nodes.length
  nodup : g.nodes.Nodup
  valid : ∀ a ∈ g.nodes, a < g.store.length
  ids : ids_are_positions g

/-- Two nodes with the same Path `4`, as `load` creates them from two segment
lines with equal Paths, in the order of allocation. -/
def twin_nodes : KmerGraph Nat :=
  { store := [KmerNode.new 0 4, KmerNode.new 1 4],
    nodes := [0, 1], next_id := 2,
    num_reads := 0, shortest_path_length := 0, k := 4, p := 1 }

/-- The graph `twin_nodes` after a sort that exchanged the two nodes. -/
def twin_nodes_swapped : KmerGraph Nat :=
  { store := [{ KmerNode.new 0 4 with id := 1 }, { KmerNode.new 1 4 with id := 0 }],
    nodes := [1, 0], next_id := 2,
    num_reads := 0, shortest_path_length := 0, k := 4, p := 1 }

/-! ## Graphs compared by `operator==` -/

/-- The premises under which `operator==` is compared in both directions: the
vector holds pairwise distinct pointers to live nodes, the Paths of these nodes
are pairwise distinct, and every out-list is duplicate-free and refers to nodes
of the vector. -/
structure Tidy {P : Type} (g : KmerGraph P) : Prop where
  valid : ∀ a ∈ g.nodes, ∃ n : KmerNode P, g.store[a]? = some n
  nodup : g.nodes.Nodup
  paths : ∀ a ∈ g.nodes, ∀ b ∈ g.nodes, ∀ na nb : KmerNode P,
    g.store[a]? = some na → g.store[b]? = some nb → na.path = nb.path → a = b
  out_nodup : ∀ a ∈ g.nodes, ∀ n : KmerNode P, g.store[a]? = some n → n.outNodes.Nodup
  out_mem : ∀ a ∈ g.nodes, ∀ n : KmerNode P, g.store[a]? = some n →
    ∀ o ∈ n.outNodes, o ∈ g.nodes

/-- What `operator==` tests on a node `nc` of `x` and the node `nd` of `y` it
is matched with: equal Paths, equal out-degrees, equal in-degrees, and for
every out-neighbour of `nc` an out-neighbour of `nd` with an equal Path. -/
def node_match {P : Type} (x y : KmerGraph P) (nc nd : KmerNode P) : Prop :=
  nd.path = nc.path ∧ nc.outNodes.length = nd.outNodes.length
    ∧ nc.inNodes.length = nd.inNodes.length
    ∧ ∀ o ∈ nc.outNodes, ∀ no : KmerNode P, x.store[o]? = some no →
        ∃ e ∈ nd.outNodes, ∃ ne : KmerNode P, y.store[e]? = some ne ∧ ne.path = no.path

/-- What `x == y` tests: equal node counts, and a matching node of `y` for
every node of `x`. -/
def Matches {P : Type} (x y : KmerGraph P) : Prop :=
  x.nodes.length = y.nodes.length
    ∧ ∀ c ∈ x.nodes, ∀ nc : KmerNode P, x.store[c]? = some nc →
        ∃ d ∈ y.nodes, ∃ nd : KmerNode P, y.store[d]? = some nd ∧ node_match x y nc nd

/-- The graph has a node with Path `p`. -/
def has_path {P : Type} (g : KmerGraph P) (p : P) : Prop :=
  ∃ a ∈ g.nodes, ∃ n : KmerNode P, g.store[a]? = some n ∧ n.path = p

/-- The graph has an edge from a node with Path `p` to a node with Path `q`. -/
def has_edge {P : Type} (g : KmerGraph P) (p q : P) : Prop :=
  ∃ a ∈ g.nodes, ∃ na : KmerNode P, g.store[a]? = some na ∧ na.path = p
    ∧ ∃ o ∈ na.outNodes, ∃ no : KmerNode P, g.store[o]? = some no ∧ no.path = q

/-- The graph `two_nodes_linked` with its two nodes allocated in the other
order. -/
def two_nodes_swapped : KmerGraph Nat :=
  { store := [{ KmerNode.new 0 5 with inNodes := [1] }, { KmerNode.new 1 3 with outNodes := [0] }],
    nodes := [0, 1], next_id := 2,
    num_reads := 0, shortest_path_length := 0, k := 1, p := 1 }

/-! ## The decoder in `float` arithmetic

This section translates `prob`, `discover_p` and `find_max_path` once more, with
the arithmetic of the source kept as it is.  The values are the elements of a
type `α` (the finite floats, the two infinities and NaN), every arithmetic
expression of the source is an operation of `FloatArith α`, and nothing is
assumed about these operations: rounding, overflow and NaN are whatever the
operations make them.  A statement names as a hypothesis each fact of IEEE
arithmetic that it uses; the section on IEEE 754 arithmetic below defines the
operations for binary32 and binary64 (`ieee`), and the theorems
`ieee_first_edge`, `ieee_tie_break` and `ieee_sink_guard` prove these facts of
them.  The field `p` of the class is a `float`; its value is
carried next to the graph. -/

/-- The arithmetic of `prob`, `discover_p` and `find_max_path`, one operation
for each kind of expression of the source:
* `zero`: the literal `0` stored to a `float`;
* `lowest`: `numeric_limits<float>::lowest()`;
* `log_sentinel`: `log(0.005)` stored to a `float`;
* `add x y`: `x + y`;
* `quot x n`: `x / n` for an integer `n` (`0.0/0` is NaN);
* `below_floor x`: the test `-25 > x + 0.000001`;
* `exceeds m x`: the test `m > x + 0.000001`;
* `within x m`: the test `x - m <= 0.000001`;
* `times n x`: `n * x` for an unsigned integer `n`;
* `exp x`: `exp(x)`;
* `inv x`: `1/x`;
* `log_half p`: `log(p/2)`;
* `log_rest p`: `log(1-p)`;
* `mean l`: `std::accumulate(l.begin(), l.end(), 0.0) / l.size()` stored to a
  `float`;
* `lognchoosek2 n k1 k2`: the function of that name, declared in utils.h. -/
structure FloatArith (α : Type) where
  zero : α
  lowest : α
  log_sentinel : α
  add : α → α → α
  quot : α → Nat → α
  below_floor : α → Bool
  exceeds : α → α → Bool
  within : α → α → Bool
  times : Nat → α → α
  exp : α → α
  inv : α → α
  log_half : α → α
  log_rest : α → α
  mean : List Nat → α
  lognchoosek2 : Nat → Nat → Nat → α

/-- `KmerGraph::prob` in `float` arithmetic, for the value `p` of the field
`p`. -/
def prob_fl {P α : Type} (A : FloatArith α) (g : KmerGraph P) (p : α) (j : Nat) : Option α :=
  if j = 0 ∨ j = g.nodes.length - 1 then some A.zero
  else
    match g.node_at j with
    | none => none
    | some n =>
      if g.num_reads < total_covg n then
        some (A.add (A.lognchoosek2 (total_covg n) n.covg0 n.covg1)
                (A.times (total_covg n) (A.log_half p)))
      else
        some (A.add
                (A.add (A.lognchoosek2 g.num_reads n.covg0 n.covg1)
                  (A.times (total_covg n) (A.log_half p)))
                (A.times (g.num_reads - total_covg n) (A.log_rest p)))

/-- `KmerGraph::discover_p` in `float` arithmetic: the value of `p` after the
call. -/
def discover_p_fl {P α : Type} (A : FloatArith α) (g : KmerGraph P) (e_rate : α) : Option α :=
  let p0 := A.inv (A.exp (A.times g.k e_rate))
  if 40 < g.num_reads then
    if g.nodes.length = 0 then none
    else
      match kmer_covgs g (g.nodes.length - 1) with
      | none => none
      | some covgs =>
        if covgs.length = 0 then some p0
        else some (A.quot (A.mean covgs) g.num_reads)
  else some p0

/-- The local state of `find_max_path` in `float` arithmetic: the vectors `M`,
`len`, `prev` and the variables `max_mean`, `max_len`.  `len` never holds a
negative value. -/
structure Tables (α : Type) where
  M : Nat → α
  len : Nat → Nat
  prev : Nat → Nat
  max_mean : α
  max_len : Nat

/-- One iteration of the inner loop of `find_max_path` at node `j`, for the
out-neighbour with id `sid`; `pj` is `prob(j)`.  The three disjuncts are the
three disjuncts of the condition on lines 219 to 221. -/
def visit_edge_fl {α : Type} (A : FloatArith α) (size : Nat) (pj : α) (j : Nat)
    (s : Tables α) (sid : Nat) : Tables α :=
  if (sid = size - 1 ∧ A.below_floor s.max_mean = true)
      ∨ A.exceeds (A.quot (s.M sid) (s.len sid)) s.max_mean = true
      ∨ (A.within s.max_mean (A.quot (s.M sid) (s.len sid)) = true
          ∧ s.max_len < s.len sid) then
    let M1 := Function.update s.M j (A.add pj (s.M sid))
    let len1 := Function.update s.len j (1 + s.len sid)
    let prev1 := Function.update s.prev j sid
    if sid ≠ size - 1 then
      { M := M1, len := len1, prev := prev1,
        max_mean := A.quot (M1 sid) (len1 sid), max_len := len1 sid }
    else
      { M := M1, len := len1, prev := prev1,
        max_mean := A.log_sentinel, max_len := s.max_len }
  else s

/-- The inner loop of `find_max_path` over the out-neighbours of node `j`. -/
def scan_edges_fl {P α : Type} (A : FloatArith α) (g : KmerGraph P) (pj : α) (j : Nat) :
    Tables α → List Nat → Option (Tables α)
  | s, [] => some s
  | s, a :: rest =>
    match g.store[a]? with
    | none => none
    | some n =>
      if n.id < g.nodes.length then
        scan_edges_fl A g pj j (visit_edge_fl A g.nodes.length pj j s n.id) rest
      else none

/-- The outer loop of `find_max_path`: `sweep_fl A g p n s` runs the iterations
`j = n, n-1, …, 1`, which treat the nodes `n-1, …, 0`. -/
def sweep_fl {P α : Type} (A : FloatArith α) (g : KmerGraph P) (p : α) :
    Nat → Tables α → Option (Tables α)
  | 0, s => some s
  | j + 1, s =>
    match g.node_at j, prob_fl A g p j with
    | some n, some pj =>
      match scan_edges_fl A g pj j { s with max_mean := A.lowest, max_len := 0 } n.outNodes with
      | none => none
      | some s1 => sweep_fl A g p j s1
    | _, _ => none

/-- The vectors as `find_max_path` creates them. -/
def Tables.init {α : Type} (A : FloatArith α) (size : Nat) : Tables α :=
  { M := fun _ => A.zero, len := fun _ => 0, prev := fun _ => size - 1,
    max_mean := A.lowest, max_len := 0 }

/-- The tables of `find_max_path` after the sweep.  On a graph without nodes
the loop starts from `(uint)(0 - 1)` and reads `nodes[j-1]` out of bounds. -/
def max_path_tables_fl {P α : Type} (A : FloatArith α) (g : KmerGraph P) (p : α) :
    Option (Tables α) :=
  if g.nodes.length = 0 then none
  else sweep_fl A g p (g.nodes.length - 1) (Tables.init A g.nodes.length)

/-- `KmerGraph::find_max_path` in `float` arithmetic: the returned score
`M[0]/len[0]`, the vector `maxpath` after the call and the value of `p` after
the call. -/
def find_max_path_fl {P α : Type} (A : FloatArith α) (g : KmerGraph P) (e_rate : α)
    (maxpath : List Nat) : Option (α × List Nat × α) :=
  match discover_p_fl A g e_rate with
  | none => none
  | some p =>
    match max_path_tables_fl A g p with
    | none => none
    | some s =>
      match extract_path g s.prev g.nodes.length (s.prev 0) maxpath with
      | none => none
      | some mp => some (A.quot (s.M 0) (s.len 0), mp, p)

/-- The sum `prob(v₁) + (prob(v₂) + … + (prob(vₙ) + 0))` of the values of `prob`
along the ids `w`, added from the last id backwards, as the sweep adds them
into `M`. -/
def path_sum {P α : Type} (A : FloatArith α) (g : KmerGraph P) (p : α) :
    List Nat → Option α
  | [] => some A.zero
  | v :: rest =>
    match prob_fl A g p v, path_sum A g p rest with
    | some x, some y => some (A.add x y)
    | _, _ => none

/-- The value of the `double` literal `0.000001`: the double nearest to
`10⁻⁶`, which is `4722366482869645 · 2⁻⁷²`. -/
def literal_tolerance : ℚ := 4722366482869645 / 2 ^ 72

/-! ## The facts of IEEE arithmetic that are used, and the arithmetic of the examples -/

/-- The facts of IEEE arithmetic behind the first edge that a node takes;
`finite x` says that `x` is a finite float.
* `lowest_floor`: the test `-25 > lowest() + 0.000001` succeeds.
* `fresh`: for a finite `x` and a positive `n` the quotient `x / n` is finite,
  so `lowest() - x / n` is not positive (it is `-∞` when the subtraction
  overflows) and the test `lowest() - x / n <= 0.000001` succeeds. -/
structure FirstEdge {α : Type} (A : FloatArith α) (finite : α → Prop) : Prop where
  lowest_floor : A.below_floor A.lowest = true
  fresh : ∀ (x : α) (n : Nat), finite x → 0 < n → A.within A.lowest (A.quot x n) = true

/-- The facts of IEEE arithmetic behind the tie-break; `finite x` says that `x`
is a finite float and `val x` is its value.
* `fresh`: for a finite `m` the difference `lowest() - m` is not positive, so
  the test `lowest() - m <= 0.000001` succeeds.
* `close_within`: no difference of two floats lies between the `double`
  literal `0.000001` and `10⁻⁶`, rounding to nearest is monotone and the float
  nearest to the literal is below it, so for finite `x` and `y` with `x - y` at
  most `10⁻⁶` the rounded difference passes the test `x - y <= 0.000001`.
* `close_not_exceeds`: the sum `y + 0.000001` is formed in `double`, where `x`
  is exact, so for finite `x` and `y` with `x` at most `y + 10⁻⁶` the test
  `x > y + 0.000001` fails. -/
structure TieBreak {α : Type} (A : FloatArith α) (finite : α → Prop) (val : α → ℚ) : Prop where
  fresh : ∀ m : α, finite m → A.within A.lowest m = true
  close_within : ∀ x y : α, finite x → finite y → val x - val y ≤ tolerance →
    A.within x y = true
  close_not_exceeds : ∀ x y : α, finite x → finite y → val x ≤ val y + tolerance →
    A.exceeds x y = false

/-- The facts of IEEE arithmetic behind the guard on the edge to the sink;
`finite x` says that `x` is a finite float and `val x` is its value.  The test
`-25 > x + 0.000001` fails exactly when `x` is NaN or at least `-25`: the float
next below `-25` is `-25.0000019`.
* `lowest_floor`: the test `-25 > lowest() + 0.000001` succeeds.
* `floor_of_ge`: for a finite `m` that is at least `-25` the test
  `-25 > m + 0.000001` fails.
* `floor_of_not_exceeds`: the tests `m > x + 0.000001` and `-25 > x + 0.000001`
  compare with the same sum; when `m` is at least `-25` and the first fails,
  the sum is NaN or at least `m`, and the second fails.
* `floor_of_exceeds`: when `m > x + 0.000001` succeeds and `-25 > x + 0.000001`
  fails, `m` is above `-25` and `-25 > m + 0.000001` fails.
* `floor_of_within`: when `x - m <= 0.000001` succeeds and `-25 > x + 0.000001`
  fails, `x` is at least `-25` and `m` is `+∞` or at least `x - 0.00000100000005`,
  so `m` is at least `-25` as well and `-25 > m + 0.000001` fails.
* `nan_exceeds`, `nan_within`: every comparison with the NaN `0.0/0` fails. -/
structure SinkGuard {α : Type} (A : FloatArith α) (finite : α → Prop) (val : α → ℚ) : Prop where
  lowest_floor : A.below_floor A.lowest = true
  floor_of_ge : ∀ m : α, finite m → -25 ≤ val m → A.below_floor m = false
  floor_of_not_exceeds : ∀ m x : α, finite m → -25 ≤ val m → A.exceeds m x = false →
    A.below_floor x = false
  floor_of_exceeds : ∀ m x : α, A.exceeds m x = true → A.below_floor x = false →
    A.below_floor m = false
  floor_of_within : ∀ x m : α, A.within x m = true → A.below_floor x = false →
    A.below_floor m = false
  nan_exceeds : ∀ x : α, A.exceeds (A.quot A.zero 0) x = false
  nan_within : ∀ x : α, A.within x (A.quot A.zero 0) = false

/-- The largest `float`, in thousandths. -/
def decimal_max : Int := 340282346638528859811704183484516925440000

/-- A decimal arithmetic with three places, for the examples.  A value is a
number of thousandths; `none` stands for a value that is not finite (NaN, or a
sum beyond the range of `float`).  The tolerance `0.000001` is below the
resolution of this arithmetic, as it is below the resolution of `float` from
the magnitude 16 on: `x - m <= 0.000001` holds exactly when `x ≤ m`, and
`m > x + 0.000001` exactly when `m > x`.  The library functions have the values
of `sample_ops` at the arguments that occur in the examples: `exp(0.511) ≈
1.667`, `1/1.667 ≈ 0.6`, `log(0.3) ≈ -1.204`, `log(0.4) ≈ -0.916`,
`log(0.005) ≈ -5.298`, `exp(0) = 1`, `log(0.5) ≈ -0.693`, `lognchoosek2 = 0`;
`log(1 - 1)` is not finite. -/
def decimal : FloatArith (Option Int) :=
  { zero := some 0
    lowest := some (-decimal_max)
    log_sentinel := some (-5298)
    add := fun x y =>
      match x, y with
      | some a, some b =>
        if -decimal_max ≤ a + b ∧ a + b ≤ decimal_max then some (a + b) else none
      | _, _ => none
    quot := fun x n =>
      match x with
      | some a => if n = 0 then none else some (a / (n : Int))
      | none => none
    below_floor := fun x =>
      match x with
      | some a => decide (a < -25000)
      | none => false
    exceeds := fun m x =>
      match m, x with
      | some a, some b => decide (b < a)
      | _, _ => false
    within := fun x m =>
      match x, m with
      | some a, some b => decide (a ≤ b)
      | _, _ => false
    times := fun n x =>
      match x with
      | some a => some ((n : Int) * a)
      | none => none
    exp := fun x => if x = some 511 then some 1667 else if x = some 0 then some 1000 else none
    inv := fun x => if x = some 1667 then some 600 else if x = some 1000 then some 1000 else none
    log_half := fun p =>
      if p = some 600 then some (-1204) else if p = some 1000 then some (-693) else none
    log_rest := fun p => if p = some 600 then some (-916) else none
    mean := fun l => if l.length = 0 then none else some (1000 * (l.sum : Int) / (l.length : Int))
    lognchoosek2 := fun _ _ _ => some 0 }

/-- The finite values of `decimal`: those within the range of `float`. -/
def decimal_finite (x : Option Int) : Prop :=
  ∃ a : Int, x = some a ∧ -decimal_max ≤ a ∧ a ≤ decimal_max

/-- The value of a finite element of `decimal`. -/
def decimal_val (x : Option Int) : ℚ :=
  match x with
  | some a => (a : ℚ) / 1000
  | none => 0

/-! ## IEEE 754 arithmetic: `float` and `double`

The arithmetic of the source on a machine where `float` is binary32, `double`
is binary64, every operation is rounded to the nearest number of its type with
ties to the even significand, and an expression of type `float` is evaluated in
`float`.  A finite number is the rational that it stands for; the type has one
zero, the sign of which no expression of the source observes (the only division
by a `float`, `1/exp(…)`, has a divisor that is not negative). -/

/-- The integer nearest to `t`; a tie goes to the even one. -/
def round_even (t : ℚ) : Int :=
  if t - (⌊t⌋ : ℚ) < 1 / 2 then ⌊t⌋
  else if 1 / 2 < t - (⌊t⌋ : ℚ) then ⌊t⌋ + 1
  else if ⌊t⌋ % 2 = 0 then ⌊t⌋ else ⌊t⌋ + 1

/-- A binary floating-point format: the number of bits of the significand and
the exponents of the least and of the largest normal numbers. -/
structure BinFmt where
  prec : Nat
  emin : Int
  emax : Int

/-- The format of `float`. -/
def binary32 : BinFmt := { prec := 24, emin := -126, emax := 127 }

/-- The format of `double`. -/
def binary64 : BinFmt := { prec := 53, emin := -1022, emax := 1023 }

/-- The largest finite number of the format, `(2^prec - 1) · 2^(emax - prec + 1)`. -/
def BinFmt.largest (F : BinFmt) : ℚ :=
  ((2 : ℚ) ^ F.prec - 1) * (2 : ℚ) ^ (F.emax - ((F.prec : Int) - 1))

/-- The exponent of the spacing of the numbers of the format around `q`: the
exponent of the binade of `q`, or `emin` below the normal range, less the
`prec - 1` fraction bits. -/
def BinFmt.expo (F : BinFmt) (q : ℚ) : Int :=
  max (Int.log 2 |q|) F.emin - ((F.prec : Int) - 1)

/-- The number of the format, with an unbounded exponent above, that is nearest
to `q`; a tie goes to the even significand. -/
def BinFmt.nearest (F : BinFmt) (q : ℚ) : ℚ :=
  (round_even (q / (2 : ℚ) ^ F.expo q) : ℚ) * (2 : ℚ) ^ F.expo q

/-- A value of a floating-point type: NaN, `+∞`, `-∞` or a finite number. -/
inductive Fp where
  | nan : Fp
  | pinf : Fp
  | ninf : Fp
  | fin (q : ℚ) : Fp

/-- The rounding of the exact result `q` of an operation: the nearest number
of the format, or an infinity when that number is beyond the largest one. -/
def BinFmt.round (F : BinFmt) (q : ℚ) : Fp :=
  if F.largest < |F.nearest q| then (if 0 < q then Fp.pinf else Fp.ninf)
  else Fp.fin (F.nearest q)

/-- The sum `x + y` in the format `F`. -/
def Fp.add (F : BinFmt) : Fp → Fp → Fp
  | Fp.nan, _ => Fp.nan
  | _, Fp.nan => Fp.nan
  | Fp.pinf, Fp.ninf => Fp.nan
  | Fp.ninf, Fp.pinf => Fp.nan
  | Fp.pinf, _ => Fp.pinf
  | _, Fp.pinf => Fp.pinf
  | Fp.ninf, _ => Fp.ninf
  | _, Fp.ninf => Fp.ninf
  | Fp.fin a, Fp.fin b => F.round (a + b)

/-- The negation `-x`. -/
def Fp.neg : Fp → Fp
  | Fp.nan => Fp.nan
  | Fp.pinf => Fp.ninf
  | Fp.ninf => Fp.pinf
  | Fp.fin a => Fp.fin (-a)

/-- The difference `x - y` in the format `F`. -/
def Fp.sub (F : BinFmt) (x y : Fp) : Fp := Fp.add F x (Fp.neg y)

/-- The product `x * y` in the format `F`. -/
def Fp.mul (F : BinFmt) : Fp → Fp → Fp
  | Fp.nan, _ => Fp.nan
  | _, Fp.nan => Fp.nan
  | Fp.pinf, Fp.pinf => Fp.pinf
  | Fp.pinf, Fp.ninf => Fp.ninf
  | Fp.ninf, Fp.pinf => Fp.ninf
  | Fp.ninf, Fp.ninf => Fp.pinf
  | Fp.pinf, Fp.fin b => if b = 0 then Fp.nan else if 0 < b then Fp.pinf else Fp.ninf
  | Fp.ninf, Fp.fin b => if b = 0 then Fp.nan else if 0 < b then Fp.ninf else Fp.pinf
  | Fp.fin a, Fp.pinf => if a = 0 then Fp.nan else if 0 < a then Fp.pinf else Fp.ninf
  | Fp.fin a, Fp.ninf => if a = 0 then Fp.nan else if 0 < a then Fp.ninf else Fp.pinf
  | Fp.fin a, Fp.fin b => F.round (a * b)

/-- The quotient `x / y` in the format `F`; a zero divisor counts as positive. -/
def Fp.div (F : BinFmt) : Fp → Fp → Fp
  | Fp.nan, _ => Fp.nan
  | _, Fp.nan => Fp.nan
  | Fp.pinf, Fp.pinf => Fp.nan
  | Fp.pinf, Fp.ninf => Fp.nan
  | Fp.ninf, Fp.pinf => Fp.nan
  | Fp.ninf, Fp.ninf => Fp.nan
  | Fp.pinf, Fp.fin b => if b < 0 then Fp.ninf else Fp.pinf
  | Fp.ninf, Fp.fin b => if b < 0 then Fp.pinf else Fp.ninf
  | Fp.fin _, Fp.pinf => Fp.fin 0
  | Fp.fin _, Fp.ninf => Fp.fin 0
  | Fp.fin a, Fp.fin b =>
    if b = 0 then (if a = 0 then Fp.nan else if 0 < a then Fp.pinf else Fp.ninf)
    else F.round (a / b)

/-- The comparison `x < y`; it fails when an operand is NaN. -/
def Fp.lt : Fp → Fp → Bool
  | Fp.nan, _ => false
  | _, Fp.nan => false
  | Fp.pinf, _ => false
  | _, Fp.ninf => false
  | Fp.ninf, _ => true
  | _, Fp.pinf => true
  | Fp.fin a, Fp.fin b => decide (a < b)

/-- The comparison `x <= y`; it fails when an operand is NaN. -/
def Fp.le : Fp → Fp → Bool
  | Fp.nan, _ => false
  | _, Fp.nan => false
  | Fp.ninf, _ => true
  | _, Fp.pinf => true
  | Fp.pinf, _ => false
  | _, Fp.ninf => false
  | Fp.fin a, Fp.fin b => decide (a ≤ b)

/-- The conversion of a value to the format `F`. -/
def Fp.cast (F : BinFmt) : Fp → Fp
  | Fp.fin q => F.round q
  | x => x

/-- Whether a value is a value of the format `F`: a finite number is one when
rounding leaves it alone and it is within the range. -/
def Fp.rep (F : BinFmt) : Fp → Bool
  | Fp.fin q => decide (F.nearest q = q ∧ |q| ≤ F.largest)
  | _ => true

/-- A value of type `float`. -/
structure F32 where
  x : Fp
  ok : x.rep binary32 = true

/-- The `float` with the value `x`, for an `x` that is a value of binary32.
Every use below is at a constant or at the result of an operation of binary32,
which is a value of binary32 (theorems `ieee_zero`, `ieee_lowest`,
`ieee_operations`), so that the other branch is never taken. -/
def to_f32 (x : Fp) : F32 :=
  if h : x.rep binary32 = true then { x := x, ok := h } else { x := Fp.nan, ok := rfl }

/-- Whether a `float` is finite. -/
def F32.finite (x : F32) : Prop := ∃ q : ℚ, x.x = Fp.fin q

/-- The number that a finite `float` stands for. -/
def F32.val (x : F32) : ℚ :=
  match x.x with
  | Fp.fin q => q
  | _ => 0

/-- The functions of the C library and of utils.h that the decoder calls, each
with a `float` result: `exp` and `log` on a `float`, `log(0.005)` stored to a
`float`, and `lognchoosek2`. -/
structure LibM where
  exp : F32 → F32
  log : F32 → F32
  log_sentinel : F32
  lognchoosek2 : Nat → Nat → Nat → F32

/-- The arithmetic of the source in IEEE 754.  An unsigned operand of a `float`
operation is converted to `float`; the sums `x + 0.000001` are formed in
`double`, to which the `float` operand converts exactly; `x - m` is formed in
`float` and then compared with the `double` literal; `std::accumulate` from
`0.0` adds in `double`. -/
def ieee (L : LibM) : FloatArith F32 :=
  { zero := to_f32 (Fp.fin 0)
    lowest := to_f32 (Fp.fin (-binary32.largest))
    log_sentinel := L.log_sentinel
    add := fun x y => to_f32 (Fp.add binary32 x.x y.x)
    quot := fun x n => to_f32 (Fp.div binary32 x.x (binary32.round (n : ℚ)))
    below_floor := fun x =>
      Fp.lt (Fp.add binary64 x.x (Fp.fin literal_tolerance)) (Fp.fin (-25))
    exceeds := fun m x => Fp.lt (Fp.add binary64 x.x (Fp.fin literal_tolerance)) m.x
    within := fun x m => Fp.le (Fp.sub binary32 x.x m.x) (Fp.fin literal_tolerance)
    times := fun n x => to_f32 (Fp.mul binary32 (binary32.round (n : ℚ)) x.x)
    exp := L.exp
    inv := fun x => to_f32 (Fp.div binary32 (Fp.fin 1) x.x)
    log_half := fun p => L.log (to_f32 (Fp.div binary32 p.x (Fp.fin 2)))
    log_rest := fun p => L.log (to_f32 (Fp.sub binary32 (Fp.fin 1) p.x))
    mean := fun l =>
      to_f32 (Fp.cast binary32
        (Fp.div binary64 (l.foldl (fun acc c => Fp.add binary64 acc (Fp.fin (c : ℚ))) (Fp.fin 0))
          (binary64.round (l.length : ℚ))))
    lognchoosek2 := L.lognchoosek2 }

/-! ## Lemmas on `find_if` -/

theorem find_if_append_store {P : Type} (store : List (KmerNode P)) (extra : List (KmerNode P))
    (pred : KmerNode P → Bool) (l : List Nat) (r : Option Nat)
    (h : find_if store pred l = some r) :
    find_if (store ++ extra) pred l = some r := by
  induction l with
  | nil => simpa [find_if] using h
  | cons a rest ih =>
    unfold find_if at h ⊢
    cases hs : store[a]? with
    | none => simp [hs] at h
    | some n =>
      have hlt : a < store.length := by
        rcases List.getElem?_eq_some_iff.mp hs with ⟨hlt, _⟩
        exact hlt
      have hs2 : (store ++ extra)[a]? = some n := by
        rw [List.getElem?_append_left hlt]; exact hs
      simp only [hs, hs2] at h ⊢
      by_cases hp : pred n = true
      · simpa [hp] using h
      · simp only [hp] at h ⊢
        exact ih h

theorem find_if_append_miss {P : Type} (store : List (KmerNode P))
    (pred : KmerNode P → Bool) (l : List Nat) (a : Nat) (n : KmerNode P)
    (hmiss : find_if store pred l = some none) (ha : store[a]? = some n)
    (hp : pred n = true) :
    find_if store pred (l ++ [a]) = some (some a) := by
  induction l with
  | nil => simp [find_if, ha, hp]
  | cons b rest ih =>
    simp only [List.cons_append]
    unfold find_if at hmiss ⊢
    cases hs : store[b]? with
    | none => simp [hs] at hmiss
    | some m =>
      simp only [hs] at hmiss ⊢
      by_cases hq : pred m = true
      · simp [hq] at hmiss
      · simp only [hq] at hmiss ⊢
        exact ih hmiss

/-! ## C1 -/

/-- C1. After a successful `add_node` of a Path `p'`, a second `add_node` of an
equal Path `p` returns the same node pointer as the first call (hence the same
id) and leaves the whole graph as the first call left it: node vector, every
stored node, `next_id` and `k`. -/
theorem add_node_idempotent {P : Type} [DecidableEq P] (plen : P → Nat)
    (g g1 : KmerGraph P) (p p' : P) (n1 : Nat)
    (hfirst : add_node plen g p' = some (g1, n1)) (heq : p' = p) :
    add_node plen g1 p = some (g1, n1) := by
  subst heq
  unfold add_node at hfirst
  simp only at hfirst
  cases hf : find_if g.store (pointer_values_equal (KmerNode.new g.next_id p')) g.nodes with
  | none => simp [hf] at hfirst
  | some r =>
    cases r with
    | some a =>
      simp only [hf, Option.some.injEq, Prod.mk.injEq] at hfirst
      obtain ⟨hg, ha⟩ := hfirst
      subst hg; subst ha
      unfold add_node
      simp only [hf]
    | none =>
      simp only [hf] at hfirst
      split at hfirst
      · simp only [Option.some.injEq, Prod.mk.injEq] at hfirst
        obtain ⟨hg, ha⟩ := hfirst
        subst ha
        have hmiss : find_if (g.store ++ [KmerNode.new g.next_id p'])
            (pointer_values_equal (KmerNode.new (g.next_id + 1) p')) g.nodes = some none := by
          apply find_if_append_store
          simpa [pointer_values_equal, KmerNode.new] using hf
        have hhit := find_if_append_miss (g.store ++ [KmerNode.new g.next_id p'])
            (pointer_values_equal (KmerNode.new (g.next_id + 1) p')) g.nodes g.store.length
            (KmerNode.new g.next_id p') hmiss (by simp)
            (by simp [pointer_values_equal, KmerNode.new])
        subst hg
        unfold add_node
        simp only [hhit]
      · simp at hfirst

/-- Witness for C1: inserting Path `7` twice into the empty graph. -/
theorem add_node_idempotent_witness :
    add_node (fun _ : Nat => 1) (KmerGraph.init Nat) 7
        = some ({ store := [KmerNode.new 0 7], nodes := [0], next_id := 1, num_reads := 0,
                  shortest_path_length := 0, k := 1, p := 1 }, 0)
      ∧ add_node (fun _ : Nat => 1)
          { store := [KmerNode.new 0 7], nodes := [0], next_id := 1, num_reads := 0,
            shortest_path_length := 0, k := 1, p := 1 } 7
        = some ({ store := [KmerNode.new 0 7], nodes := [0], next_id := 1, num_reads := 0,
                  shortest_path_length := 0, k := 1, p := 1 }, 0) :=
  ⟨by decide, add_node_idempotent (fun _ : Nat => 1) (KmerGraph.init Nat) _ 7 7 0 (by decide) rfl⟩

theorem find_if_found {P : Type} (store : List (KmerNode P)) (pred : KmerNode P → Bool)
    (l : List Nat) (a : Nat) (h : find_if store pred l = some (some a)) :
    a ∈ l ∧ ∃ n, store[a]? = some n ∧ pred n = true := by
  induction l with
  | nil => simp [find_if] at h
  | cons b rest ih =>
    unfold find_if at h
    cases hs : store[b]? with
    | none => simp [hs] at h
    | some m =>
      simp only [hs] at h
      by_cases hq : pred m = true
      · simp only [hq, if_true, Option.some.injEq] at h
        subst h
        exact ⟨List.mem_cons_self _ _, m, hs, hq⟩
      · simp only [hq] at h
        obtain ⟨hmem, hn⟩ := ih h
        exact ⟨List.mem_cons_of_mem _ hmem, hn⟩

theorem push_edge_isSome {P : Type} (g : KmerGraph P) (f t : Nat)
    (hf : f < g.store.length) (ht : t < g.store.length) :
    (push_edge g f t).isSome = true := by
  unfold push_edge
  rw [List.getElem?_eq_getElem hf]
  simp only
  split
  · rfl
  · have ht2 : t < (g.store.set f
        { g.store[f] with outNodes := g.store[f].outNodes ++ [t] }).length := by
      simpa using ht
    rw [List.getElem?_eq_getElem ht2]
    rfl

/-! ## C2 -/

/-- C2. When `from < to` does not hold, both overloads of `add_edge` stop at the
ordering assertion: the call aborts and no graph results, so nothing is added
to any adjacency list.  When `from < to` and both Paths are found in the node
vector, the Path overload does not fail. -/
theorem add_edge_ordering {P : Type} [LinearOrder P] (g : KmerGraph P) :
    (∀ from_path to_path : P, ¬ from_path < to_path → add_edge g from_path to_path = none)
    ∧ (∀ (from_node to_node : Nat) (nf nt : KmerNode P),
        g.deref from_node = some nf → g.deref to_node = some nt → ¬ nf.path < nt.path →
        add_edge_nodes g from_node to_node = none)
    ∧ (∀ (from_path to_path : P) (a b : Nat), from_path < to_path →
        find_if g.store (condition from_path) g.nodes = some (some a) →
        find_if g.store (condition to_path) g.nodes = some (some b) →
        (add_edge g from_path to_path).isSome = true) := by
  refine ⟨?_, ?_, ?_⟩
  · intro from_path to_path h
    simp [add_edge, h]
  · intro from_node to_node nf nt hf ht h
    unfold KmerGraph.deref at hf ht
    simp [add_edge_nodes, hf, ht, h]
  · intro from_path to_path a b hlt ha hb
    have hne : from_path ≠ to_path := ne_of_lt hlt
    obtain ⟨_, na, hna, _⟩ := find_if_found _ _ _ _ ha
    obtain ⟨_, nb, hnb, _⟩ := find_if_found _ _ _ _ hb
    have hla : a < g.store.length := (List.getElem?_eq_some_iff.mp hna).1
    have hlb : b < g.store.length := (List.getElem?_eq_some_iff.mp hnb).1
    simp only [add_edge, hlt, not_true_eq_false, if_false, hne, ha, hb]
    exact push_edge_isSome g a b hla hlb

/-! ## C3 -/

/-- C3, as amended. `add_edge(p, p)` does not return normally: `p < p` is false,
so the ordering assertion in the first statement of the function aborts the
call before the `from == to` early return is reached. -/
theorem add_edge_self_fails {P : Type} [LinearOrder P] (g : KmerGraph P) (p : P) :
    add_edge g p p = none := by
  simp [add_edge]

/-- C3, counterexample. On the graph holding the single Path `7`, `add_edge(7, 7)`
aborts instead of returning the graph unchanged. -/
theorem add_edge_self_not_ignored :
    ¬ (add_edge ({ store := [KmerNode.new 0 7], nodes := [0], next_id := 1, num_reads := 0,
                   shortest_path_length := 0, k := 1, p := 1 } : KmerGraph Nat) 7 7
        = some { store := [KmerNode.new 0 7], nodes := [0], next_id := 1, num_reads := 0,
                 shortest_path_length := 0, k := 1, p := 1 }) := by
  simp [add_edge]

/-- Witness for C2 on the graph `two_nodes`. -/
theorem add_edge_ordering_witness :
    add_edge two_nodes 5 3 = none ∧ add_edge_nodes two_nodes 1 0 = none
      ∧ (add_edge two_nodes 3 5).isSome = true :=
  ⟨(add_edge_ordering two_nodes).1 5 3 (by decide),
   (add_edge_ordering two_nodes).2.1 1 0 (KmerNode.new 1 5) (KmerNode.new 0 3) rfl rfl (by decide),
   (add_edge_ordering two_nodes).2.2 3 5 0 1 (by decide) (by decide) (by decide)⟩

/-! ## Effect of `push_edge` -/

theorem find_if_none_all {P : Type} (store : List (KmerNode P)) (pred : KmerNode P → Bool)
    (l : List Nat) (h : find_if store pred l = some none) :
    ∀ a ∈ l, ∃ n, store[a]? = some n ∧ pred n = false := by
  induction l with
  | nil => intro a ha; cases ha
  | cons b rest ih =>
    unfold find_if at h
    cases hs : store[b]? with
    | none => simp [hs] at h
    | some m =>
      simp only [hs] at h
      by_cases hq : pred m = true
      · simp [hq] at h
      · simp only [hq] at h
        intro a ha
        rcases List.mem_cons.mp ha with rfl | ha
        · exact ⟨m, hs, by simpa using hq⟩
        · exact ih h a ha

theorem push_edge_present {P : Type} (g : KmerGraph P) (f t : Nat) (nf : KmerNode P)
    (hf : g.store[f]? = some nf) (hin : t ∈ nf.outNodes) : push_edge g f t = some g := by
  simp [push_edge, hf, hin]

theorem store_after_push {P : Type} (store : List (KmerNode P)) (f t : Nat)
    (nf1 nt1 : KmerNode P) (hf : f < store.length) (ht : t < store.length) (hne : f ≠ t)
    (x : Nat) :
    ((store.set f nf1).set t nt1)[x]? =
      if x = t then some nt1 else if x = f then some nf1 else store[x]? := by
  by_cases hxt : x = t
  · subst hxt
    simp [List.getElem?_set, ht]
  · by_cases hxf : x = f
    · subst hxf
      simp [List.getElem?_set, hxt, hf, Ne.symm hxt]
    · simp [List.getElem?_set, hxt, hxf, Ne.symm hxt, Ne.symm hxf]

theorem push_edge_absent {P : Type} (g : KmerGraph P) (f t : Nat) (nf nt : KmerNode P)
    (hf : g.store[f]? = some nf) (ht : g.store[t]? = some nt) (hne : f ≠ t)
    (hnot : t ∉ nf.outNodes) :
    push_edge g f t = some { g with
      store := (g.store.set f { nf with outNodes := nf.outNodes ++ [t] }).set t
        { nt with inNodes := nt.inNodes ++ [f] } } := by
  have hfl : f < g.store.length := (List.getElem?_eq_some_iff.mp hf).1
  have htl : t < g.store.length := (List.getElem?_eq_some_iff.mp ht).1
  have h1 : (g.store.set f { nf with outNodes := nf.outNodes ++ [t] })[t]? = some nt := by
    simp [List.getElem?_set, hne, ht]
  simp [push_edge, hf, hnot, h1]

theorem out_of_eq {P : Type} (g : KmerGraph P) (a : Nat) (n : KmerNode P)
    (h : g.store[a]? = some n) : out_of g a = n.outNodes := by
  simp [out_of, h]

theorem in_of_eq {P : Type} (g : KmerGraph P) (a : Nat) (n : KmerNode P)
    (h : g.store[a]? = some n) : in_of g a = n.inNodes := by
  simp [in_of, h]

theorem push_edge_wf {P : Type} [LinearOrder P] (g g1 : KmerGraph P) (f t : Nat)
    (nf nt : KmerNode P) (hw : Wf g)
    (hf : g.store[f]? = some nf) (ht : g.store[t]? = some nt) (hlt : nf.path < nt.path)
    (hpush : push_edge g f t = some g1) :
    Wf g1 ∧ t ∈ out_of g1 f ∧ g1.store.map KmerNode.path = g.store.map KmerNode.path
      ∧ g1.nodes = g.nodes := by
  by_cases hin : t ∈ nf.outNodes
  · rw [push_edge_present g f t nf hf hin] at hpush
    cases hpush
    exact ⟨hw, by rw [out_of_eq g f nf hf]; exact hin, rfl, rfl⟩
  · have hne : f ≠ t := by
      rintro rfl
      rw [hf] at ht
      cases ht
      exact lt_irrefl _ hlt
    rw [push_edge_absent g f t nf nt hf ht hne hin] at hpush
    have hfl : f < g.store.length := (List.getElem?_eq_some_iff.mp hf).1
    have htl : t < g.store.length := (List.getElem?_eq_some_iff.mp ht).1
    have hlook := store_after_push g.store f t { nf with outNodes := nf.outNodes ++ [t] }
      { nt with inNodes := nt.inNodes ++ [f] } hfl htl hne
    obtain ⟨S, hS⟩ : ∃ S, S = (g.store.set f { nf with outNodes := nf.outNodes ++ [t] }).set t
        { nt with inNodes := nt.inNodes ++ [f] } := ⟨_, rfl⟩
    rw [← hS] at hpush hlook
    have hlen : S.length = g.store.length := by rw [hS]; simp
    clear hS
    cases hpush
    have hout : ∀ x, out_of { g with store := S } x
        = if x = f then out_of g f ++ [t] else out_of g x := by
      intro x
      simp only [out_of, hlook x]
      by_cases hxt : x = t
      · subst hxt
        simp [ht, Ne.symm hne]
      · by_cases hxf : x = f
        · subst hxf
          simp [hxt, hf]
        · simp [hxt, hxf]
    have hinn : ∀ x, in_of { g with store := S } x
        = if x = t then in_of g t ++ [f] else in_of g x := by
      intro x
      simp only [in_of, hlook x]
      by_cases hxt : x = t
      · subst hxt
        simp [ht]
      · by_cases hxf : x = f
        · subst hxf
          simp [hxt, hf]
        · simp [hxt, hxf]
    have hpaths : S.map KmerNode.path = g.store.map KmerNode.path := by
      apply List.ext_getElem?
      intro x
      rw [List.getElem?_map, List.getElem?_map, hlook x]
      by_cases hxt : x = t
      · subst hxt
        simp [ht]
      · by_cases hxf : x = f
        · subst hxf
          simp [hxt, hf]
        · simp [hxt, hxf]
    have hof : out_of g f = nf.outNodes := out_of_eq g f nf hf
    have hnotin : f ∉ in_of g t := by
      intro hmem
      have := (hw.recip f t).mpr hmem
      rw [hof] at this
      exact hin this
    refine ⟨?_, ?_, hpaths, rfl⟩
    · constructor
      · show g.nodes = List.range S.length
        rw [hlen]; exact hw.nodes_eq
      · show g.next_id = S.length
        rw [hlen]; exact hw.next_eq
      · intro a n hn
        change S[a]? = some n at hn
        simp only [hlook a] at hn
        by_cases hat : a = t
        · subst hat
          simp only [if_true, Option.some.injEq] at hn
          subst hn
          exact hw.id_eq a nt ht
        · by_cases haf : a = f
          · subst haf
            simp only [hat, if_false, if_true, Option.some.injEq] at hn
            subst hn
            exact hw.id_eq a nf hf
          · simp only [hat, haf, if_false] at hn
            exact hw.id_eq a n hn
      · show (S.map KmerNode.path).Nodup
        rw [hpaths]; exact hw.paths_nodup
      · intro a
        rw [hout a]
        by_cases haf : a = f
        · subst haf
          simp only [if_true]
          rw [hof]
          have hnd := hw.out_nodup a
          rw [hof] at hnd
          exact List.Nodup.append hnd (List.nodup_singleton t) (by simpa using hin)
        · simp only [haf, if_false]
          exact hw.out_nodup a
      · intro a
        rw [hinn a]
        by_cases hat : a = t
        · subst hat
          simp only [if_true]
          exact List.Nodup.append (hw.in_nodup a) (List.nodup_singleton f) (by simpa using hnotin)
        · simp only [hat, if_false]
          exact hw.in_nodup a
      · intro a b
        rw [hout a, hinn b]
        by_cases haf : a = f <;> by_cases hbt : b = t
        · subst haf; subst hbt; simp
        · subst haf
          simp only [if_true, hbt, if_false, List.mem_append, List.mem_singleton]
          rw [← hw.recip a b]
          simp [hbt]
        · subst hbt
          simp only [haf, if_false, if_true, List.mem_append, List.mem_singleton]
          rw [hw.recip a b]
          simp [haf]
        · simp only [haf, hbt, if_false]
          exact hw.recip a b
      · intro a b hab
        rw [hout a] at hab
        have key : ∃ na nb, g.store[a]? = some na ∧ g.store[b]? = some nb
            ∧ na.path < nb.path := by
          by_cases haf : a = f
          · subst haf
            simp only [if_true, List.mem_append, List.mem_singleton] at hab
            rcases hab with hab | rfl
            · exact hw.forward a b hab
            · exact ⟨nf, nt, hf, ht, hlt⟩
          · simp only [haf, if_false] at hab
            exact hw.forward a b hab
        obtain ⟨na, nb, hna, hnb, hlt2⟩ := key
        have hpa : ∀ (x : Nat) (n : KmerNode P), g.store[x]? = some n →
            ∃ m : KmerNode P, S[x]? = some m ∧ m.path = n.path := by
          intro x n hx
          by_cases hxt : x = t
          · refine ⟨{ nt with inNodes := nt.inNodes ++ [f] }, ?_, ?_⟩
            · rw [hlook x]; simp [hxt]
            · have hnn : n = nt := by
                rw [hxt, ht] at hx
                exact (Option.some.inj hx).symm
              rw [hnn]
          · by_cases hxf : x = f
            · refine ⟨{ nf with outNodes := nf.outNodes ++ [t] }, ?_, ?_⟩
              · rw [hlook x]; simp [hxf, hne]
              · have hnn : n = nf := by
                  rw [hxf, hf] at hx
                  exact (Option.some.inj hx).symm
                rw [hnn]
            · exact ⟨n, by rw [hlook x]; simp [hxt, hxf, hx], rfl⟩
        obtain ⟨ma, hma, hpa1⟩ := hpa a na hna
        obtain ⟨mb, hmb, hpb1⟩ := hpa b nb hnb
        exact ⟨ma, mb, hma, hmb, by rw [hpa1, hpb1]; exact hlt2⟩
      · intro a n hn
        change S[a]? = some n at hn
        simp only [hlook a] at hn
        by_cases hat : a = t
        · subst hat
          simp only [if_true, Option.some.injEq] at hn
          subst hn
          exact hw.counters_zero a nt ht
        · by_cases haf : a = f
          · subst haf
            simp only [hat, if_false, if_true, Option.some.injEq] at hn
            subst hn
            exact hw.counters_zero a nf hf
          · simp only [hat, haf, if_false] at hn
            exact hw.counters_zero a n hn
    · rw [hout f]
      simp

/-! ## The invariant holds on every built graph -/

theorem wf_init {P : Type} [LinearOrder P] : Wf (KmerGraph.init P) := by
  constructor <;> simp [KmerGraph.init, out_of, in_of]

theorem add_node_wf {P : Type} [LinearOrder P] (plen : P → Nat) (g g1 : KmerGraph P) (p : P)
    (n : Nat) (hw : Wf g) (h : add_node plen g p = some (g1, n)) : Wf g1 := by
  unfold add_node at h
  simp only at h
  cases hf : find_if g.store (pointer_values_equal (KmerNode.new g.next_id p)) g.nodes with
  | none => simp [hf] at h
  | some r =>
    cases r with
    | some a =>
      simp only [hf, Option.some.injEq, Prod.mk.injEq] at h
      rw [← h.1]; exact hw
    | none =>
      simp only [hf] at h
      split at h
      · simp only [Option.some.injEq, Prod.mk.injEq] at h
        obtain ⟨hg, _⟩ := h
        subst hg
        have hall := find_if_none_all _ _ _ hf
        have hlook : ∀ x : Nat, (g.store ++ [KmerNode.new g.next_id p])[x]? =
            if x < g.store.length then g.store[x]?
            else if x = g.store.length then some (KmerNode.new g.next_id p) else none := by
          intro x
          by_cases hx : x < g.store.length
          · simp [hx, List.getElem?_append_left hx]
          · by_cases hx2 : x = g.store.length
            · subst hx2; simp
            · have : g.store.length + 1 ≤ x := by omega
              simp [hx, hx2, List.getElem?_eq_none_iff, this]
        have hout : ∀ x, out_of { g with
            store := g.store ++ [KmerNode.new g.next_id p]
            nodes := g.nodes ++ [g.store.length]
            k := if g.k = 0 ∧ 0 < plen p then plen p else g.k
            next_id := g.next_id + 1 } x = out_of g x := by
          intro x
          simp only [out_of, hlook x]
          by_cases hx : x < g.store.length
          · simp [hx]
          · have hnone : g.store[x]? = none := by
              simp [List.getElem?_eq_none_iff]; omega
            by_cases hx2 : x = g.store.length
            · simp [hx2, KmerNode.new]
            · simp [hx, hx2, hnone]
        have hinn : ∀ x, in_of { g with
            store := g.store ++ [KmerNode.new g.next_id p]
            nodes := g.nodes ++ [g.store.length]
            k := if g.k = 0 ∧ 0 < plen p then plen p else g.k
            next_id := g.next_id + 1 } x = in_of g x := by
          intro x
          simp only [in_of, hlook x]
          by_cases hx : x < g.store.length
          · simp [hx]
          · have hnone : g.store[x]? = none := by
              simp [List.getElem?_eq_none_iff]; omega
            by_cases hx2 : x = g.store.length
            · simp [hx2, KmerNode.new]
            · simp [hx, hx2, hnone]
        constructor
        · show g.nodes ++ [g.store.length] = List.range (g.store ++ [_]).length
          rw [hw.nodes_eq]
          simp [List.range_succ]
        · show g.next_id + 1 = (g.store ++ [_]).length
          rw [hw.next_eq]; simp
        · intro a m hm
          change (g.store ++ [KmerNode.new g.next_id p])[a]? = some m at hm
          rw [hlook a] at hm
          by_cases hx : a < g.store.length
          · simp only [hx, if_true] at hm
            exact hw.id_eq a m hm
          · by_cases hx2 : a = g.store.length
            · simp only [hx, hx2, if_false, if_true] at hm
              have hm2 : KmerNode.new g.next_id p = m := by simpa using hm
              rw [← hm2, hx2]
              simp [KmerNode.new, hw.next_eq]
            · simp [hx, hx2] at hm
        · show ((g.store ++ [KmerNode.new g.next_id p]).map KmerNode.path).Nodup
          rw [List.map_append]
          apply List.Nodup.append hw.paths_nodup (by simp)
          simp only [List.map_cons, List.map_nil]
          rw [List.disjoint_singleton]
          intro hmem
          obtain ⟨m, hm, hpm⟩ := List.mem_map.mp hmem
          obtain ⟨i, hi, hget⟩ := List.getElem_of_mem hm
          have hin : i ∈ g.nodes := by rw [hw.nodes_eq]; exact List.mem_range.mpr hi
          obtain ⟨m2, hm2, hpred⟩ := hall i hin
          rw [List.getElem?_eq_getElem hi, hget] at hm2
          cases hm2
          simp [pointer_values_equal, KmerNode.new] at hpred
          exact hpred hpm.symm
        · intro a; rw [hout a]; exact hw.out_nodup a
        · intro a; rw [hinn a]; exact hw.in_nodup a
        · intro a b; rw [hout a, hinn b]; exact hw.recip a b
        · intro a b hab
          rw [hout a] at hab
          obtain ⟨na, nb, hna, hnb, hlt⟩ := hw.forward a b hab
          have hal : a < g.store.length := (List.getElem?_eq_some_iff.mp hna).1
          have hbl : b < g.store.length := (List.getElem?_eq_some_iff.mp hnb).1
          refine ⟨na, nb, ?_, ?_, hlt⟩
          · change (g.store ++ [KmerNode.new g.next_id p])[a]? = some na
            rw [hlook a]; simp [hal, hna]
          · change (g.store ++ [KmerNode.new g.next_id p])[b]? = some nb
            rw [hlook b]; simp [hbl, hnb]
        · intro a m hm
          change (g.store ++ [KmerNode.new g.next_id p])[a]? = some m at hm
          rw [hlook a] at hm
          by_cases hx : a < g.store.length
          · simp only [hx, if_true] at hm
            exact hw.counters_zero a m hm
          · by_cases hx2 : a = g.store.length
            · simp only [hx, hx2, if_false, if_true] at hm
              have hm2 : KmerNode.new g.next_id p = m := by simpa using hm
              rw [← hm2]
              simp [KmerNode.new]
            · simp [hx, hx2] at hm
      · simp at h

theorem add_edge_unfold {P : Type} [LinearOrder P] (g g1 : KmerGraph P) (from_path to_path : P)
    (h : add_edge g from_path to_path = some g1) :
    ∃ a b na nb, g.store[a]? = some na ∧ g.store[b]? = some nb ∧ na.path = from_path
      ∧ nb.path = to_path ∧ from_path < to_path ∧ push_edge g a b = some g1 := by
  unfold add_edge at h
  by_cases hlt : from_path < to_path
  · have hne : from_path ≠ to_path := ne_of_lt hlt
    simp only [hlt, not_true_eq_false, if_false, hne] at h
    cases ha : find_if g.store (condition from_path) g.nodes with
    | none => simp [ha] at h
    | some ra =>
      cases ra with
      | none => simp [ha] at h
      | some a =>
        cases hb : find_if g.store (condition to_path) g.nodes with
        | none => simp [ha, hb] at h
        | some rb =>
          cases rb with
          | none => simp [ha, hb] at h
          | some b =>
            simp only [ha, hb] at h
            obtain ⟨_, na, hna, hpa⟩ := find_if_found _ _ _ _ ha
            obtain ⟨_, nb, hnb, hpb⟩ := find_if_found _ _ _ _ hb
            refine ⟨a, b, na, nb, hna, hnb, ?_, ?_, hlt, h⟩
            · simpa [condition] using hpa
            · simpa [condition] using hpb
  · simp [hlt] at h

theorem add_edge_nodes_unfold {P : Type} [LinearOrder P] (g g1 : KmerGraph P)
    (a b : Nat) (h : add_edge_nodes g a b = some g1) :
    ∃ na nb, g.store[a]? = some na ∧ g.store[b]? = some nb ∧ na.path < nb.path
      ∧ push_edge g a b = some g1 := by
  unfold add_edge_nodes at h
  cases ha : g.store[a]? with
  | none => simp [ha] at h
  | some na =>
    cases hb : g.store[b]? with
    | none => simp [ha, hb] at h
    | some nb =>
      simp only [ha, hb] at h
      by_cases hlt : na.path < nb.path
      · simp only [hlt, not_true_eq_false, if_false] at h
        exact ⟨na, nb, rfl, rfl, hlt, h⟩
      · simp [hlt] at h

theorem built_wf {P : Type} [LinearOrder P] (plen : P → Nat) (g : KmerGraph P)
    (hb : Built plen g) : Wf g := by
  induction hb with
  | init => exact wf_init
  | add_node g g1 p n _ h ih => exact add_node_wf plen g g1 p n ih h
  | add_edge g g1 f t _ h ih =>
    obtain ⟨a, b, na, nb, hna, hnb, hpa, hpb, hlt, hpush⟩ := add_edge_unfold g g1 f t h
    exact (push_edge_wf g g1 a b na nb ih hna hnb (by rw [hpa, hpb]; exact hlt) hpush).1
  | add_edge_nodes g g1 a b _ h ih =>
    obtain ⟨na, nb, hna, hnb, hlt, hpush⟩ := add_edge_nodes_unfold g g1 a b h
    exact (push_edge_wf g g1 a b na nb ih hna hnb hlt hpush).1

/-! ## C4 -/

theorem find_if_congr_paths {P : Type} [DecidableEq P] (s1 s2 : List (KmerNode P)) (q : P)
    (h : s1.map KmerNode.path = s2.map KmerNode.path) (l : List Nat) :
    find_if s1 (condition q) l = find_if s2 (condition q) l := by
  induction l with
  | nil => simp [find_if]
  | cons a rest ih =>
    have hm : (s1[a]?).map KmerNode.path = (s2[a]?).map KmerNode.path := by
      rw [← List.getElem?_map, ← List.getElem?_map, h]
    unfold find_if
    cases h1 : s1[a]? with
    | none =>
      cases h2 : s2[a]? with
      | none => rfl
      | some n2 => simp [h1, h2] at hm
    | some n1 =>
      cases h2 : s2[a]? with
      | none => simp [h1, h2] at hm
      | some n2 =>
        have hp : n1.path = n2.path := by simpa [h1, h2] using hm
        simp only [condition, hp, ih]

theorem add_edge_step {P : Type} [LinearOrder P] (g : KmerGraph P) (from_path to_path : P)
    (a b : Nat) (hw : Wf g) (hlt : from_path < to_path)
    (ha : find_if g.store (condition from_path) g.nodes = some (some a))
    (hb : find_if g.store (condition to_path) g.nodes = some (some b)) :
    ∃ g1, add_edge g from_path to_path = some g1 ∧ add_edge_nodes g a b = some g1
      ∧ Wf g1 ∧ b ∈ out_of g1 a
      ∧ find_if g1.store (condition from_path) g1.nodes = some (some a)
      ∧ find_if g1.store (condition to_path) g1.nodes = some (some b)
      ∧ (b ∈ out_of g a → g1 = g) := by
  have hne : from_path ≠ to_path := ne_of_lt hlt
  obtain ⟨_, na, hna, hpa⟩ := find_if_found _ _ _ _ ha
  obtain ⟨_, nb, hnb, hpb⟩ := find_if_found _ _ _ _ hb
  have hpa2 : na.path = from_path := by simpa [condition] using hpa
  have hpb2 : nb.path = to_path := by simpa [condition] using hpb
  have hlt2 : na.path < nb.path := by rw [hpa2, hpb2]; exact hlt
  have hla : a < g.store.length := (List.getElem?_eq_some_iff.mp hna).1
  have hlb : b < g.store.length := (List.getElem?_eq_some_iff.mp hnb).1
  have hsome := push_edge_isSome g a b hla hlb
  obtain ⟨g1, hg1⟩ := Option.isSome_iff_exists.mp hsome
  obtain ⟨hw1, hmem, hpaths, hnodes⟩ := push_edge_wf g g1 a b na nb hw hna hnb hlt2 hg1
  refine ⟨g1, ?_, ?_, hw1, hmem, ?_, ?_, ?_⟩
  · simp only [add_edge, hlt, not_true_eq_false, if_false, hne, ha, hb]
    exact hg1
  · simp only [add_edge_nodes, hna, hnb, hlt2, not_true_eq_false, if_false]
    exact hg1
  · rw [hnodes, find_if_congr_paths g1.store g.store from_path hpaths]; exact ha
  · rw [hnodes, find_if_congr_paths g1.store g.store to_path hpaths]; exact hb
  · intro hin
    rw [out_of_eq g a na hna] at hin
    rw [push_edge_present g a b na hna hin] at hg1
    exact (Option.some.inj hg1).symm

theorem add_edge_calls_wf {P : Type} [LinearOrder P] (from_path to_path : P) (a b : Nat)
    (hlt : from_path < to_path) (forms : List Bool) :
    ∀ g : KmerGraph P, Wf g →
      find_if g.store (condition from_path) g.nodes = some (some a) →
      find_if g.store (condition to_path) g.nodes = some (some b) →
      forms ≠ [] →
      ∃ g1, add_edge_calls g from_path to_path a b forms = some g1 ∧ Wf g1
        ∧ b ∈ out_of g1 a
        ∧ find_if g1.store (condition from_path) g1.nodes = some (some a)
        ∧ find_if g1.store (condition to_path) g1.nodes = some (some b) := by
  induction forms with
  | nil => intro g _ _ _ hne; exact absurd rfl hne
  | cons f rest ih =>
    intro g hw ha hb _
    obtain ⟨g1, h1, h2, hw1, hmem, ha1, hb1, _⟩ := add_edge_step g from_path to_path a b hw hlt ha hb
    have hstep : (if f then add_edge g from_path to_path else add_edge_nodes g a b) = some g1 := by
      cases f
      · simpa using h2
      · simpa using h1
    by_cases hr : rest = []
    · subst hr
      refine ⟨g1, ?_, hw1, hmem, ha1, hb1⟩
      simp only [add_edge_calls, hstep]
    · obtain ⟨g2, hc, hw2, hmem2, ha2, hb2⟩ := ih g1 hw1 ha1 hb1 hr
      refine ⟨g2, ?_, hw2, hmem2, ha2, hb2⟩
      simp only [add_edge_calls, hstep]
      exact hc

/-- C4. On a graph built from empty by `add_node` and `add_edge`, with
`from < to` both stored (at the nodes `a` and `b`): any non-empty sequence of
`add_edge` calls on the pair, each through either overload, returns normally,
and afterwards `b` occurs exactly once in `a`'s out-list and `a` exactly once
in `b`'s in-list; one more call through either overload returns the graph
unchanged. -/
theorem add_edge_exactly_once {P : Type} [LinearOrder P] (plen : P → Nat) (g : KmerGraph P)
    (from_path to_path : P) (a b : Nat) (forms : List Bool)
    (hbuilt : Built plen g) (hlt : from_path < to_path)
    (ha : find_if g.store (condition from_path) g.nodes = some (some a))
    (hb : find_if g.store (condition to_path) g.nodes = some (some b))
    (hne : forms ≠ []) :
    ∃ g1, add_edge_calls g from_path to_path a b forms = some g1
      ∧ (out_of g1 a).count b = 1 ∧ (in_of g1 b).count a = 1
      ∧ add_edge g1 from_path to_path = some g1 ∧ add_edge_nodes g1 a b = some g1 := by
  obtain ⟨g1, hc, hw1, hmem, ha1, hb1⟩ :=
    add_edge_calls_wf from_path to_path a b hlt forms g (built_wf plen g hbuilt) ha hb hne
  obtain ⟨g2, h1, h2, _, _, _, _, hsame⟩ := add_edge_step g1 from_path to_path a b hw1 hlt ha1 hb1
  have hg : g2 = g1 := hsame hmem
  rw [hg] at h1 h2
  refine ⟨g1, hc, ?_, ?_, h1, h2⟩
  · exact List.count_eq_one_of_mem (hw1.out_nodup a) hmem
  · exact List.count_eq_one_of_mem (hw1.in_nodup b) ((hw1.recip a b).mp hmem)

/-- Witness for C4: three calls (Path, node, Path overload) on the graph `two_nodes`. -/
theorem add_edge_exactly_once_witness :
    ∃ g1, add_edge_calls two_nodes 3 5 0 1 [true, false, true] = some g1
      ∧ (out_of g1 0).count 1 = 1 ∧ (in_of g1 1).count 0 = 1
      ∧ add_edge g1 3 5 = some g1 ∧ add_edge_nodes g1 0 1 = some g1 :=
  add_edge_exactly_once (fun _ : Nat => 1) two_nodes 3 5 0 1 [true, false, true]
    (Built.add_node ⟨[KmerNode.new 0 3], [0], 1, 0, 0, 1, 1⟩ _ 5 1
      (Built.add_node (KmerGraph.init Nat) _ 3 0 Built.init (by decide)) (by decide))
    (by decide) (by decide) (by decide) (by decide)

/-! ## C5: `sort_topologically` -/

theorem sort_le_iff {P : Type} [LinearOrder P] (x y : Nat × KmerNode P) :
    sort_le x y ↔ x.2.path ≤ y.2.path := by
  simp [sort_le, pCompKmerNode]

theorem pairwise_getElem? {α : Type} {R : α → α → Prop} {l : List α} (h : l.Pairwise R)
    {i j : Nat} {x y : α} (hij : i < j) (hi : l[i]? = some x) (hj : l[j]? = some y) : R x y := by
  obtain ⟨hil, hix⟩ := List.getElem?_eq_some_iff.mp hi
  obtain ⟨hjl, hjy⟩ := List.getElem?_eq_some_iff.mp hj
  have := List.pairwise_iff_getElem.mp h i j hil hjl hij
  rw [hix, hjy] at this
  exact this

theorem deref_all_spec {P : Type} (store : List (KmerNode P)) (l : List Nat)
    (hv : ∀ a ∈ l, a < store.length) :
    ∃ ps, deref_all store l = some ps ∧ ps.map Prod.fst = l
      ∧ ∀ x ∈ ps, store[x.1]? = some x.2 := by
  induction l with
  | nil => exact ⟨[], rfl, rfl, by simp⟩
  | cons a rest ih =>
    obtain ⟨ps, hps, hfst, hcons⟩ := ih (fun b hb => hv b (List.mem_cons_of_mem _ hb))
    have ha : a < store.length := hv a (List.mem_cons_self _ _)
    refine ⟨(a, store[a]) :: ps, ?_, ?_, ?_⟩
    · simp [deref_all, hps, List.getElem?_eq_getElem ha]
    · simp [hfst]
    · intro x hx
      rcases List.mem_cons.mp hx with rfl | hx
      · simp [List.getElem?_eq_getElem ha]
      · exact hcons x hx

theorem assign_ids_spec {P : Type} (l : List Nat) :
    ∀ (store : List (KmerNode P)) (i : Nat), (∀ a ∈ l, a < store.length) → l.Nodup →
      ∃ st, assign_ids store l i = some st ∧ st.length = store.length
        ∧ (∀ a, a ∉ l → st[a]? = store[a]?)
        ∧ (∀ (j a : Nat) (n : KmerNode P), l[j]? = some a → store[a]? = some n →
            st[a]? = some { n with id := i + j }) := by
  induction l with
  | nil =>
    intro store i _ _
    exact ⟨store, rfl, rfl, fun _ _ => rfl, by simp⟩
  | cons a rest ih =>
    intro store i hv hnd
    have ha : a < store.length := hv a (List.mem_cons_self _ _)
    have hnd2 := List.nodup_cons.mp hnd
    have hv1 : ∀ b ∈ rest, b < (store.set a { store[a] with id := i }).length := by
      intro b hb
      simpa using hv b (List.mem_cons_of_mem _ hb)
    obtain ⟨st, hst, hlen, hout, hin⟩ := ih (store.set a { store[a] with id := i }) (i + 1)
      hv1 hnd2.2
    refine ⟨st, ?_, ?_, ?_, ?_⟩
    · simp [assign_ids, List.getElem?_eq_getElem ha, hst]
    · simpa using hlen
    · intro b hb
      have hba : b ≠ a := fun h => hb (h ▸ List.mem_cons_self _ _)
      have hbr : b ∉ rest := fun h => hb (List.mem_cons_of_mem _ h)
      rw [hout b hbr]
      simp [List.getElem?_set, Ne.symm hba]
    · intro j b n hj hb
      cases j with
      | zero =>
        simp only [List.getElem?_cons_zero, Option.some.injEq] at hj
        subst hj
        rw [hout a hnd2.1]
        have hn : store[a] = n := by
          rw [List.getElem?_eq_getElem ha] at hb
          exact Option.some.inj hb
        simp [List.getElem?_set, ha, hn]
      | succ j =>
        simp only [List.getElem?_cons_succ] at hj
        have hbr : b ∈ rest := List.getElem?_mem hj
        have hba : b ≠ a := fun h => hnd2.1 (h ▸ hbr)
        have hb1 : (store.set a { store[a] with id := i })[b]? = some n := by
          simp [List.getElem?_set, Ne.symm hba, hb]
        have := hin j b n hj hb1
        rw [this]
        have : i + 1 + j = i + (j + 1) := by omega
        rw [this]

theorem path_inj_of_wf {P : Type} [LinearOrder P] (g : KmerGraph P) (hw : Wf g)
    (a b : Nat) (na nb : KmerNode P) (ha : g.store[a]? = some na) (hb : g.store[b]? = some nb)
    (hp : na.path = nb.path) : a = b := by
  have hal : a < g.store.length := (List.getElem?_eq_some_iff.mp ha).1
  have hbl : b < g.store.length := (List.getElem?_eq_some_iff.mp hb).1
  have ha2 : (g.store.map KmerNode.path)[a]? = some na.path := by
    rw [List.getElem?_map, ha]; rfl
  have hb2 : (g.store.map KmerNode.path)[b]? = some nb.path := by
    rw [List.getElem?_map, hb]; rfl
  have hal2 : a < (g.store.map KmerNode.path).length := by simpa using hal
  have hbl2 : b < (g.store.map KmerNode.path).length := by simpa using hbl
  rw [List.getElem?_eq_getElem hal2] at ha2
  rw [List.getElem?_eq_getElem hbl2] at hb2
  have heq : (g.store.map KmerNode.path)[a] = (g.store.map KmerNode.path)[b] := by
    rw [Option.some.inj ha2, Option.some.inj hb2, hp]
  exact (List.Nodup.getElem_inj_iff hw.paths_nodup).mp heq

theorem sort_topologically_core {P : Type} [LinearOrder P] (g : KmerGraph P) (hw : Wf g) :
    ∃ (sp : List (Nat × KmerNode P)) (st : List (KmerNode P)),
      sort_topologically g = some { g with store := st, nodes := sp.map Prod.fst }
      ∧ (sp.map Prod.fst).Perm g.nodes
      ∧ st.length = g.store.length
      ∧ (∀ x ∈ sp, g.store[x.1]? = some x.2)
      ∧ (∀ (c : Nat) (nc : KmerNode P), g.store[c]? = some nc →
          ∃ j : Nat, sp[j]? = some (c, nc))
      ∧ (∀ (j : Nat) (x : Nat × KmerNode P), sp[j]? = some x →
          st[x.1]? = some { x.2 with id := j })
      ∧ sp.Pairwise (fun x y => x.2.path < y.2.path) := by
  have hvalid : ∀ a ∈ g.nodes, a < g.store.length := by
    intro a ha
    rw [hw.nodes_eq] at ha
    exact List.mem_range.mp ha
  obtain ⟨ps, hps, hfst, hcons⟩ := deref_all_spec g.store g.nodes hvalid
  have hperm : (List.insertionSort sort_le ps).Perm ps := List.perm_insertionSort sort_le ps
  have hsorted : (List.insertionSort sort_le ps).Sorted sort_le :=
    List.sorted_insertionSort sort_le ps
  obtain ⟨sp, hsp⟩ : ∃ sp, sp = List.insertionSort sort_le ps := ⟨_, rfl⟩
  rw [← hsp] at hperm hsorted
  have hpermN : (sp.map Prod.fst).Perm g.nodes := by
    rw [← hfst]; exact hperm.map Prod.fst
  have hndN : (sp.map Prod.fst).Nodup := by
    rw [hpermN.nodup_iff, hw.nodes_eq]; exact List.nodup_range _
  have hvalid2 : ∀ a ∈ sp.map Prod.fst, a < g.store.length := by
    intro a ha
    exact hvalid a (hpermN.mem_iff.mp ha)
  have hcons2 : ∀ x ∈ sp, g.store[x.1]? = some x.2 := by
    intro x hx
    exact hcons x (hperm.mem_iff.mp hx)
  obtain ⟨st, hst, hlen, _, hin⟩ := assign_ids_spec (sp.map Prod.fst) g.store 0 hvalid2 hndN
  have hpos : ∀ (c : Nat) (nc : KmerNode P), g.store[c]? = some nc →
      ∃ j : Nat, sp[j]? = some (c, nc) := by
    intro c nc hc
    have hcl : c < g.store.length := (List.getElem?_eq_some_iff.mp hc).1
    have hmem : c ∈ sp.map Prod.fst := by
      rw [hpermN.mem_iff, hw.nodes_eq]; exact List.mem_range.mpr hcl
    obtain ⟨x, hx, hx1⟩ := List.mem_map.mp hmem
    obtain ⟨j, hj⟩ := List.mem_iff_getElem?.mp hx
    refine ⟨j, ?_⟩
    rw [hj]
    have h2 := hcons2 x hx
    rw [hx1, hc] at h2
    have h3 : nc = x.2 := Option.some.inj h2
    rw [h3, ← hx1]
  have hids : ∀ (j : Nat) (x : Nat × KmerNode P), sp[j]? = some x →
      st[x.1]? = some { x.2 with id := j } := by
    intro j x hj
    have h1 : (sp.map Prod.fst)[j]? = some x.1 := by
      rw [List.getElem?_map, hj]; rfl
    have h2 := hin j x.1 x.2 h1 (hcons2 x (List.getElem?_mem hj))
    simpa using h2
  have hndsp : sp.Nodup := List.Nodup.of_map Prod.fst hndN
  have hstrict : sp.Pairwise (fun x y => x.2.path < y.2.path) := by
    have hle : sp.Pairwise (fun x y => x.2.path ≤ y.2.path) :=
      List.Pairwise.imp (fun {x y} h => (sort_le_iff x y).mp h) hsorted
    have hne : sp.Pairwise (fun x y => x.2.path ≠ y.2.path) := by
      have hnd3 : (sp.map (fun x => x.2.path)).Nodup := by
        apply List.Nodup.map_on _ hndsp
        intro x hx y hy hxy
        have hx1 := hcons2 x hx
        have hy1 := hcons2 y hy
        have h1 : x.1 = y.1 := path_inj_of_wf g hw x.1 y.1 x.2 y.2 hx1 hy1 hxy
        have h2 : x.2 = y.2 := by
          rw [h1, hy1] at hx1
          exact (Option.some.inj hx1).symm
        exact Prod.ext h1 h2
      exact (List.pairwise_map.mp hnd3)
    exact List.Pairwise.imp₂ (fun x y h1 h2 => lt_of_le_of_ne h1 h2) hle hne
  refine ⟨sp, st, ?_, hpermN, hlen, hcons2, hpos, hids, hstrict⟩
  simp only [sort_topologically, hps, ← hsp, hst]

/-- C5. On a graph built from empty by `add_node` and `add_edge`, in any insertion
order, `sort_topologically` returns normally and afterwards: the node vector is
a permutation of the old one and every stored node keeps all its fields but
`id` (adjacency lists included); the node at array position `i` has id `i`;
Paths are strictly ascending along the array; every edge `u → v` has
`u.id < v.id`; the node at position 0 has no in-neighbour and the node at the
last position has no out-neighbour. -/
theorem sort_topologically_sorted {P : Type} [LinearOrder P] (plen : P → Nat)
    (g : KmerGraph P) (hbuilt : Built plen g) :
    ∃ g1, sort_topologically g = some g1
      ∧ g1.nodes.Perm g.nodes
      ∧ g1 = { g with store := g1.store, nodes := g1.nodes }
      ∧ g1.store.length = g.store.length
      ∧ (∀ (a : Nat) (n : KmerNode P), g.store[a]? = some n →
          ∃ n1 : KmerNode P, g1.store[a]? = some n1 ∧ n1 = { n with id := n1.id })
      ∧ (∀ i : Nat, i < g1.nodes.length → ∃ n : KmerNode P, g1.node_at i = some n ∧ n.id = i)
      ∧ (∀ (i j : Nat) (ni nj : KmerNode P), i < j → g1.node_at i = some ni →
          g1.node_at j = some nj → ni.path < nj.path)
      ∧ (∀ (a b : Nat) (na : KmerNode P), a ∈ g1.nodes → g1.store[a]? = some na →
          b ∈ na.outNodes → ∃ nb : KmerNode P, g1.store[b]? = some nb ∧ na.id < nb.id)
      ∧ (∀ n : KmerNode P, g1.node_at 0 = some n → n.inNodes = [])
      ∧ (∀ n : KmerNode P, g1.node_at (g1.nodes.length - 1) = some n → n.outNodes = []) := by
  have hw := built_wf plen g hbuilt
  obtain ⟨sp, st, hsort, hperm, hlen, hcons, hpos, hids, hstrict⟩ :=
    sort_topologically_core g hw
  have hnode : ∀ (i : Nat) (x : Nat × KmerNode P), sp[i]? = some x →
      KmerGraph.node_at { g with store := st, nodes := sp.map Prod.fst } i
        = some { x.2 with id := i } := by
    intro i x hx
    have h1 : (sp.map Prod.fst)[i]? = some x.1 := by
      rw [List.getElem?_map, hx]; rfl
    simp only [KmerGraph.node_at, h1]
    exact hids i x hx
  have hnode_inv : ∀ (i : Nat) (nd : KmerNode P),
      KmerGraph.node_at { g with store := st, nodes := sp.map Prod.fst } i = some nd →
      ∃ x : Nat × KmerNode P, sp[i]? = some x ∧ nd = { x.2 with id := i } := by
    intro i nd hnd
    cases hx : sp[i]? with
    | none =>
      have h1 : (sp.map Prod.fst)[i]? = none := by
        rw [List.getElem?_map, hx]; rfl
      simp [KmerGraph.node_at, h1] at hnd
    | some x =>
      have h2 := hnode i x hx
      rw [h2] at hnd
      exact ⟨x, rfl, (Option.some.inj hnd).symm⟩
  have horder : ∀ (i j : Nat) (x y : Nat × KmerNode P), sp[i]? = some x → sp[j]? = some y →
      x.2.path < y.2.path → i < j := by
    intro i j x y hx hy hlt
    by_contra hij
    rcases Nat.lt_or_ge j i with hji | hji
    · have := pairwise_getElem? hstrict hji hy hx
      exact lt_asymm hlt this
    · have hije : i = j := by omega
      subst hije
      rw [hx] at hy
      cases hy
      exact lt_irrefl _ hlt
  refine ⟨_, hsort, hperm, rfl, hlen, ?_, ?_, ?_, ?_, ?_, ?_⟩
  · intro a n ha
    obtain ⟨j, hj⟩ := hpos a n ha
    exact ⟨{ n with id := j }, hids j (a, n) hj, rfl⟩
  · intro i hi
    have hi2 : i < sp.length := by simpa using hi
    refine ⟨{ (sp[i]).2 with id := i }, hnode i sp[i] (List.getElem?_eq_getElem hi2), rfl⟩
  · intro i j ni nj hij hni hnj
    obtain ⟨x, hx, hnx⟩ := hnode_inv i ni hni
    obtain ⟨y, hy, hny⟩ := hnode_inv j nj hnj
    have := pairwise_getElem? hstrict hij hx hy
    rw [hnx, hny]
    exact this
  · intro a b na ha hna hb
    change st[a]? = some na at hna
    obtain ⟨x, hx, hx1⟩ := List.mem_map.mp ha
    obtain ⟨i, hi⟩ := List.mem_iff_getElem?.mp hx
    have h1 := hids i x hi
    rw [hx1, hna] at h1
    have hna2 : na = { x.2 with id := i } := Option.some.inj h1
    have hxs := hcons x hx
    rw [hx1] at hxs
    have hbo : b ∈ out_of g a := by
      rw [out_of_eq g a x.2 hxs]
      rw [hna2] at hb
      exact hb
    obtain ⟨na0, nb0, hna0, hnb0, hlt⟩ := hw.forward a b hbo
    obtain ⟨j, hj⟩ := hpos b nb0 hnb0
    refine ⟨{ nb0 with id := j }, hids j (b, nb0) hj, ?_⟩
    have hx2 : x.2 = na0 := by
      rw [hxs] at hna0
      exact Option.some.inj hna0
    have hij : i < j := horder i j x (b, nb0) hi hj (by rw [hx2]; exact hlt)
    rw [hna2]
    exact hij
  · intro n hn
    obtain ⟨x, hx, hnx⟩ := hnode_inv 0 n hn
    have hxs := hcons x (List.getElem?_mem hx)
    rw [hnx]
    show x.2.inNodes = []
    apply List.eq_nil_iff_forall_not_mem.mpr
    intro c hc
    have hci : c ∈ in_of g x.1 := by rw [in_of_eq g x.1 x.2 hxs]; exact hc
    have hco := (hw.recip c x.1).mpr hci
    obtain ⟨nc, nx, hnc, hnx2, hlt⟩ := hw.forward c x.1 hco
    obtain ⟨j, hj⟩ := hpos c nc hnc
    have hx2 : x.2 = nx := by
      rw [hxs] at hnx2
      exact Option.some.inj hnx2
    have := horder j 0 (c, nc) x hj hx (by rw [hx2]; exact hlt)
    omega
  · intro n hn
    obtain ⟨x, hx, hnx⟩ := hnode_inv _ n hn
    have hxs := hcons x (List.getElem?_mem hx)
    rw [hnx]
    show x.2.outNodes = []
    apply List.eq_nil_iff_forall_not_mem.mpr
    intro c hc
    have hco : c ∈ out_of g x.1 := by rw [out_of_eq g x.1 x.2 hxs]; exact hc
    obtain ⟨nx, nc, hnx2, hnc, hlt⟩ := hw.forward x.1 c hco
    obtain ⟨j, hj⟩ := hpos c nc hnc
    have hx2 : x.2 = nx := by
      rw [hxs] at hnx2
      exact Option.some.inj hnx2
    have hlast := horder _ j x (c, nc) hx hj (by rw [hx2]; exact hlt)
    have hjl : j < sp.length := (List.getElem?_eq_some_iff.mp hj).1
    simp only [List.length_map] at hlast
    omega

/-- Witness for C5: the graph `unsorted_chain`, built by inserting the Paths
`5`, `3`, `9` and the edges `3 → 5`, `5 → 9`. -/
theorem sort_topologically_sorted_witness :
    ∃ g1, sort_topologically unsorted_chain = some g1
      ∧ g1.nodes.Perm unsorted_chain.nodes
      ∧ g1 = { unsorted_chain with store := g1.store, nodes := g1.nodes }
      ∧ g1.store.length = unsorted_chain.store.length
      ∧ (∀ (a : Nat) (n : KmerNode Nat), unsorted_chain.store[a]? = some n →
          ∃ n1 : KmerNode Nat, g1.store[a]? = some n1 ∧ n1 = { n with id := n1.id })
      ∧ (∀ i : Nat, i < g1.nodes.length → ∃ n : KmerNode Nat, g1.node_at i = some n ∧ n.id = i)
      ∧ (∀ (i j : Nat) (ni nj : KmerNode Nat), i < j → g1.node_at i = some ni →
          g1.node_at j = some nj → ni.path < nj.path)
      ∧ (∀ (a b : Nat) (na : KmerNode Nat), a ∈ g1.nodes → g1.store[a]? = some na →
          b ∈ na.outNodes → ∃ nb : KmerNode Nat, g1.store[b]? = some nb ∧ na.id < nb.id)
      ∧ (∀ n : KmerNode Nat, g1.node_at 0 = some n → n.inNodes = [])
      ∧ (∀ n : KmerNode Nat, g1.node_at (g1.nodes.length - 1) = some n → n.outNodes = []) :=
  sort_topologically_sorted (fun _ : Nat => 1) unsorted_chain
    (Built.add_edge_nodes
      ⟨[{ KmerNode.new 0 5 with inNodes := [1] }, { KmerNode.new 1 3 with outNodes := [0] },
        KmerNode.new 2 9], [0, 1, 2], 3, 0, 0, 1, 1⟩ _ 0 2
      (Built.add_edge ⟨[KmerNode.new 0 5, KmerNode.new 1 3, KmerNode.new 2 9],
          [0, 1, 2], 3, 0, 0, 1, 1⟩ _ 3 5
        (Built.add_node ⟨[KmerNode.new 0 5, KmerNode.new 1 3], [0, 1], 2, 0, 0, 1, 1⟩ _ 9 2
          (Built.add_node ⟨[KmerNode.new 0 5], [0], 1, 0, 0, 1, 1⟩ _ 3 1
            (Built.add_node (KmerGraph.init Nat) _ 5 0 Built.init (by decide)) (by decide))
          (by decide))
        (by decide))
      (by decide))

/-! ## C6: `check` -/

theorem check_edges_iff {P : Type} [LinearOrder P] (g : KmerGraph P) (c : KmerNode P)
    (outs : List Nat) :
    check_edges g c outs = some () ↔
      ∀ d ∈ outs, ∃ nd : KmerNode P, g.store[d]? = some nd ∧ c.path < nd.path ∧ c.id < nd.id := by
  induction outs with
  | nil => simp [check_edges]
  | cons d rest ih =>
    unfold check_edges
    cases hd : g.store[d]? with
    | none =>
      simp only [List.mem_cons]
      constructor
      · intro h; cases h
      · intro h
        obtain ⟨nd, hnd, _⟩ := h d (Or.inl rfl)
        rw [hd] at hnd; cases hnd
    | some nd =>
      simp only [List.mem_cons]
      by_cases hc : c.path < nd.path ∧ c.id < nd.id
      · simp only [hc, and_self, if_true]
        rw [ih]
        constructor
        · intro h x hx
          rcases hx with rfl | hx
          · exact ⟨nd, hd, hc.1, hc.2⟩
          · exact h x hx
        · intro h x hx
          exact h x (Or.inr hx)
      · simp only [hc, if_false]
        constructor
        · intro h; cases h
        · intro h
          obtain ⟨nd2, hnd2, h1, h2⟩ := h d (Or.inl rfl)
          rw [hd] at hnd2
          cases hnd2
          exact absurd ⟨h1, h2⟩ hc

theorem check_nodes_iff {P : Type} [LinearOrder P] (g : KmerGraph P) (l : List Nat) :
    check_nodes g l = some () ↔
      ∀ c ∈ l, ∃ nc : KmerNode P, g.store[c]? = some nc
        ∧ (0 < nc.inNodes.length ∨ nc.id = 0)
        ∧ (0 < nc.outNodes.length ∨ nc.id = g.nodes.length - 1)
        ∧ ∀ d ∈ nc.outNodes, ∃ nd : KmerNode P,
            g.store[d]? = some nd ∧ nc.path < nd.path ∧ nc.id < nd.id := by
  induction l with
  | nil => simp [check_nodes]
  | cons c rest ih =>
    unfold check_nodes
    cases hc : g.store[c]? with
    | none =>
      constructor
      · intro h; cases h
      · intro h
        obtain ⟨nc, hnc, _⟩ := h c (List.mem_cons_self _ _)
        rw [hc] at hnc; cases hnc
    | some nc =>
      simp only
      by_cases h1 : 0 < nc.inNodes.length ∨ nc.id = 0
      · by_cases h2 : 0 < nc.outNodes.length ∨ nc.id = g.nodes.length - 1
        · by_cases h3 : check_edges g nc nc.outNodes = some ()
          · simp only [h1, h2, not_true_eq_false, if_false, h3]
            rw [ih]
            constructor
            · intro h x hx
              rcases List.mem_cons.mp hx with rfl | hx
              · exact ⟨nc, hc, h1, h2, (check_edges_iff g nc nc.outNodes).mp h3⟩
              · exact h x hx
            · intro h x hx
              exact h x (List.mem_cons_of_mem _ hx)
          · have h3n : check_edges g nc nc.outNodes = none := by
              cases he : check_edges g nc nc.outNodes with
              | none => rfl
              | some u => cases u; exact absurd he h3
            simp only [h1, h2, not_true_eq_false, if_false, h3n]
            constructor
            · intro h; cases h
            · intro h
              obtain ⟨nc2, hnc2, _, _, h4⟩ := h c (List.mem_cons_self _ _)
              rw [hc] at hnc2
              cases hnc2
              exact absurd ((check_edges_iff g nc nc.outNodes).mpr h4) h3
        · simp only [h1, h2, not_true_eq_false, not_false_eq_true, if_false, if_true]
          constructor
          · intro h; cases h
          · intro h
            obtain ⟨nc2, hnc2, _, h5, _⟩ := h c (List.mem_cons_self _ _)
            rw [hc] at hnc2
            cases hnc2
            exact absurd h5 h2
      · simp only [h1, not_false_eq_true, if_true]
        constructor
        · intro h; cases h
        · intro h
          obtain ⟨nc2, hnc2, h5, _⟩ := h c (List.mem_cons_self _ _)
          rw [hc] at hnc2
          cases hnc2
          exact absurd h5 h1

theorem node_at_of_ids {P : Type} (g : KmerGraph P) (hid : ids_are_positions g)
    (i c : Nat) (hc : g.nodes[i]? = some c) :
    ∃ nd : KmerNode P, g.store[c]? = some nd ∧ g.node_at i = some nd ∧ nd.id = i := by
  have hi : i < g.nodes.length := (List.getElem?_eq_some_iff.mp hc).1
  have h := hid i hi
  simp only [KmerGraph.node_at, hc] at h
  cases hs : g.store[c]? with
  | none => simp [hs] at h
  | some nd =>
    refine ⟨nd, rfl, ?_, ?_⟩
    · simp [KmerGraph.node_at, hc, hs]
    · simpa [hs] using h

theorem node_at_some {P : Type} (g : KmerGraph P) (i : Nat) (nd : KmerNode P)
    (h : g.node_at i = some nd) :
    ∃ c : Nat, g.nodes[i]? = some c ∧ g.store[c]? = some nd := by
  unfold KmerGraph.node_at at h
  cases hc : g.nodes[i]? with
  | none => simp [hc] at h
  | some c =>
    simp only [hc] at h
    exact ⟨c, rfl, h⟩

/-- C6. On a graph whose ids are its array positions (`check` compares `c->id`
with `0` and with `nodes.size()-1`), `check(n)` returns normally
if and only if (1) `n == 0` or the node count is `n`, (2) every node other than
node 0 has an in-neighbour, (3) every node other than the one at the last
array position has an out-neighbour, (4) every edge `u → v` has
`u.path < v.path` and `u.id < v.id`; and when it returns the graph is the one
it was called on. -/
theorem check_passes_iff {P : Type} [LinearOrder P] (g : KmerGraph P) (n : Nat)
    (hid : ids_are_positions g) :
    ((check g n).isSome = true ↔
      (n = 0 ∨ g.nodes.length = n)
      ∧ (∀ (i : Nat) (nd : KmerNode P), g.node_at i = some nd → i ≠ 0 →
          0 < nd.inNodes.length)
      ∧ (∀ (i : Nat) (nd : KmerNode P), g.node_at i = some nd → i ≠ g.nodes.length - 1 →
          0 < nd.outNodes.length)
      ∧ (∀ (i : Nat) (nu : KmerNode P), g.node_at i = some nu → ∀ d ∈ nu.outNodes,
          ∃ nv : KmerNode P, g.store[d]? = some nv ∧ nu.path < nv.path ∧ nu.id < nv.id))
    ∧ (∀ g1 : KmerGraph P, check g n = some g1 → g1 = g) := by
  have hsome : (check g n).isSome = true ↔
      (n = 0 ∨ g.nodes.length = n) ∧ check_nodes g g.nodes = some () := by
    unfold check
    by_cases h1 : n = 0 ∨ g.nodes.length = n
    · cases h2 : check_nodes g g.nodes with
      | none => simp [h1]
      | some u => cases u; simp [h1]
    · simp [h1]
  refine ⟨?_, ?_⟩
  · rw [hsome, check_nodes_iff]
    constructor
    · rintro ⟨h1, h2⟩
      refine ⟨h1, ?_, ?_, ?_⟩
      · intro i nd hnd hi
        obtain ⟨c, hc, hs⟩ := node_at_some g i nd hnd
        obtain ⟨nc, hnc, hin, _, _⟩ := h2 c (List.getElem?_mem hc)
        obtain ⟨nd2, hs2, _, hid2⟩ := node_at_of_ids g hid i c hc
        rw [hs] at hnc hs2
        cases hnc; cases hs2
        rcases hin with hin | hin
        · exact hin
        · exact absurd (hid2 ▸ hin) hi
      · intro i nd hnd hi
        obtain ⟨c, hc, hs⟩ := node_at_some g i nd hnd
        obtain ⟨nc, hnc, _, hout, _⟩ := h2 c (List.getElem?_mem hc)
        obtain ⟨nd2, hs2, _, hid2⟩ := node_at_of_ids g hid i c hc
        rw [hs] at hnc hs2
        cases hnc; cases hs2
        rcases hout with hout | hout
        · exact hout
        · exact absurd (hid2 ▸ hout) hi
      · intro i nu hnu d hd
        obtain ⟨c, hc, hs⟩ := node_at_some g i nu hnu
        obtain ⟨nc, hnc, _, _, hedges⟩ := h2 c (List.getElem?_mem hc)
        rw [hs] at hnc
        cases hnc
        exact hedges d hd
    · rintro ⟨h1, h2, h3, h4⟩
      refine ⟨h1, ?_⟩
      intro c hc
      obtain ⟨i, hi⟩ := List.mem_iff_getElem?.mp hc
      obtain ⟨nd, hs, hnd, hidn⟩ := node_at_of_ids g hid i c hi
      refine ⟨nd, hs, ?_, ?_, h4 i nd hnd⟩
      · by_cases hi0 : i = 0
        · right; rw [hidn]; exact hi0
        · left; exact h2 i nd hnd hi0
      · by_cases hil : i = g.nodes.length - 1
        · right; rw [hidn]; exact hil
        · left; exact h3 i nd hnd hil
  · intro g1 h
    unfold check at h
    split at h
    · cases h
    · split at h
      · cases h
      · exact (Option.some.inj h).symm

/-- Witness for C6: `check(5)` passes on the finalized chain `chain5`, so the four
conditions hold of it, and the call returns `chain5` itself. -/
theorem check_passes_iff_witness :
    ids_are_positions chain5 ∧ (check chain5 5).isSome = true
      ∧ ((5 = 0 ∨ chain5.nodes.length = 5)
        ∧ (∀ (i : Nat) (nd : KmerNode Nat), chain5.node_at i = some nd → i ≠ 0 →
            0 < nd.inNodes.length)
        ∧ (∀ (i : Nat) (nd : KmerNode Nat), chain5.node_at i = some nd →
            i ≠ chain5.nodes.length - 1 → 0 < nd.outNodes.length)
        ∧ (∀ (i : Nat) (nu : KmerNode Nat), chain5.node_at i = some nu → ∀ d ∈ nu.outNodes,
            ∃ nv : KmerNode Nat, chain5.store[d]? = some nv ∧ nu.path < nv.path
              ∧ nu.id < nv.id))
      ∧ (∀ g1 : KmerGraph Nat, check chain5 5 = some g1 → g1 = chain5) :=
  ⟨by decide, by decide, (check_passes_iff chain5 5 (by decide)).1.mp (by decide),
    (check_passes_iff chain5 5 (by decide)).2⟩

/-! ## The decoder: frame lemmas -/

theorem lowest_lt : float_lowest + tolerance < -25 := by
  norm_num [float_lowest, tolerance]

theorem tolerance_pos : 0 < tolerance := by
  norm_num [tolerance]

theorem visit_edge_frame (F : FloatOps) (size : Nat) (pj : ℚ) (j : Nat) (s : Sweep) (sid : Nat)
    (i : Nat) (hi : i ≠ j) :
    (visit_edge F size pj j s sid).M i = s.M i
      ∧ (visit_edge F size pj j s sid).len i = s.len i
      ∧ (visit_edge F size pj j s sid).prev i = s.prev i := by
  unfold visit_edge
  split
  · split <;> simp [Function.update, hi]
  · exact ⟨rfl, rfl, rfl⟩

theorem scan_single {P : Type} (F : FloatOps) (g : KmerGraph P) (pj : ℚ) (j : Nat) (s : Sweep)
    (a : Nat) (n : KmerNode P) (ha : g.store[a]? = some n) (hid : n.id < g.nodes.length)
    (hc : n.id = g.nodes.length - 1
      ∨ (s.len n.id ≠ 0 ∧ float_lowest ≤ s.M n.id / (s.len n.id : ℚ))) :
    ∃ s1, scan_edges F g pj j { s with max_mean := float_lowest, max_len := 0 } [a] = some s1
      ∧ s1.M j = pj + s.M n.id ∧ s1.len j = 1 + s.len n.id ∧ s1.prev j = n.id
      ∧ ∀ i : Nat, i ≠ j → s1.M i = s.M i ∧ s1.len i = s.len i ∧ s1.prev i = s.prev i := by
  have hcond : (n.id = g.nodes.length - 1 ∧ float_lowest + tolerance < -25)
      ∨ (s.len n.id ≠ 0 ∧ float_lowest + tolerance < s.M n.id / (s.len n.id : ℚ))
      ∨ (s.len n.id ≠ 0 ∧ float_lowest - s.M n.id / (s.len n.id : ℚ) ≤ tolerance
          ∧ 0 < s.len n.id) := by
    rcases hc with hc | ⟨hl, hm⟩
    · exact Or.inl ⟨hc, lowest_lt⟩
    · right; right
      refine ⟨hl, ?_, Nat.pos_of_ne_zero hl⟩
      have := tolerance_pos
      linarith
  refine ⟨visit_edge F g.nodes.length pj j { s with max_mean := float_lowest, max_len := 0 } n.id,
    ?_, ?_, ?_, ?_, ?_⟩
  · simp [scan_edges, ha, hid]
  · unfold visit_edge
    simp only [hcond, if_true]
    split <;> simp [Function.update]
  · unfold visit_edge
    simp only [hcond, if_true]
    split <;> simp [Function.update]
  · unfold visit_edge
    simp only [hcond, if_true]
    split <;> simp [Function.update]
  · intro i hi
    exact visit_edge_frame F g.nodes.length pj j _ n.id i hi

/-! ## The decoder on a straight-line chain, in exact arithmetic (counterexample of C7) -/

theorem kmer_covgs_isSome {P : Type} (g : KmerGraph P) (j : Nat)
    (hv : ∀ i : Nat, i ≤ j → (g.node_at i).isSome = true) :
    (kmer_covgs g j).isSome = true := by
  induction j with
  | zero => rfl
  | succ j ih =>
    have h1 := hv (j + 1) (Nat.le_refl _)
    have h2 := ih (fun i hi => hv i (by omega))
    obtain ⟨n, hn⟩ := Option.isSome_iff_exists.mp h1
    obtain ⟨r, hr⟩ := Option.isSome_iff_exists.mp h2
    simp [kmer_covgs, hn, hr]

theorem discover_p_some {P : Type} (F : FloatOps) (g : KmerGraph P) (e_rate : ℚ)
    (hne : g.nodes.length ≠ 0)
    (hv : ∀ i : Nat, i < g.nodes.length → (g.node_at i).isSome = true) :
    ∃ q : ℚ, discover_p F g e_rate = some { g with p := q } := by
  unfold discover_p
  simp only
  by_cases hr : 40 < g.num_reads
  · simp only [hr, if_true, hne, if_false]
    have h := kmer_covgs_isSome g (g.nodes.length - 1) (fun i hi => hv i (by omega))
    obtain ⟨covgs, hc⟩ := Option.isSome_iff_exists.mp h
    simp only [hc]
    by_cases hl : covgs.length = 0
    · refine ⟨1 / F.exp (e_rate * (g.k : ℚ)), ?_⟩
      simp only [hl, if_true]
    · refine ⟨((covgs.sum : ℚ) / (covgs.length : ℚ)) / (g.num_reads : ℚ), ?_⟩
      simp only [hl, if_false]
  · refine ⟨1 / F.exp (e_rate * (g.k : ℚ)), ?_⟩
    simp only [hr, if_false]

theorem node_at_isSome_of_ids {P : Type} (g : KmerGraph P) (hid : ids_are_positions g)
    (i : Nat) (hi : i < g.nodes.length) :
    ∃ nd : KmerNode P, g.node_at i = some nd ∧ nd.id = i := by
  have h := hid i hi
  cases hn : g.node_at i with
  | none => simp [hn] at h
  | some nd => exact ⟨nd, rfl, by simpa [hn] using h⟩

theorem prob_some_of_node {P : Type} (F : FloatOps) (g : KmerGraph P) (j : Nat)
    (h : (g.node_at j).isSome = true) : (prob F g j).isSome = true := by
  obtain ⟨n, hn⟩ := Option.isSome_iff_exists.mp h
  unfold prob
  split
  · rfl
  · simp only [hn]
    split <;> rfl

theorem prob_sentinel {P : Type} (F : FloatOps) (g : KmerGraph P) (j : Nat)
    (h : j = 0 ∨ j = g.nodes.length - 1) : prob F g j = some 0 := by
  simp [prob, h]

theorem sweep_succ {P : Type} (F : FloatOps) (g : KmerGraph P) (j : Nat) (s s1 : Sweep)
    (nd : KmerNode P) (pj : ℚ) (hn : g.node_at j = some nd) (hp : prob F g j = some pj)
    (hs : scan_edges F g pj j { s with max_mean := float_lowest, max_len := 0 } nd.outNodes
      = some s1) :
    sweep F g (j + 1) s = sweep F g j s1 := by
  simp [sweep, hn, hp, hs]

theorem straight_line_node {P : Type} (g : KmerGraph P) (src a b c snk : Nat)
    (h : straight_line g src a b c snk) (i x : Nat) (hx : g.nodes[i]? = some x) :
    ∃ nd : KmerNode P, g.store[x]? = some nd ∧ g.node_at i = some nd ∧ nd.id = i
      ∧ nd.outNodes = out_of g x := by
  obtain ⟨nd, h1, h2, h3⟩ := node_at_of_ids g h.2.1 i x hx
  exact ⟨nd, h1, h2, h3, (out_of_eq g x nd h1).symm⟩

theorem chain_tables {P : Type} (F : FloatOps) (g : KmerGraph P) (src a b c snk : Nat)
    (h : straight_line g src a b c snk) (pa pb pc : ℚ)
    (hpa : prob F g 1 = some pa) (hpb : prob F g 2 = some pb) (hpc : prob F g 3 = some pc)
    (hfa : float_lowest ≤ pa) (hfb : float_lowest ≤ pb) (hfc : float_lowest ≤ pc) :
    ∃ s, max_path_tables F g = some s ∧ s.M 0 = pa + pb + pc ∧ s.len 0 = 4
      ∧ s.prev 0 = 1 ∧ s.prev 1 = 2 ∧ s.prev 2 = 3 ∧ s.prev 3 = 4 := by
  have hnodes := h.1
  have hlen : g.nodes.length = 5 := by rw [hnodes]; rfl
  have hneg : float_lowest ≤ 0 := by norm_num [float_lowest]
  obtain ⟨n0, _, hat0, _, hout0⟩ := straight_line_node g src a b c snk h 0 src (by rw [hnodes]; rfl)
  obtain ⟨n1, hs1, hat1, hid1, hout1⟩ :=
    straight_line_node g src a b c snk h 1 a (by rw [hnodes]; rfl)
  obtain ⟨n2, hs2, hat2, hid2, hout2⟩ :=
    straight_line_node g src a b c snk h 2 b (by rw [hnodes]; rfl)
  obtain ⟨n3, hs3, hat3, hid3, hout3⟩ :=
    straight_line_node g src a b c snk h 3 c (by rw [hnodes]; rfl)
  obtain ⟨n4, hs4, _, hid4, _⟩ :=
    straight_line_node g src a b c snk h 4 snk (by rw [hnodes]; rfl)
  rw [h.2.2.1] at hout0
  rw [h.2.2.2.1] at hout1
  rw [h.2.2.2.2.1] at hout2
  rw [h.2.2.2.2.2.1] at hout3
  have hp0 : prob F g 0 = some 0 := prob_sentinel F g 0 (Or.inl rfl)
  -- node 3: the edge to the sink
  obtain ⟨s1, hsc1, hM1, hl1, hpr1, _⟩ := scan_single F g pc 3 (Sweep.init 5) snk n4 hs4
    (by rw [hid4, hlen]; omega) (Or.inl (by rw [hid4, hlen]))
  rw [hid4] at hM1 hl1 hpr1
  have hM1v : s1.M 3 = pc := by rw [hM1]; simp [Sweep.init]
  have hl1v : s1.len 3 = 1 := by rw [hl1]; simp [Sweep.init]
  -- node 2
  obtain ⟨s2, hsc2, hM2, hl2, hpr2, hfr2⟩ := scan_single F g pb 2 s1 c n3 hs3
    (by rw [hid3, hlen]; omega)
    (Or.inr (by rw [hid3, hM1v, hl1v]; exact ⟨by omega, by simpa using hfc⟩))
  rw [hid3] at hM2 hl2 hpr2
  rw [hM1v] at hM2
  rw [hl1v] at hl2
  -- node 1
  obtain ⟨s3, hsc3, hM3, hl3, hpr3, hfr3⟩ := scan_single F g pa 1 s2 b n2 hs2
    (by rw [hid2, hlen]; omega)
    (Or.inr (by
      rw [hid2, hM2, hl2]
      refine ⟨by omega, ?_⟩
      rw [le_div_iff₀ (by norm_num)]
      push_cast
      linarith))
  rw [hid2] at hM3 hl3 hpr3
  rw [hM2] at hM3
  rw [hl2] at hl3
  -- node 0
  obtain ⟨s4, hsc4, hM4, hl4, hpr4, hfr4⟩ := scan_single F g 0 0 s3 a n1 hs1
    (by rw [hid1, hlen]; omega)
    (Or.inr (by
      rw [hid1, hM3, hl3]
      refine ⟨by omega, ?_⟩
      rw [le_div_iff₀ (by norm_num)]
      push_cast
      linarith))
  rw [hid1] at hM4 hl4 hpr4
  rw [hM3] at hM4
  rw [hl3] at hl4
  refine ⟨s4, ?_, ?_, ?_, hpr4, ?_, ?_, ?_⟩
  · unfold max_path_tables
    rw [hlen]
    simp only [Nat.reduceEqDiff, if_false, Nat.add_one_sub_one]
    rw [sweep_succ F g 3 _ s1 n3 pc hat3 hpc (by rw [hout3]; exact hsc1),
      sweep_succ F g 2 _ s2 n2 pb hat2 hpb (by rw [hout2]; exact hsc2),
      sweep_succ F g 1 _ s3 n1 pa hat1 hpa (by rw [hout1]; exact hsc3),
      sweep_succ F g 0 _ s4 n0 0 hat0 hp0 (by rw [hout0]; exact hsc4)]
    rfl
  · rw [hM4]; ring
  · rw [hl4]
  · rw [(hfr4 1 (by omega)).2.2, hpr3]
  · rw [(hfr4 2 (by omega)).2.2, (hfr3 2 (by omega)).2.2, hpr2]
  · rw [(hfr4 3 (by omega)).2.2, (hfr3 3 (by omega)).2.2, (hfr2 3 (by omega)).2.2, hpr1]

theorem find_max_path_chain {P : Type} (F : FloatOps) (g : KmerGraph P) (e_rate : ℚ)
    (src a b c snk : Nat) (h : straight_line g src a b c snk) :
    ∃ (q pa pb pc : ℚ), discover_p F g e_rate = some { g with p := q }
      ∧ prob F { g with p := q } 1 = some pa ∧ prob F { g with p := q } 2 = some pb
      ∧ prob F { g with p := q } 3 = some pc
      ∧ (float_lowest ≤ pa → float_lowest ≤ pb → float_lowest ≤ pc →
          find_max_path F g e_rate [] =
            some (some ((pa + pb + pc) / 4), [a, b, c], { g with p := q })) := by
  have hlen : g.nodes.length = 5 := by rw [h.1]; rfl
  have hv : ∀ i : Nat, i < g.nodes.length → (g.node_at i).isSome = true := by
    intro i hi
    obtain ⟨nd, hnd, _⟩ := node_at_isSome_of_ids g h.2.1 i hi
    rw [hnd]; rfl
  obtain ⟨q, hq⟩ := discover_p_some F g e_rate (by omega) hv
  have h1 : straight_line { g with p := q } src a b c snk := h
  have hv1 : ∀ i : Nat, i < 5 → (KmerGraph.node_at { g with p := q } i).isSome = true := by
    intro i hi
    exact hv i (by omega)
  obtain ⟨pa, hpa⟩ := Option.isSome_iff_exists.mp
    (prob_some_of_node F { g with p := q } 1 (hv1 1 (by omega)))
  obtain ⟨pb, hpb⟩ := Option.isSome_iff_exists.mp
    (prob_some_of_node F { g with p := q } 2 (hv1 2 (by omega)))
  obtain ⟨pc, hpc⟩ := Option.isSome_iff_exists.mp
    (prob_some_of_node F { g with p := q } 3 (hv1 3 (by omega)))
  refine ⟨q, pa, pb, pc, hq, hpa, hpb, hpc, ?_⟩
  intro hfa hfb hfc
  obtain ⟨s, hs, hM, hl, hp0, hp1, hp2, hp3⟩ :=
    chain_tables F { g with p := q } src a b c snk h1 pa pb pc hpa hpb hpc hfa hfb hfc
  have hn : g.nodes = [src, a, b, c, snk] := h.1
  have hext : extract_path { g with p := q } s.prev 5 (s.prev 0) [] = some [a, b, c] := by
    simp [extract_path, hn, hp0, hp1, hp2, hp3]
  have hlen1 : (KmerGraph.nodes { g with p := q }).length = 5 := hlen
  simp only [find_max_path, hq, hs, hlen1, hext, hl, hM]
  norm_num

theorem chain5_straight : straight_line chain5 0 1 2 3 4 :=
  ⟨rfl, by decide, rfl, rfl, rfl, rfl, rfl⟩

theorem chain5_discover_p :
    discover_p sample_ops chain5 (5108 / 10000) = some { chain5 with p := 3 / 5 } := by
  simp [discover_p, chain5, sample_ops]

theorem chain5_prob (j : Nat) (hj : j = 1 ∨ j = 2 ∨ j = 3) :
    prob sample_ops { chain5 with p := 3 / 5 } j = some (-1204 / 1000) := by
  rcases hj with rfl | rfl | rfl <;>
    norm_num [prob, chain5, KmerGraph.node_at, total_covg, sample_ops, KmerNode.new]

/-- C7, counterexample. On the chain `chain5` each interior node has
`prob = -1.204`, so the mean of the three values is `-1.204`, while the score
returned by `find_max_path` is `-0.903`, three quarters of it. -/
theorem chain_score_is_not_the_mean :
    prob sample_ops { chain5 with p := 3 / 5 } 1 = some (-1204 / 1000)
      ∧ prob sample_ops { chain5 with p := 3 / 5 } 2 = some (-1204 / 1000)
      ∧ prob sample_ops { chain5 with p := 3 / 5 } 3 = some (-1204 / 1000)
      ∧ find_max_path sample_ops chain5 (5108 / 10000) [] =
          some (some (-903 / 1000), [1, 2, 3], { chain5 with p := 3 / 5 })
      ∧ (-903 / 1000 : ℚ) ≠ ((-1204 / 1000) + (-1204 / 1000) + (-1204 / 1000)) / 3 := by
  refine ⟨chain5_prob 1 (Or.inl rfl), chain5_prob 2 (Or.inr (Or.inl rfl)),
    chain5_prob 3 (Or.inr (Or.inr rfl)), ?_, by norm_num⟩
  obtain ⟨q, pa, pb, pc, hq, hpa, hpb, hpc, hres⟩ :=
    find_max_path_chain sample_ops chain5 (5108 / 10000) 0 1 2 3 4 chain5_straight
  have hq2 : q = 3 / 5 := by
    rw [chain5_discover_p] at hq
    have := Option.some.inj hq
    exact (congrArg KmerGraph.p this).symm
  subst hq2
  rw [chain5_prob 1 (Or.inl rfl)] at hpa
  rw [chain5_prob 2 (Or.inr (Or.inl rfl))] at hpb
  rw [chain5_prob 3 (Or.inr (Or.inr rfl))] at hpc
  have ha := (Option.some.inj hpa).symm
  have hb := (Option.some.inj hpb).symm
  have hc := (Option.some.inj hpc).symm
  subst ha; subst hb; subst hc
  rw [hres (by norm_num [float_lowest]) (by norm_num [float_lowest])
    (by norm_num [float_lowest])]
  norm_num

/-! ## The decoder: the scan of one node inside the sweep -/

theorem tie5_decodable : decodable tie5 := by
  refine ⟨by decide, ?_⟩
  intro j hj
  have hj4 : j < 4 := hj
  interval_cases j
  · exact ⟨_, rfl, by simp [tie5, KmerNode.new]⟩
  · exact ⟨_, rfl, by simp [tie5, KmerNode.new]⟩
  · exact ⟨_, rfl, by simp [tie5, KmerNode.new]⟩
  · exact ⟨_, rfl, by simp [tie5, KmerNode.new]⟩

/-! ## C8: the choice at a node -/

theorem check_forward {P : Type} [LinearOrder P] (g : KmerGraph P) (n : Nat)
    (hid : ids_are_positions g) (hchk : (check g n).isSome = true)
    (j : Nat) (nd : KmerNode P) (hnd : g.node_at j = some nd) :
    ∀ a ∈ nd.outNodes, ∃ na : KmerNode P, g.store[a]? = some na ∧ j < na.id
      ∧ nd.path < na.path := by
  have hcn : check_nodes g g.nodes = some () := by
    unfold check at hchk
    split at hchk
    · cases hchk
    · cases h2 : check_nodes g g.nodes with
      | none => simp [h2] at hchk
      | some u => cases u; rfl
  obtain ⟨c, hc, hs⟩ := node_at_some g j nd hnd
  obtain ⟨nd2, hs2, _, hid2⟩ := node_at_of_ids g hid j c hc
  rw [hs] at hs2
  cases hs2
  obtain ⟨nc, hnc, _, _, hedges⟩ := (check_nodes_iff g g.nodes).mp hcn c (List.getElem?_mem hc)
  rw [hs] at hnc
  cases hnc
  intro a ha
  obtain ⟨na, hna, hp, hlt⟩ := hedges a ha
  exact ⟨na, hna, by rw [← hid2]; exact hlt, hp⟩

theorem path_inj_store {P : Type} (store : List (KmerNode P))
    (hnd : (store.map KmerNode.path).Nodup)
    (a b : Nat) (na nb : KmerNode P) (ha : store[a]? = some na) (hb : store[b]? = some nb)
    (hp : na.path = nb.path) : a = b := by
  have hal : a < store.length := (List.getElem?_eq_some_iff.mp ha).1
  have hbl : b < store.length := (List.getElem?_eq_some_iff.mp hb).1
  have ha2 : (store.map KmerNode.path)[a]? = some na.path := by
    rw [List.getElem?_map, ha]; rfl
  have hb2 : (store.map KmerNode.path)[b]? = some nb.path := by
    rw [List.getElem?_map, hb]; rfl
  have hal2 : a < (store.map KmerNode.path).length := by simpa using hal
  have hbl2 : b < (store.map KmerNode.path).length := by simpa using hbl
  rw [List.getElem?_eq_getElem hal2] at ha2
  rw [List.getElem?_eq_getElem hbl2] at hb2
  have heq : (store.map KmerNode.path)[a] = (store.map KmerNode.path)[b] := by
    rw [Option.some.inj ha2, Option.some.inj hb2, hp]
  exact (List.Nodup.getElem_inj_iff hnd).mp heq

theorem find_if_hit {P : Type} (store : List (KmerNode P)) (pred : KmerNode P → Bool)
    (l : List Nat) (hv : ∀ b ∈ l, b < store.length)
    (o : Nat) (m : KmerNode P) (ho : o ∈ l) (hm : store[o]? = some m) (hp : pred m = true) :
    ∃ e, find_if store pred l = some (some e) := by
  induction l with
  | nil => cases ho
  | cons b rest ih =>
    have hb : b < store.length := hv b (List.mem_cons_self _ _)
    unfold find_if
    rw [List.getElem?_eq_getElem hb]
    simp only
    by_cases hq : pred store[b] = true
    · exact ⟨b, by simp [hq]⟩
    · simp only [hq]
      rcases List.mem_cons.mp ho with rfl | ho
      · rw [List.getElem?_eq_getElem hb] at hm
        rw [Option.some.inj hm] at hq
        exact absurd hp hq
      · exact ih (fun x hx => hv x (List.mem_cons_of_mem _ hx)) ho

theorem find_if_unique {P : Type} [DecidableEq P] (y : KmerGraph P)
    (hn : y.nodes = List.range y.store.length)
    (hnd : (y.store.map KmerNode.path).Nodup)
    (c : Nat) (nc ny : KmerNode P) (hy : y.store[c]? = some ny) (hp : ny.path = nc.path) :
    find_if y.store (pointer_values_equal nc) y.nodes = some (some c) := by
  have hcl : c < y.store.length := (List.getElem?_eq_some_iff.mp hy).1
  obtain ⟨e, he⟩ := find_if_hit y.store (pointer_values_equal nc) y.nodes
    (by intro b hb; rw [hn] at hb; exact List.mem_range.mp hb) c ny
    (by rw [hn]; exact List.mem_range.mpr hcl) hy
    (by simp [pointer_values_equal, hp])
  obtain ⟨_, m, hm, hpm⟩ := find_if_found _ _ _ _ he
  have hpm2 : nc.path = m.path := by simpa [pointer_values_equal] using hpm
  have hec : e = c := path_inj_store y.store hnd e c m ny hm hy (by rw [← hpm2, hp])
  rw [he, hec]

theorem eq_out_nodes_true {P : Type} [DecidableEq P] (x y : KmerGraph P) (ys : List Nat)
    (hv : ∀ b ∈ ys, b < y.store.length) (outs : List Nat)
    (h : ∀ o ∈ outs, o ∈ ys ∧ ∃ no ny : KmerNode P, x.store[o]? = some no
      ∧ y.store[o]? = some ny ∧ ny.path = no.path) :
    eq_out_nodes x y ys outs = some true := by
  induction outs with
  | nil => rfl
  | cons o rest ih =>
    obtain ⟨hmem, no, ny, hno, hny, hp⟩ := h o (List.mem_cons_self _ _)
    obtain ⟨e, he⟩ := find_if_hit y.store (pointer_values_equal no) ys hv o ny hmem hny
      (by simp [pointer_values_equal, hp])
    simp only [eq_out_nodes, hno, he]
    exact ih (fun z hz => h z (List.mem_cons_of_mem _ hz))

theorem eq_nodes_true {P : Type} [DecidableEq P] (x y : KmerGraph P) (hs : Similar x y)
    (l : List Nat) (hl : ∀ c ∈ l, c < x.store.length) :
    eq_nodes x y l = some true := by
  induction l with
  | nil => rfl
  | cons c rest ih =>
    have hc : c < x.store.length := hl c (List.mem_cons_self _ _)
    have hxc : x.store[c]? = some x.store[c] := List.getElem?_eq_getElem hc
    obtain ⟨ny, hny, hp, hout, hin⟩ := hs.same c _ hxc
    have hfind := find_if_unique y hs.nodes_y hs.paths_nodup c x.store[c] ny hny hp
    have houts : eq_out_nodes x y ny.outNodes (x.store[c]).outNodes = some true := by
      apply eq_out_nodes_true
      · intro b hb
        rw [hout] at hb
        rw [← hs.len]
        exact hs.out_valid c _ hxc b hb
      · intro o ho
        have hol : o < x.store.length := hs.out_valid c _ hxc o ho
        have hxo : x.store[o]? = some x.store[o] := List.getElem?_eq_getElem hol
        obtain ⟨nyo, hnyo, hpo, _, _⟩ := hs.same o _ hxo
        exact ⟨by rw [hout]; exact ho, _, nyo, hxo, hnyo, hpo⟩
    simp only [eq_nodes, hxc, hfind, hny, hout, hin, ne_eq, not_true_eq_false, if_false]
    rw [hout] at houts
    simp only [houts]
    exact ih (fun z hz => hl z (List.mem_cons_of_mem _ hz))

theorem graph_eq_of_similar {P : Type} [DecidableEq P] (x y : KmerGraph P)
    (hs : Similar x y) : graph_eq x y = some true := by
  unfold graph_eq
  have hlen : y.nodes.length = x.nodes.length := by
    rw [hs.nodes_x, hs.nodes_y, List.length_range, List.length_range, hs.len]
  simp only [hlen, ne_eq, not_true_eq_false, if_false]
  apply eq_nodes_true x y hs
  intro c hc
  rw [hs.nodes_x] at hc
  exact List.mem_range.mp hc

theorem similar_symm {P : Type} (x y : KmerGraph P) (hs : Similar x y) : Similar y x := by
  have hsame2 : ∀ (a : Nat) (ny : KmerNode P), y.store[a]? = some ny →
      ∃ nx : KmerNode P, x.store[a]? = some nx ∧ nx.path = ny.path
        ∧ nx.outNodes = ny.outNodes ∧ nx.inNodes.length = ny.inNodes.length := by
    intro a ny hy
    have hal : a < x.store.length := by
      rw [hs.len]; exact (List.getElem?_eq_some_iff.mp hy).1
    have hxa : x.store[a]? = some x.store[a] := List.getElem?_eq_getElem hal
    obtain ⟨ny2, hny2, hp, ho, hi⟩ := hs.same a _ hxa
    rw [hy] at hny2
    cases hny2
    exact ⟨_, hxa, hp.symm, ho.symm, hi.symm⟩
  refine ⟨hs.nodes_y, hs.nodes_x, hs.len.symm, ?_, hsame2, ?_⟩
  · have hmap : x.store.map KmerNode.path = y.store.map KmerNode.path := by
      apply List.ext_getElem?
      intro a
      rw [List.getElem?_map, List.getElem?_map]
      cases hxa : x.store[a]? with
      | none =>
        have : y.store[a]? = none := by
          rw [List.getElem?_eq_none_iff] at hxa ⊢
          rw [← hs.len]; exact hxa
        rw [this]
      | some nx =>
        obtain ⟨ny, hny, hp, _, _⟩ := hs.same a nx hxa
        rw [hny]
        simp [hp]
    rw [hmap]
    exact hs.paths_nodup
  · intro a ny hy o ho
    obtain ⟨nx, hnx, _, hout, _⟩ := hsame2 a ny hy
    rw [← hs.len]
    exact hs.out_valid a nx hnx o (by rw [hout]; exact ho)

/-! ## C10: what `save` writes -/

theorem save_links_spec {P : Type} (g : KmerGraph P) (id : Nat) (outs : List Nat)
    (h : ∀ o ∈ outs, ∃ no : KmerNode P, g.store[o]? = some no ∧ no.id = o) :
    save_links g id outs = some (outs.map (fun b => Line.link id true b true)) := by
  induction outs with
  | nil => rfl
  | cons o rest ih =>
    obtain ⟨no, hno, hid⟩ := h o (List.mem_cons_self _ _)
    simp only [save_links, hno, ih (fun z hz => h z (List.mem_cons_of_mem _ hz)), hid,
      List.map_cons]

theorem wf_out_valid {P : Type} [LinearOrder P] (g : KmerGraph P) (hw : Wf g) (a : Nat)
    (n : KmerNode P) (hn : g.store[a]? = some n) :
    ∀ o ∈ n.outNodes, ∃ no : KmerNode P, g.store[o]? = some no ∧ no.id = o := by
  intro o ho
  have hmem : o ∈ out_of g a := by rw [out_of_eq g a n hn]; exact ho
  obtain ⟨_, nb, _, hnb, _⟩ := hw.forward a o hmem
  exact ⟨nb, hnb, hw.id_eq o nb hnb⟩

theorem save_nodes_spec {P : Type} [LinearOrder P] (g : KmerGraph P) (hw : Wf g) (m : Nat) :
    ∀ k : Nat, k + m ≤ g.store.length →
      save_nodes g (List.range' k m) = some (((g.store.drop k).take m).flatMap node_block) := by
  induction m with
  | zero => intro k _; rfl
  | succ m ih =>
    intro k hk
    have hkl : k < g.store.length := by omega
    have hn : g.store[k]? = some g.store[k] := List.getElem?_eq_getElem hkl
    have hid : (g.store[k]).id = k := hw.id_eq k _ hn
    have hlinks := save_links_spec g (g.store[k]).id (g.store[k]).outNodes
      (wf_out_valid g hw k _ hn)
    have hrest := ih (k + 1) (by omega)
    have hdrop : g.store.drop k = g.store[k] :: g.store.drop (k + 1) :=
      List.drop_eq_getElem_cons hkl
    rw [List.range'_succ]
    simp only [save_nodes, hn, hlinks, hrest, hdrop, List.take_succ_cons, List.flatMap_cons,
      node_block, List.cons_append]

theorem save_spec {P : Type} [LinearOrder P] (g : KmerGraph P) (hw : Wf g) :
    save g = some (Line.header :: g.store.flatMap node_block) := by
  have h := save_nodes_spec g hw g.store.length 0 (by omega)
  rw [← List.range_eq_range'] at h
  simp only [List.drop_zero, List.take_length] at h
  simp only [save, hw.nodes_eq, h]

/-! ## C10: the first pass of `load` -/

theorem load_segments_skip_links {P : Type} (plen : P → Nat) (id : Nat) (outs : List Nat)
    (h : KmerGraph P) (rest : List (Line P)) :
    load_segments plen h (outs.map (fun b => Line.link id true b true) ++ rest)
      = load_segments plen h rest := by
  induction outs with
  | nil => rfl
  | cons o more ih =>
    simp only [List.map_cons, List.cons_append, load_segments]
    exact ih

theorem load_segments_segment {P : Type} (plen : P → Nat) (h : KmerGraph P) (id : Nat) (p : P)
    (covg t : Nat) (rest : List (Line P)) (hid : id < 2 ^ 31) (hc : covg < 2 ^ 31)
    (ht : t < 2 ^ 31) (hnext : h.next_id = id) :
    load_segments plen h (Line.segment id p covg (some t) :: rest) =
      load_segments plen
        { h with
            store := h.store ++ [{ KmerNode.new h.next_id p with covg0 := covg, num_AT := t % 256 }]
            nodes := h.nodes ++ [h.store.length]
            next_id := h.next_id + 1
            k := if h.k = 0 ∧ 0 < plen p then plen p else h.k }
        rest := by
  simp only [load_segments, stoi, hid, hc, ht, if_true, hnext, Option.map_some']

theorem load_segments_spec {P : Type} (plen : P → Nat) (ns : List (KmerNode P)) :
    ∀ h : KmerGraph P, h.next_id = h.store.length →
      (∀ (i : Nat) (n : KmerNode P), ns[i]? = some n →
        n.id = h.store.length + i ∧ n.covg1 < 2 ^ 31 ∧ n.num_AT < 2 ^ 31) →
      h.store.length + ns.length ≤ 2 ^ 31 →
      ∃ k1 : Nat, load_segments plen h (ns.flatMap node_block) =
        some { h with
                store := h.store ++ ns.map loaded_node
                nodes := h.nodes ++ List.range' h.store.length ns.length
                next_id := h.next_id + ns.length
                k := k1 } := by
  induction ns with
  | nil =>
    intro h _ _ _
    exact ⟨h.k, by simp [load_segments]⟩
  | cons n rest ih =>
    intro h hnext hns hlen
    obtain ⟨hid, hc, ht⟩ := hns 0 n (by simp)
    simp only [List.length_cons] at hlen
    have hidlt : n.id < 2 ^ 31 := by omega
    have hnid : h.next_id = n.id := by omega
    obtain ⟨k1, hk1⟩ := ih
      { h with
          store := h.store ++ [{ KmerNode.new h.next_id n.path with
                                  covg0 := n.covg1, num_AT := n.num_AT % 256 }]
          nodes := h.nodes ++ [h.store.length]
          next_id := h.next_id + 1
          k := if h.k = 0 ∧ 0 < plen n.path then plen n.path else h.k }
      (by simp [hnext])
      (by
        intro i m hm
        obtain ⟨h1, h2, h3⟩ := hns (i + 1) m (by simpa using hm)
        refine ⟨?_, h2, h3⟩
        simp only [List.length_append, List.length_singleton]
        omega)
      (by simp only [List.length_append, List.length_singleton]; omega)
    refine ⟨k1, ?_⟩
    have hlines : (n :: rest).flatMap node_block =
        Line.segment n.id n.path n.covg1 (some n.num_AT)
          :: (n.outNodes.map (fun b => Line.link n.id true b true)
              ++ rest.flatMap node_block) := by
      simp [List.flatMap_cons, node_block]
    rw [hlines, load_segments_segment plen h n.id n.path n.covg1 n.num_AT _ hidlt hc ht hnid,
      load_segments_skip_links, hk1]
    simp only [Option.some.injEq, KmerGraph.mk.injEq, true_and, and_true]
    refine ⟨?_, ?_, ?_⟩
    · simp [loaded_node, hnid]
    · simp [List.range'_succ]
    · simp only [List.length_cons]; omega

/-! ## C10: the second pass of `load` -/

theorem load_links_append_congr {P : Type} (A B : List (Line P))
    (hAB : ∀ h : KmerGraph P, load_links h A = load_links h B) (L : List (Line P)) :
    ∀ h : KmerGraph P, load_links h (L ++ A) = load_links h (L ++ B) := by
  induction L with
  | nil => intro h; exact hAB h
  | cons l rest ih =>
    intro h
    cases l with
    | header => simp only [List.cons_append, load_links]; exact ih h
    | segment id p c t => simp only [List.cons_append, load_links]; exact ih h
    | link a o1 b o2 =>
      simp only [List.cons_append, load_links]
      cases stoi a with
      | none => rfl
      | some a1 =>
        cases stoi b with
        | none => rfl
        | some b1 =>
          simp only
          cases (if o1 = o2 then load_edge h a1 b1 else load_edge h b1 a1) with
          | none => rfl
          | some g1 => exact ih g1

theorem load_links_blocks {P : Type} (ns : List (KmerNode P)) :
    ∀ h : KmerGraph P,
      load_links h (ns.flatMap node_block) = load_links h ((edges_of ns).map to_link) := by
  induction ns with
  | nil => intro h; rfl
  | cons n rest ih =>
    intro h
    have h1 : (n :: rest).flatMap node_block =
        Line.segment n.id n.path n.covg1 (some n.num_AT)
          :: (n.outNodes.map (fun b => Line.link n.id true b true)
              ++ rest.flatMap node_block) := by
      simp [List.flatMap_cons, node_block]
    have h2 : (edges_of (n :: rest)).map to_link =
        n.outNodes.map (fun b => (Line.link n.id true b true : Line P))
          ++ (edges_of rest).map to_link := by
      simp [edges_of, List.flatMap_cons, to_link, Function.comp_def]
    rw [h1, h2]
    simp only [load_links]
    exact load_links_append_congr _ _ ih _ h

theorem load_edge_spec {P : Type} (h : KmerGraph P) (a b : Nat)
    (hn : h.nodes = List.range h.store.length) (ha : a < h.store.length)
    (hb : b < h.store.length) :
    ∃ h1, load_edge h a b = some h1 ∧ h1.nodes = h.nodes ∧ h1.store.length = h.store.length
      ∧ ∀ (x : Nat) (nx : KmerNode P), h.store[x]? = some nx →
          h1.store[x]? = some { nx with
            outNodes := nx.outNodes ++ (if x = a then [b] else [])
            inNodes := nx.inNodes ++ (if x = b then [a] else []) } := by
  have hna : h.nodes[a]? = some a := by
    rw [hn, List.getElem?_range ha]
  have hnb : h.nodes[b]? = some b := by
    rw [hn, List.getElem?_range hb]
  have hsa : h.store[a]? = some h.store[a] := List.getElem?_eq_getElem ha
  have hsb : h.store[b]? = some h.store[b] := List.getElem?_eq_getElem hb
  obtain ⟨A, hA⟩ : ∃ A : KmerNode P,
      A = { h.store[a] with outNodes := (h.store[a]).outNodes ++ [b] } := ⟨_, rfl⟩
  obtain ⟨T, hT⟩ : ∃ T : KmerNode P, T = if a = b then A else h.store[b] := ⟨_, rfl⟩
  have h1 : (h.store.set a A)[b]? = some T := by
    by_cases hab : a = b
    · subst hab
      simp [List.getElem?_set, ha, hT]
    · simp [List.getElem?_set, hab, hsb, hT]
  have hle : load_edge h a b =
      some { h with store := (h.store.set a A).set b { T with inNodes := T.inNodes ++ [a] } } := by
    simp only [load_edge, hna, hnb, hsa, ← hA, h1]
  refine ⟨{ h with store := (h.store.set a A).set b { T with inNodes := T.inNodes ++ [a] } },
    hle, rfl, by simp, ?_⟩
  intro x nx hx
  show ((h.store.set a A).set b { T with inNodes := T.inNodes ++ [a] })[x]? = _
  have hxl : x < h.store.length := (List.getElem?_eq_some_iff.mp hx).1
  have hnx : nx = h.store[x] := by
    rw [List.getElem?_eq_getElem hxl] at hx
    exact (Option.some.inj hx).symm
  by_cases hxb : x = b
  · by_cases hab : a = b
    · have hxa : x = a := by omega
      subst hab
      subst hxa
      simp [List.getElem?_set, ha, hT, hA, hnx]
    · have hxa : x ≠ a := by omega
      subst hxb
      simp [List.getElem?_set, hb, hT, hab, Ne.symm hab, hnx]
  · by_cases hxa : x = a
    · subst hxa
      simp [List.getElem?_set, ha, hA, hxb, Ne.symm hxb, hnx]
    · simp [List.getElem?_set, hxa, hxb, Ne.symm hxa, Ne.symm hxb, hx]

theorem load_links_spec {P : Type} (E : List (Nat × Nat)) :
    ∀ h : KmerGraph P, h.nodes = List.range h.store.length →
      (∀ e ∈ E, e.1 < h.store.length ∧ e.2 < h.store.length) → h.store.length ≤ 2 ^ 31 →
      ∃ h1, load_links h (E.map to_link) = some h1 ∧ h1.nodes = h.nodes
        ∧ h1.store.length = h.store.length
        ∧ ∀ (x : Nat) (nx : KmerNode P), h.store[x]? = some nx →
            h1.store[x]? = some { nx with
              outNodes := nx.outNodes ++ (E.filter (fun e => decide (e.1 = x))).map Prod.snd
              inNodes := nx.inNodes ++ (E.filter (fun e => decide (e.2 = x))).map Prod.fst } := by
  induction E with
  | nil =>
    intro h _ _ _
    refine ⟨h, rfl, rfl, rfl, ?_⟩
    intro x nx hx
    simp [hx]
  | cons e rest ih =>
    intro h hn hE hlen
    obtain ⟨he1, he2⟩ := hE e (List.mem_cons_self _ _)
    obtain ⟨h1, hle, hn1, hl1, hlook1⟩ := load_edge_spec h e.1 e.2 hn he1 he2
    obtain ⟨h2, hll, hn2, hl2, hlook2⟩ := ih h1 (by rw [hn1, hl1]; exact hn)
      (by
        intro e2 he
        rw [hl1]
        exact hE e2 (List.mem_cons_of_mem _ he))
      (by rw [hl1]; exact hlen)
    refine ⟨h2, ?_, hn2.trans hn1, hl2.trans hl1, ?_⟩
    · have hs1 : stoi e.1 = some e.1 := by simp [stoi]; omega
      have hs2 : stoi e.2 = some e.2 := by simp [stoi]; omega
      simp only [List.map_cons, to_link, load_links, hs1, hs2, if_true, hle]
      exact hll
    · intro x nx hx
      rw [hlook2 x _ (hlook1 x nx hx)]
      have e1 : (x = e.1) = (e.1 = x) := propext eq_comm
      have e2 : (x = e.2) = (e.2 = x) := propext eq_comm
      simp only [e1, e2, List.append_assoc, List.filter_cons]
      by_cases h1x : e.1 = x <;> by_cases h2x : e.2 = x <;> simp [h1x, h2x]

theorem edges_of_valid {P : Type} [LinearOrder P] (g : KmerGraph P) (hw : Wf g) :
    ∀ e ∈ edges_of g.store, e.1 < g.store.length ∧ e.2 < g.store.length := by
  intro e he
  simp only [edges_of, List.mem_flatMap, List.mem_map] at he
  obtain ⟨n, hn, b, hb, hpair⟩ := he
  obtain ⟨a, ha⟩ := List.mem_iff_getElem?.mp hn
  have hid := hw.id_eq a n ha
  have hal : a < g.store.length := (List.getElem?_eq_some_iff.mp ha).1
  obtain ⟨nb, hnb, _⟩ := wf_out_valid g hw a n ha b hb
  have hbl : b < g.store.length := (List.getElem?_eq_some_iff.mp hnb).1
  rw [← hpair]
  exact ⟨by simp only; omega, hbl⟩

/-! ## C10: the adjacency lists rebuilt from the link lines -/

theorem edges_of_cons {P : Type} (n : KmerNode P) (rest : List (KmerNode P)) :
    edges_of (n :: rest) = n.outNodes.map (fun b => (n.id, b)) ++ edges_of rest := by
  simp [edges_of, List.flatMap_cons]

theorem out_filter {P : Type} (x : Nat) (ns : List (KmerNode P)) :
    ∀ k : Nat, (∀ (i : Nat) (n : KmerNode P), ns[i]? = some n → n.id = k + i) →
      ((edges_of ns).filter (fun e => decide (e.1 = x))).map Prod.snd =
        (match ns[x - k]? with
         | some n => if k ≤ x then n.outNodes else []
         | none => []) := by
  induction ns with
  | nil => intro k _; simp [edges_of]
  | cons n rest ih =>
    intro k hid
    have hn : n.id = k := by
      have := hid 0 n (by simp)
      omega
    have hrest := ih (k + 1) (by
      intro i m hm
      have := hid (i + 1) m (by simpa using hm)
      omega)
    rw [edges_of_cons, List.filter_append, List.map_append, hrest]
    have hfirst : ((n.outNodes.map (fun b => (n.id, b))).filter
        (fun e => decide (e.1 = x))).map Prod.snd = if k = x then n.outNodes else [] := by
      rw [List.filter_map]
      by_cases hkx : k = x
      · simp [Function.comp_def, hn, hkx]
      · simp [Function.comp_def, hn, hkx]
    rw [hfirst]
    by_cases hkx : k = x
    · subst hkx
      have : k - (k + 1) = 0 := by omega
      simp only [this, if_true, Nat.sub_self, List.getElem?_cons_zero, Nat.le_refl,
        Nat.not_succ_le_self, if_false]
      cases rest[0]? <;> simp
    · by_cases hlt : k < x
      · have h1 : x - k = (x - (k + 1)) + 1 := by omega
        have h2 : k + 1 ≤ x := by omega
        have h3 : k ≤ x := by omega
        simp [hkx, h1, h2, h3]
      · have h2 : ¬ (k + 1 ≤ x) := by omega
        have h3 : ¬ (k ≤ x) := by omega
        simp only [hkx, if_false, h2, h3, List.nil_append]
        cases rest[x - (k + 1)]? <;> cases (n :: rest)[x - k]? <;> rfl

theorem in_filter_length {P : Type} (x : Nat) (ns : List (KmerNode P))
    (hnd : ∀ n ∈ ns, n.outNodes.Nodup) :
    (((edges_of ns).filter (fun e => decide (e.2 = x))).map Prod.fst).length =
      (ns.filter (fun n => decide (x ∈ n.outNodes))).length := by
  induction ns with
  | nil => simp [edges_of]
  | cons n rest ih =>
    have hrest := ih (fun m hm => hnd m (List.mem_cons_of_mem _ hm))
    simp only [List.length_map] at hrest ⊢
    rw [edges_of_cons, List.filter_append, List.length_append, hrest, List.filter_map,
      List.length_map]
    have hcount : (n.outNodes.filter ((fun e : Nat × Nat => decide (e.2 = x))
        ∘ fun b => (n.id, b))).length = n.outNodes.count x := by
      rw [List.count_eq_countP, List.countP_eq_length_filter]
      congr 1
    rw [hcount]
    by_cases hx : x ∈ n.outNodes
    · rw [List.count_eq_one_of_mem (hnd n (List.mem_cons_self _ _)) hx]
      simp only [List.filter_cons, hx, decide_True, if_true, List.length_cons]
      omega
    · rw [List.count_eq_zero_of_not_mem hx]
      simp [List.filter_cons, hx]

theorem store_ids_nodup {P : Type} [LinearOrder P] (g : KmerGraph P) (hw : Wf g) :
    (g.store.map KmerNode.id).Nodup := by
  rw [List.Nodup, List.pairwise_iff_getElem]
  intro i j hi hj hij
  simp only [List.length_map] at hi hj
  have h1 := hw.id_eq i _ (List.getElem?_eq_getElem hi)
  have h2 := hw.id_eq j _ (List.getElem?_eq_getElem hj)
  simp only [List.getElem_map, h1, h2]
  omega

theorem in_degree_eq {P : Type} [LinearOrder P] (g : KmerGraph P) (hw : Wf g) (x : Nat) :
    (g.store.filter (fun n => decide (x ∈ n.outNodes))).length = (in_of g x).length := by
  have hnd : ((g.store.filter (fun n => decide (x ∈ n.outNodes))).map KmerNode.id).Nodup :=
    List.Nodup.sublist ((List.filter_sublist _).map KmerNode.id) (store_ids_nodup g hw)
  have hperm : ((g.store.filter (fun n => decide (x ∈ n.outNodes))).map KmerNode.id).Perm
      (in_of g x) := by
    rw [List.perm_ext_iff_of_nodup hnd (hw.in_nodup x)]
    intro a
    rw [← hw.recip a x]
    simp only [List.mem_map, List.mem_filter, decide_eq_true_eq]
    constructor
    · rintro ⟨n, ⟨hn, hx⟩, hid⟩
      obtain ⟨i, hi⟩ := List.mem_iff_getElem?.mp hn
      have := hw.id_eq i n hi
      rw [hid] at this
      rw [← this] at hi
      rw [out_of_eq g a n hi]
      exact hx
    · intro hx
      obtain ⟨na, _, hna, _, _⟩ := hw.forward a x hx
      rw [out_of_eq g a na hna] at hx
      exact ⟨na, ⟨List.getElem?_mem hna, hx⟩, hw.id_eq a na hna⟩
  rw [← hperm.length_eq, List.length_map]

/-! ## C10: the round trip -/

theorem load_header {P : Type} (plen : P → Nat) (h : KmerGraph P) (lines : List (Line P)) :
    load plen h (Line.header :: lines) = load plen h lines := by
  simp only [load, load_segments]
  cases load_segments plen h lines with
  | none => rfl
  | some g1 => simp only [load_links]

theorem load_of_save {P : Type} [LinearOrder P] (plen : P → Nat) (g : KmerGraph P)
    (hw : Wf g) (hlen : g.store.length ≤ 2 ^ 31) :
    ∃ g2, load plen (KmerGraph.init P) (Line.header :: g.store.flatMap node_block) = some g2
      ∧ Similar g g2 := by
  obtain ⟨k1, hseg⟩ := load_segments_spec plen g.store (KmerGraph.init P) rfl
    (by
      intro i n hn
      obtain ⟨_, h2, h3⟩ := hw.counters_zero i n hn
      refine ⟨by simpa [KmerGraph.init] using hw.id_eq i n hn, ?_, ?_⟩
      · rw [h2]; norm_num
      · rw [h3]; norm_num)
    (by simpa [KmerGraph.init] using hlen)
  obtain ⟨g1, hg1⟩ : ∃ g1 : KmerGraph P, g1 = { KmerGraph.init P with
      store := (KmerGraph.init P).store ++ g.store.map loaded_node
      nodes := (KmerGraph.init P).nodes ++ List.range' (KmerGraph.init P).store.length
        g.store.length
      next_id := (KmerGraph.init P).next_id + g.store.length
      k := k1 } := ⟨_, rfl⟩
  rw [← hg1] at hseg
  have hstore1 : g1.store = g.store.map loaded_node := by
    rw [hg1]; simp [KmerGraph.init]
  have hlen1 : g1.store.length = g.store.length := by
    rw [hstore1, List.length_map]
  have hnodes1 : g1.nodes = List.range g1.store.length := by
    rw [hlen1, hg1]
    simp [KmerGraph.init, List.range_eq_range']
  obtain ⟨g2, hlinks, hn2, hl2, hlook⟩ := load_links_spec (edges_of g.store) g1 hnodes1
    (by rw [hlen1]; exact edges_of_valid g hw) (by rw [hlen1]; exact hlen)
  have hload : load plen (KmerGraph.init P) (Line.header :: g.store.flatMap node_block)
      = some g2 := by
    rw [load_header]
    simp only [load, hseg]
    rw [load_links_blocks]
    exact hlinks
  have hsame : ∀ (a : Nat) (nx : KmerNode P), g.store[a]? = some nx →
      ∃ ny : KmerNode P, g2.store[a]? = some ny ∧ ny.path = nx.path
        ∧ ny.outNodes = nx.outNodes ∧ ny.inNodes.length = nx.inNodes.length := by
    intro a nx hx
    have h1 : g1.store[a]? = some (loaded_node nx) := by
      rw [hstore1, List.getElem?_map, hx]; rfl
    refine ⟨_, hlook a _ h1, rfl, ?_, ?_⟩
    · have := out_filter a g.store 0 (by
        intro i n hn
        simpa using hw.id_eq i n hn)
      simp only [Nat.sub_zero, hx, Nat.zero_le, if_true] at this
      simp [loaded_node, KmerNode.new, this]
    · have h3 := in_filter_length a g.store (by
        intro n hn
        obtain ⟨i, hi⟩ := List.mem_iff_getElem?.mp hn
        have := hw.out_nodup i
        rw [out_of_eq g i n hi] at this
        exact this)
      rw [in_degree_eq g hw a, in_of_eq g a nx hx] at h3
      simp only [loaded_node, KmerNode.new, List.nil_append]
      exact h3
  refine ⟨g2, hload, ?_⟩
  refine ⟨hw.nodes_eq, ?_, ?_, ?_, hsame, ?_⟩
  · rw [hn2, hl2]; exact hnodes1
  · rw [hl2, hlen1]
  · have hmap : g2.store.map KmerNode.path = g.store.map KmerNode.path := by
      apply List.ext_getElem?
      intro a
      rw [List.getElem?_map, List.getElem?_map]
      cases hxa : g.store[a]? with
      | none =>
        have : g2.store[a]? = none := by
          rw [List.getElem?_eq_none_iff] at hxa ⊢
          rw [hl2, hlen1]; exact hxa
        rw [this]
      | some nx =>
        obtain ⟨ny, hny, hp, _, _⟩ := hsame a nx hxa
        rw [hny]
        simp [hp]
    rw [hmap]
    exact hw.paths_nodup
  · intro a nx hx o ho
    obtain ⟨no, hno, _⟩ := wf_out_valid g hw a nx hx o ho
    exact (List.getElem?_eq_some_iff.mp hno).1

theorem count_segments_links {P : Type} (outs : List Nat) (id : Nat) (rest : List (Line P)) :
    count_segments (outs.map (fun b => (Line.link id true b true : Line P)) ++ rest)
        = count_segments rest
      ∧ count_links (outs.map (fun b => (Line.link id true b true : Line P)) ++ rest)
        = outs.length + count_links rest := by
  induction outs with
  | nil => simp
  | cons o more ih =>
    have h1 : count_segments ((Line.link id true o true : Line P)
        :: (more.map (fun b => (Line.link id true b true : Line P)) ++ rest))
        = count_segments (more.map (fun b => (Line.link id true b true : Line P)) ++ rest) := rfl
    have h2 : count_links ((Line.link id true o true : Line P)
        :: (more.map (fun b => (Line.link id true b true : Line P)) ++ rest))
        = count_links (more.map (fun b => (Line.link id true b true : Line P)) ++ rest) + 1 := rfl
    rw [List.map_cons, List.cons_append, h1, h2, ih.1, ih.2, List.length_cons]
    exact ⟨rfl, by omega⟩

theorem count_blocks {P : Type} (ns : List (KmerNode P)) :
    count_segments (ns.flatMap node_block) = ns.length
      ∧ count_links (ns.flatMap node_block) = (ns.map (fun n => n.outNodes.length)).sum := by
  induction ns with
  | nil => exact ⟨rfl, rfl⟩
  | cons n rest ih =>
    have h1 : (n :: rest).flatMap node_block =
        Line.segment n.id n.path n.covg1 (some n.num_AT)
          :: (n.outNodes.map (fun b => Line.link n.id true b true)
              ++ rest.flatMap node_block) := by
      simp [List.flatMap_cons, node_block]
    obtain ⟨h2, h3⟩ := count_segments_links n.outNodes n.id (rest.flatMap node_block)
    rw [h1]
    simp only [count_segments, count_links, h2, h3, ih.1, ih.2, List.length_cons, List.map_cons,
      List.sum_cons]
    exact ⟨trivial, trivial⟩

theorem edge_count_of_similar {P : Type} (x y : KmerGraph P) (hs : Similar x y) :
    edge_count y = edge_count x := by
  unfold edge_count
  rw [hs.nodes_x, hs.nodes_y, hs.len]
  apply congrArg List.sum
  apply List.map_congr_left
  intro a ha
  have hal : a < x.store.length := by rw [hs.len]; exact List.mem_range.mp ha
  have hxa : x.store[a]? = some x.store[a] := List.getElem?_eq_getElem hal
  obtain ⟨ny, hny, _, hout, _⟩ := hs.same a _ hxa
  rw [out_of_eq x a _ hxa, out_of_eq y a ny hny, hout]

theorem edge_count_store {P : Type} (g : KmerGraph P)
    (hn : g.nodes = List.range g.store.length) :
    edge_count g = (g.store.map (fun n => n.outNodes.length)).sum := by
  unfold edge_count
  rw [hn]
  apply congrArg List.sum
  apply List.ext_getElem?
  intro i
  rw [List.getElem?_map, List.getElem?_map]
  by_cases hi : i < g.store.length
  · rw [List.getElem?_range hi, List.getElem?_eq_getElem hi]
    simp [out_of, List.getElem?_eq_getElem hi]
  · have h1 : (List.range g.store.length)[i]? = none := by
      rw [List.getElem?_eq_none_iff]; simp; omega
    have h2 : g.store[i]? = none := by
      rw [List.getElem?_eq_none_iff]; omega
    rw [h1, h2]
    rfl

/-- C10. For every graph built from empty by `add_node` and `add_edge` (with at
most `2^31` nodes, the range of the ids `load` reads with `stoi`): `save`
writes a file, `load` of that file into a fresh graph returns normally, the
loaded graph and the original are equal under `operator==` in both
directions, and the file has as many segment lines as either graph has nodes
and as many link lines as either graph has edges. -/
theorem save_load_round_trip {P : Type} [LinearOrder P] (plen : P → Nat) (g : KmerGraph P)
    (hbuilt : Built plen g) (hsize : g.nodes.length ≤ 2 ^ 31) :
    ∃ (lines : List (Line P)) (g2 : KmerGraph P), save g = some lines
      ∧ load plen (KmerGraph.init P) lines = some g2
      ∧ graph_eq g2 g = some true ∧ graph_eq g g2 = some true
      ∧ g2.nodes.length = g.nodes.length ∧ edge_count g2 = edge_count g
      ∧ count_segments lines = g.nodes.length ∧ count_links lines = edge_count g := by
  have hw := built_wf plen g hbuilt
  have hlen : g.store.length ≤ 2 ^ 31 := by
    rw [hw.nodes_eq, List.length_range] at hsize
    exact hsize
  obtain ⟨g2, hload, hsim⟩ := load_of_save plen g hw hlen
  obtain ⟨hc1, hc2⟩ := count_blocks g.store
  refine ⟨_, g2, save_spec g hw, hload, graph_eq_of_similar g2 g (similar_symm g g2 hsim),
    graph_eq_of_similar g g2 hsim, ?_, edge_count_of_similar g g2 hsim, ?_, ?_⟩
  · rw [hsim.nodes_x, hsim.nodes_y, hsim.len]
  · simp only [count_segments, hc1, hw.nodes_eq, List.length_range]
  · simp only [count_links, hc2]
    exact (edge_count_store g hw.nodes_eq).symm

/-- Witness for C10: the graph `unsorted_chain` (Paths `5`, `3`, `9`, edges
`3 → 5` and `5 → 9`). -/
theorem save_load_round_trip_witness :
    ∃ (lines : List (Line Nat)) (g2 : KmerGraph Nat), save unsorted_chain = some lines
      ∧ load (fun _ : Nat => 1) (KmerGraph.init Nat) lines = some g2
      ∧ graph_eq g2 unsorted_chain = some true ∧ graph_eq unsorted_chain g2 = some true
      ∧ g2.nodes.length = unsorted_chain.nodes.length
      ∧ edge_count g2 = edge_count unsorted_chain
      ∧ count_segments lines = unsorted_chain.nodes.length
      ∧ count_links lines = edge_count unsorted_chain :=
  save_load_round_trip (fun _ : Nat => 1) unsorted_chain
    (Built.add_edge_nodes
      ⟨[{ KmerNode.new 0 5 with inNodes := [1] }, { KmerNode.new 1 3 with outNodes := [0] },
        KmerNode.new 2 9], [0, 1, 2], 3, 0, 0, 1, 1⟩ _ 0 2
      (Built.add_edge ⟨[KmerNode.new 0 5, KmerNode.new 1 3, KmerNode.new 2 9],
          [0, 1, 2], 3, 0, 0, 1, 1⟩ _ 3 5
        (Built.add_node ⟨[KmerNode.new 0 5, KmerNode.new 1 3], [0, 1], 2, 0, 0, 1, 1⟩ _ 9 2
          (Built.add_node ⟨[KmerNode.new 0 5], [0], 1, 0, 0, 1, 1⟩ _ 3 1
            (Built.add_node (KmerGraph.init Nat) _ 5 0 Built.init (by decide)) (by decide))
          (by decide))
        (by decide))
      (by decide))
    (by decide)

/-! ## C11 -/

theorem save_links_ids {P : Type} (g : KmerGraph P) (id : Nat) (outs : List Nat)
    (h : ∀ o ∈ outs, ∃ no : KmerNode P, g.store[o]? = some no) :
    save_links g id outs = some
      ((outs.filterMap (fun o => (g.store[o]?).map KmerNode.id)).map
        (fun b => Line.link id true b true)) := by
  induction outs with
  | nil => rfl
  | cons o rest ih =>
    obtain ⟨no, hno⟩ := h o (List.mem_cons_self _ _)
    simp only [save_links, hno, ih (fun z hz => h z (List.mem_cons_of_mem _ hz)),
      List.filterMap_cons, Option.map_some', List.map_cons]

theorem save_nodes_file {P : Type} (g : KmerGraph P) (l : List Nat)
    (h : ∀ a ∈ l, ∃ n : KmerNode P, g.store[a]? = some n
      ∧ ∀ o ∈ n.outNodes, ∃ no : KmerNode P, g.store[o]? = some no) :
    save_nodes g l = some ((l.filterMap (file_node g)).flatMap node_block) := by
  induction l with
  | nil => rfl
  | cons a rest ih =>
    obtain ⟨n, hn, hout⟩ := h a (List.mem_cons_self _ _)
    have hl := save_links_ids g n.id n.outNodes hout
    have hr := ih (fun z hz => h z (List.mem_cons_of_mem _ hz))
    simp only [save_nodes, hn, hl, hr, List.filterMap_cons, file_node, Option.map_some',
      List.flatMap_cons, node_block, List.cons_append]

theorem filterMap_getElem? {α β : Type} (f : α → Option β) (l : List α)
    (h : ∀ a ∈ l, ∃ b, f a = some b) :
    ∀ i : Nat, (l.filterMap f)[i]? = (l[i]?).bind f := by
  induction l with
  | nil => intro i; simp
  | cons a rest ih =>
    intro i
    obtain ⟨b, hb⟩ := h a (List.mem_cons_self _ _)
    rw [List.filterMap_cons, hb]
    cases i with
    | zero => simp [hb]
    | succ j =>
      simp only [List.getElem?_cons_succ]
      exact ih (fun z hz => h z (List.mem_cons_of_mem _ hz)) j

theorem saveable_valid {P : Type} (g : KmerGraph P) (hs : saveable g) :
    ∀ a ∈ g.nodes, ∃ n : KmerNode P, g.store[a]? = some n
      ∧ ∀ o ∈ n.outNodes, ∃ no : KmerNode P, g.store[o]? = some no := by
  intro a ha
  obtain ⟨i, hi⟩ := List.mem_iff_getElem?.mp ha
  have hil : i < g.nodes.length := (List.getElem?_eq_some_iff.mp hi).1
  have hid := hs.1 i hil
  have hat : g.node_at i = g.store[a]? := by simp [KmerGraph.node_at, hi]
  cases hn : g.store[a]? with
  | none => rw [hat, hn] at hid; simp at hid
  | some n =>
    refine ⟨n, rfl, ?_⟩
    intro o ho
    obtain ⟨no, hno, _⟩ := (hs.2.2 i n (by rw [hat, hn])).2.2 o ho
    exact ⟨no, hno⟩

theorem file_nodes_get {P : Type} (g : KmerGraph P) (hs : saveable g) (i : Nat) :
    (file_nodes g)[i]? = (g.node_at i).map (fun n =>
      { n with outNodes := n.outNodes.filterMap (fun o => (g.store[o]?).map KmerNode.id) }) := by
  unfold file_nodes
  rw [filterMap_getElem? (file_node g) g.nodes (by
    intro a ha
    obtain ⟨n, hn, _⟩ := saveable_valid g hs a ha
    refine ⟨{ n with outNodes :=
      n.outNodes.filterMap (fun o => (g.store[o]?).map KmerNode.id) }, ?_⟩
    simp only [file_node, hn, Option.map_some'])]
  unfold KmerGraph.node_at
  cases g.nodes[i]? with
  | none => rfl
  | some a => rfl

theorem file_nodes_length {P : Type} (g : KmerGraph P) (hs : saveable g) :
    (file_nodes g).length = g.nodes.length := by
  have h1 : ∀ i : Nat, i < g.nodes.length → ((file_nodes g)[i]?).isSome := by
    intro i hi
    rw [file_nodes_get g hs i]
    have := hs.1 i hi
    cases hn : g.node_at i with
    | none => rw [hn] at this; simp at this
    | some n => rfl
  have h2 : ∀ i : Nat, g.nodes.length ≤ i → (file_nodes g)[i]? = none := by
    intro i hi
    rw [file_nodes_get g hs i]
    have : g.nodes[i]? = none := List.getElem?_eq_none hi
    simp [KmerGraph.node_at, this]
  apply Nat.le_antisymm
  · by_contra hcon
    have := h2 g.nodes.length (le_refl _)
    rw [List.getElem?_eq_none_iff] at this
    omega
  · by_contra hcon
    have hlt : (file_nodes g).length < g.nodes.length := by omega
    have := h1 (file_nodes g).length hlt
    rw [List.getElem?_eq_none (le_refl _)] at this
    simp at this

/-- What `load` makes of what `save` wrote, for a graph with coverage: the
loaded node at every position has the id, the Path and the tag of the original
node; its coverage slot 0 holds what slot 1 of the original held and its slot
1 is zero. -/
theorem load_of_save_nodes {P : Type} (plen : P → Nat) (g : KmerGraph P) (hs : saveable g) :
    ∃ (lines : List (Line P)) (g2 : KmerGraph P), save g = some lines
      ∧ load plen (KmerGraph.init P) lines = some g2
      ∧ g2.nodes.length = g.nodes.length
      ∧ ∀ (i : Nat) (nd : KmerNode P), g.node_at i = some nd →
          ∃ nd2 : KmerNode P, g2.node_at i = some nd2 ∧ nd2.id = nd.id ∧ nd2.path = nd.path
            ∧ nd2.num_AT = nd.num_AT ∧ nd2.covg0 = nd.covg1 ∧ nd2.covg1 = 0 := by
  have hsave : save g = some (Line.header :: (file_nodes g).flatMap node_block) := by
    unfold save
    rw [save_nodes_file g g.nodes (saveable_valid g hs)]
    rfl
  have hlen := file_nodes_length g hs
  have hget : ∀ (i : Nat) (n : KmerNode P), (file_nodes g)[i]? = some n →
      ∃ nd : KmerNode P, g.node_at i = some nd ∧ n = { nd with
        outNodes := nd.outNodes.filterMap (fun o => (g.store[o]?).map KmerNode.id) } := by
    intro i n hn
    rw [file_nodes_get g hs i] at hn
    cases hnd : g.node_at i with
    | none => rw [hnd] at hn; simp at hn
    | some nd =>
      rw [hnd] at hn
      simp only [Option.map_some', Option.some.injEq] at hn
      exact ⟨nd, rfl, hn.symm⟩
  have hidpos : ∀ (i : Nat) (nd : KmerNode P), g.node_at i = some nd → nd.id = i := by
    intro i nd hnd
    have hil : i < g.nodes.length := by
      by_contra hcon
      have : g.nodes[i]? = none := List.getElem?_eq_none (Nat.le_of_not_lt hcon)
      simp [KmerGraph.node_at, this] at hnd
    have := hs.1 i hil
    rw [hnd] at this
    simpa using this
  obtain ⟨k1, hseg⟩ := load_segments_spec plen (file_nodes g) (KmerGraph.init P) rfl
    (by
      intro i n hn
      obtain ⟨nd, hnd, he⟩ := hget i n hn
      obtain ⟨h1, h2, _⟩ := hs.2.2 i nd hnd
      rw [he]
      refine ⟨by simpa [KmerGraph.init] using hidpos i nd hnd, h1, ?_⟩
      show nd.num_AT < 2 ^ 31
      omega)
    (by
      rw [hlen]
      simpa [KmerGraph.init] using hs.2.1)
  obtain ⟨g1, hg1⟩ : ∃ g1 : KmerGraph P, g1 = { KmerGraph.init P with
      store := (KmerGraph.init P).store ++ (file_nodes g).map loaded_node
      nodes := (KmerGraph.init P).nodes ++ List.range' (KmerGraph.init P).store.length
        (file_nodes g).length
      next_id := (KmerGraph.init P).next_id + (file_nodes g).length
      k := k1 } := ⟨_, rfl⟩
  rw [← hg1] at hseg
  have hstore1 : g1.store = (file_nodes g).map loaded_node := by
    rw [hg1]; simp [KmerGraph.init]
  have hlen1 : g1.store.length = g.nodes.length := by
    rw [hstore1, List.length_map, hlen]
  have hnodes1 : g1.nodes = List.range g1.store.length := by
    rw [hlen1, hg1, hlen]
    simp [KmerGraph.init, List.range_eq_range']
  have hedges : ∀ e ∈ edges_of (file_nodes g),
      e.1 < g1.store.length ∧ e.2 < g1.store.length := by
    intro e he
    rw [hlen1]
    unfold edges_of at he
    rw [List.mem_flatMap] at he
    obtain ⟨n, hn, he⟩ := he
    rw [List.mem_map] at he
    obtain ⟨b, hb, hbe⟩ := he
    obtain ⟨i, hi⟩ := List.mem_iff_getElem?.mp hn
    obtain ⟨nd, hnd, hne⟩ := hget i n hi
    have hil : i < g.nodes.length := by
      rw [← hlen]; exact (List.getElem?_eq_some_iff.mp hi).1
    rw [← hbe]
    refine ⟨?_, ?_⟩
    · show n.id < g.nodes.length
      rw [hne]
      show nd.id < g.nodes.length
      rw [hidpos i nd hnd]
      exact hil
    · show b < g.nodes.length
      rw [hne] at hb
      simp only [List.mem_filterMap] at hb
      obtain ⟨o, ho, hob⟩ := hb
      obtain ⟨na, hna, hlt⟩ := (hs.2.2 i nd hnd).2.2 o ho
      rw [hna] at hob
      simp only [Option.map_some', Option.some.injEq] at hob
      rw [← hob]
      exact hlt
  obtain ⟨g2, hlinks, hn2, hl2, hlook⟩ := load_links_spec (edges_of (file_nodes g)) g1 hnodes1
    hedges (by rw [hlen1]; exact hs.2.1)
  have hload : load plen (KmerGraph.init P) (Line.header :: (file_nodes g).flatMap node_block)
      = some g2 := by
    rw [load_header]
    simp only [load, hseg]
    rw [load_links_blocks]
    exact hlinks
  refine ⟨_, g2, hsave, hload, ?_, ?_⟩
  · rw [hn2, hnodes1, List.length_range, hlen1]
  · intro i nd hnd
    have hil : i < g.nodes.length := by
      by_contra hcon
      have : g.nodes[i]? = none := List.getElem?_eq_none (Nat.le_of_not_lt hcon)
      simp [KmerGraph.node_at, this] at hnd
    have hfile : (file_nodes g)[i]? = some { nd with
        outNodes := nd.outNodes.filterMap (fun o => (g.store[o]?).map KmerNode.id) } := by
      rw [file_nodes_get g hs i, hnd]
      rfl
    have h1 : g1.store[i]? = some (loaded_node { nd with
        outNodes := nd.outNodes.filterMap (fun o => (g.store[o]?).map KmerNode.id) }) := by
      rw [hstore1, List.getElem?_map, hfile]
      rfl
    have h2 := hlook i _ h1
    have hni : g2.nodes[i]? = some i := by
      rw [hn2, hnodes1, hlen1]
      exact List.getElem?_range hil
    have hmod : nd.num_AT % 256 = nd.num_AT := Nat.mod_eq_of_lt (hs.2.2 i nd hnd).2.1
    refine ⟨_, by simp only [KmerGraph.node_at, hni]; exact h2, ?_, ?_, ?_, ?_, ?_⟩
    · simp [loaded_node, KmerNode.new]
    · simp [loaded_node, KmerNode.new]
    · simp [loaded_node, KmerNode.new, hmod]
    · simp [loaded_node, KmerNode.new]
    · simp [loaded_node, KmerNode.new]

theorem covered_pair_saveable : saveable covered_pair := by
  refine ⟨by decide, by simp [covered_pair], ?_⟩
  intro i nd hnd
  have hi : i < 2 := by
    by_contra hcon
    have : covered_pair.nodes[i]? = none :=
      List.getElem?_eq_none (by simp [covered_pair]; omega)
    simp [KmerGraph.node_at, this] at hnd
  interval_cases i <;> simp [KmerGraph.node_at, covered_pair] at hnd <;> subst hnd <;>
    simp [KmerNode.new, covered_pair]

/-- C11 (amended): for a graph that `save` can write and `load` can read back,
`save` followed by `load` into a fresh graph succeeds and gives a graph of the
same size in which the node at every position has the id, the Path and the tag
`num_AT` of the original node at that position. -/
theorem save_load_keeps_labels {P : Type} (plen : P → Nat) (g : KmerGraph P)
    (hs : saveable g) :
    ∃ (lines : List (Line P)) (g2 : KmerGraph P), save g = some lines
      ∧ load plen (KmerGraph.init P) lines = some g2
      ∧ g2.nodes.length = g.nodes.length
      ∧ ∀ (i : Nat) (nd : KmerNode P), g.node_at i = some nd →
          ∃ nd2 : KmerNode P, g2.node_at i = some nd2 ∧ nd2.id = nd.id ∧ nd2.path = nd.path
            ∧ nd2.num_AT = nd.num_AT := by
  obtain ⟨lines, g2, h1, h2, h3, h4⟩ := load_of_save_nodes plen g hs
  refine ⟨lines, g2, h1, h2, h3, ?_⟩
  intro i nd hnd
  obtain ⟨nd2, ha, hb, hc, hd, _⟩ := h4 i nd hnd
  exact ⟨nd2, ha, hb, hc, hd⟩

theorem save_load_keeps_labels_witness :
    saveable covered_pair
      ∧ ∃ (lines : List (Line Nat)) (g2 : KmerGraph Nat), save covered_pair = some lines
        ∧ load (fun _ => 1) (KmerGraph.init Nat) lines = some g2
        ∧ g2.nodes.length = covered_pair.nodes.length
        ∧ ∀ (i : Nat) (nd : KmerNode Nat), covered_pair.node_at i = some nd →
            ∃ nd2 : KmerNode Nat, g2.node_at i = some nd2 ∧ nd2.id = nd.id
              ∧ nd2.path = nd.path ∧ nd2.num_AT = nd.num_AT :=
  ⟨covered_pair_saveable, save_load_keeps_labels (fun _ => 1) covered_pair covered_pair_saveable⟩

/-- C11 (counterexample): the graph `covered_pair` is saved and loaded into a
fresh graph.  Node 0 had the coverage counters `(3, 5)` and comes back with
`(5, 0)`; node 1 had `(1, 0)` and comes back with `(0, 0)`. -/
theorem coverage_is_not_restored :
    (save covered_pair).bind (load (fun _ => 1) (KmerGraph.init Nat))
        = some { covered_pair with
            store := [{ KmerNode.new 0 3 with covg0 := 5, covg1 := 0, num_AT := 2,
                                              outNodes := [1] },
                      { KmerNode.new 1 5 with covg0 := 0, inNodes := [0] }] }
      ∧ (covered_pair.node_at 0).map (fun n => (n.covg0, n.covg1)) = some (3, 5)
      ∧ (covered_pair.node_at 1).map (fun n => (n.covg0, n.covg1)) = some (1, 0) := by
  decide

/-! ## C12 -/

/-- C12 (failing input): on the chain `covered_sink` the loop of `discover_p`
visits the positions `2` and `1`, so the total `5` of the sink is averaged with
the total `9` of the interior node and `p` becomes `7/41`; the reference
definition averages the interior node alone and gives `9/41`. -/
theorem discover_p_counts_the_sink :
    discover_p sample_ops covered_sink (5108 / 10000)
        = some { covered_sink with p := 7 / 41 }
      ∧ discover_p_reference sample_ops covered_sink (5108 / 10000) = 9 / 41
      ∧ kmer_covgs covered_sink (covered_sink.nodes.length - 1) = some [5, 9]
      ∧ interior_totals covered_sink = [9] := by
  have h1 : kmer_covgs covered_sink (covered_sink.nodes.length - 1) = some [5, 9] := by decide
  have h2 : interior_totals covered_sink = [9] := by decide
  refine ⟨?_, ?_, h1, h2⟩
  · unfold discover_p
    rw [h1]
    norm_num [covered_sink]
  · unfold discover_p_reference
    rw [h2]
    norm_num [covered_sink]

theorem kmer_covgs_eq {P : Type} (g : KmerGraph P) (j : Nat)
    (hv : ∀ i : Nat, i ≤ j → ∃ n : KmerNode P, g.node_at i = some n) :
    kmer_covgs g j = some
      ((((List.range (j + 1)).tail.filterMap (fun i => g.node_at i)).map
        total_covg).filter (fun c => 4 < c)).reverse := by
  induction j with
  | zero => rfl
  | succ m ih =>
    obtain ⟨n, hn⟩ := hv (m + 1) (le_refl _)
    have hrange : (List.range (m + 1 + 1)).tail = (List.range (m + 1)).tail ++ [m + 1] := by
      rw [List.range_succ, List.tail_append_of_ne_nil]
      simp
    rw [hrange]
    simp only [kmer_covgs, hn, ih (fun i hi => hv i (by omega)), List.filterMap_append,
      List.filterMap_cons, List.filterMap_nil, List.map_append, List.map_cons, List.map_nil,
      List.filter_append, List.reverse_append]
    by_cases h4 : 4 < total_covg n
    · simp [h4]
    · simp [h4]

/-- Apart from the sink the code follows the reference definition: when the
total coverage of the sink does not exceed 4 (and `exp(-x)` is `1/exp(x)`),
`discover_p` sets `p` to the value of the reference definition. -/
theorem discover_p_matches_reference {P : Type} (F : FloatOps) (g : KmerGraph P) (e_rate : ℚ)
    (h2 : 2 ≤ g.nodes.length)
    (hv : ∀ i : Nat, i < g.nodes.length → ∃ n : KmerNode P, g.node_at i = some n)
    (hsink : ∀ n : KmerNode P, g.node_at (g.nodes.length - 1) = some n → total_covg n ≤ 4)
    (hexp : F.exp (-(e_rate * (g.k : ℚ))) = 1 / F.exp (e_rate * (g.k : ℚ))) :
    discover_p F g e_rate = some { g with p := discover_p_reference F g e_rate } := by
  unfold discover_p discover_p_reference
  by_cases hr : 40 < g.num_reads
  · have hne : g.nodes.length ≠ 0 := by omega
    obtain ⟨n, hn⟩ := hv (g.nodes.length - 1) (by omega)
    have hs := hsink n hn
    have hsplit : g.nodes.length - 1 = (g.nodes.length - 2) + 1 := by omega
    have hk : kmer_covgs g (g.nodes.length - 1) = some (interior_totals g).reverse := by
      rw [hsplit]
      have hn2 : g.node_at (g.nodes.length - 2 + 1) = some n := by rw [← hsplit]; exact hn
      have hrest := kmer_covgs_eq g (g.nodes.length - 2) (fun i hi => hv i (by omega))
      simp only [kmer_covgs, hn2, hrest]
      rw [if_neg (by omega)]
      unfold interior_totals
      rw [hsplit]
    simp only [if_pos hr, if_neg hne, hk, List.length_reverse, List.sum_reverse]
    by_cases hq : interior_totals g = []
    · simp [hq, hexp]
    · have hl : (interior_totals g).length ≠ 0 := by
        intro h
        exact hq (List.length_eq_zero.mp h)
      rw [if_neg hl, if_pos ⟨hr, hq⟩]
  · simp only [if_neg hr]
    rw [if_neg (fun h => hr h.1), hexp]

/-! ## C13 -/

theorem longest_step_spec {P : Type} (g : KmerGraph P) (j : Nat) (outs : List Nat) :
    ∀ len : Nat → Nat,
      (∀ a ∈ outs, ∃ na : KmerNode P, g.store[a]? = some na ∧ j < na.id
        ∧ na.id < g.nodes.length) →
      ∃ r : Nat → Nat, longest_step g j len outs = some r
        ∧ (∀ i, i ≠ j → r i = len i)
        ∧ len j ≤ r j
        ∧ (∀ a ∈ outs, ∀ na : KmerNode P, g.store[a]? = some na → len na.id + 1 ≤ r j)
        ∧ (r j = len j ∨ ∃ a ∈ outs, ∃ na : KmerNode P,
            g.store[a]? = some na ∧ r j = len na.id + 1) := by
  induction outs with
  | nil =>
    intro len _
    exact ⟨len, rfl, fun _ _ => rfl, le_refl _, fun a ha => by simp at ha, Or.inl rfl⟩
  | cons a rest ih =>
    intro len hv
    obtain ⟨na, hna, hlt, hin⟩ := hv a (List.mem_cons_self _ _)
    have hne : na.id ≠ j := by omega
    obtain ⟨len1, hlen1⟩ : ∃ len1 : Nat → Nat, len1 =
        (if len j < len na.id + 1 then Function.update len j (len na.id + 1) else len) :=
      ⟨_, rfl⟩
    have hother : ∀ i, i ≠ j → len1 i = len i := by
      intro i hi
      rw [hlen1]
      split
      · exact Function.update_noteq hi _ _
      · rfl
    have hj1 : len j ≤ len1 j ∧ len na.id + 1 ≤ len1 j
        ∧ (len1 j = len j ∨ len1 j = len na.id + 1) := by
      rw [hlen1]
      by_cases hc : len j < len na.id + 1
      · rw [if_pos hc, Function.update_same]
        exact ⟨by omega, le_refl _, Or.inr rfl⟩
      · rw [if_neg hc]
        exact ⟨le_refl _, by omega, Or.inl rfl⟩
    obtain ⟨r, hr, hfr, hle, hall, hex⟩ :=
      ih len1 (fun b hb => hv b (List.mem_cons_of_mem _ hb))
    refine ⟨r, ?_, ?_, ?_, ?_, ?_⟩
    · simp only [longest_step, hna]
      rw [if_pos hin, ← hlen1]
      exact hr
    · intro i hi
      rw [hfr i hi, hother i hi]
    · exact le_trans hj1.1 hle
    · intro b hb nb hnb
      rcases List.mem_cons.mp hb with hba | hbr
      · rw [hba, hna] at hnb
        cases hnb
        exact le_trans hj1.2.1 hle
      · have h1 := hall b hbr nb hnb
        obtain ⟨nb2, hnb2, hltb, _⟩ := hv b hb
        have e : nb2 = nb := Option.some.inj (hnb2.symm.trans hnb)
        rw [e] at hltb
        have : nb.id ≠ j := by omega
        rw [hother nb.id this] at h1
        exact h1
    · rcases hex with h | ⟨b, hb, nb, hnb, h⟩
      · rcases hj1.2.2 with h2 | h2
        · left; rw [h, h2]
        · right
          exact ⟨a, List.mem_cons_self _ _, na, hna, by rw [h, h2]⟩
      · right
        obtain ⟨nb2, hnb2, hltb, _⟩ := hv b (List.mem_cons_of_mem _ hb)
        have e : nb2 = nb := Option.some.inj (hnb2.symm.trans hnb)
        rw [e] at hltb
        have : nb.id ≠ j := by omega
        exact ⟨b, List.mem_cons_of_mem _ hb, nb, hnb, by rw [h, hother nb.id this]⟩

theorem sorted_node_at {P : Type} (g : KmerGraph P) (hs : sorted_graph g) (j : Nat)
    (hj : j < g.nodes.length) : ∃ nd : KmerNode P, g.node_at j = some nd ∧ nd.id = j := by
  have h := hs.1 j hj
  cases hn : g.node_at j with
  | none => rw [hn] at h; simp at h
  | some nd =>
    rw [hn] at h
    simp only [Option.map_some', Option.some.injEq] at h
    exact ⟨nd, rfl, h⟩

/-- The table of `min_path_length` after the sweep over the nodes below `n`:
entries from `n` on are untouched; below `n` every entry bounds the entry of
each successor plus one and is attained by a successor unless it is zero. -/
theorem path_length_sweep_spec {P : Type} (g : KmerGraph P) (hs : sorted_graph g) (n : Nat) :
    ∀ len : Nat → Nat, n ≤ g.nodes.length → (∀ i, i < n → len i = 0) →
      ∃ r : Nat → Nat, path_length_sweep g n len = some r
        ∧ (∀ i, n ≤ i → r i = len i)
        ∧ (∀ j, j < n → ∀ v, edge_between g j v → r v + 1 ≤ r j)
        ∧ (∀ j, j < n → r j = 0 ∨ ∃ v, edge_between g j v ∧ r j = r v + 1) := by
  induction n with
  | zero =>
    intro len _ _
    exact ⟨len, rfl, fun _ _ => rfl, fun j hj => by omega, fun j hj => by omega⟩
  | succ m ih =>
    intro len hm hz
    obtain ⟨nd, hnd, _⟩ := sorted_node_at g hs m (by omega)
    obtain ⟨len1, hl1, hf1, _, hall1, hex1⟩ :=
      longest_step_spec g m nd.outNodes len (fun a ha => hs.2 m nd hnd a ha)
    have hz1 : ∀ i, i < m → len1 i = 0 := by
      intro i hi
      rw [hf1 i (by omega)]
      exact hz i (by omega)
    obtain ⟨r, hr, hfr, hbound, hatt⟩ := ih len1 (by omega) hz1
    have hsucc : ∀ v, edge_between g m v → m < v := by
      rintro v ⟨nd2, a, na, hnd2, ha, hna, hid⟩
      rw [hnd] at hnd2
      cases hnd2
      obtain ⟨na2, hna2, hlt, _⟩ := hs.2 m nd hnd a ha
      rw [hna] at hna2
      cases hna2
      omega
    refine ⟨r, ?_, ?_, ?_, ?_⟩
    · simp only [path_length_sweep, hnd, hl1]
      exact hr
    · intro i hi
      rw [hfr i (by omega), hf1 i (by omega)]
    · intro j hj v hv
      by_cases hjm : j = m
      · subst hjm
        obtain ⟨nd2, a, na, hnd2, ha, hna, hid⟩ := hv
        rw [hnd] at hnd2
        cases hnd2
        have hv1 := hall1 a ha na hna
        have hlt := hsucc v ⟨nd, a, na, hnd, ha, hna, hid⟩
        rw [hfr j (le_refl _), hfr v (by omega), hf1 v (by omega), ← hid]
        exact hv1
      · exact hbound j (by omega) v hv
    · intro j hj
      by_cases hjm : j = m
      · subst hjm
        rw [hfr j (le_refl _)]
        rcases hex1 with h | ⟨a, ha, na, hna, h⟩
        · left
          rw [h]
          exact hz j (by omega)
        · right
          have hlt := hsucc na.id ⟨nd, a, na, hnd, ha, hna, rfl⟩
          refine ⟨na.id, ⟨nd, a, na, hnd, ha, hna, rfl⟩, ?_⟩
          rw [h, hfr na.id (by omega), hf1 na.id (by omega)]
      · exact hatt j (by omega)

theorem edge_between_in_range {P : Type} (g : KmerGraph P) (hs : sorted_graph g) (u v : Nat)
    (h : edge_between g u v) : u < v ∧ v < g.nodes.length := by
  obtain ⟨nd, a, na, hnd, ha, hna, hid⟩ := h
  obtain ⟨na2, hna2, hlt, hin⟩ := hs.2 u nd hnd a ha
  rw [hna] at hna2
  cases hna2
  omega

/-- A table that bounds every successor entry plus one bounds the number of
edges of every path. -/
theorem walk_le_table {P : Type} (g : KmerGraph P) (r : Nat → Nat)
    (hb : ∀ j v, edge_between g j v → r v + 1 ≤ r j) :
    ∀ (w : List Nat) (j : Nat), is_walk g (j :: w) → w.length ≤ r j := by
  intro w
  induction w with
  | nil => intro j _; exact Nat.zero_le _
  | cons v rest ih =>
    intro j hw
    unfold is_walk at hw
    rw [List.chain'_cons] at hw
    have h1 := ih v hw.2
    have h2 := hb j v hw.1
    simp only [List.length_cons]
    omega

/-- A table whose non-zero entries are attained by a successor is realised by
a path from every node. -/
theorem table_attained {P : Type} (g : KmerGraph P) (r : Nat → Nat)
    (ha : ∀ j, r j = 0 ∨ ∃ v, edge_between g j v ∧ r j = r v + 1) :
    ∀ (n j : Nat), r j = n → ∃ w : List Nat, is_walk g (j :: w) ∧ w.length = n := by
  intro n
  induction n with
  | zero =>
    intro j _
    exact ⟨[], List.chain'_singleton j, rfl⟩
  | succ m ih =>
    intro j hj
    rcases ha j with h0 | ⟨v, hv, hr⟩
    · omega
    · obtain ⟨w, hw, hl⟩ := ih v (by omega)
      refine ⟨v :: w, ?_, by simp [hl]⟩
      unfold is_walk at hw ⊢
      rw [List.chain'_cons]
      exact ⟨hv, hw⟩

/-- C13: on a non-empty sorted graph whose cache `shortest_path_length` is `0`,
`min_path_length` returns a value `r` and stores it in `shortest_path_length`;
some path from node `0` along out-edges has `r` edges and no such path has
more, so `r` is the maximum and not the minimum. -/
theorem min_path_length_is_longest {P : Type} (g : KmerGraph P) (hs : sorted_graph g)
    (hne : g.nodes.length ≠ 0) (hc : g.shortest_path_length = 0) :
    ∃ r : Nat, min_path_length g = some (r, { g with shortest_path_length := r })
      ∧ (∃ w : List Nat, is_walk g (0 :: w) ∧ w.length = r)
      ∧ (∀ w : List Nat, is_walk g (0 :: w) → w.length ≤ r) := by
  obtain ⟨r, hr, hfr, hbound, hatt⟩ :=
    path_length_sweep_spec g hs (g.nodes.length - 1) (fun _ => 0) (by omega) (fun _ _ => rfl)
  have hb : ∀ j v, edge_between g j v → r v + 1 ≤ r j := by
    intro j v hv
    have hrange := edge_between_in_range g hs j v hv
    exact hbound j (by omega) v hv
  have ha : ∀ j, r j = 0 ∨ ∃ v, edge_between g j v ∧ r j = r v + 1 := by
    intro j
    by_cases hj : j < g.nodes.length - 1
    · exact hatt j hj
    · left
      rw [hfr j (by omega)]
  refine ⟨r 0, ?_, table_attained g r ha (r 0) 0 rfl, fun w hw => walk_le_table g r hb w 0 hw⟩
  unfold min_path_length
  rw [if_neg (by omega), if_neg hne]
  simp only [hr]

theorem min_path_length_is_longest_witness :
    sorted_graph branch4 ∧ branch4.nodes.length ≠ 0 ∧ branch4.shortest_path_length = 0
      ∧ ∃ r : Nat, min_path_length branch4 = some (r, { branch4 with shortest_path_length := r })
        ∧ (∃ w : List Nat, is_walk branch4 (0 :: w) ∧ w.length = r)
        ∧ (∀ w : List Nat, is_walk branch4 (0 :: w) → w.length ≤ r) :=
  have hs : sorted_graph branch4 := by
    refine ⟨by decide, ?_⟩
    intro j nd hnd a ha
    have hj : j < 4 := by
      by_contra hcon
      have : branch4.nodes[j]? = none := List.getElem?_eq_none (by simp [branch4]; omega)
      simp [KmerGraph.node_at, this] at hnd
    interval_cases j <;> simp [KmerGraph.node_at, branch4] at hnd <;> subst hnd <;>
      simp [KmerNode.new] at ha <;> rcases ha with rfl | rfl <;> simp [branch4, KmerNode.new]
  ⟨hs, by decide, rfl, min_path_length_is_longest branch4 hs (by decide) rfl⟩

theorem branch4_longest :
    min_path_length branch4 = some (3, { branch4 with shortest_path_length := 3 }) := by
  decide

/-! ## C14 -/

/-- C14: `min_path_length` is memoized.  A call that returned `r` and left the
graph `g1` is followed, on `g1`, by a call that returns `r` again and leaves
`g1` as it is; and whenever the field `shortest_path_length` is positive the
call returns that field and the unchanged graph, whatever the nodes and edges
of the graph are. -/
theorem min_path_length_memoized {P : Type} (g : KmerGraph P) :
    (∀ (r : Nat) (g1 : KmerGraph P), min_path_length g = some (r, g1) →
        min_path_length g1 = some (r, g1))
      ∧ (0 < g.shortest_path_length →
          min_path_length g = some (g.shortest_path_length, g)) := by
  have hcached : ∀ h : KmerGraph P, 0 < h.shortest_path_length →
      min_path_length h = some (h.shortest_path_length, h) := by
    intro h hpos
    unfold min_path_length
    rw [if_pos hpos]
  refine ⟨?_, hcached g⟩
  intro r g1 h
  by_cases hc : 0 < g.shortest_path_length
  · rw [hcached g hc] at h
    simp only [Option.some.injEq, Prod.mk.injEq] at h
    rw [← h.1, ← h.2]
    exact hcached g hc
  · have h0 : min_path_length g = some (r, g1) := h
    unfold min_path_length at h
    rw [if_neg hc] at h
    by_cases hn : g.nodes.length = 0
    · rw [if_pos hn] at h; simp at h
    · rw [if_neg hn] at h
      cases hsw : path_length_sweep g (g.nodes.length - 1) (fun _ => 0) with
      | none => simp [hsw] at h
      | some len =>
        simp only [hsw, Option.some.injEq, Prod.mk.injEq] at h
        by_cases hr : 0 < r
        · have h1 : g1.shortest_path_length = r := by
            rw [← h.2]; exact h.1
          have := hcached g1 (by omega)
          rw [h1] at this
          exact this
        · have hg : g1 = g := by
            rw [← h.2]
            have hz : len 0 = 0 := by omega
            have hs : g.shortest_path_length = 0 := by omega
            rw [hz, ← hs]
          rw [hg]
          rw [hg] at h0
          exact h0

theorem min_path_length_memoized_witness :
    min_path_length branch4 = some (3, { branch4 with shortest_path_length := 3 })
      ∧ min_path_length { branch4 with shortest_path_length := 3 }
          = some (3, { branch4 with shortest_path_length := 3 })
      ∧ min_path_length { branch4 with shortest_path_length := 7 }
          = some (7, { branch4 with shortest_path_length := 7 }) :=
  ⟨by decide,
   (min_path_length_memoized branch4).1 3 { branch4 with shortest_path_length := 3 } (by decide),
   (min_path_length_memoized { branch4 with shortest_path_length := 7 }).2 (by decide)⟩

/-! ## C15 -/

theorem set_set_map {α β : Type} (f : α → β) (l : List α) (i j : Nat) (x y xi yj : α)
    (h1 : l[i]? = some xi) (hx : f x = f xi) (h2 : (l.set i x)[j]? = some yj)
    (hy : f y = f yj) : ((l.set i x).set j y).map f = l.map f := by
  apply List.ext_getElem?
  intro m
  simp only [List.getElem?_map, List.getElem?_set]
  by_cases hjm : j = m
  · subst hjm
    have hlen : j < (l.set i x).length := by
      rcases List.getElem?_eq_some_iff.mp h2 with ⟨hlt, _⟩
      exact hlt
    rw [if_pos rfl, if_pos hlen]
    rw [List.getElem?_set] at h2
    by_cases hij : i = j
    · subst hij
      have hil : i < l.length := by simpa using hlen
      rw [if_pos rfl, if_pos hil] at h2
      rw [h1]
      simp only [Option.map_some', Option.some.injEq] at h2 ⊢
      rw [hy, ← h2, hx]
    · rw [if_neg hij] at h2
      rw [h2]
      simp [hy]
  · rw [if_neg hjm]
    by_cases him : i = m
    · subst him
      by_cases hil : i < l.length
      · rw [if_pos rfl, if_pos hil, h1]
        simp [hx]
      · rw [if_pos rfl, if_neg hil]
        have : l[i]? = none := List.getElem?_eq_none (Nat.le_of_not_lt hil)
        rw [this]
    · rw [if_neg him]

theorem push_edge_frame {P : Type} (g g1 : KmerGraph P) (f t : Nat)
    (h : push_edge g f t = some g1) :
    g1.nodes = g.nodes ∧ g1.next_id = g.next_id ∧ g1.k = g.k
      ∧ g1.num_reads = g.num_reads ∧ g1.shortest_path_length = g.shortest_path_length
      ∧ g1.store.map KmerNode.id = g.store.map KmerNode.id
      ∧ g1.store.map KmerNode.path = g.store.map KmerNode.path := by
  unfold push_edge at h
  cases hf : g.store[f]? with
  | none => simp [hf] at h
  | some nf =>
    simp only [hf] at h
    by_cases hmem : t ∈ nf.outNodes
    · rw [if_pos hmem] at h
      cases h
      exact ⟨rfl, rfl, rfl, rfl, rfl, rfl, rfl⟩
    · rw [if_neg hmem] at h
      cases ht : (g.store.set f { nf with outNodes := nf.outNodes ++ [t] })[t]? with
      | none => simp [ht] at h
      | some nt =>
        simp only [ht, Option.some.injEq] at h
        subst h
        refine ⟨rfl, rfl, rfl, rfl, rfl, ?_, ?_⟩
        · exact set_set_map KmerNode.id g.store f t _ _ nf nt hf rfl ht rfl
        · exact set_set_map KmerNode.path g.store f t _ _ nf nt hf rfl ht rfl

theorem built_path_lengths {P : Type} [LinearOrder P] (plen : P → Nat) (g : KmerGraph P)
    (hb : Built plen g) :
    ∀ (a : Nat) (n : KmerNode P), g.store[a]? = some n →
      plen n.path = 0 ∨ plen n.path = g.k := by
  have key : ∀ (g g1 : KmerGraph P) (f t : Nat), push_edge g f t = some g1 →
      (∀ (a : Nat) (n : KmerNode P), g.store[a]? = some n →
        plen n.path = 0 ∨ plen n.path = g.k) →
      ∀ (a : Nat) (n : KmerNode P), g1.store[a]? = some n →
        plen n.path = 0 ∨ plen n.path = g1.k := by
    intro g g1 f t hp ih a n hn
    obtain ⟨_, _, hk, _, _, _, hpath⟩ := push_edge_frame g g1 f t hp
    have h1 : (g1.store.map KmerNode.path)[a]? = some n.path := by
      rw [List.getElem?_map, hn]; rfl
    rw [hpath, List.getElem?_map] at h1
    cases hm : g.store[a]? with
    | none => rw [hm] at h1; simp at h1
    | some m =>
      rw [hm] at h1
      simp only [Option.map_some', Option.some.injEq] at h1
      rw [hk, ← h1]
      exact ih a m hm
  induction hb with
  | init => intro a n hn; simp [KmerGraph.init] at hn
  | add_node g g1 p n _ h ih =>
    unfold add_node at h
    cases hfi : find_if g.store (pointer_values_equal (KmerNode.new g.next_id p)) g.nodes with
    | none => simp [hfi] at h
    | some r =>
      cases r with
      | some a =>
        simp only [hfi, Option.some.injEq, Prod.mk.injEq] at h
        rw [← h.1]; exact ih
      | none =>
        simp only [hfi] at h
        by_cases hc : g.k = 0 ∨ plen p = 0 ∨ plen p = g.k
        · rw [if_pos hc] at h
          simp only [Option.some.injEq, Prod.mk.injEq] at h
          rw [← h.1]
          intro a m hm
          simp only at hm ⊢
          by_cases hal : a < g.store.length
          · rw [List.getElem?_append_left hal] at hm
            rcases ih a m hm with h0 | hk
            · exact Or.inl h0
            · by_cases hk0 : g.k = 0
              · left; rw [hk, hk0]
              · right; rw [hk]; simp [hk0]
          · rw [List.getElem?_append_right (Nat.le_of_not_lt hal)] at hm
            have hm2 : m = KmerNode.new g.next_id p := by
              cases hd : a - g.store.length with
              | zero => rw [hd] at hm; simpa using hm.symm
              | succ d => rw [hd] at hm; simp at hm
            rw [hm2]
            simp only [KmerNode.new]
            by_cases hk0 : g.k = 0
            · by_cases hp0 : 0 < plen p
              · right; simp [hk0, hp0]
              · left; omega
            · rcases hc with h1 | h1 | h1
              · exact absurd h1 hk0
              · exact Or.inl h1
              · right; rw [h1]; simp [hk0]
        · rw [if_neg hc] at h; simp at h
  | add_edge g g1 f t _ h ih =>
    obtain ⟨a, b, _, _, _, _, _, _, _, hpush⟩ := add_edge_unfold g g1 f t h
    exact key g g1 a b hpush ih
  | add_edge_nodes g g1 a b _ h ih =>
    obtain ⟨_, _, _, _, _, hpush⟩ := add_edge_nodes_unfold g g1 a b h
    exact key g g1 a b hpush ih

/-- C15 (amended): in every graph built by successful `add_node` and `add_edge`
calls each stored Path has length `0` or length `k`; once `k > 0`, `add_node` of
a Path that is not stored and whose length is neither `0` nor `k` fails its
assertion, and a successful `add_node` leaves `k` as it is. -/
theorem stored_path_lengths {P : Type} [LinearOrder P] (plen : P → Nat) (g : KmerGraph P)
    (hb : Built plen g) :
    (∀ (a : Nat) (n : KmerNode P), g.store[a]? = some n →
        plen n.path = 0 ∨ plen n.path = g.k)
      ∧ (∀ p : P, 0 < g.k →
          find_if g.store (pointer_values_equal (KmerNode.new g.next_id p)) g.nodes = some none →
          plen p ≠ 0 → plen p ≠ g.k → add_node plen g p = none)
      ∧ (∀ (p : P) (g1 : KmerGraph P) (n : Nat), 0 < g.k →
          add_node plen g p = some (g1, n) → g1.k = g.k) := by
  refine ⟨built_path_lengths plen g hb, ?_, ?_⟩
  · intro p hk hfi h0 hne
    unfold add_node
    simp only [hfi]
    rw [if_neg]
    rintro (h | h | h)
    · omega
    · exact h0 h
    · exact hne h
  · intro p g1 n hk h
    unfold add_node at h
    cases hfi : find_if g.store (pointer_values_equal (KmerNode.new g.next_id p)) g.nodes with
    | none => simp [hfi] at h
    | some r =>
      cases r with
      | some a =>
        simp only [hfi, Option.some.injEq, Prod.mk.injEq] at h
        rw [← h.1]
      | none =>
        simp only [hfi] at h
        by_cases hc : g.k = 0 ∨ plen p = 0 ∨ plen p = g.k
        · rw [if_pos hc] at h
          simp only [Option.some.injEq, Prod.mk.injEq] at h
          rw [← h.1]
          simp only
          rw [if_neg]
          omega
        · rw [if_neg hc] at h; simp at h

theorem stored_path_lengths_witness :
    Built (fun p : Nat => p) one_kmer
      ∧ ((∀ (a : Nat) (n : KmerNode Nat), one_kmer.store[a]? = some n →
            (fun p : Nat => p) n.path = 0 ∨ (fun p : Nat => p) n.path = one_kmer.k)
        ∧ (∀ p : Nat, 0 < one_kmer.k →
            find_if one_kmer.store (pointer_values_equal (KmerNode.new one_kmer.next_id p))
              one_kmer.nodes = some none →
            (fun p : Nat => p) p ≠ 0 → (fun p : Nat => p) p ≠ one_kmer.k →
            add_node (fun p : Nat => p) one_kmer p = none)
        ∧ (∀ (p : Nat) (g1 : KmerGraph Nat) (n : Nat), 0 < one_kmer.k →
            add_node (fun p : Nat => p) one_kmer p = some (g1, n) → g1.k = one_kmer.k)) :=
  have hb : Built (fun p : Nat => p) one_kmer :=
    Built.add_node (KmerGraph.init Nat) one_kmer 3 0 Built.init (by decide)
  ⟨hb, stored_path_lengths (fun p : Nat => p) one_kmer hb⟩

/-- C15 (counterexample): with `k = 3` fixed and the Path of length `3` stored,
`add_node` of the not-yet-stored Path of length `0` succeeds and stores it, so
the graph then holds a Path whose length differs from `k`. -/
theorem zero_length_path_is_stored :
    add_node (fun p : Nat => p) (KmerGraph.init Nat) 3 = some (one_kmer, 0)
      ∧ add_node (fun p : Nat => p) one_kmer 0
          = some ({ one_kmer with store := [KmerNode.new 0 3, KmerNode.new 1 0],
                                  nodes := [0, 1], next_id := 2 }, 1)
      ∧ one_kmer.k = 3 ∧ (fun p : Nat => p) 0 ≠ one_kmer.k := by
  decide

/-! ## The extraction loop -/

theorem follow_at_sink (prev : Nat → Nat) (size fuel v : Nat) (h : ¬ v < size - 1) :
    follow prev size fuel v = [] := by
  cases fuel with
  | zero => rfl
  | succ f => simp only [follow, if_neg h]

theorem extract_path_follow {P : Type} (g : KmerGraph P) (prev : Nat → Nat)
    (hprev : ∀ j : Nat, j < g.nodes.length - 1 → j < prev j ∧ prev j ≤ g.nodes.length - 1) :
    ∀ (fuel v : Nat) (acc : List Nat), v ≤ g.nodes.length - 1 →
      g.nodes.length - 1 - v ≤ fuel →
      ∃ ptrs : List Nat, extract_path g prev fuel v acc = some (acc ++ ptrs)
        ∧ List.Forall₂ (fun a i => g.nodes[i]? = some a) ptrs
            (follow prev g.nodes.length fuel v) := by
  intro fuel
  induction fuel with
  | zero =>
    intro v acc hv hf
    have hnot : ¬ v < g.nodes.length - 1 := by omega
    refine ⟨[], ?_, ?_⟩
    · unfold extract_path
      rw [if_neg hnot]
      simp
    · simp only [follow]
      exact List.Forall₂.nil
  | succ f ih =>
    intro v acc hv hf
    by_cases hlt : v < g.nodes.length - 1
    · have hvl : v < g.nodes.length := by omega
      obtain ⟨h1, h2⟩ := hprev v hlt
      obtain ⟨ptrs, hp, hall⟩ := ih (prev v) (acc ++ [g.nodes[v]]) h2 (by omega)
      refine ⟨g.nodes[v] :: ptrs, ?_, ?_⟩
      · unfold extract_path
        rw [if_pos hlt]
        simp only [List.getElem?_eq_getElem hvl]
        rw [hp]
        simp
      · simp only [follow, if_pos hlt]
        exact List.Forall₂.cons (List.getElem?_eq_getElem hvl) hall
    · refine ⟨[], ?_, ?_⟩
      · unfold extract_path
        rw [if_neg hlt]
        simp
      · rw [follow_at_sink prev _ _ v hlt]
        exact List.Forall₂.nil

theorem follow_chain {P : Type} (g : KmerGraph P) (prev : Nat → Nat)
    (hprev : ∀ j : Nat, j < g.nodes.length - 1 →
      j < prev j ∧ prev j ≤ g.nodes.length - 1 ∧ edge_between g j (prev j)) :
    ∀ (fuel u : Nat), u < g.nodes.length - 1 → g.nodes.length - 1 - prev u ≤ fuel →
      List.Chain (fun x y => x < y ∧ edge_between g x y) u
        (follow prev g.nodes.length fuel (prev u) ++ [g.nodes.length - 1]) := by
  intro fuel
  induction fuel with
  | zero =>
    intro u hu hf
    obtain ⟨h1, h2, h3⟩ := hprev u hu
    have he : prev u = g.nodes.length - 1 := by omega
    simp only [follow, List.nil_append]
    exact List.Chain.cons ⟨by omega, by rw [← he]; exact h3⟩ List.Chain.nil
  | succ f ih =>
    intro u hu hf
    obtain ⟨h1, h2, h3⟩ := hprev u hu
    by_cases hlt : prev u < g.nodes.length - 1
    · simp only [follow, if_pos hlt, List.cons_append]
      obtain ⟨h4, _, _⟩ := hprev (prev u) hlt
      exact List.Chain.cons ⟨h1, h3⟩ (ih (prev u) hlt (by omega))
    · have he : prev u = g.nodes.length - 1 := by omega
      rw [follow_at_sink prev _ _ _ hlt]
      simp only [List.nil_append]
      exact List.Chain.cons ⟨by omega, by rw [← he]; exact h3⟩ List.Chain.nil

theorem check_forward_edges {P : Type} [LinearOrder P] (g : KmerGraph P)
    (hid : ids_are_positions g) (hchk : (check g 0).isSome = true) (hdec : decodable g) :
    forward_edges g := by
  have hcn : check_nodes g g.nodes = some () := by
    unfold check at hchk
    split at hchk
    · cases hchk
    · cases h2 : check_nodes g g.nodes with
      | none => simp [h2] at hchk
      | some u => cases u; rfl
  intro j hj
  obtain ⟨nd, hnd, hin⟩ := hdec.2 j hj
  refine ⟨nd, hnd, ?_, ?_⟩
  · obtain ⟨c, hc, hs⟩ := node_at_some g j nd hnd
    obtain ⟨nd2, hs2, _, hid2⟩ := node_at_of_ids g hid j c hc
    have e : nd2 = nd := Option.some.inj (hs2.symm.trans hs)
    rw [e] at hid2
    obtain ⟨nc, hnc, _, hout, _⟩ := (check_nodes_iff g g.nodes).mp hcn c (List.getElem?_mem hc)
    have e2 : nc = nd := Option.some.inj (hnc.symm.trans hs)
    rw [e2] at hout
    rcases hout with h | h
    · intro hnil
      rw [hnil] at h
      simp at h
    · omega
  · intro a ha
    obtain ⟨na, hna, hlt, _⟩ := check_forward g 0 hid hchk j nd hnd a ha
    obtain ⟨na2, hna2, hin2⟩ := hin a ha
    have e : na2 = na := Option.some.inj (hna2.symm.trans hna)
    rw [e] at hin2
    exact ⟨na, hna, hlt, hin2⟩

theorem chain5_decodable : decodable chain5 := by
  refine ⟨by decide, ?_⟩
  intro j hj
  have hj4 : j < 4 := hj
  interval_cases j
  · exact ⟨_, rfl, by simp [chain5, KmerNode.new]⟩
  · exact ⟨_, rfl, by simp [chain5, KmerNode.new]⟩
  · exact ⟨_, rfl, by simp [chain5, KmerNode.new]⟩
  · exact ⟨_, rfl, by simp [chain5, KmerNode.new]⟩

/-! ## C17: the counterexample, in exact arithmetic -/

/-- C17 (counterexample): the chain `bare_chain` passes `check(0)`.  With error
rate `0` the parameter `p` is `1` and `prob` of the interior nodes is `log(0)`,
not a float.  Node 2 takes its edge to the sink, the nodes 1 and 0 take no edge,
so `prev[0]` stays the sink: `maxpath` stays empty, `len[0]` is `0` and not
`|maxpath| + 1`, and the returned quotient is `0.0/0`. -/
theorem no_path_when_prob_is_not_finite :
    (check bare_chain 0).isSome = true ∧ ids_are_positions bare_chain
      ∧ prob log_zero_ops bare_chain 1 = some (2 * float_lowest)
      ∧ prob log_zero_ops bare_chain 2 = some (2 * float_lowest)
      ∧ (max_path_tables log_zero_ops bare_chain).map (fun s => (s.prev 0, s.len 0))
          = some (3, 0)
      ∧ find_max_path log_zero_ops bare_chain 0 [] = some (none, [], bare_chain) := by
  have htab : (max_path_tables log_zero_ops bare_chain).map (fun s => (s.prev 0, s.len 0))
      = some (3, 0) := by
    simp [max_path_tables, sweep, scan_edges, visit_edge, prob, bare_chain, KmerGraph.node_at,
      KmerNode.new, log_zero_ops, Sweep.init, total_covg, float_lowest, tolerance,
      Function.update]
    norm_num
  have hdisc : discover_p log_zero_ops bare_chain 0 = some bare_chain := by
    simp [discover_p, bare_chain, log_zero_ops]
  refine ⟨by decide, by decide, ?_, ?_, htab, ?_⟩
  · norm_num [prob, bare_chain, KmerGraph.node_at, total_covg, log_zero_ops, KmerNode.new]
  · norm_num [prob, bare_chain, KmerGraph.node_at, total_covg, log_zero_ops, KmerNode.new]
  · unfold find_max_path
    rw [hdisc]
    cases hs : max_path_tables log_zero_ops bare_chain with
    | none => rw [hs] at htab; simp at htab
    | some s =>
      rw [hs] at htab
      simp only [Option.map_some', Option.some.injEq, Prod.mk.injEq] at htab
      obtain ⟨hp, hl⟩ := htab
      simp only [hs]
      unfold extract_path
      rw [hp]
      simp [bare_chain, hl]

/-! ## C18: the counterexample, in exact arithmetic -/

theorem sink_last_decodable : decodable sink_last := by
  refine ⟨by decide, ?_⟩
  intro j hj
  have hj2 : j < 2 := hj
  interval_cases j
  · exact ⟨_, rfl, by simp [sink_last, KmerNode.new]⟩
  · exact ⟨_, rfl, by simp [sink_last, KmerNode.new]⟩

/-- C18 (counterexample): in `sink_first` the source has a direct edge to the
sink and an edge to node 1, whose mean `-9.16` is above `-25`.  The edge to the
sink stands first, is taken, and sets the running mean to `log(0.005)`, which
node 1 does not reach: `prev[0]` is the sink.  With the same two edges in the
other order (`sink_last`) `prev[0]` is node 1. -/
theorem sink_chosen_when_listed_first :
    (check sink_first 0).isSome = true ∧ ids_are_positions sink_first
      ∧ (max_path_tables sample_ops sink_first).map (fun s => (s.prev 0, s.len 1, s.M 1))
          = some (2, 1, -916 / 100)
      ∧ (max_path_tables sample_ops sink_last).map (fun s => s.prev 0) = some 1 := by
  refine ⟨by decide, by decide, ?_, ?_⟩
  · simp [max_path_tables, sweep, scan_edges, visit_edge, prob, sink_first, KmerGraph.node_at,
      KmerNode.new, sample_ops, Sweep.init, total_covg, float_lowest, tolerance,
      Function.update]
    norm_num
  · simp [max_path_tables, sweep, scan_edges, visit_edge, prob, sink_last, KmerGraph.node_at,
      KmerNode.new, sample_ops, Sweep.init, total_covg, float_lowest, tolerance,
      Function.update]
    norm_num

/-! ## The decoder in `float` arithmetic: frame lemmas -/

theorem visit_edge_fl_frame {α : Type} (A : FloatArith α) (size : Nat) (pj : α) (j : Nat)
    (s : Tables α) (sid : Nat) (i : Nat) (hi : i ≠ j) :
    (visit_edge_fl A size pj j s sid).M i = s.M i
      ∧ (visit_edge_fl A size pj j s sid).len i = s.len i
      ∧ (visit_edge_fl A size pj j s sid).prev i = s.prev i := by
  unfold visit_edge_fl
  split
  · split <;> simp [Function.update, hi]
  · exact ⟨rfl, rfl, rfl⟩

theorem visit_edge_fl_effect {α : Type} (A : FloatArith α) (size : Nat) (pj : α) (j : Nat)
    (s : Tables α) (sid : Nat) :
    visit_edge_fl A size pj j s sid = s
      ∨ ((visit_edge_fl A size pj j s sid).prev j = sid
          ∧ (visit_edge_fl A size pj j s sid).M j = A.add pj (s.M sid)
          ∧ (visit_edge_fl A size pj j s sid).len j = 1 + s.len sid) := by
  unfold visit_edge_fl
  split
  · right
    split <;> simp [Function.update_same]
  · left; rfl

theorem visit_edge_fl_taken {α : Type} (A : FloatArith α) (size : Nat) (pj : α) (j : Nat)
    (s : Tables α) (sid : Nat) (hns : sid ≠ size - 1) (hj : sid ≠ j)
    (hc : A.exceeds (A.quot (s.M sid) (s.len sid)) s.max_mean = true
      ∨ (A.within s.max_mean (A.quot (s.M sid) (s.len sid)) = true ∧ s.max_len < s.len sid)) :
    visit_edge_fl A size pj j s sid =
      { M := Function.update s.M j (A.add pj (s.M sid)),
        len := Function.update s.len j (1 + s.len sid),
        prev := Function.update s.prev j sid,
        max_mean := A.quot (s.M sid) (s.len sid), max_len := s.len sid } := by
  unfold visit_edge_fl
  have hcond : (sid = size - 1 ∧ A.below_floor s.max_mean = true)
      ∨ A.exceeds (A.quot (s.M sid) (s.len sid)) s.max_mean = true
      ∨ (A.within s.max_mean (A.quot (s.M sid) (s.len sid)) = true
          ∧ s.max_len < s.len sid) := Or.inr hc
  rw [if_pos hcond]
  simp only [ne_eq, hns, not_false_eq_true, if_true]
  simp [Function.update, hj]

theorem visit_edge_fl_skipped {α : Type} (A : FloatArith α) (size : Nat) (pj : α) (j : Nat)
    (s : Tables α) (sid : Nat)
    (h1 : ¬ (sid = size - 1 ∧ A.below_floor s.max_mean = true))
    (h2 : ¬ A.exceeds (A.quot (s.M sid) (s.len sid)) s.max_mean = true)
    (h3 : ¬ (A.within s.max_mean (A.quot (s.M sid) (s.len sid)) = true
          ∧ s.max_len < s.len sid)) :
    visit_edge_fl A size pj j s sid = s := by
  unfold visit_edge_fl
  have hcond : ¬ ((sid = size - 1 ∧ A.below_floor s.max_mean = true)
      ∨ A.exceeds (A.quot (s.M sid) (s.len sid)) s.max_mean = true
      ∨ (A.within s.max_mean (A.quot (s.M sid) (s.len sid)) = true
          ∧ s.max_len < s.len sid)) := by
    rintro (h | h | h)
    · exact h1 h
    · exact h2 h
    · exact h3 h
  rw [if_neg hcond]

theorem scan_edges_fl_frame {P α : Type} (A : FloatArith α) (g : KmerGraph P) (pj : α)
    (j : Nat) (outs : List Nat) :
    ∀ (s s1 : Tables α), scan_edges_fl A g pj j s outs = some s1 →
      ∀ i : Nat, i ≠ j → s1.M i = s.M i ∧ s1.len i = s.len i ∧ s1.prev i = s.prev i := by
  induction outs with
  | nil =>
    intro s s1 h i _
    simp only [scan_edges_fl, Option.some.injEq] at h
    subst h
    exact ⟨rfl, rfl, rfl⟩
  | cons a rest ih =>
    intro s s1 h i hi
    unfold scan_edges_fl at h
    cases ha : g.store[a]? with
    | none => simp [ha] at h
    | some n =>
      simp only [ha] at h
      split at h
      · obtain ⟨h1, h2, h3⟩ := ih _ s1 h i hi
        obtain ⟨h4, h5, h6⟩ := visit_edge_fl_frame A g.nodes.length pj j s n.id i hi
        exact ⟨h1.trans h4, h2.trans h5, h3.trans h6⟩
      · cases h

theorem scan_edges_fl_append {P α : Type} (A : FloatArith α) (g : KmerGraph P) (pj : α)
    (j : Nat) (pre rest : List Nat) :
    ∀ (t r : Tables α), scan_edges_fl A g pj j t (pre ++ rest) = some r →
      ∃ m : Tables α, scan_edges_fl A g pj j t pre = some m
        ∧ scan_edges_fl A g pj j m rest = some r := by
  induction pre with
  | nil => intro t r h; exact ⟨t, rfl, h⟩
  | cons a more ih =>
    intro t r h
    simp only [List.cons_append] at h
    unfold scan_edges_fl at h
    cases hna : g.store[a]? with
    | none => simp [hna] at h
    | some na =>
      simp only [hna] at h
      by_cases hin : na.id < g.nodes.length
      · rw [if_pos hin] at h
        obtain ⟨m, h1, h2⟩ := ih _ r h
        refine ⟨m, ?_, h2⟩
        rw [scan_edges_fl]
        simp only [hna]
        rw [if_pos hin]
        exact h1
      · rw [if_neg hin] at h; cases h

theorem sweep_fl_frame {P α : Type} (A : FloatArith α) (g : KmerGraph P) (p : α) (n : Nat) :
    ∀ (s s1 : Tables α), sweep_fl A g p n s = some s1 →
      ∀ i : Nat, n ≤ i → s1.M i = s.M i ∧ s1.len i = s.len i ∧ s1.prev i = s.prev i := by
  induction n with
  | zero =>
    intro s s1 h i _
    simp only [sweep_fl, Option.some.injEq] at h
    subst h
    exact ⟨rfl, rfl, rfl⟩
  | succ j ih =>
    intro s s1 h i hi
    unfold sweep_fl at h
    cases hn : g.node_at j with
    | none => simp [hn] at h
    | some nd =>
      cases hp : prob_fl A g p j with
      | none => simp [hn, hp] at h
      | some pj =>
        simp only [hn, hp] at h
        cases hs : scan_edges_fl A g pj j { s with max_mean := A.lowest, max_len := 0 }
            nd.outNodes with
        | none => simp [hs] at h
        | some s2 =>
          simp only [hs] at h
          obtain ⟨h1, h2, h3⟩ := ih s2 s1 h i (by omega)
          obtain ⟨h4, h5, h6⟩ := scan_edges_fl_frame A g pj j nd.outNodes _ s2 hs i (by omega)
          exact ⟨h1.trans h4, h2.trans h5, h3.trans h6⟩

theorem prob_fl_some_of_node {P α : Type} (A : FloatArith α) (g : KmerGraph P) (p : α) (j : Nat)
    (h : (g.node_at j).isSome = true) : (prob_fl A g p j).isSome = true := by
  obtain ⟨n, hn⟩ := Option.isSome_iff_exists.mp h
  unfold prob_fl
  split
  · rfl
  · simp only [hn]
    split <;> rfl

theorem prob_fl_sentinel {P α : Type} (A : FloatArith α) (g : KmerGraph P) (p : α) (j : Nat)
    (h : j = 0 ∨ j = g.nodes.length - 1) : prob_fl A g p j = some A.zero := by
  simp [prob_fl, h]

theorem sweep_fl_succ {P α : Type} (A : FloatArith α) (g : KmerGraph P) (p : α) (j : Nat)
    (s s1 : Tables α) (nd : KmerNode P) (pj : α) (hn : g.node_at j = some nd)
    (hp : prob_fl A g p j = some pj)
    (hs : scan_edges_fl A g pj j { s with max_mean := A.lowest, max_len := 0 } nd.outNodes
      = some s1) :
    sweep_fl A g p (j + 1) s = sweep_fl A g p j s1 := by
  simp [sweep_fl, hn, hp, hs]

theorem sweep_fl_at {P α : Type} (A : FloatArith α) (g : KmerGraph P) (p : α) (n : Nat) :
    ∀ (s f : Tables α), sweep_fl A g p n s = some f → ∀ j : Nat, j < n →
      ∃ (nd : KmerNode P) (pj : α) (s0 s1 : Tables α),
        g.node_at j = some nd ∧ prob_fl A g p j = some pj
        ∧ scan_edges_fl A g pj j { s0 with max_mean := A.lowest, max_len := 0 } nd.outNodes
            = some s1
        ∧ (∀ i : Nat, j < i → s0.M i = f.M i ∧ s0.len i = f.len i ∧ s0.prev i = f.prev i)
        ∧ (s1.M j = f.M j ∧ s1.len j = f.len j ∧ s1.prev j = f.prev j)
        ∧ (s0.M j = s.M j ∧ s0.len j = s.len j ∧ s0.prev j = s.prev j) := by
  induction n with
  | zero => intro s f _ j hj; omega
  | succ m ih =>
    intro s f h j hj
    unfold sweep_fl at h
    cases hn : g.node_at m with
    | none => simp [hn] at h
    | some nd =>
      cases hp : prob_fl A g p m with
      | none => simp [hn, hp] at h
      | some pj =>
        simp only [hn, hp] at h
        cases hs : scan_edges_fl A g pj m { s with max_mean := A.lowest, max_len := 0 }
            nd.outNodes with
        | none => simp [hs] at h
        | some s2 =>
          simp only [hs] at h
          by_cases hjm : j = m
          · subst hjm
            have hfr := sweep_fl_frame A g p j s2 f h
            have hsc := scan_edges_fl_frame A g pj j nd.outNodes _ s2 hs
            refine ⟨nd, pj, s, s2, hn, hp, hs, ?_, ?_, ⟨rfl, rfl, rfl⟩⟩
            · intro i hi
              obtain ⟨h1, h2, h3⟩ := hfr i (by omega)
              obtain ⟨h4, h5, h6⟩ := hsc i (by omega)
              exact ⟨(h1.trans h4).symm, (h2.trans h5).symm, (h3.trans h6).symm⟩
            · obtain ⟨h1, h2, h3⟩ := hfr j (Nat.le_refl _)
              exact ⟨h1.symm, h2.symm, h3.symm⟩
          · obtain ⟨nd2, pj2, s0, s1, h1, h2, h3, h4, h5, h6⟩ := ih s2 f h j (by omega)
            obtain ⟨h7, h8, h9⟩ := scan_edges_fl_frame A g pj m nd.outNodes _ s2 hs j hjm
            refine ⟨nd2, pj2, s0, s1, h1, h2, h3, h4, h5, ?_⟩
            exact ⟨h6.1.trans h7, h6.2.1.trans h8, h6.2.2.trans h9⟩

/-! ## The decoder in `float` arithmetic: totality of the sweep -/

theorem scan_edges_fl_isSome {P α : Type} (A : FloatArith α) (g : KmerGraph P) (pj : α)
    (j : Nat) (outs : List Nat)
    (hv : ∀ a ∈ outs, ∃ na : KmerNode P, g.store[a]? = some na ∧ na.id < g.nodes.length) :
    ∀ s : Tables α, ∃ r, scan_edges_fl A g pj j s outs = some r := by
  induction outs with
  | nil => intro s; exact ⟨s, rfl⟩
  | cons a rest ih =>
    intro s
    obtain ⟨na, hna, hid⟩ := hv a (List.mem_cons_self _ _)
    obtain ⟨r, hr⟩ := ih (fun x hx => hv x (List.mem_cons_of_mem _ hx))
      (visit_edge_fl A g.nodes.length pj j s na.id)
    exact ⟨r, by simp only [scan_edges_fl, hna, hid, if_true]; exact hr⟩

theorem sweep_fl_isSome {P α : Type} (A : FloatArith α) (g : KmerGraph P) (p : α) (n : Nat)
    (hv : ∀ j : Nat, j < n → ∃ nd : KmerNode P, g.node_at j = some nd
      ∧ ∀ a ∈ nd.outNodes, ∃ na : KmerNode P, g.store[a]? = some na ∧ na.id < g.nodes.length) :
    ∀ s : Tables α, ∃ f, sweep_fl A g p n s = some f := by
  induction n with
  | zero => intro s; exact ⟨s, rfl⟩
  | succ m ih =>
    intro s
    obtain ⟨nd, hnd, hout⟩ := hv m (Nat.lt_succ_self m)
    obtain ⟨pj, hpj⟩ := Option.isSome_iff_exists.mp
      (prob_fl_some_of_node A g p m (by rw [hnd]; rfl))
    obtain ⟨r, hr⟩ := scan_edges_fl_isSome A g pj m nd.outNodes hout
      { s with max_mean := A.lowest, max_len := 0 }
    obtain ⟨f, hf⟩ := ih (fun j hj => hv j (by omega)) r
    exact ⟨f, by rw [sweep_fl_succ A g p m s r nd pj hnd hpj hr]; exact hf⟩

theorem max_path_tables_fl_isSome {P α : Type} (A : FloatArith α) (g : KmerGraph P) (p : α)
    (hdec : decodable g) : ∃ s, max_path_tables_fl A g p = some s := by
  obtain ⟨s, hs⟩ := sweep_fl_isSome A g p (g.nodes.length - 1) hdec.2
    (Tables.init A g.nodes.length)
  exact ⟨s, by simp only [max_path_tables_fl, hdec.1, if_false]; exact hs⟩

theorem max_path_tables_fl_sweep {P α : Type} (A : FloatArith α) (g : KmerGraph P) (p : α)
    (s : Tables α) (hs : max_path_tables_fl A g p = some s) :
    sweep_fl A g p (g.nodes.length - 1) (Tables.init A g.nodes.length) = some s := by
  unfold max_path_tables_fl at hs
  split at hs
  · cases hs
  · exact hs

theorem table_fl_sink {P α : Type} (A : FloatArith α) (g : KmerGraph P) (p : α) (s : Tables α)
    (hs : max_path_tables_fl A g p = some s) :
    s.M (g.nodes.length - 1) = A.zero ∧ s.len (g.nodes.length - 1) = 0 := by
  obtain ⟨h1, h2, _⟩ := sweep_fl_frame A g p _ _ s (max_path_tables_fl_sweep A g p s hs)
    (g.nodes.length - 1) (Nat.le_refl _)
  exact ⟨h1, h2⟩

theorem discover_p_fl_some {P α : Type} (A : FloatArith α) (g : KmerGraph P) (e_rate : α)
    (hne : g.nodes.length ≠ 0)
    (hv : ∀ i : Nat, i < g.nodes.length → (g.node_at i).isSome = true) :
    ∃ p : α, discover_p_fl A g e_rate = some p := by
  unfold discover_p_fl
  simp only
  by_cases hr : 40 < g.num_reads
  · simp only [hr, if_true, hne, if_false]
    have h := kmer_covgs_isSome g (g.nodes.length - 1) (fun i hi => hv i (by omega))
    obtain ⟨covgs, hc⟩ := Option.isSome_iff_exists.mp h
    simp only [hc]
    by_cases hl : covgs.length = 0
    · refine ⟨A.inv (A.exp (A.times g.k e_rate)), ?_⟩
      simp only [hl, if_true]
    · refine ⟨A.quot (A.mean covgs) g.num_reads, ?_⟩
      simp only [hl, if_false]
  · refine ⟨A.inv (A.exp (A.times g.k e_rate)), ?_⟩
    simp only [hr, if_false]

/-! ## The decimal arithmetic of the examples -/

theorem literal_tolerance_pos : 0 < literal_tolerance := by
  norm_num [literal_tolerance]

theorem literal_tolerance_lt : literal_tolerance < 1 / 1000 := by
  norm_num [literal_tolerance]

theorem decimal_grid (a b : Int) (h : (a : ℚ) / 1000 - (b : ℚ) / 1000 ≤ tolerance) :
    a ≤ b := by
  have h1 : tolerance < 1 / 1000 := by norm_num [tolerance]
  have h2 : (a : ℚ) - (b : ℚ) < 1 := by linarith
  have h3 : ((a - b : Int) : ℚ) < ((1 : Int) : ℚ) := by push_cast; linarith
  have h4 : a - b < 1 := by exact_mod_cast h3
  omega

theorem decimal_first_edge : FirstEdge decimal decimal_finite := by
  refine ⟨by decide, ?_⟩
  rintro x n ⟨a, rfl, h1, h2⟩ hn
  have hn0 : n ≠ 0 := by omega
  have hnz : (0 : Int) < (n : Int) := by exact_mod_cast hn
  have h3 : -decimal_max ≤ a / (n : Int) := by
    rcases le_or_lt 0 a with ha | ha
    · have := Int.ediv_nonneg ha (le_of_lt hnz)
      have hm : (0 : Int) ≤ decimal_max := by decide
      omega
    · have h4 : -decimal_max * (n : Int) ≤ a := by
        have hm : (0 : Int) ≤ decimal_max := by decide
        nlinarith
      exact Int.le_ediv_of_mul_le hnz h4
  simp only [decimal, hn0, if_false, decide_eq_true_eq]
  exact h3

theorem decimal_tie_break : TieBreak decimal decimal_finite decimal_val := by
  refine ⟨?_, ?_, ?_⟩
  · rintro m ⟨a, rfl, h1, _⟩
    simp only [decimal, decide_eq_true_eq]
    exact h1
  · rintro x y ⟨a, rfl, _, _⟩ ⟨b, rfl, _, _⟩ h
    simp only [decimal, decide_eq_true_eq]
    exact decimal_grid a b h
  · rintro x y ⟨a, rfl, _, _⟩ ⟨b, rfl, _, _⟩ h
    simp only [decimal, decide_eq_false_iff_not, not_lt]
    apply decimal_grid a b
    simp only [decimal_val] at h
    linarith

theorem decimal_sink_guard : SinkGuard decimal decimal_finite decimal_val := by
  refine ⟨by decide, ?_, ?_, ?_, ?_, ?_, ?_⟩
  · rintro m ⟨a, rfl, _, _⟩ h
    simp only [decimal_val] at h
    have h1 : ((-25000 : Int) : ℚ) ≤ (a : ℚ) := by push_cast; linarith
    have h2 : (-25000 : Int) ≤ a := by exact_mod_cast h1
    simp only [decimal, decide_eq_false_iff_not, not_lt]
    exact h2
  · rintro m x ⟨a, rfl, _, _⟩ h he
    simp only [decimal_val] at h
    have h1 : ((-25000 : Int) : ℚ) ≤ (a : ℚ) := by push_cast; linarith
    have h2 : (-25000 : Int) ≤ a := by exact_mod_cast h1
    cases x with
    | none => rfl
    | some b =>
      simp only [decimal, decide_eq_false_iff_not, not_lt] at he ⊢
      omega
  · intro m x he hx
    cases m with
    | none => rfl
    | some a =>
      cases x with
      | none => simp [decimal] at he
      | some b =>
        simp only [decimal, decide_eq_true_eq, decide_eq_false_iff_not, not_lt] at he hx ⊢
        omega
  · intro x m hw hx
    cases m with
    | none => rfl
    | some b =>
      cases x with
      | none => simp [decimal] at hw
      | some a =>
        simp only [decimal, decide_eq_true_eq, decide_eq_false_iff_not, not_lt] at hw hx ⊢
        omega
  · intro x
    simp [decimal]
  · intro x
    cases x <;> simp [decimal]

/-! ## IEEE 754 arithmetic: rounding to nearest -/

theorem round_even_bounds (t : ℚ) : ⌊t⌋ ≤ round_even t ∧ round_even t ≤ ⌊t⌋ + 1 := by
  unfold round_even
  split_ifs <;> constructor <;> omega

theorem round_even_int (k : Int) : round_even (k : ℚ) = k := by
  unfold round_even
  rw [Int.floor_intCast]
  simp

theorem round_even_mono (t1 t2 : ℚ) (h : t1 ≤ t2) : round_even t1 ≤ round_even t2 := by
  have hf : ⌊t1⌋ ≤ ⌊t2⌋ := Int.floor_mono h
  rcases lt_or_eq_of_le hf with hlt | heq
  · have h1 := (round_even_bounds t1).2
    have h2 := (round_even_bounds t2).1
    omega
  · unfold round_even
    rw [← heq]
    have hr : t1 - (⌊t1⌋ : ℚ) ≤ t2 - (⌊t1⌋ : ℚ) := by linarith
    split_ifs <;> first | omega | (exfalso; linarith)

theorem round_even_neg (t : ℚ) : round_even (-t) = -round_even t := by
  by_cases hint : t = (⌊t⌋ : ℚ)
  · rw [hint]
    rw [show -((⌊t⌋ : Int) : ℚ) = ((-⌊t⌋ : Int) : ℚ) by push_cast; ring]
    rw [round_even_int, round_even_int]
  · have h1 : (⌊t⌋ : ℚ) ≤ t := Int.floor_le t
    have h2 : t < (⌊t⌋ : ℚ) + 1 := Int.lt_floor_add_one t
    have h3 : (⌊t⌋ : ℚ) < t := lt_of_le_of_ne h1 (fun h => hint h.symm)
    have hfl : ⌊-t⌋ = -⌊t⌋ - 1 := by
      rw [Int.floor_eq_iff]
      push_cast
      constructor <;> linarith
    unfold round_even
    rw [hfl]
    push_cast
    split_ifs <;> first | omega | (exfalso; linarith)


theorem two_zpow_pos (n : Int) : (0 : ℚ) < (2 : ℚ) ^ n := zpow_pos (by norm_num) n

theorem two_zpow_int (n : Int) (h : 0 ≤ n) : (2 : ℚ) ^ n = (((2 : Int) ^ n.toNat : Int) : ℚ) := by
  obtain ⟨m, rfl⟩ := Int.eq_ofNat_of_zero_le h
  simp

theorem two_zpow_mono (m n : Int) (h : m ≤ n) : (2 : ℚ) ^ m ≤ (2 : ℚ) ^ n :=
  zpow_le_zpow_right₀ (by norm_num) h

theorem two_zpow_sub (m n : Int) : (2 : ℚ) ^ m / (2 : ℚ) ^ n = (2 : ℚ) ^ (m - n) := by
  rw [zpow_sub₀ (by norm_num : (2 : ℚ) ≠ 0)]

theorem expo_neg (F : BinFmt) (q : ℚ) : F.expo (-q) = F.expo q := by
  unfold BinFmt.expo
  rw [abs_neg]

theorem nearest_neg (F : BinFmt) (q : ℚ) : F.nearest (-q) = -F.nearest q := by
  unfold BinFmt.nearest
  rw [expo_neg, neg_div, round_even_neg]
  push_cast
  ring

theorem nearest_zero (F : BinFmt) : F.nearest 0 = 0 := by
  unfold BinFmt.nearest
  rw [zero_div]
  rw [show (0 : ℚ) = ((0 : Int) : ℚ) by norm_num, round_even_int]
  simp

theorem nearest_nonneg (F : BinFmt) (q : ℚ) (h : 0 ≤ q) : 0 ≤ F.nearest q := by
  unfold BinFmt.nearest
  have hs := two_zpow_pos (F.expo q)
  have h1 : (0 : ℚ) ≤ q / (2 : ℚ) ^ F.expo q := div_nonneg h (le_of_lt hs)
  have h2 := round_even_mono 0 _ h1
  rw [show (0 : ℚ) = ((0 : Int) : ℚ) by norm_num, round_even_int] at h2
  have h3 : (0 : ℚ) ≤ (round_even (q / (2 : ℚ) ^ F.expo q) : ℚ) := by exact_mod_cast h2
  exact mul_nonneg h3 (le_of_lt hs)

/-- Between two positive numbers: rounding is monotone. -/
theorem nearest_mono_pos (F : BinFmt) (hp : 1 ≤ F.prec) (x y : ℚ) (hx : 0 < x) (hxy : x ≤ y) :
    F.nearest x ≤ F.nearest y := by
  have hy : 0 < y := lt_of_lt_of_le hx hxy
  have hlog : Int.log 2 x ≤ Int.log 2 y := Int.log_mono_right hx hxy
  have hax : |x| = x := abs_of_pos hx
  have hay : |y| = y := abs_of_pos hy
  have hex : F.expo x = max (Int.log 2 x) F.emin - ((F.prec : Int) - 1) := by
    unfold BinFmt.expo; rw [hax]
  have hey : F.expo y = max (Int.log 2 y) F.emin - ((F.prec : Int) - 1) := by
    unfold BinFmt.expo; rw [hay]
  have hle : F.expo x ≤ F.expo y := by
    rw [hex, hey]
    have : max (Int.log 2 x) F.emin ≤ max (Int.log 2 y) F.emin := max_le_max hlog (le_refl _)
    omega
  have hsx := two_zpow_pos (F.expo x)
  have hsy := two_zpow_pos (F.expo y)
  rcases eq_or_lt_of_le hle with heq | hlt
  · unfold BinFmt.nearest
    rw [← heq]
    have h1 : x / (2 : ℚ) ^ F.expo x ≤ y / (2 : ℚ) ^ F.expo x :=
      div_le_div_of_nonneg_right hxy (le_of_lt hsx)
    have h2 := round_even_mono _ _ h1
    have h3 : (round_even (x / (2 : ℚ) ^ F.expo x) : ℚ)
        ≤ (round_even (y / (2 : ℚ) ^ F.expo x) : ℚ) := by exact_mod_cast h2
    exact mul_le_mul_of_nonneg_right h3 (le_of_lt hsx)
  · -- the power of two at the lower end of the binade of `y` lies between
    have hmax : max (Int.log 2 y) F.emin = Int.log 2 y := by
      apply max_eq_left
      by_contra hcon
      have h1 : max (Int.log 2 y) F.emin = F.emin := max_eq_right (by omega)
      have h2 : F.emin ≤ max (Int.log 2 x) F.emin := le_max_right _ _
      rw [hex, hey, h1] at hlt
      omega
    have hB1 : (2 : ℚ) ^ (Int.log 2 y) ≤ y := by
      have := Int.zpow_log_le_self (R := ℚ) (b := 2) (by norm_num) hy
      simpa using this
    have hB2 : x ≤ (2 : ℚ) ^ (Int.log 2 y) := by
      have h1 : x < (2 : ℚ) ^ (Int.log 2 x + 1) := by
        have := Int.lt_zpow_succ_log_self (R := ℚ) (b := 2) (by norm_num) x
        simpa using this
      have h2 : Int.log 2 x + 1 ≤ Int.log 2 y := by
        have h3 : Int.log 2 x ≤ max (Int.log 2 x) F.emin := le_max_left _ _
        rw [hex, hey, hmax] at hlt
        omega
      exact le_trans (le_of_lt h1) (two_zpow_mono _ _ h2)
    have hBx : F.nearest x ≤ (2 : ℚ) ^ (Int.log 2 y) := by
      unfold BinFmt.nearest
      have h1 : x / (2 : ℚ) ^ F.expo x ≤ (2 : ℚ) ^ (Int.log 2 y) / (2 : ℚ) ^ F.expo x :=
        div_le_div_of_nonneg_right hB2 (le_of_lt hsx)
      have hn : 0 ≤ Int.log 2 y - F.expo x := by
        have h3 : F.expo y = Int.log 2 y - ((F.prec : Int) - 1) := by rw [hey, hmax]
        have h4 : (1 : Int) ≤ (F.prec : Int) := by exact_mod_cast hp
        omega
      rw [two_zpow_sub, two_zpow_int _ hn] at h1
      have h2 := round_even_mono _ _ h1
      rw [round_even_int] at h2
      have h3 : (round_even (x / (2 : ℚ) ^ F.expo x) : ℚ)
          ≤ (((2 : Int) ^ (Int.log 2 y - F.expo x).toNat : Int) : ℚ) := by exact_mod_cast h2
      have h4 := mul_le_mul_of_nonneg_right h3 (le_of_lt hsx)
      rw [← two_zpow_int _ hn, ← zpow_add₀ (by norm_num : (2 : ℚ) ≠ 0)] at h4
      rw [show Int.log 2 y - F.expo x + F.expo x = Int.log 2 y by ring] at h4
      exact h4
    have hBy : (2 : ℚ) ^ (Int.log 2 y) ≤ F.nearest y := by
      unfold BinFmt.nearest
      have h1 : (2 : ℚ) ^ (Int.log 2 y) / (2 : ℚ) ^ F.expo y ≤ y / (2 : ℚ) ^ F.expo y :=
        div_le_div_of_nonneg_right hB1 (le_of_lt hsy)
      have hn : 0 ≤ Int.log 2 y - F.expo y := by
        have h3 : F.expo y = Int.log 2 y - ((F.prec : Int) - 1) := by rw [hey, hmax]
        have h4 : (1 : Int) ≤ (F.prec : Int) := by exact_mod_cast hp
        omega
      rw [two_zpow_sub, two_zpow_int _ hn] at h1
      have h2 := round_even_mono _ _ h1
      rw [round_even_int] at h2
      have h3 : (((2 : Int) ^ (Int.log 2 y - F.expo y).toNat : Int) : ℚ)
          ≤ (round_even (y / (2 : ℚ) ^ F.expo y) : ℚ) := by exact_mod_cast h2
      have h4 := mul_le_mul_of_nonneg_right h3 (le_of_lt hsy)
      rw [← two_zpow_int _ hn, ← zpow_add₀ (by norm_num : (2 : ℚ) ≠ 0)] at h4
      rw [show Int.log 2 y - F.expo y + F.expo y = Int.log 2 y by ring] at h4
      exact h4
    exact le_trans hBx hBy

/-- Rounding to nearest is monotone. -/
theorem nearest_mono (F : BinFmt) (hp : 1 ≤ F.prec) (x y : ℚ) (hxy : x ≤ y) :
    F.nearest x ≤ F.nearest y := by
  rcases lt_trichotomy 0 x with hx | hx | hx
  · exact nearest_mono_pos F hp x y hx hxy
  · rw [← hx, nearest_zero]
    exact nearest_nonneg F y (by rw [← hx] at hxy; exact hxy)
  · rcases le_or_lt 0 y with hy | hy
    · have h1 : F.nearest x ≤ 0 := by
        have := nearest_nonneg F (-x) (by linarith)
        rw [nearest_neg] at this
        linarith
      exact le_trans h1 (nearest_nonneg F y hy)
    · have := nearest_mono_pos F hp (-y) (-x) (by linarith) (by linarith)
      rw [nearest_neg, nearest_neg] at this
      linarith

theorem log_lt_of_lt (q : ℚ) (n : Int) (hq : 0 < q) (h : q < (2 : ℚ) ^ n) : Int.log 2 q < n := by
  have h1 := (Int.lt_zpow_iff_log_lt (R := ℚ) (b := 2) (by norm_num) hq (x := n)).1
  apply h1
  simpa using h

theorem le_log_of_le (q : ℚ) (n : Int) (hq : 0 < q) (h : (2 : ℚ) ^ n ≤ q) : n ≤ Int.log 2 q := by
  have h1 := (Int.zpow_le_iff_le_log (R := ℚ) (b := 2) (by norm_num) hq (x := n)).1
  apply h1
  simpa using h

theorem log_eq_of_bounds (q : ℚ) (n : Int) (hq : 0 < q) (h1 : (2 : ℚ) ^ n ≤ q)
    (h2 : q < (2 : ℚ) ^ (n + 1)) : Int.log 2 q = n := by
  have a := le_log_of_le q n hq h1
  have b := log_lt_of_lt q (n + 1) hq h2
  omega

/-- A multiple of a power of two at or above the spacing is a fixed point of
rounding. -/
theorem nearest_exact (F : BinFmt) (q : ℚ) (k e : Int) (hq : q = (k : ℚ) * (2 : ℚ) ^ e)
    (he : F.expo q ≤ e) : F.nearest q = q := by
  unfold BinFmt.nearest
  generalize F.expo q = E at he
  have hn : 0 ≤ e - E := by omega
  have h1 : q / (2 : ℚ) ^ E = ((k * (2 : Int) ^ (e - E).toNat : Int) : ℚ) := by
    push_cast
    have h2 := two_zpow_int (e - E) hn
    push_cast at h2
    rw [← h2, hq, mul_div_assoc, two_zpow_sub]
  rw [h1, round_even_int]
  push_cast
  have h2 := two_zpow_int (e - E) hn
  push_cast at h2
  rw [← h2, hq, mul_assoc, ← zpow_add₀ (by norm_num : (2 : ℚ) ≠ 0)]
  rw [show e - E + E = e by ring]

theorem expo_le_of_lt (F : BinFmt) (q : ℚ) (e : Int) (hq : q ≠ 0)
    (hlt : |q| < (2 : ℚ) ^ (e + (F.prec : Int))) (hmin : F.emin - ((F.prec : Int) - 1) ≤ e) :
    F.expo q ≤ e := by
  unfold BinFmt.expo
  have h1 := log_lt_of_lt |q| _ (abs_pos.2 hq) hlt
  have h2 : max (Int.log 2 |q|) F.emin ≤ e + ((F.prec : Int) - 1) := max_le (by omega) (by omega)
  omega

theorem nearest_exact_of (F : BinFmt) (q : ℚ) (k e : Int) (hq : q = (k : ℚ) * (2 : ℚ) ^ e)
    (hq0 : q ≠ 0) (hlt : |q| < (2 : ℚ) ^ (e + (F.prec : Int)))
    (hmin : F.emin - ((F.prec : Int) - 1) ≤ e) : F.nearest q = q :=
  nearest_exact F q k e hq (expo_le_of_lt F q e hq0 hlt hmin)

theorem fixed_point_grid (F : BinFmt) (q : ℚ) (h : F.nearest q = q) :
    ∃ k : Int, q = (k : ℚ) * (2 : ℚ) ^ F.expo q := by
  refine ⟨round_even (q / (2 : ℚ) ^ F.expo q), ?_⟩
  unfold BinFmt.nearest at h
  exact h.symm

/-- The significand of a rounded number has at most `prec + 1` bits. -/
theorem significand_bound (F : BinFmt) (q : ℚ) :
    -((2 : Int) ^ F.prec) ≤ round_even (q / (2 : ℚ) ^ F.expo q)
      ∧ round_even (q / (2 : ℚ) ^ F.expo q) ≤ (2 : Int) ^ F.prec := by
  have hs := two_zpow_pos (F.expo q)
  have hP : ((2 : ℚ) ^ (F.prec : Int)) = ((((2 : Int) ^ F.prec : Int)) : ℚ) := by
    push_cast
    exact zpow_natCast 2 F.prec
  have habs : |q| / (2 : ℚ) ^ F.expo q ≤ (2 : ℚ) ^ (F.prec : Int) := by
    rcases eq_or_ne q 0 with h0 | h0
    · rw [h0, abs_zero, zero_div]
      exact le_of_lt (two_zpow_pos _)
    · have h1 : |q| < (2 : ℚ) ^ (Int.log 2 |q| + 1) := by
        have := Int.lt_zpow_succ_log_self (R := ℚ) (b := 2) (by norm_num) |q|
        simpa using this
      have h2 : Int.log 2 |q| + 1 ≤ F.expo q + (F.prec : Int) := by
        unfold BinFmt.expo
        have : Int.log 2 |q| ≤ max (Int.log 2 |q|) F.emin := le_max_left _ _
        omega
      have h3 : |q| ≤ (2 : ℚ) ^ (F.expo q + (F.prec : Int)) :=
        le_trans (le_of_lt h1) (two_zpow_mono _ _ h2)
      rw [div_le_iff₀ hs, ← zpow_add₀ (by norm_num : (2 : ℚ) ≠ 0)]
      rw [show (F.prec : Int) + F.expo q = F.expo q + (F.prec : Int) by ring]
      exact h3
  have hup : q / (2 : ℚ) ^ F.expo q ≤ (2 : ℚ) ^ (F.prec : Int) :=
    le_trans (div_le_div_of_nonneg_right (le_abs_self q) (le_of_lt hs)) habs
  have hlo : -((2 : ℚ) ^ (F.prec : Int)) ≤ q / (2 : ℚ) ^ F.expo q := by
    have : -(|q| / (2 : ℚ) ^ F.expo q) ≤ q / (2 : ℚ) ^ F.expo q := by
      rw [← neg_div]
      exact div_le_div_of_nonneg_right (neg_abs_le q) (le_of_lt hs)
    linarith
  constructor
  · have := round_even_mono _ _ hlo
    rw [hP, show -((((2 : Int) ^ F.prec : Int)) : ℚ) = (((-((2 : Int) ^ F.prec) : Int)) : ℚ) by
      push_cast; ring, round_even_int] at this
    exact this
  · have := round_even_mono _ _ hup
    rw [hP, round_even_int] at this
    exact this

/-- Rounding is idempotent. -/
theorem nearest_idem (F : BinFmt) (hp : 1 ≤ F.prec) (q : ℚ) :
    F.nearest (F.nearest q) = F.nearest q := by
  rcases eq_or_ne (F.nearest q) 0 with h0 | h0
  · rw [h0, nearest_zero]
  · obtain ⟨hlo, hup⟩ := significand_bound F q
    have hv : F.nearest q = (round_even (q / (2 : ℚ) ^ F.expo q) : ℚ) * (2 : ℚ) ^ F.expo q := rfl
    generalize hk : round_even (q / (2 : ℚ) ^ F.expo q) = k at hlo hup hv
    have hs := two_zpow_pos (F.expo q)
    have hmin : F.emin - ((F.prec : Int) - 1) ≤ F.expo q := by
      unfold BinFmt.expo
      have : F.emin ≤ max (Int.log 2 |q|) F.emin := le_max_right _ _
      omega
    have hpz : (1 : Int) ≤ (F.prec : Int) := by exact_mod_cast hp
    have hP : ((2 : ℚ) ^ (F.prec : Int)) = ((((2 : Int) ^ F.prec : Int)) : ℚ) := by
      push_cast
      exact zpow_natCast 2 F.prec
    rcases eq_or_lt_of_le hup with he | hl
    · -- the significand is 2^prec: the number is a power of two
      have hv2 : F.nearest q = ((1 : Int) : ℚ) * (2 : ℚ) ^ (F.expo q + (F.prec : Int)) := by
        rw [hv, he, zpow_add₀ (by norm_num : (2 : ℚ) ≠ 0), hP]
        push_cast
        ring
      apply nearest_exact_of F _ 1 _ hv2 h0
      · rw [hv2]
        simp only [Int.cast_one, one_mul]
        rw [abs_of_pos (two_zpow_pos _)]
        exact zpow_lt_zpow_right₀ (by norm_num) (by omega)
      · omega
    · rcases eq_or_lt_of_le hlo with he2 | hl2
      · have hv2 : F.nearest q = ((-1 : Int) : ℚ) * (2 : ℚ) ^ (F.expo q + (F.prec : Int)) := by
          rw [hv, ← he2, zpow_add₀ (by norm_num : (2 : ℚ) ≠ 0), hP]
          push_cast
          ring
        apply nearest_exact_of F _ (-1) _ hv2 h0
        · rw [hv2]
          simp only [Int.cast_neg, Int.cast_one, neg_mul, one_mul, abs_neg]
          rw [abs_of_pos (two_zpow_pos _)]
          exact zpow_lt_zpow_right₀ (by norm_num) (by omega)
        · omega
      · apply nearest_exact_of F _ k _ hv h0
        · rw [hv, abs_mul, abs_of_pos hs, zpow_add₀ (by norm_num : (2 : ℚ) ≠ 0), mul_comm]
          apply mul_lt_mul_of_pos_left _ hs
          rw [hP]
          have : |k| < (2 : Int) ^ F.prec := abs_lt.2 ⟨hl2, hl⟩
          exact_mod_cast this
        · exact hmin

/-- A `float` is a `double`. -/
theorem nearest_binary64_of_binary32 (q : ℚ) (h : binary32.nearest q = q) :
    binary64.nearest q = q := by
  obtain ⟨k, hk⟩ := fixed_point_grid binary32 q h
  apply nearest_exact binary64 q k _ hk
  unfold BinFmt.expo
  simp only [binary32, binary64]
  have h1 : max (Int.log 2 |q|) (-1022) ≤ max (Int.log 2 |q|) (-126) :=
    max_le_max (le_refl _) (by norm_num)
  push_cast
  omega

theorem largest32_eq : binary32.largest = 340282346638528859811704183484516925440 := by
  unfold BinFmt.largest
  simp only [binary32]
  norm_num

theorem largest64_ge : binary32.largest ≤ binary64.largest := by
  rw [largest32_eq]
  unfold BinFmt.largest
  simp only [binary64]
  norm_num

theorem largest32_exact : binary32.nearest binary32.largest = binary32.largest := by
  apply nearest_exact_of binary32 _ 16777215 104
  · rw [largest32_eq]; norm_num
  · rw [largest32_eq]; norm_num
  · rw [largest32_eq]; simp only [binary32]; norm_num
  · simp only [binary32]; norm_num

theorem floor_exact : binary64.nearest (-25) = -25 := by
  apply nearest_exact_of binary64 _ (-25) 0
  · norm_num
  · norm_num
  · simp only [binary64]; norm_num
  · simp only [binary64]; norm_num

theorem below_floor_exact : binary64.nearest (-25 - 1 / 2 ^ 21) = -25 - 1 / 2 ^ 21 := by
  apply nearest_exact_of binary64 _ (-52428801) (-21)
  · norm_num
  · norm_num
  · simp only [binary64]; norm_num [abs_of_neg]
  · simp only [binary64]; norm_num

theorem spacing_exact : binary32.nearest (1 / 2 ^ 19) = 1 / 2 ^ 19 := by
  apply nearest_exact_of binary32 _ 1 (-19)
  · norm_num
  · norm_num
  · simp only [binary32]; norm_num [abs_of_pos]
  · simp only [binary32]; norm_num

theorem literal_tolerance_log : Int.log 2 |literal_tolerance| = -20 := by
  have hp : (0 : ℚ) < literal_tolerance := by unfold literal_tolerance; norm_num
  rw [abs_of_pos hp]
  apply log_eq_of_bounds _ _ hp
  · unfold literal_tolerance; norm_num
  · unfold literal_tolerance; norm_num

/-- The `float` nearest to the literal `0.000001` is below it. -/
theorem nearest32_literal_le : binary32.nearest literal_tolerance ≤ literal_tolerance := by
  have he : binary32.expo literal_tolerance = -43 := by
    unfold BinFmt.expo
    rw [literal_tolerance_log]
    simp only [binary32]
    norm_num
  unfold BinFmt.nearest
  rw [he]
  have hfl : ⌊literal_tolerance / (2 : ℚ) ^ (-43 : Int)⌋ = 8796093 := by
    rw [Int.floor_eq_iff]
    unfold literal_tolerance
    constructor <;> norm_num
  have hr : round_even (literal_tolerance / (2 : ℚ) ^ (-43 : Int)) = 8796093 := by
    unfold round_even
    rw [hfl]
    rw [if_pos]
    unfold literal_tolerance
    norm_num
  rw [hr]
  unfold literal_tolerance
  norm_num

/-- The `float` next below `-25` is `-25 - 2⁻¹⁹`. -/
theorem spacing_below_floor (b : ℚ) (h : binary32.nearest b = b) (hb : b < -25) :
    b ≤ -25 - 1 / 2 ^ 19 := by
  have hc : binary32.nearest (-b) = -b := by rw [nearest_neg, h]
  obtain ⟨k, hk⟩ := fixed_point_grid binary32 (-b) hc
  have hpos : (0 : ℚ) < -b := by linarith
  have hlog : (4 : Int) ≤ Int.log 2 |(-b)| := by
    rw [abs_of_pos hpos]
    apply le_log_of_le _ _ hpos
    norm_num
    linarith
  have he : -19 ≤ binary32.expo (-b) := by
    unfold BinFmt.expo
    have : Int.log 2 |(-b)| ≤ max (Int.log 2 |(-b)|) binary32.emin := le_max_left _ _
    simp only [binary32] at this ⊢
    push_cast
    omega
  generalize binary32.expo (-b) = E at he hk
  have hn : 0 ≤ E + 19 := by omega
  have hK : -b * 2 ^ 19 = ((k * (2 : Int) ^ (E + 19).toNat : Int) : ℚ) := by
    push_cast
    have h2 := two_zpow_int (E + 19) hn
    push_cast at h2
    rw [← h2, hk, zpow_add₀ (by norm_num : (2 : ℚ) ≠ 0)]
    norm_num
    ring
  have h1 : ((13107200 : Int) : ℚ) < ((k * (2 : Int) ^ (E + 19).toNat : Int) : ℚ) := by
    rw [← hK]
    push_cast
    linarith
  have h2 : (13107200 : Int) < k * (2 : Int) ^ (E + 19).toNat := by exact_mod_cast h1
  have h3 : (13107201 : Int) ≤ k * (2 : Int) ^ (E + 19).toNat := by omega
  have h4 : ((13107201 : Int) : ℚ) ≤ ((k * (2 : Int) ^ (E + 19).toNat : Int) : ℚ) := by
    exact_mod_cast h3
  rw [← hK] at h4
  push_cast at h4
  linarith

/-! ## IEEE 754 arithmetic: the comparisons of the decoder -/

theorem one_exact : binary32.nearest 1 = 1 := by
  apply nearest_exact_of binary32 _ 1 0
  · norm_num
  · norm_num
  · simp only [binary32]; norm_num
  · simp only [binary32]; norm_num

theorem largest32_pos : (0 : ℚ) < binary32.largest := by
  rw [largest32_eq]; norm_num

theorem largest64_pos : (0 : ℚ) < binary64.largest :=
  lt_of_lt_of_le largest32_pos largest64_ge

theorem largest64_big : (25 : ℚ) ≤ binary64.largest := by
  have h := largest64_ge
  rw [largest32_eq] at h
  linarith

theorem nearest_nonpos (F : BinFmt) (q : ℚ) (h : q ≤ 0) : F.nearest q ≤ 0 := by
  have := nearest_nonneg F (-q) (by linarith)
  rw [nearest_neg] at this
  linarith

/-- A result whose rounding is at most `c` is `-∞` or a number at most `c`. -/
theorem round_le_of_nearest (F : BinFmt) (q c : ℚ) (hn : F.nearest q ≤ c)
    (hc : c ≤ F.largest) :
    F.round q = Fp.ninf ∨ ∃ v, F.round q = Fp.fin v ∧ v ≤ c := by
  unfold BinFmt.round
  by_cases ho : F.largest < |F.nearest q|
  · rw [if_pos ho]
    by_cases hq : 0 < q
    · exfalso
      have h1 := nearest_nonneg F q (le_of_lt hq)
      rw [abs_of_nonneg h1] at ho
      linarith
    · rw [if_neg hq]
      exact Or.inl rfl
  · rw [if_neg ho]
    exact Or.inr ⟨_, rfl, hn⟩

/-- A result whose rounding is at least `c` is `+∞` or a number at least `c`. -/
theorem round_ge_of_nearest (F : BinFmt) (q c : ℚ) (hn : c ≤ F.nearest q)
    (hc : -F.largest ≤ c) :
    F.round q = Fp.pinf ∨ ∃ v, F.round q = Fp.fin v ∧ c ≤ v := by
  unfold BinFmt.round
  by_cases ho : F.largest < |F.nearest q|
  · rw [if_pos ho]
    by_cases hq : 0 < q
    · rw [if_pos hq]
      exact Or.inl rfl
    · exfalso
      have h1 := nearest_nonpos F q (not_lt.1 hq)
      rw [abs_of_nonpos h1] at ho
      linarith
  · rw [if_neg ho]
    exact Or.inr ⟨_, rfl, hn⟩

theorem round_le (F : BinFmt) (hp : 1 ≤ F.prec) (q c : ℚ) (hx : F.nearest c = c) (hqc : q ≤ c)
    (hc : c ≤ F.largest) :
    F.round q = Fp.ninf ∨ ∃ v, F.round q = Fp.fin v ∧ v ≤ c := by
  apply round_le_of_nearest F q c _ hc
  have := nearest_mono F hp q c hqc
  rw [hx] at this
  exact this

theorem round_ge (F : BinFmt) (hp : 1 ≤ F.prec) (q c : ℚ) (hx : F.nearest c = c) (hcq : c ≤ q)
    (hc : -F.largest ≤ c) :
    F.round q = Fp.pinf ∨ ∃ v, F.round q = Fp.fin v ∧ c ≤ v := by
  apply round_ge_of_nearest F q c _ hc
  have := nearest_mono F hp c q hcq
  rw [hx] at this
  exact this

/-- The result of an operation is a value of the format. -/
theorem rep_round (F : BinFmt) (hp : 1 ≤ F.prec) (q : ℚ) : (F.round q).rep F = true := by
  unfold BinFmt.round
  by_cases ho : F.largest < |F.nearest q|
  · rw [if_pos ho]
    by_cases hq : 0 < q
    · rw [if_pos hq]; rfl
    · rw [if_neg hq]; rfl
  · rw [if_neg ho]
    unfold Fp.rep
    exact decide_eq_true ⟨nearest_idem F hp q, not_lt.1 ho⟩

theorem to_f32_x (x : Fp) (h : x.rep binary32 = true) : (to_f32 x).x = x := by
  unfold to_f32
  rw [dif_pos h]

theorem F32.fin_rep (x : F32) (q : ℚ) (h : x.x = Fp.fin q) :
    binary32.nearest q = q ∧ |q| ≤ binary32.largest := by
  have := x.ok
  rw [h] at this
  unfold Fp.rep at this
  exact of_decide_eq_true this

theorem ieee_zero (L : LibM) : (ieee L).zero.x = Fp.fin 0 := by
  show (to_f32 (Fp.fin 0)).x = Fp.fin 0
  apply to_f32_x
  unfold Fp.rep
  exact decide_eq_true ⟨nearest_zero _, by rw [abs_zero]; exact le_of_lt largest32_pos⟩

theorem ieee_lowest (L : LibM) : (ieee L).lowest.x = Fp.fin (-binary32.largest) := by
  show (to_f32 (Fp.fin (-binary32.largest))).x = Fp.fin (-binary32.largest)
  apply to_f32_x
  unfold Fp.rep
  refine decide_eq_true ⟨?_, ?_⟩
  · rw [nearest_neg, largest32_exact]
  · rw [abs_neg, abs_of_pos largest32_pos]

/-- The quotient of `0.0` by the integer `0` is NaN. -/
theorem ieee_nan (L : LibM) : ((ieee L).quot (ieee L).zero 0).x = Fp.nan := by
  show (to_f32 (Fp.div binary32 (ieee L).zero.x (binary32.round ((0 : Nat) : ℚ)))).x = Fp.nan
  rw [ieee_zero]
  have h0 : binary32.round ((0 : Nat) : ℚ) = Fp.fin 0 := by
    unfold BinFmt.round
    rw [Nat.cast_zero, nearest_zero, abs_zero, if_neg (not_lt.2 (le_of_lt largest32_pos))]
  rw [h0]
  have h1 : Fp.div binary32 (Fp.fin 0) (Fp.fin 0) = Fp.nan := by
    simp [Fp.div]
  rw [h1]
  exact to_f32_x _ rfl

theorem lt_nan_right (s : Fp) : Fp.lt s Fp.nan = false := by
  cases s <;> rfl

theorem sub_nan_right (F : BinFmt) (x : Fp) : Fp.sub F x Fp.nan = Fp.nan := by
  cases x <;> rfl

/-- The test `-25 > lowest() + 0.000001` succeeds. -/
theorem ieee_lowest_floor (L : LibM) : (ieee L).below_floor (ieee L).lowest = true := by
  show Fp.lt (Fp.add binary64 (ieee L).lowest.x (Fp.fin literal_tolerance)) (Fp.fin (-25)) = true
  rw [ieee_lowest]
  show Fp.lt (binary64.round (-binary32.largest + literal_tolerance)) (Fp.fin (-25)) = true
  have h := round_le binary64 (by decide) (-binary32.largest + literal_tolerance)
    (-25 - 1 / 2 ^ 21) below_floor_exact
    (by rw [largest32_eq]; unfold literal_tolerance; norm_num)
    (by have := largest64_pos; linarith)
  rcases h with h | ⟨v, h, hv⟩
  · rw [h]; rfl
  · rw [h]
    show decide (v < -25) = true
    apply decide_eq_true
    have : (0 : ℚ) < 1 / 2 ^ 21 := by norm_num
    linarith

/-- At or above `-25` the test `-25 > a + 0.000001` fails. -/
theorem floor_of_ge_fin (a : ℚ) (h : -25 ≤ a) :
    Fp.lt (Fp.add binary64 (Fp.fin a) (Fp.fin literal_tolerance)) (Fp.fin (-25)) = false := by
  show Fp.lt (binary64.round (a + literal_tolerance)) (Fp.fin (-25)) = false
  have h1 := round_ge binary64 (by decide) (a + literal_tolerance) (-25) floor_exact
    (by have := literal_tolerance_pos; linarith)
    (by have := largest64_big; linarith)
  rcases h1 with h1 | ⟨v, h1, hv⟩
  · rw [h1]; rfl
  · rw [h1]
    show decide (v < -25) = false
    exact decide_eq_false (not_lt.2 hv)

/-- A `float` on which the test `-25 > a + 0.000001` fails is at least `-25`. -/
theorem ge_of_floor_fin (a : ℚ) (hr : binary32.nearest a = a)
    (h : Fp.lt (Fp.add binary64 (Fp.fin a) (Fp.fin literal_tolerance)) (Fp.fin (-25)) = false) :
    -25 ≤ a := by
  by_contra hcon
  have h1 := spacing_below_floor a hr (not_le.1 hcon)
  have h2 := round_le binary64 (by decide) (a + literal_tolerance) (-25 - 1 / 2 ^ 21)
    below_floor_exact
    (by
      have : literal_tolerance ≤ 1 / 2 ^ 19 - 1 / 2 ^ 21 := by unfold literal_tolerance; norm_num
      linarith)
    (by have := largest64_pos; linarith)
  change Fp.lt (binary64.round (a + literal_tolerance)) (Fp.fin (-25)) = false at h
  rcases h2 with h2 | ⟨v, h2, hv⟩
  · rw [h2] at h
    exact absurd h (by decide)
  · rw [h2] at h
    change decide (v < -25) = false at h
    have h3 := of_decide_eq_false h
    have : (0 : ℚ) < 1 / 2 ^ 21 := by norm_num
    linarith

/-! ## IEEE 754 arithmetic: the operations of `ieee` -/

theorem largest_nonneg (F : BinFmt) : 0 ≤ F.largest := by
  unfold BinFmt.largest
  apply mul_nonneg _ (le_of_lt (two_zpow_pos _))
  have : (1 : ℚ) ≤ (2 : ℚ) ^ F.prec := one_le_pow₀ (by norm_num)
  linarith

theorem rep_zero (F : BinFmt) : (Fp.fin 0).rep F = true := by
  unfold Fp.rep
  exact decide_eq_true ⟨nearest_zero F, by rw [abs_zero]; exact largest_nonneg F⟩

/-- The sum of two values is a value of the format. -/
theorem rep_add (F : BinFmt) (hp : 1 ≤ F.prec) (x y : Fp) : (Fp.add F x y).rep F = true := by
  cases x <;> cases y <;> first | rfl | exact rep_round F hp _

/-- The product of two values is a value of the format. -/
theorem rep_mul (F : BinFmt) (hp : 1 ≤ F.prec) (x y : Fp) : (Fp.mul F x y).rep F = true := by
  cases x <;> cases y <;>
    first
    | rfl
    | exact rep_round F hp _
    | (simp only [Fp.mul]; split_ifs <;> rfl)

/-- The quotient of two values is a value of the format. -/
theorem rep_div (F : BinFmt) (hp : 1 ≤ F.prec) (x y : Fp) : (Fp.div F x y).rep F = true := by
  cases x <;> cases y <;>
    first
    | rfl
    | exact rep_zero F
    | (simp only [Fp.div]; split_ifs <;> first | rfl | exact rep_round F hp _)

/-- The conversion of a value is a value of the format. -/
theorem rep_cast (F : BinFmt) (hp : 1 ≤ F.prec) (x : Fp) : (Fp.cast F x).rep F = true := by
  cases x <;> first | rfl | exact rep_round F hp _

/-- The operations of `ieee` with a `float` result are the operations of
binary32, and `log` is called at `p/2` and `1 - p`: the value that `to_f32`
receives is a value of binary32 each time. -/
theorem ieee_operations (L : LibM) :
    (∀ x y : F32, ((ieee L).add x y).x = Fp.add binary32 x.x y.x)
      ∧ (∀ (x : F32) (n : Nat),
          ((ieee L).quot x n).x = Fp.div binary32 x.x (binary32.round (n : ℚ)))
      ∧ (∀ (n : Nat) (x : F32),
          ((ieee L).times n x).x = Fp.mul binary32 (binary32.round (n : ℚ)) x.x)
      ∧ (∀ x : F32, ((ieee L).inv x).x = Fp.div binary32 (Fp.fin 1) x.x)
      ∧ (∀ l : List Nat, ((ieee L).mean l).x
          = Fp.cast binary32
              (Fp.div binary64
                (l.foldl (fun acc c => Fp.add binary64 acc (Fp.fin (c : ℚ))) (Fp.fin 0))
                (binary64.round (l.length : ℚ))))
      ∧ (∀ p : F32, ∃ q : F32, q.x = Fp.div binary32 p.x (Fp.fin 2)
          ∧ (ieee L).log_half p = L.log q)
      ∧ (∀ p : F32, ∃ q : F32, q.x = Fp.sub binary32 (Fp.fin 1) p.x
          ∧ (ieee L).log_rest p = L.log q) := by
  refine ⟨?_, ?_, ?_, ?_, ?_, ?_, ?_⟩
  · intro x y
    exact to_f32_x _ (rep_add binary32 (by decide) _ _)
  · intro x n
    exact to_f32_x _ (rep_div binary32 (by decide) _ _)
  · intro n x
    exact to_f32_x _ (rep_mul binary32 (by decide) _ _)
  · intro x
    exact to_f32_x _ (rep_div binary32 (by decide) _ _)
  · intro l
    exact to_f32_x _ (rep_cast binary32 (by decide) _)
  · intro p
    exact ⟨_, to_f32_x _ (rep_div binary32 (by decide) _ _), rfl⟩
  · intro p
    exact ⟨_, to_f32_x _ (rep_add binary32 (by decide) _ _), rfl⟩

theorem add_nan_right (F : BinFmt) (x : Fp) : Fp.add F x Fp.nan = Fp.nan := by
  cases x <;> rfl

/-- At full coverage with `p = 1` the value of `prob` is NaN: the last term is
`0 * log(1 - 1)`, and `log(0)` is `-∞`. -/
theorem prob_full_coverage_nan {P : Type} (L : LibM)
    (hlog : ∀ x : F32, x.x = Fp.fin 0 → (L.log x).x = Fp.ninf)
    (g : KmerGraph P) (p : F32) (hp : p.x = Fp.fin 1) (j : Nat) (n : KmerNode P)
    (hj : j ≠ 0) (hj2 : j ≠ g.nodes.length - 1) (hn : g.node_at j = some n)
    (hc : total_covg n = g.num_reads) :
    ∃ v : F32, prob_fl (ieee L) g p j = some v ∧ v.x = Fp.nan := by
  obtain ⟨hadd, _, htimes, _, _, _, hrest⟩ := ieee_operations L
  obtain ⟨q, hq, hlr⟩ := hrest p
  have hq0 : q.x = Fp.fin 0 := by
    rw [hq, hp]
    show binary32.round (1 + -1) = Fp.fin 0
    unfold BinFmt.round
    rw [show (1 : ℚ) + -1 = 0 by norm_num, nearest_zero, abs_zero,
      if_neg (not_lt.2 (largest_nonneg _))]
  have hterm : ((ieee L).times (g.num_reads - total_covg n) ((ieee L).log_rest p)).x
      = Fp.nan := by
    rw [htimes, hlr, hlog q hq0, hc, Nat.sub_self]
    have h0 : binary32.round ((0 : Nat) : ℚ) = Fp.fin 0 := by
      unfold BinFmt.round
      rw [Nat.cast_zero, nearest_zero, abs_zero, if_neg (not_lt.2 (largest_nonneg _))]
    rw [h0]
    simp [Fp.mul]
  have hlt : ¬ g.num_reads < total_covg n := by omega
  refine ⟨(ieee L).add
      ((ieee L).add ((ieee L).lognchoosek2 g.num_reads n.covg0 n.covg1)
        ((ieee L).times (total_covg n) ((ieee L).log_half p)))
      ((ieee L).times (g.num_reads - total_covg n) ((ieee L).log_rest p)), ?_, ?_⟩
  · unfold prob_fl
    rw [if_neg (by simp [hj, hj2]), hn]
    dsimp only
    rw [if_neg hlt]
  · rw [hadd, hterm, add_nan_right]

/-! ## IEEE 754 arithmetic: the literal `0.000001` and `10⁻⁶` -/

/-- A `float` with a small spacing is small. -/
theorem small_of_expo (b : ℚ) (h : binary32.expo b ≤ -73) : |b| < 1 / 2 ^ 49 := by
  have h1 : |b| < (2 : ℚ) ^ (Int.log 2 |b| + 1) := by
    have := Int.lt_zpow_succ_log_self (R := ℚ) (b := 2) (by norm_num) |b|
    simpa using this
  have h2 : Int.log 2 |b| + 1 ≤ -49 := by
    unfold BinFmt.expo at h
    have : Int.log 2 |b| ≤ max (Int.log 2 |b|) binary32.emin := le_max_left _ _
    simp only [binary32] at this h
    push_cast at h
    omega
  have h3 := lt_of_lt_of_le h1 (two_zpow_mono _ _ h2)
  have h4 : (2 : ℚ) ^ (-49 : Int) = 1 / 2 ^ 49 := by norm_num
  rw [h4] at h3
  exact h3

/-- A `float` above `2⁻²⁰` is a multiple of `2⁻⁴³`. -/
theorem grid_of_large (a : ℚ) (hr : binary32.nearest a = a) (h : 1 / 2 ^ 20 ≤ a) :
    ∃ K : Int, a * 2 ^ 43 = (K : ℚ) := by
  obtain ⟨k, hk⟩ := fixed_point_grid binary32 a hr
  have hpos : (0 : ℚ) < a := lt_of_lt_of_le (by norm_num) h
  have hlog : (-20 : Int) ≤ Int.log 2 |a| := by
    rw [abs_of_pos hpos]
    apply le_log_of_le _ _ hpos
    have h4 : (2 : ℚ) ^ (-20 : Int) = 1 / 2 ^ 20 := by norm_num
    rw [h4]
    exact h
  have he : -43 ≤ binary32.expo a := by
    unfold BinFmt.expo
    have : Int.log 2 |a| ≤ max (Int.log 2 |a|) binary32.emin := le_max_left _ _
    simp only [binary32] at this ⊢
    push_cast
    omega
  generalize binary32.expo a = E at he hk
  have hn : 0 ≤ E + 43 := by omega
  refine ⟨k * (2 : Int) ^ (E + 43).toNat, ?_⟩
  push_cast
  have h2 := two_zpow_int (E + 43) hn
  push_cast at h2
  rw [← h2, hk, zpow_add₀ (by norm_num : (2 : ℚ) ≠ 0)]
  norm_num
  ring

/-- A `float` is a multiple of `2^e` for every `e` up to its spacing. -/
theorem grid_of_expo (a : ℚ) (hr : binary32.nearest a = a) (h : -72 ≤ binary32.expo a) :
    ∃ K : Int, a * 2 ^ 72 = (K : ℚ) := by
  obtain ⟨k, hk⟩ := fixed_point_grid binary32 a hr
  generalize binary32.expo a = E at h hk
  have hn : 0 ≤ E + 72 := by omega
  refine ⟨k * (2 : Int) ^ (E + 72).toNat, ?_⟩
  push_cast
  have h2 := two_zpow_int (E + 72) hn
  push_cast at h2
  rw [← h2, hk, zpow_add₀ (by norm_num : (2 : ℚ) ≠ 0)]
  norm_num
  ring

theorem no_large_near_literal (a e : ℚ) (hr : binary32.nearest a = a)
    (he : |e| < 1 / 2 ^ 49) (h1 : literal_tolerance < a + e) (h2 : a + e ≤ 1 / 1000000) :
    False := by
  obtain ⟨e1, e2⟩ := abs_lt.1 he
  have hl : 1 / 2 ^ 20 ≤ a := by
    unfold literal_tolerance at h1
    norm_num at h1 e1 e2 ⊢
    linarith
  obtain ⟨K, hK⟩ := grid_of_large a hr hl
  have h3 : ((8796093 : Int) : ℚ) < (K : ℚ) := by
    rw [← hK]
    unfold literal_tolerance at h1
    norm_num at h1 e1 e2 ⊢
    linarith
  have h4 : (K : ℚ) < ((8796094 : Int) : ℚ) := by
    rw [← hK]
    norm_num at h2 e1 e2 ⊢
    linarith
  have h5 : (8796093 : Int) < K := by exact_mod_cast h3
  have h6 : K < (8796094 : Int) := by exact_mod_cast h4
  omega

/-- Two `float`s that differ by at most `10⁻⁶` differ by at most the `double`
literal `0.000001`: no difference of two `float`s lies between the two. -/
theorem float_gap (a b : ℚ) (ha : binary32.nearest a = a) (hb : binary32.nearest b = b)
    (h : a - b ≤ 1 / 1000000) : a - b ≤ literal_tolerance := by
  by_contra hcon
  have hd : literal_tolerance < a - b := not_le.1 hcon
  by_cases hea : binary32.expo a ≤ -73
  · have hs := small_of_expo a hea
    have hnb : binary32.nearest (-b) = -b := by rw [nearest_neg, hb]
    exact no_large_near_literal (-b) a hnb hs (by linarith) (by linarith)
  · by_cases heb : binary32.expo b ≤ -73
    · have hs := small_of_expo b heb
      have hs2 : |(-b)| < 1 / 2 ^ 49 := by rw [abs_neg]; exact hs
      exact no_large_near_literal a (-b) ha hs2 (by linarith) (by linarith)
    · obtain ⟨Ka, hKa⟩ := grid_of_expo a ha (by omega)
      obtain ⟨Kb, hKb⟩ := grid_of_expo b hb (by omega)
      have h3 : ((4722366482869645 : Int) : ℚ) < ((Ka - Kb : Int) : ℚ) := by
        push_cast
        rw [← hKa, ← hKb]
        unfold literal_tolerance at hd
        norm_num at hd ⊢
        linarith
      have h4 : ((Ka - Kb : Int) : ℚ) < ((4722366482869646 : Int) : ℚ) := by
        push_cast
        rw [← hKa, ← hKb]
        norm_num at h ⊢
        linarith
      have h5 : (4722366482869645 : Int) < Ka - Kb := by exact_mod_cast h3
      have h6 : Ka - Kb < (4722366482869646 : Int) := by exact_mod_cast h4
      omega

/-! ## IEEE 754 arithmetic has the facts that the decoder uses -/

/-- Within the range no operation overflows. -/
theorem round_within (q : ℚ) (h : |q| ≤ binary32.largest) :
    ∃ v, binary32.round q = Fp.fin v ∧ |v| ≤ binary32.largest := by
  obtain ⟨h1, h2⟩ := abs_le.1 h
  have hlo := round_ge binary32 (by decide) q (-binary32.largest)
    (by rw [nearest_neg, largest32_exact]) h1 (le_refl _)
  have hup := round_le binary32 (by decide) q binary32.largest largest32_exact h2 (le_refl _)
  rcases hlo with hlo | ⟨v, hv, hv1⟩
  · rcases hup with hup | ⟨w, hw, _⟩
    · rw [hlo] at hup; exact absurd hup (by simp)
    · rw [hlo] at hw; exact absurd hw (by simp)
  · rcases hup with hup | ⟨w, hw, hw1⟩
    · rw [hv] at hup; exact absurd hup (by simp)
    · rw [hv] at hw
      have hvw : v = w := by injection hw
      exact ⟨v, hv, abs_le.2 ⟨hv1, by rw [hvw]; exact hw1⟩⟩

/-- The quotient of a finite `float` by a positive integer is finite. -/
theorem quot_finite (L : LibM) (x : F32) (n : Nat) (hx : x.finite) (hn : 0 < n) :
    ∃ v, ((ieee L).quot x n).x = Fp.fin v ∧ |v| ≤ binary32.largest := by
  obtain ⟨a, ha⟩ := hx
  obtain ⟨_, hab⟩ := F32.fin_rep x a ha
  show ∃ v, (to_f32 (Fp.div binary32 x.x (binary32.round (n : ℚ)))).x = Fp.fin v ∧ _
  rw [ha]
  have hn1 : (1 : ℚ) ≤ (n : ℚ) := by exact_mod_cast hn
  have hd := round_ge binary32 (by decide) (n : ℚ) 1 one_exact hn1
    (by have := largest32_pos; linarith)
  rcases hd with hd | ⟨d, hd, hd1⟩
  · rw [hd]
    refine ⟨0, ?_, by rw [abs_zero]; exact le_of_lt largest32_pos⟩
    show (to_f32 (Fp.fin 0)).x = Fp.fin 0
    apply to_f32_x
    unfold Fp.rep
    exact decide_eq_true ⟨nearest_zero _, by rw [abs_zero]; exact le_of_lt largest32_pos⟩
  · rw [hd]
    have hd0 : d ≠ 0 := by intro h; rw [h] at hd1; linarith
    have hdiv : Fp.div binary32 (Fp.fin a) (Fp.fin d) = binary32.round (a / d) := by
      show (if d = 0 then _ else binary32.round (a / d)) = _
      rw [if_neg hd0]
    rw [hdiv]
    have hq : |a / d| ≤ binary32.largest := by
      rw [abs_div, abs_of_pos (by linarith : (0 : ℚ) < d)]
      have : |a| / d ≤ |a| := div_le_self (abs_nonneg a) hd1
      linarith
    obtain ⟨v, hv, hv1⟩ := round_within (a / d) hq
    refine ⟨v, ?_, hv1⟩
    rw [← hv]
    exact to_f32_x _ (rep_round binary32 (by decide) _)

/-- For a `float` `v` within the range the test `lowest() - v <= 0.000001`
succeeds. -/
theorem sub_lowest_le (v : ℚ) (hv : |v| ≤ binary32.largest) :
    Fp.le (Fp.sub binary32 (Fp.fin (-binary32.largest)) (Fp.fin v))
      (Fp.fin literal_tolerance) = true := by
  show Fp.le (binary32.round (-binary32.largest + -v)) (Fp.fin literal_tolerance) = true
  obtain ⟨h1, _⟩ := abs_le.1 hv
  have h := round_le binary32 (by decide) (-binary32.largest + -v) 0 (nearest_zero _)
    (by linarith) (le_of_lt largest32_pos)
  rcases h with h | ⟨w, h, hw⟩
  · rw [h]; rfl
  · rw [h]
    show decide (w ≤ literal_tolerance) = true
    exact decide_eq_true (le_trans hw (le_of_lt literal_tolerance_pos))

/-- IEEE 754 arithmetic has the facts behind the first edge that a node takes. -/
theorem ieee_first_edge (L : LibM) : FirstEdge (ieee L) F32.finite := by
  constructor
  · exact ieee_lowest_floor L
  · intro x n hx hn
    obtain ⟨v, hv, hv1⟩ := quot_finite L x n hx hn
    show Fp.le (Fp.sub binary32 (ieee L).lowest.x ((ieee L).quot x n).x)
      (Fp.fin literal_tolerance) = true
    rw [ieee_lowest, hv]
    exact sub_lowest_le v hv1

/-- IEEE 754 arithmetic has the facts behind the tie-break. -/
theorem ieee_tie_break (L : LibM) : TieBreak (ieee L) F32.finite F32.val := by
  constructor
  · intro m hm
    obtain ⟨v, hv⟩ := hm
    obtain ⟨_, hv1⟩ := F32.fin_rep m v hv
    show Fp.le (Fp.sub binary32 (ieee L).lowest.x m.x) (Fp.fin literal_tolerance) = true
    rw [ieee_lowest, hv]
    exact sub_lowest_le v hv1
  · intro x y hx hy h
    obtain ⟨a, ha⟩ := hx
    obtain ⟨b, hb⟩ := hy
    have hva : x.val = a := by unfold F32.val; rw [ha]
    have hvb : y.val = b := by unfold F32.val; rw [hb]
    rw [hva, hvb] at h
    obtain ⟨har, _⟩ := F32.fin_rep x a ha
    obtain ⟨hbr, _⟩ := F32.fin_rep y b hb
    have hg := float_gap a b har hbr h
    show Fp.le (Fp.sub binary32 x.x y.x) (Fp.fin literal_tolerance) = true
    rw [ha, hb]
    show Fp.le (binary32.round (a + -b)) (Fp.fin literal_tolerance) = true
    have hn : binary32.nearest (a + -b) ≤ literal_tolerance :=
      le_trans (nearest_mono binary32 (by decide) _ _ (by linarith)) nearest32_literal_le
    have h1 := round_le_of_nearest binary32 (a + -b) literal_tolerance hn
      (by have := literal_tolerance_lt; rw [largest32_eq]; linarith)
    rcases h1 with h1 | ⟨w, h1, hw⟩
    · rw [h1]; rfl
    · rw [h1]
      show decide (w ≤ literal_tolerance) = true
      exact decide_eq_true hw
  · intro x y hx hy h
    obtain ⟨a, ha⟩ := hx
    obtain ⟨b, hb⟩ := hy
    have hva : x.val = a := by unfold F32.val; rw [ha]
    have hvb : y.val = b := by unfold F32.val; rw [hb]
    rw [hva, hvb] at h
    obtain ⟨har, hab⟩ := F32.fin_rep x a ha
    obtain ⟨hbr, _⟩ := F32.fin_rep y b hb
    have hg := float_gap a b har hbr (by unfold tolerance at h; linarith)
    show Fp.lt (Fp.add binary64 y.x (Fp.fin literal_tolerance)) x.x = false
    rw [ha, hb]
    show Fp.lt (binary64.round (b + literal_tolerance)) (Fp.fin a) = false
    have h1 := round_ge binary64 (by decide) (b + literal_tolerance) a
      (nearest_binary64_of_binary32 a har) (by linarith)
      (by have := (abs_le.1 hab).1; have := largest64_ge; linarith)
    rcases h1 with h1 | ⟨w, h1, hw⟩
    · rw [h1]; rfl
    · rw [h1]
      show decide (w < a) = false
      exact decide_eq_false (not_lt.2 hw)

/-- IEEE 754 arithmetic has the facts behind the guard on the edge to the sink. -/
theorem ieee_sink_guard (L : LibM) : SinkGuard (ieee L) F32.finite F32.val := by
  constructor
  · exact ieee_lowest_floor L
  · intro m hm h
    obtain ⟨a, ha⟩ := hm
    have hva : m.val = a := by unfold F32.val; rw [ha]
    rw [hva] at h
    show Fp.lt (Fp.add binary64 m.x (Fp.fin literal_tolerance)) (Fp.fin (-25)) = false
    rw [ha]
    exact floor_of_ge_fin a h
  · intro m x hm h he
    obtain ⟨a, ha⟩ := hm
    have hva : m.val = a := by unfold F32.val; rw [ha]
    rw [hva] at h
    change Fp.lt (Fp.add binary64 x.x (Fp.fin literal_tolerance)) m.x = false at he
    show Fp.lt (Fp.add binary64 x.x (Fp.fin literal_tolerance)) (Fp.fin (-25)) = false
    rw [ha] at he
    generalize Fp.add binary64 x.x (Fp.fin literal_tolerance) = s at he
    cases s with
    | nan => rfl
    | pinf => rfl
    | ninf => simp [Fp.lt] at he
    | fin v =>
      change decide (v < a) = false at he
      show decide (v < -25) = false
      have := of_decide_eq_false he
      exact decide_eq_false (by linarith)
  · intro m x he hf
    change Fp.lt (Fp.add binary64 x.x (Fp.fin literal_tolerance)) m.x = true at he
    change Fp.lt (Fp.add binary64 x.x (Fp.fin literal_tolerance)) (Fp.fin (-25)) = false at hf
    show Fp.lt (Fp.add binary64 m.x (Fp.fin literal_tolerance)) (Fp.fin (-25)) = false
    generalize Fp.add binary64 x.x (Fp.fin literal_tolerance) = s at he hf
    cases hm : m.x with
    | nan => rw [hm] at he; rw [lt_nan_right] at he; exact Bool.noConfusion he
    | pinf => rfl
    | ninf => rw [hm] at he; cases s <;> simp [Fp.lt] at he
    | fin a =>
      rw [hm] at he
      cases s with
      | nan => simp [Fp.lt] at he
      | pinf => simp [Fp.lt] at he
      | ninf => simp [Fp.lt] at hf
      | fin v =>
        change decide (v < a) = true at he
        change decide (v < -25) = false at hf
        have h1 := of_decide_eq_true he
        have h2 := of_decide_eq_false hf
        exact floor_of_ge_fin a (by linarith)
  · intro x m hw hf
    change Fp.le (Fp.sub binary32 x.x m.x) (Fp.fin literal_tolerance) = true at hw
    change Fp.lt (Fp.add binary64 x.x (Fp.fin literal_tolerance)) (Fp.fin (-25)) = false at hf
    show Fp.lt (Fp.add binary64 m.x (Fp.fin literal_tolerance)) (Fp.fin (-25)) = false
    cases hx : x.x with
    | nan =>
      rw [hx] at hw
      cases hm : m.x <;> rw [hm] at hw <;> simp [Fp.sub, Fp.add, Fp.neg, Fp.le] at hw
    | pinf =>
      rw [hx] at hw
      cases hm : m.x <;> rw [hm] at hw <;> simp [Fp.sub, Fp.add, Fp.neg, Fp.le] at hw
    | ninf => rw [hx] at hf; simp [Fp.add, Fp.lt] at hf
    | fin a =>
      rw [hx] at hw hf
      obtain ⟨har, _⟩ := F32.fin_rep x a hx
      have ha : -25 ≤ a := ge_of_floor_fin a har hf
      cases hm : m.x with
      | nan => rw [hm] at hw; simp [Fp.sub, Fp.add, Fp.neg, Fp.le] at hw
      | pinf => rfl
      | ninf => rw [hm] at hw; simp [Fp.sub, Fp.add, Fp.neg, Fp.le] at hw
      | fin b =>
        rw [hm] at hw
        obtain ⟨hbr, _⟩ := F32.fin_rep m b hm
        apply floor_of_ge_fin
        by_contra hcon
        have h1 := spacing_below_floor b hbr (not_le.1 hcon)
        change Fp.le (binary32.round (a + -b)) (Fp.fin literal_tolerance) = true at hw
        have h2 := round_ge binary32 (by decide) (a + -b) (1 / 2 ^ 19) spacing_exact
          (by linarith) (by have := largest32_pos; norm_num; linarith)
        have hlt : literal_tolerance < 1 / 2 ^ 19 := by unfold literal_tolerance; norm_num
        rcases h2 with h2 | ⟨w, h2, hw2⟩
        · rw [h2] at hw; simp [Fp.le] at hw
        · rw [h2] at hw
          change decide (w ≤ literal_tolerance) = true at hw
          have := of_decide_eq_true hw
          linarith
  · intro x
    show Fp.lt (Fp.add binary64 x.x (Fp.fin literal_tolerance)) ((ieee L).quot (ieee L).zero 0).x
      = false
    rw [ieee_nan]
    exact lt_nan_right _
  · intro x
    show Fp.le (Fp.sub binary32 x.x ((ieee L).quot (ieee L).zero 0).x) (Fp.fin literal_tolerance)
      = false
    rw [ieee_nan, sub_nan_right]
    rfl

/-! ## C9: the tie-break -/

theorem scan_pair_fl {P α : Type} (A : FloatArith α) (g : KmerGraph P) (pj : α) (j : Nat)
    (t r : Tables α) (a b : Nat) (na nb : KmerNode P) (ha : g.store[a]? = some na)
    (hb : g.store[b]? = some nb) (h : scan_edges_fl A g pj j t [a, b] = some r) :
    r = visit_edge_fl A g.nodes.length pj j (visit_edge_fl A g.nodes.length pj j t na.id)
          nb.id := by
  simp only [scan_edges_fl, ha, hb] at h
  split at h
  · split at h
    · exact (Option.some.inj h).symm
    · cases h
  · cases h

theorem tie_break_in_tables_fl {P α : Type} (A : FloatArith α) (finite : α → Prop)
    (val : α → ℚ) (hA : TieBreak A finite val) (g : KmerGraph P) (p : α) (s : Tables α)
    (j a b s1 s2 : Nat) (nd na nb : KmerNode P)
    (hs : max_path_tables_fl A g p = some s)
    (hnd : g.node_at j = some nd) (hout : nd.outNodes = [a, b])
    (ha : g.store[a]? = some na) (hb : g.store[b]? = some nb)
    (hids : (na.id = s1 ∧ nb.id = s2) ∨ (na.id = s2 ∧ nb.id = s1))
    (h1 : j < s1 ∧ s1 < g.nodes.length - 1) (h2 : j < s2 ∧ s2 < g.nodes.length - 1)
    (hf1 : finite (A.quot (s.M s1) (s.len s1)))
    (hf2 : finite (A.quot (s.M s2) (s.len s2)))
    (htie : |val (A.quot (s.M s1) (s.len s1)) - val (A.quot (s.M s2) (s.len s2))|
      ≤ tolerance)
    (hlen : s.len s1 < s.len s2) :
    s.prev j = s2 := by
  have hsw := max_path_tables_fl_sweep A g p s hs
  obtain ⟨nd2, pj, s0, r, hnd2, _, hscan, hfin, hres, _⟩ :=
    sweep_fl_at A g p (g.nodes.length - 1) _ s hsw j (by omega)
  rw [hnd] at hnd2
  cases hnd2
  rw [hout] at hscan
  have hr := scan_pair_fl A g pj j _ r a b na nb ha hb hscan
  rw [← hres.2.2, hr]
  obtain ⟨hM1, hL1, _⟩ := hfin s1 h1.1
  obtain ⟨hM2, hL2, _⟩ := hfin s2 h2.1
  rw [← hM1, ← hL1] at hf1 htie
  rw [← hM2, ← hL2] at hf2 htie
  rw [← hL1, ← hL2] at hlen
  have habs := abs_le.mp htie
  have hj1 : s1 ≠ j := by omega
  have hj2 : s2 ≠ j := by omega
  have hn1 : s1 ≠ g.nodes.length - 1 := by omega
  have hn2 : s2 ≠ g.nodes.length - 1 := by omega
  obtain ⟨t0, ht0⟩ : ∃ t0 : Tables α, t0 = { s0 with max_mean := A.lowest, max_len := 0 } :=
    ⟨_, rfl⟩
  rw [← ht0]
  have ht0M : t0.M = s0.M := by rw [ht0]
  have ht0L : t0.len = s0.len := by rw [ht0]
  have ht0m : t0.max_mean = A.lowest := by rw [ht0]
  have ht0l : t0.max_len = 0 := by rw [ht0]
  rcases hids with ⟨hia, hib⟩ | ⟨hia, hib⟩
  · rw [hia, hib]
    by_cases hc : A.exceeds (A.quot (t0.M s1) (t0.len s1)) t0.max_mean = true
        ∨ (A.within t0.max_mean (A.quot (t0.M s1) (t0.len s1)) = true ∧ t0.max_len < t0.len s1)
    · rw [visit_edge_fl_taken A _ pj j t0 s1 hn1 hj1 hc]
      rw [visit_edge_fl_taken A _ pj j _ s2 hn2 hj2]
      · simp
      · right
        simp only [Function.update, hj2, dite_false]
        rw [ht0M, ht0L]
        exact ⟨hA.close_within _ _ hf1 hf2 (by linarith [habs.2]), hlen⟩
    · rw [visit_edge_fl_skipped A _ pj j t0 s1 (fun h => hn1 h.1) (fun h => hc (Or.inl h))
        (fun h => hc (Or.inr h))]
      rw [visit_edge_fl_taken A _ pj j t0 s2 hn2 hj2]
      · simp
      · right
        rw [ht0M, ht0L, ht0m, ht0l]
        exact ⟨hA.fresh _ hf2, by omega⟩
  · rw [hia, hib]
    rw [visit_edge_fl_taken A _ pj j t0 s2 hn2 hj2
      (Or.inr (by rw [ht0M, ht0L, ht0m, ht0l]; exact ⟨hA.fresh _ hf2, by omega⟩))]
    rw [visit_edge_fl_skipped A _ pj j _ s1]
    · simp
    · intro h; exact hn1 h.1
    · simp only [Function.update, hj1, dite_false]
      rw [ht0M, ht0L, hA.close_not_exceeds _ _ hf1 hf2 (by linarith [habs.1])]
      simp
    · simp only [Function.update, hj1, dite_false]
      rw [ht0L]
      rintro ⟨_, h⟩
      omega

/-- C9. On a graph whose adjacency can be decoded, `find_max_path` builds its
tables, in `float` arithmetic and for every value of `p`, and in them: when the
out-neighbours of a node `j` are exactly two nodes with ids `s1` and `s2`, both
after `j` (the graph is sorted) and neither the sink, whose mean scores
`M[s1]/len[s1]` and `M[s2]/len[s2]` are finite and differ by at most `10⁻⁶`,
and `len[s1] < len[s2]`, then `prev[j] = s2`, in whichever
order the two stand in the out-edge list of `j`.  The means are the floats that
the code computes, and what is used of the arithmetic is `TieBreak`, which
IEEE 754 arithmetic has (`ieee_tie_break`). -/
theorem tie_break_prefers_longer {P α : Type} (A : FloatArith α) (finite : α → Prop)
    (val : α → ℚ) (hA : TieBreak A finite val) (g : KmerGraph P) (p : α)
    (hdec : decodable g) :
    ∃ s, max_path_tables_fl A g p = some s
      ∧ ∀ (j a b s1 s2 : Nat) (nd na nb : KmerNode P),
          g.node_at j = some nd → nd.outNodes = [a, b] →
          g.store[a]? = some na → g.store[b]? = some nb →
          ((na.id = s1 ∧ nb.id = s2) ∨ (na.id = s2 ∧ nb.id = s1)) →
          (j < s1 ∧ s1 < g.nodes.length - 1) → (j < s2 ∧ s2 < g.nodes.length - 1) →
          finite (A.quot (s.M s1) (s.len s1)) →
          finite (A.quot (s.M s2) (s.len s2)) →
          |val (A.quot (s.M s1) (s.len s1)) - val (A.quot (s.M s2) (s.len s2))|
            ≤ tolerance →
          s.len s1 < s.len s2 →
          s.prev j = s2 := by
  obtain ⟨s, hs⟩ := max_path_tables_fl_isSome A g p hdec
  refine ⟨s, hs, ?_⟩
  intro j a b s1 s2 nd na nb hnd hout ha hb hids h1 h2 hf1 hf2 htie hlen
  exact tie_break_in_tables_fl A finite val hA g p s j a b s1 s2 nd na nb hs hnd hout ha hb
    hids h1 h2 hf1 hf2 htie hlen

theorem tie5_tables_fl :
    (max_path_tables_fl decimal tie5 (some 600)).map
        (fun s => (s.M 1, s.len 1, s.M 2, s.len 2))
      = some (some (-1204), 1, some (-2408), 2) := by
  decide

theorem tie_break_prefers_longer_witness :
    ∃ s, max_path_tables_fl decimal tie5 (some 600) = some s
      ∧ decimal.quot (s.M 1) (s.len 1) = some (-1204)
      ∧ decimal.quot (s.M 2) (s.len 2) = some (-1204)
      ∧ s.len 1 < s.len 2 ∧ s.prev 0 = 2 := by
  obtain ⟨s, hs, hall⟩ := tie_break_prefers_longer decimal decimal_finite decimal_val
    decimal_tie_break tie5 (some 600) tie5_decodable
  have ht := tie5_tables_fl
  rw [hs] at ht
  simp only [Option.map_some', Option.some.injEq, Prod.mk.injEq] at ht
  obtain ⟨hM1, hL1, hM2, hL2⟩ := ht
  have hq1 : decimal.quot (s.M 1) (s.len 1) = some (-1204) := by rw [hM1, hL1]; decide
  have hq2 : decimal.quot (s.M 2) (s.len 2) = some (-1204) := by rw [hM2, hL2]; decide
  refine ⟨s, hs, hq1, hq2, by rw [hL1, hL2]; omega, ?_⟩
  exact hall 0 1 2 1 2 _ _ _ rfl rfl rfl rfl
    (Or.inl ⟨rfl, rfl⟩) (by decide) (by decide)
    (by rw [hq1]; exact ⟨_, rfl, by decide, by decide⟩)
    (by rw [hq2]; exact ⟨_, rfl, by decide, by decide⟩)
    (by rw [hq1, hq2]; norm_num [tolerance])
    (by rw [hL1, hL2]; omega)

/-! ## C16, C17: the tables at every node -/

theorem visit_edge_fl_fresh {α : Type} (A : FloatArith α) (finite : α → Prop)
    (hA : FirstEdge A finite) (size : Nat) (pj : α) (j : Nat) (s : Tables α) (sid : Nat)
    (hm : s.max_mean = A.lowest) (hl : s.max_len = 0)
    (hg : sid = size - 1 ∨ (s.len sid ≠ 0 ∧ finite (s.M sid))) :
    (visit_edge_fl A size pj j s sid).prev j = sid
      ∧ (visit_edge_fl A size pj j s sid).M j = A.add pj (s.M sid)
      ∧ (visit_edge_fl A size pj j s sid).len j = 1 + s.len sid := by
  have hcond : (sid = size - 1 ∧ A.below_floor s.max_mean = true)
      ∨ A.exceeds (A.quot (s.M sid) (s.len sid)) s.max_mean = true
      ∨ (A.within s.max_mean (A.quot (s.M sid) (s.len sid)) = true
          ∧ s.max_len < s.len sid) := by
    rcases hg with h | ⟨h1, h2⟩
    · left
      exact ⟨h, by rw [hm]; exact hA.lowest_floor⟩
    · right; right
      refine ⟨?_, ?_⟩
      · rw [hm]; exact hA.fresh _ _ h2 (Nat.pos_of_ne_zero h1)
      · rw [hl]; exact Nat.pos_of_ne_zero h1
  unfold visit_edge_fl
  rw [if_pos hcond]
  split <;> simp [Function.update_same]

theorem scan_chosen_fl {P α : Type} (A : FloatArith α) (finite : α → Prop)
    (hA : FirstEdge A finite) (g : KmerGraph P) (pj : α) (j : Nat)
    (s0 : Tables α) (L : List Nat)
    (hgood : ∀ a ∈ L, ∀ na : KmerNode P, g.store[a]? = some na →
      j < na.id ∧ (na.id = g.nodes.length - 1
        ∨ (s0.len na.id ≠ 0 ∧ finite (s0.M na.id))))
    (outs : List Nat) :
    ∀ (t r : Tables α), scan_edges_fl A g pj j t outs = some r → (∀ a ∈ outs, a ∈ L) →
      (∀ i : Nat, i ≠ j → t.M i = s0.M i ∧ t.len i = s0.len i) →
      ((t.max_mean = A.lowest ∧ t.max_len = 0)
        ∨ ∃ a ∈ L, ∃ na : KmerNode P, g.store[a]? = some na ∧ t.prev j = na.id
            ∧ t.M j = A.add pj (s0.M na.id) ∧ t.len j = 1 + s0.len na.id) →
      outs ≠ [] →
      ∃ a ∈ L, ∃ na : KmerNode P, g.store[a]? = some na ∧ r.prev j = na.id
        ∧ r.M j = A.add pj (s0.M na.id) ∧ r.len j = 1 + s0.len na.id := by
  induction outs with
  | nil => intro t r _ _ _ _ hne; exact absurd rfl hne
  | cons a rest ih =>
    intro t r h hsub hframe hinv _
    unfold scan_edges_fl at h
    cases hna : g.store[a]? with
    | none => simp [hna] at h
    | some na =>
      simp only [hna] at h
      by_cases hin : na.id < g.nodes.length
      · rw [if_pos hin] at h
        have haL : a ∈ L := hsub a (List.mem_cons_self _ _)
        obtain ⟨hlt, hg⟩ := hgood a haL na hna
        have hne : na.id ≠ j := by omega
        obtain ⟨hMf, hLf⟩ := hframe na.id hne
        have hch : ∃ b ∈ L, ∃ nb : KmerNode P, g.store[b]? = some nb
            ∧ (visit_edge_fl A g.nodes.length pj j t na.id).prev j = nb.id
            ∧ (visit_edge_fl A g.nodes.length pj j t na.id).M j = A.add pj (s0.M nb.id)
            ∧ (visit_edge_fl A g.nodes.length pj j t na.id).len j = 1 + s0.len nb.id := by
          rcases hinv with ⟨hm, hl⟩ | hc
          · obtain ⟨h1, h2, h3⟩ := visit_edge_fl_fresh A finite hA g.nodes.length pj j t na.id
              hm hl (by rw [hMf, hLf]; exact hg)
            exact ⟨a, haL, na, hna, h1, by rw [h2, hMf], by rw [h3, hLf]⟩
          · rcases visit_edge_fl_effect A g.nodes.length pj j t na.id with he | ⟨h1, h2, h3⟩
            · rw [he]; exact hc
            · exact ⟨a, haL, na, hna, h1, by rw [h2, hMf], by rw [h3, hLf]⟩
        have hframe2 : ∀ i : Nat, i ≠ j →
            (visit_edge_fl A g.nodes.length pj j t na.id).M i = s0.M i
              ∧ (visit_edge_fl A g.nodes.length pj j t na.id).len i = s0.len i := by
          intro i hi
          obtain ⟨h1, h2, _⟩ := visit_edge_fl_frame A g.nodes.length pj j t na.id i hi
          obtain ⟨h3, h4⟩ := hframe i hi
          exact ⟨h1.trans h3, h2.trans h4⟩
        by_cases hr : rest = []
        · subst hr
          simp only [scan_edges_fl, Option.some.injEq] at h
          rw [← h]
          exact hch
        · exact ih _ r h (fun x hx => hsub x (List.mem_cons_of_mem _ hx)) hframe2
            (Or.inr hch) hr
      · rw [if_neg hin] at h; cases h

theorem follow_head (prev : Nat → Nat) (size fuel v : Nat) :
    ∀ y ∈ (follow prev size fuel v).head?, y = v := by
  intro y hy
  cases fuel with
  | zero => simp [follow] at hy
  | succ f =>
    simp only [follow] at hy
    split at hy
    · simp only [List.head?_cons, Option.mem_def, Option.some.injEq] at hy
      exact hy.symm
    · simp at hy

theorem tables_decoded_fl {P α : Type} (A : FloatArith α) (finite : α → Prop)
    (hA : FirstEdge A finite) (g : KmerGraph P) (p : α) (hfw : forward_edges g)
    (hsum : ∀ w : List Nat, is_walk g w → (∀ v ∈ w, 0 < v ∧ v < g.nodes.length - 1) →
      ∀ x : α, path_sum A g p w = some x → finite x)
    (s : Tables α) (hs : max_path_tables_fl A g p = some s) :
    ∀ (n j : Nat), j < g.nodes.length - 1 → g.nodes.length - 1 - j ≤ n →
      (∃ (pj : α) (nd : KmerNode P) (a : Nat) (na : KmerNode P),
          prob_fl A g p j = some pj ∧ g.node_at j = some nd ∧ a ∈ nd.outNodes
          ∧ g.store[a]? = some na ∧ s.prev j = na.id
          ∧ s.M j = A.add pj (s.M na.id) ∧ s.len j = 1 + s.len na.id)
        ∧ path_sum A g p (follow s.prev g.nodes.length n j) = some (s.M j)
        ∧ s.len j = (follow s.prev g.nodes.length n j).length
        ∧ is_walk g (follow s.prev g.nodes.length n j)
        ∧ ∀ v ∈ follow s.prev g.nodes.length n j, j ≤ v ∧ v < g.nodes.length - 1 := by
  have hsink := table_fl_sink A g p s hs
  have hsw := max_path_tables_fl_sweep A g p s hs
  intro n
  induction n with
  | zero => intro j hj hn; omega
  | succ m ih =>
    intro j hj hn
    obtain ⟨nd, hnd, hne, hout⟩ := hfw j hj
    obtain ⟨nd2, pj, s0, s1, hnd2, hpj, hscan, hafter, hat, _⟩ :=
      sweep_fl_at A g p (g.nodes.length - 1) _ s hsw j hj
    rw [hnd] at hnd2
    have hnd3 : nd2 = nd := (Option.some.inj hnd2).symm
    rw [hnd3] at hscan
    have hgood : ∀ a ∈ nd.outNodes, ∀ na : KmerNode P, g.store[a]? = some na →
        j < na.id ∧ (na.id = g.nodes.length - 1
          ∨ (s0.len na.id ≠ 0 ∧ finite (s0.M na.id))) := by
      intro a ha na hna
      obtain ⟨na2, hna2, hlt, hin⟩ := hout a ha
      have e : na2 = na := Option.some.inj (hna2.symm.trans hna)
      rw [e] at hlt hin
      refine ⟨hlt, ?_⟩
      by_cases hsk : na.id = g.nodes.length - 1
      · exact Or.inl hsk
      · right
        obtain ⟨⟨_, _, _, nb, _, _, _, _, _, _, hlen⟩, hps, _, hwalk, hmem⟩ :=
          ih na.id (by omega) (by omega)
        obtain ⟨hM0, hL0, _⟩ := hafter na.id hlt
        rw [hM0, hL0]
        refine ⟨by omega, ?_⟩
        exact hsum _ hwalk (fun v hv => ⟨by have := (hmem v hv).1; omega, (hmem v hv).2⟩) _ hps
    obtain ⟨a, ha, na, hna, h1, h2, h3⟩ := scan_chosen_fl A finite hA g pj j s0 nd.outNodes hgood
      nd.outNodes _ s1 hscan (fun _ h => h) (fun _ _ => ⟨rfl, rfl⟩)
      (Or.inl ⟨rfl, rfl⟩) hne
    obtain ⟨hlt, _⟩ := hgood a ha na hna
    obtain ⟨na2, hna2, _, hin⟩ := hout a ha
    have e2 : na2 = na := Option.some.inj (hna2.symm.trans hna)
    rw [e2] at hin
    obtain ⟨hM0, hL0, _⟩ := hafter na.id hlt
    have hP : s.prev j = na.id := by rw [← hat.2.2, h1]
    have hM : s.M j = A.add pj (s.M na.id) := by rw [← hat.1, h2, hM0]
    have hL : s.len j = 1 + s.len na.id := by rw [← hat.2.1, h3, hL0]
    have hfol : follow s.prev g.nodes.length (m + 1) j
        = j :: follow s.prev g.nodes.length m na.id := by
      simp only [follow, if_pos hj, hP]
    have hedge : edge_between g j na.id := ⟨nd, a, na, hnd, ha, hna, rfl⟩
    refine ⟨⟨pj, nd, a, na, hpj, hnd, ha, hna, hP, hM, hL⟩, ?_⟩
    rw [hfol]
    by_cases hsk : na.id < g.nodes.length - 1
    · obtain ⟨_, hps, hlen, hwalk, hmem⟩ := ih na.id hsk (by omega)
      refine ⟨?_, ?_, ?_, ?_⟩
      · simp only [path_sum, hpj, hps]
        rw [hM]
      · rw [List.length_cons, ← hlen, hL]; omega
      · unfold is_walk
        rw [List.chain'_cons']
        refine ⟨?_, hwalk⟩
        intro y hy
        rw [follow_head s.prev _ _ _ y hy]
        exact hedge
      · intro v hv
        rcases List.mem_cons.mp hv with h | h
        · rw [h]; exact ⟨Nat.le_refl _, hj⟩
        · have := hmem v h
          exact ⟨by omega, this.2⟩
    · have he : na.id = g.nodes.length - 1 := by omega
      rw [follow_at_sink s.prev _ m na.id hsk]
      refine ⟨?_, ?_, ?_, ?_⟩
      · simp only [path_sum, hpj]
        rw [hM, he, hsink.1]
      · rw [hL, he, hsink.2]; rfl
      · unfold is_walk
        exact List.chain'_singleton j
      · intro v hv
        simp only [List.mem_singleton] at hv
        rw [hv]; exact ⟨Nat.le_refl _, hj⟩

/-- What `find_max_path` returns, in `float` arithmetic, on a graph whose
non-sink nodes have forward out-edges and on which the sums of `prob` along the
chains of interior nodes are finite: the tables exist, the previous-node entry
of every non-sink node is one of its out-neighbours, the loop from node 0 ends,
and the entries `M[0]`, `len[0]` add up the values of `prob` and the edges along
the ids the loop visits. -/
theorem find_max_path_fl_decoded {P α : Type} (A : FloatArith α) (finite : α → Prop)
    (hA : FirstEdge A finite) (g : KmerGraph P) (e_rate : α) (maxpath : List Nat)
    (hfw : forward_edges g) (h2 : 2 ≤ g.nodes.length)
    (hv : ∀ i : Nat, i < g.nodes.length → (g.node_at i).isSome = true)
    (hsum : ∀ p : α, discover_p_fl A g e_rate = some p →
      ∀ w : List Nat, is_walk g w → (∀ v ∈ w, 0 < v ∧ v < g.nodes.length - 1) →
        ∀ x : α, path_sum A g p w = some x → finite x) :
    ∃ (p : α) (s : Tables α) (ptrs ids : List Nat),
      discover_p_fl A g e_rate = some p
      ∧ max_path_tables_fl A g p = some s
      ∧ find_max_path_fl A g e_rate maxpath
          = some (A.quot (s.M 0) (s.len 0), maxpath ++ ptrs, p)
      ∧ (∀ j : Nat, j < g.nodes.length - 1 → edge_between g j (s.prev j) ∧ j < s.prev j)
      ∧ List.Forall₂ (fun a i => g.nodes[i]? = some a) ptrs ids
      ∧ List.Chain (fun x y => x < y ∧ edge_between g x y) 0 (ids ++ [g.nodes.length - 1])
      ∧ path_sum A g p (0 :: ids) = some (s.M 0)
      ∧ s.len 0 = ptrs.length + 1 := by
  obtain ⟨p, hp⟩ := discover_p_fl_some A g e_rate (by omega) hv
  have hdec : decodable g := by
    refine ⟨by omega, ?_⟩
    intro j hj
    obtain ⟨nd, hnd, _, hout⟩ := hfw j hj
    refine ⟨nd, hnd, ?_⟩
    intro a ha
    obtain ⟨na, hna, _, hin⟩ := hout a ha
    exact ⟨na, hna, hin⟩
  obtain ⟨s, hs⟩ := max_path_tables_fl_isSome A g p hdec
  have hall := tables_decoded_fl A finite hA g p hfw (hsum p hp) s hs
  have hprev : ∀ j : Nat, j < g.nodes.length - 1 →
      j < s.prev j ∧ s.prev j ≤ g.nodes.length - 1 ∧ edge_between g j (s.prev j) := by
    intro j hj
    obtain ⟨⟨pj, nd, a, na, hpj, hnd, ha, hna, hP, hM, hL⟩, _⟩ :=
      hall (g.nodes.length - 1 - j) j hj (le_refl _)
    obtain ⟨nd2, hnd2, _, hout⟩ := hfw j hj
    have e : nd2 = nd := Option.some.inj (hnd2.symm.trans hnd)
    rw [e] at hout
    obtain ⟨na2, hna2, hlt, hin⟩ := hout a ha
    have e2 : na2 = na := Option.some.inj (hna2.symm.trans hna)
    rw [e2] at hlt hin
    exact ⟨by rw [hP]; exact hlt, by rw [hP]; omega, ⟨nd, a, na, hnd, ha, hna, hP.symm⟩⟩
  have h0 : 0 < g.nodes.length - 1 := by omega
  obtain ⟨hlt0, hle0, _⟩ := hprev 0 h0
  obtain ⟨ptrs, hex, hptrs⟩ := extract_path_follow g s.prev
    (fun j hj => ⟨(hprev j hj).1, (hprev j hj).2.1⟩) g.nodes.length (s.prev 0) maxpath hle0
    (by omega)
  have hchain := follow_chain g s.prev hprev g.nodes.length 0 h0 (by omega)
  obtain ⟨_, hps, hlen, _, _⟩ := hall (g.nodes.length + 1) 0 h0 (by omega)
  have hfol : follow s.prev g.nodes.length (g.nodes.length + 1) 0
      = 0 :: follow s.prev g.nodes.length g.nodes.length (s.prev 0) := by
    simp only [follow, if_pos h0]
  rw [hfol] at hps hlen
  refine ⟨p, s, ptrs, follow s.prev g.nodes.length g.nodes.length (s.prev 0), hp, hs,
    ?_, ?_, hptrs, hchain, hps, ?_⟩
  · unfold find_max_path_fl
    simp only [hp, hs, hex]
  · intro j hj
    exact ⟨(hprev j hj).2.2, (hprev j hj).1⟩
  · rw [hlen, List.length_cons, hptrs.length_eq]

/-! ## The chain `chain5` in the decimal arithmetic -/

theorem chain5_edge (x y : Nat) (h : edge_between chain5 x y) : y = x + 1 := by
  obtain ⟨nd, a, na, hnd, ha, hna, hid⟩ := h
  have hx : x < 5 := by
    by_contra hge
    have : chain5.nodes[x]? = none := List.getElem?_eq_none (by
      have : chain5.nodes.length = 5 := rfl
      omega)
    simp [KmerGraph.node_at, this] at hnd
  interval_cases x <;>
    simp only [KmerGraph.node_at, chain5, List.getElem?_cons_zero, List.getElem?_cons_succ,
      Option.some.injEq] at hnd <;>
    subst hnd <;>
    simp only [KmerNode.new, List.mem_singleton, List.not_mem_nil] at ha <;>
    first
    | exact absurd ha (by simp)
    | (subst ha
       simp only [chain5, List.getElem?_cons_zero, List.getElem?_cons_succ,
         Option.some.injEq] at hna
       subst hna
       simp only [KmerNode.new] at hid
       omega)

theorem chain5_prob_fl (v : Nat) (h : 0 < v ∧ v < 4) :
    prob_fl decimal chain5 (some 600) v = some (some (-1204)) := by
  obtain ⟨h0, h4⟩ := h
  interval_cases v <;> decide

theorem chain5_sums (w : List Nat) :
    ∀ v : Nat, is_walk chain5 (v :: w) → (∀ u ∈ v :: w, 0 < u ∧ u < 4) →
      ∃ c : Int, path_sum decimal chain5 (some 600) (v :: w) = some (some c)
        ∧ -1204 * (4 - (v : Int)) ≤ c ∧ c ≤ 0 := by
  induction w with
  | nil =>
    intro v _ hv
    have hv1 := hv v (List.mem_cons_self _ _)
    refine ⟨-1204, ?_, by omega, by omega⟩
    simp only [path_sum, chain5_prob_fl v hv1]
    decide
  | cons u rest ih =>
    intro v hw hv
    have hv1 := hv v (List.mem_cons_self _ _)
    unfold is_walk at hw
    rw [List.chain'_cons] at hw
    have hu : u = v + 1 := chain5_edge v u hw.1
    obtain ⟨c, hc, hlo, hhi⟩ := ih u hw.2 (fun x hx => hv x (List.mem_cons_of_mem _ hx))
    have hu1 := hv u (List.mem_cons_of_mem _ (List.mem_cons_self _ _))
    refine ⟨-1204 + c, ?_, by omega, by omega⟩
    rw [path_sum, chain5_prob_fl v hv1, hc]
    have hr : -decimal_max ≤ -1204 + c ∧ -1204 + c ≤ decimal_max := by
      have hm : (10000 : Int) ≤ decimal_max := by decide
      omega
    simp only [decimal, hr, and_self, if_true]

theorem chain5_sums_finite (p : Option Int)
    (hp : discover_p_fl decimal chain5 (some 511) = some p) (w : List Nat)
    (hw : is_walk chain5 w) (hv : ∀ v ∈ w, 0 < v ∧ v < chain5.nodes.length - 1)
    (x : Option Int) (hx : path_sum decimal chain5 p w = some x) : decimal_finite x := by
  have hp2 : discover_p_fl decimal chain5 (some 511) = some (some 600) := by decide
  rw [hp2] at hp
  rw [← Option.some.inj hp] at hx
  cases w with
  | nil =>
    simp only [path_sum, Option.some.injEq] at hx
    rw [← hx]
    exact ⟨0, rfl, by decide, by decide⟩
  | cons v rest =>
    obtain ⟨c, hc, hlo, hhi⟩ := chain5_sums rest v hw hv
    rw [hc] at hx
    rw [← Option.some.inj hx]
    have hv1 := hv v (List.mem_cons_self _ _)
    have hm : (10000 : Int) ≤ decimal_max := by decide
    exact ⟨c, rfl, by omega, by omega⟩

/-! ## C16 -/

/-- C16 (amended): on a graph with at least two nodes (the source and the sink
are distinct) that passes `check(0)`, whose ids are its array positions, whose
edges lead to nodes of the graph, and on which the `float` sums of the values
of `prob` along the chains of interior nodes are finite (the interior values of
`prob` are finite and adding them up does not overflow), `find_max_path`
returns; for every non-sink node `j` the entry `prev[j]` is the id of an
out-neighbour of `j` and is larger than `j`; the pointers appended to `maxpath`
are the nodes with the ids `ids`, where `0 :: ids ++ [last]` is a chain of edges
of the graph with strictly increasing ids, so that `ids` holds neither the
source nor the sink.  What is used of the arithmetic is `FirstEdge`, which
IEEE 754 arithmetic has (`ieee_first_edge`). -/
theorem find_max_path_is_chain {P α : Type} [LinearOrder P] (A : FloatArith α)
    (finite : α → Prop) (hA : FirstEdge A finite) (g : KmerGraph P) (e_rate : α)
    (maxpath : List Nat)
    (hid : ids_are_positions g) (hchk : (check g 0).isSome = true) (hdec : decodable g)
    (h2 : 2 ≤ g.nodes.length)
    (hsum : ∀ p : α, discover_p_fl A g e_rate = some p →
      ∀ w : List Nat, is_walk g w → (∀ v ∈ w, 0 < v ∧ v < g.nodes.length - 1) →
        ∀ x : α, path_sum A g p w = some x → finite x) :
    ∃ (score p : α) (s : Tables α) (ptrs ids : List Nat),
      find_max_path_fl A g e_rate maxpath = some (score, maxpath ++ ptrs, p)
      ∧ max_path_tables_fl A g p = some s
      ∧ (∀ j : Nat, j < g.nodes.length - 1 → edge_between g j (s.prev j) ∧ j < s.prev j)
      ∧ List.Forall₂ (fun a i => g.nodes[i]? = some a) ptrs ids
      ∧ is_walk g (0 :: (ids ++ [g.nodes.length - 1]))
      ∧ List.Chain' (fun x y => x < y) (0 :: (ids ++ [g.nodes.length - 1]))
      ∧ ∀ i ∈ ids, i ≠ 0 ∧ i ≠ g.nodes.length - 1 := by
  obtain ⟨p, s, ptrs, ids, _, hs, hfmp, hprev, hptrs, hchain, _, _⟩ :=
    find_max_path_fl_decoded A finite hA g e_rate maxpath
      (check_forward_edges g hid hchk hdec) h2
      (fun i hi => by
        obtain ⟨nd, hnd, _⟩ := node_at_isSome_of_ids g hid i hi
        rw [hnd]; rfl)
      hsum
  have hlt : List.Chain (fun x y => x < y) 0 (ids ++ [g.nodes.length - 1]) :=
    List.Chain.imp (fun _ _ h => h.1) hchain
  have hpw : List.Pairwise (fun x y => x < y) (0 :: (ids ++ [g.nodes.length - 1])) :=
    List.chain_iff_pairwise.mp hlt
  refine ⟨_, p, s, ptrs, ids, hfmp, hs, hprev, hptrs, ?_, hlt, ?_⟩
  · exact List.Chain.imp (fun _ _ h => h.2) hchain
  · intro i hi
    rw [List.pairwise_cons, List.pairwise_append] at hpw
    have h0 : 0 < i := hpw.1 i (List.mem_append_left _ hi)
    have h1 : i < g.nodes.length - 1 := hpw.2.2.2 i hi _ (List.mem_singleton_self _)
    omega

theorem find_max_path_is_chain_witness :
    ∃ (score p : Option Int) (s : Tables (Option Int)) (ptrs ids : List Nat),
      find_max_path_fl decimal chain5 (some 511) [] = some (score, [] ++ ptrs, p)
      ∧ max_path_tables_fl decimal chain5 p = some s
      ∧ (∀ j : Nat, j < chain5.nodes.length - 1 →
          edge_between chain5 j (s.prev j) ∧ j < s.prev j)
      ∧ List.Forall₂ (fun a i => chain5.nodes[i]? = some a) ptrs ids
      ∧ is_walk chain5 (0 :: (ids ++ [chain5.nodes.length - 1]))
      ∧ List.Chain' (fun x y => x < y) (0 :: (ids ++ [chain5.nodes.length - 1]))
      ∧ ∀ i ∈ ids, i ≠ 0 ∧ i ≠ chain5.nodes.length - 1 :=
  find_max_path_is_chain decimal decimal_finite decimal_first_edge chain5 (some 511) []
    (by decide) (by decide) chain5_decodable (by decide) chain5_sums_finite

/-- C16 (counterexample): the graph without nodes and the graph `one_kmer` with
a single node pass `check(0)`, and they have no interior node.  On the first
the sweep starts from `(uint)(0 - 1)` and reads `nodes[j-1]` out of bounds: the
call has no defined result.  On the second the loops do not run: `maxpath`
stays empty and the quotient `0.0/0` is returned, while the graph has no edge
from the source to the sink, which are the same node.  (Decoded with error rate
`0`; no arithmetic other than `0.0/0` is involved.) -/
theorem no_chain_without_two_nodes :
    (check (KmerGraph.init Nat) 0).isSome = true
      ∧ find_max_path_fl decimal (KmerGraph.init Nat) (some 0) [] = none
      ∧ (check one_kmer 0).isSome = true ∧ ids_are_positions one_kmer
      ∧ find_max_path_fl decimal one_kmer (some 0) [] = some (none, [], some 1000)
      ∧ ¬ is_walk one_kmer [0, one_kmer.nodes.length - 1] := by
  refine ⟨by decide, by decide, by decide, by decide, by decide, ?_⟩
  unfold is_walk
  rw [List.chain'_pair]
  rintro ⟨nd, a, na, hnd, ha, _, _⟩
  simp only [KmerGraph.node_at, one_kmer, List.getElem?_cons_zero, Option.some.injEq] at hnd
  subst hnd
  simp [KmerNode.new] at ha

/-! ## C17 -/

/-- C17 (amended): on a graph with at least two nodes that passes `check(0)`,
whose ids are its array positions, whose edges lead to nodes of the graph, and
on which the `float` sums of the values of `prob` along the chains of interior
nodes are finite, `find_max_path` returns `M[0]/len[0]`, where `len[0]` is the
number of nodes appended to `maxpath` plus one and `M[0]` is the `float` sum of
`prob` over the source and the ids of those nodes, added from the sink
backwards (the source and the sink contribute `0`).  What is used of the
arithmetic is `FirstEdge`, which IEEE 754 arithmetic has
(`ieee_first_edge`). -/
theorem find_max_path_score {P α : Type} [LinearOrder P] (A : FloatArith α)
    (finite : α → Prop) (hA : FirstEdge A finite) (g : KmerGraph P) (e_rate : α)
    (maxpath : List Nat)
    (hid : ids_are_positions g) (hchk : (check g 0).isSome = true) (hdec : decodable g)
    (h2 : 2 ≤ g.nodes.length)
    (hsum : ∀ p : α, discover_p_fl A g e_rate = some p →
      ∀ w : List Nat, is_walk g w → (∀ v ∈ w, 0 < v ∧ v < g.nodes.length - 1) →
        ∀ x : α, path_sum A g p w = some x → finite x) :
    ∃ (p : α) (s : Tables α) (ptrs ids : List Nat),
      find_max_path_fl A g e_rate maxpath
          = some (A.quot (s.M 0) (s.len 0), maxpath ++ ptrs, p)
      ∧ max_path_tables_fl A g p = some s
      ∧ s.len 0 = ptrs.length + 1
      ∧ path_sum A g p (0 :: ids) = some (s.M 0)
      ∧ List.Forall₂ (fun a i => g.nodes[i]? = some a) ptrs ids := by
  obtain ⟨p, s, ptrs, ids, _, hs, hfmp, _, hptrs, _, hps, hL⟩ :=
    find_max_path_fl_decoded A finite hA g e_rate maxpath
      (check_forward_edges g hid hchk hdec) h2
      (fun i hi => by
        obtain ⟨nd, hnd, _⟩ := node_at_isSome_of_ids g hid i hi
        rw [hnd]; rfl)
      hsum
  exact ⟨p, s, ptrs, ids, hfmp, hs, hL, hps, hptrs⟩

theorem find_max_path_score_witness :
    ∃ (p : Option Int) (s : Tables (Option Int)) (ptrs ids : List Nat),
      find_max_path_fl decimal chain5 (some 511) []
          = some (decimal.quot (s.M 0) (s.len 0), [] ++ ptrs, p)
      ∧ max_path_tables_fl decimal chain5 p = some s
      ∧ s.len 0 = ptrs.length + 1
      ∧ path_sum decimal chain5 p (0 :: ids) = some (s.M 0)
      ∧ List.Forall₂ (fun a i => chain5.nodes[i]? = some a) ptrs ids :=
  find_max_path_score decimal decimal_finite decimal_first_edge chain5 (some 511) []
    (by decide) (by decide) chain5_decodable (by decide) chain5_sums_finite

/-! ## The decoder on a straight-line chain (C7) -/

theorem scan_single_fl {P α : Type} (A : FloatArith α) (finite : α → Prop)
    (hA : FirstEdge A finite) (g : KmerGraph P) (pj : α) (j : Nat) (s : Tables α)
    (a : Nat) (n : KmerNode P) (ha : g.store[a]? = some n) (hid : n.id < g.nodes.length)
    (hc : n.id = g.nodes.length - 1 ∨ (s.len n.id ≠ 0 ∧ finite (s.M n.id))) :
    ∃ s1, scan_edges_fl A g pj j { s with max_mean := A.lowest, max_len := 0 } [a] = some s1
      ∧ s1.M j = A.add pj (s.M n.id) ∧ s1.len j = 1 + s.len n.id ∧ s1.prev j = n.id
      ∧ ∀ i : Nat, i ≠ j → s1.M i = s.M i ∧ s1.len i = s.len i ∧ s1.prev i = s.prev i := by
  obtain ⟨h1, h2, h3⟩ := visit_edge_fl_fresh A finite hA g.nodes.length pj j
    { s with max_mean := A.lowest, max_len := 0 } n.id rfl rfl hc
  refine ⟨visit_edge_fl A g.nodes.length pj j { s with max_mean := A.lowest, max_len := 0 } n.id,
    ?_, h2, h3, h1, ?_⟩
  · simp [scan_edges_fl, ha, hid]
  · intro i hi
    exact visit_edge_fl_frame A g.nodes.length pj j _ n.id i hi

theorem chain_tables_fl {P α : Type} (A : FloatArith α) (finite : α → Prop)
    (hA : FirstEdge A finite) (g : KmerGraph P) (p : α) (src a b c snk : Nat)
    (h : straight_line g src a b c snk) (pa pb pc : α)
    (hpa : prob_fl A g p 1 = some pa) (hpb : prob_fl A g p 2 = some pb)
    (hpc : prob_fl A g p 3 = some pc)
    (hfc : finite (A.add pc A.zero)) (hfb : finite (A.add pb (A.add pc A.zero)))
    (hfa : finite (A.add pa (A.add pb (A.add pc A.zero)))) :
    ∃ s, max_path_tables_fl A g p = some s
      ∧ s.M 0 = A.add A.zero (A.add pa (A.add pb (A.add pc A.zero))) ∧ s.len 0 = 4
      ∧ s.prev 0 = 1 ∧ s.prev 1 = 2 ∧ s.prev 2 = 3 ∧ s.prev 3 = 4 := by
  have hnodes := h.1
  have hlen : g.nodes.length = 5 := by rw [hnodes]; rfl
  obtain ⟨n0, _, hat0, _, hout0⟩ := straight_line_node g src a b c snk h 0 src (by rw [hnodes]; rfl)
  obtain ⟨n1, hs1, hat1, hid1, hout1⟩ :=
    straight_line_node g src a b c snk h 1 a (by rw [hnodes]; rfl)
  obtain ⟨n2, hs2, hat2, hid2, hout2⟩ :=
    straight_line_node g src a b c snk h 2 b (by rw [hnodes]; rfl)
  obtain ⟨n3, hs3, hat3, hid3, hout3⟩ :=
    straight_line_node g src a b c snk h 3 c (by rw [hnodes]; rfl)
  obtain ⟨n4, hs4, _, hid4, _⟩ :=
    straight_line_node g src a b c snk h 4 snk (by rw [hnodes]; rfl)
  rw [h.2.2.1] at hout0
  rw [h.2.2.2.1] at hout1
  rw [h.2.2.2.2.1] at hout2
  rw [h.2.2.2.2.2.1] at hout3
  have hp0 : prob_fl A g p 0 = some A.zero := prob_fl_sentinel A g p 0 (Or.inl rfl)
  -- node 3: the edge to the sink
  obtain ⟨s1, hsc1, hM1, hl1, hpr1, _⟩ := scan_single_fl A finite hA g pc 3 (Tables.init A 5)
    snk n4 hs4 (by rw [hid4, hlen]; omega) (Or.inl (by rw [hid4, hlen]))
  rw [hid4] at hM1 hl1 hpr1
  have hM1v : s1.M 3 = A.add pc A.zero := by rw [hM1]; rfl
  have hl1v : s1.len 3 = 1 := by rw [hl1]; rfl
  -- node 2
  obtain ⟨s2, hsc2, hM2, hl2, hpr2, hfr2⟩ := scan_single_fl A finite hA g pb 2 s1 c n3 hs3
    (by rw [hid3, hlen]; omega)
    (Or.inr (by rw [hid3, hM1v, hl1v]; exact ⟨by omega, hfc⟩))
  rw [hid3] at hM2 hl2 hpr2
  rw [hM1v] at hM2
  rw [hl1v] at hl2
  -- node 1
  obtain ⟨s3, hsc3, hM3, hl3, hpr3, hfr3⟩ := scan_single_fl A finite hA g pa 1 s2 b n2 hs2
    (by rw [hid2, hlen]; omega)
    (Or.inr (by rw [hid2, hM2, hl2]; exact ⟨by omega, hfb⟩))
  rw [hid2] at hM3 hl3 hpr3
  rw [hM2] at hM3
  rw [hl2] at hl3
  -- node 0
  obtain ⟨s4, hsc4, hM4, hl4, hpr4, hfr4⟩ := scan_single_fl A finite hA g A.zero 0 s3 a n1 hs1
    (by rw [hid1, hlen]; omega)
    (Or.inr (by rw [hid1, hM3, hl3]; exact ⟨by omega, hfa⟩))
  rw [hid1] at hM4 hl4 hpr4
  rw [hM3] at hM4
  rw [hl3] at hl4
  refine ⟨s4, ?_, hM4, ?_, hpr4, ?_, ?_, ?_⟩
  · unfold max_path_tables_fl
    rw [hlen]
    simp only [Nat.reduceEqDiff, if_false, Nat.add_one_sub_one]
    rw [sweep_fl_succ A g p 3 _ s1 n3 pc hat3 hpc (by rw [hout3]; exact hsc1),
      sweep_fl_succ A g p 2 _ s2 n2 pb hat2 hpb (by rw [hout2]; exact hsc2),
      sweep_fl_succ A g p 1 _ s3 n1 pa hat1 hpa (by rw [hout1]; exact hsc3),
      sweep_fl_succ A g p 0 _ s4 n0 A.zero hat0 hp0 (by rw [hout0]; exact hsc4)]
    rfl
  · rw [hl4]
  · rw [(hfr4 1 (by omega)).2.2, hpr3]
  · rw [(hfr4 2 (by omega)).2.2, (hfr3 2 (by omega)).2.2, hpr2]
  · rw [(hfr4 3 (by omega)).2.2, (hfr3 3 (by omega)).2.2, (hfr2 3 (by omega)).2.2, hpr1]

/-- C7 (amended): on a finalized straight-line chain `src → a → b → c → snk`,
in `float` arithmetic, `find_max_path` returns normally when the three sums
`prob(c) + 0`, `prob(b) + (prob(c) + 0)` and `prob(a) + (prob(b) + (prob(c) + 0))`
that the sweep stores are finite (the interior values of `prob` are finite and
adding them up does not overflow); `maxpath` is exactly `[a, b, c]` and the
score is `(0 + (prob(a) + (prob(b) + (prob(c) + 0)))) / 4`: the sum of the
interior log-likelihoods divided by the number of edges of the path, which is
four.  What is used of the arithmetic is `FirstEdge`, which IEEE 754
arithmetic has (`ieee_first_edge`). -/
theorem find_max_path_chain_score {P α : Type} (A : FloatArith α) (finite : α → Prop)
    (hA : FirstEdge A finite) (g : KmerGraph P) (e_rate : α)
    (src a b c snk : Nat) (h : straight_line g src a b c snk) :
    ∃ (p pa pb pc : α), discover_p_fl A g e_rate = some p
      ∧ prob_fl A g p 1 = some pa ∧ prob_fl A g p 2 = some pb ∧ prob_fl A g p 3 = some pc
      ∧ (finite (A.add pc A.zero) → finite (A.add pb (A.add pc A.zero)) →
          finite (A.add pa (A.add pb (A.add pc A.zero))) →
          find_max_path_fl A g e_rate [] =
            some (A.quot (A.add A.zero (A.add pa (A.add pb (A.add pc A.zero)))) 4,
              [a, b, c], p)) := by
  have hlen : g.nodes.length = 5 := by rw [h.1]; rfl
  have hv : ∀ i : Nat, i < g.nodes.length → (g.node_at i).isSome = true := by
    intro i hi
    obtain ⟨nd, hnd, _⟩ := node_at_isSome_of_ids g h.2.1 i hi
    rw [hnd]; rfl
  obtain ⟨p, hp⟩ := discover_p_fl_some A g e_rate (by omega) hv
  obtain ⟨pa, hpa⟩ := Option.isSome_iff_exists.mp
    (prob_fl_some_of_node A g p 1 (hv 1 (by omega)))
  obtain ⟨pb, hpb⟩ := Option.isSome_iff_exists.mp
    (prob_fl_some_of_node A g p 2 (hv 2 (by omega)))
  obtain ⟨pc, hpc⟩ := Option.isSome_iff_exists.mp
    (prob_fl_some_of_node A g p 3 (hv 3 (by omega)))
  refine ⟨p, pa, pb, pc, hp, hpa, hpb, hpc, ?_⟩
  intro hfc hfb hfa
  obtain ⟨s, hs, hM, hl, hp0, hp1, hp2, hp3⟩ :=
    chain_tables_fl A finite hA g p src a b c snk h pa pb pc hpa hpb hpc hfc hfb hfa
  have hn : g.nodes = [src, a, b, c, snk] := h.1
  have hext : extract_path g s.prev 5 (s.prev 0) [] = some [a, b, c] := by
    simp [extract_path, hn, hp0, hp1, hp2, hp3]
  simp only [find_max_path_fl, hp, hs, hlen, hext, hl, hM]

/-- Witness for C7: the chain `chain5` (one read, every interior node covered
once), decoded in the decimal arithmetic with error rate `0.511`: `p = 0.6`,
every interior `prob` is `-1.204`, and the score is `-3.612 / 4 = -0.903`. -/
theorem find_max_path_chain_score_witness :
    straight_line chain5 0 1 2 3 4
      ∧ find_max_path_fl decimal chain5 (some 511) [] =
          some (some (-903), [1, 2, 3], some 600) := by
  refine ⟨chain5_straight, ?_⟩
  obtain ⟨p, pa, pb, pc, hp, hpa, hpb, hpc, hres⟩ :=
    find_max_path_chain_score decimal decimal_finite decimal_first_edge chain5 (some 511)
      0 1 2 3 4 chain5_straight
  have hp2 : discover_p_fl decimal chain5 (some 511) = some (some 600) := by decide
  rw [hp2] at hp
  have e := (Option.some.inj hp).symm
  subst e
  rw [chain5_prob_fl 1 (by omega)] at hpa
  rw [chain5_prob_fl 2 (by omega)] at hpb
  rw [chain5_prob_fl 3 (by omega)] at hpc
  have ha := (Option.some.inj hpa).symm
  have hb := (Option.some.inj hpb).symm
  have hc := (Option.some.inj hpc).symm
  subst ha; subst hb; subst hc
  rw [hres ⟨_, rfl, by decide, by decide⟩ ⟨_, rfl, by decide, by decide⟩
    ⟨_, rfl, by decide, by decide⟩]
  decide

/-! ## C18 -/

/-- A scan that starts with a previous-node entry other than the sink and a
running mean on which the test `-25 > max_mean + 0.000001` fails never takes an
edge to the sink, and ends in such a state. -/
theorem scan_guarded_fl {P α : Type} (A : FloatArith α) (finite : α → Prop) (val : α → ℚ)
    (hA : SinkGuard A finite val) (g : KmerGraph P) (pj : α) (j : Nat)
    (hjs : g.nodes.length - 1 ≠ j) (outs : List Nat) :
    ∀ (t r : Tables α), scan_edges_fl A g pj j t outs = some r →
      (∀ a ∈ outs, ∀ na : KmerNode P, g.store[a]? = some na → na.id ≠ j) →
      (t.M (g.nodes.length - 1) = A.zero ∧ t.len (g.nodes.length - 1) = 0) →
      (t.prev j ≠ g.nodes.length - 1 ∧ A.below_floor t.max_mean = false) →
      r.prev j ≠ g.nodes.length - 1 ∧ A.below_floor r.max_mean = false := by
  induction outs with
  | nil =>
    intro t r h _ _ hinv
    simp only [scan_edges_fl, Option.some.injEq] at h
    rw [← h]; exact hinv
  | cons a rest ih =>
    intro t r h hne hs hinv
    unfold scan_edges_fl at h
    cases hna : g.store[a]? with
    | none => simp [hna] at h
    | some na =>
      simp only [hna] at h
      by_cases hin : na.id < g.nodes.length
      · rw [if_pos hin] at h
        have hj : na.id ≠ j := hne a (List.mem_cons_self _ _) na hna
        have hfr := visit_edge_fl_frame A g.nodes.length pj j t na.id
        have hs2 : (visit_edge_fl A g.nodes.length pj j t na.id).M (g.nodes.length - 1) = A.zero
            ∧ (visit_edge_fl A g.nodes.length pj j t na.id).len (g.nodes.length - 1) = 0 := by
          rw [(hfr _ hjs).1, (hfr _ hjs).2.1]; exact hs
        have hinv2 : (visit_edge_fl A g.nodes.length pj j t na.id).prev j ≠ g.nodes.length - 1
            ∧ A.below_floor (visit_edge_fl A g.nodes.length pj j t na.id).max_mean = false := by
          by_cases hsk : na.id = g.nodes.length - 1
          · have he : visit_edge_fl A g.nodes.length pj j t na.id = t := by
              apply visit_edge_fl_skipped
              · rintro ⟨_, hb⟩
                rw [hinv.2] at hb
                cases hb
              · rw [hsk, hs.1, hs.2, hA.nan_exceeds]
                simp
              · rw [hsk, hs.1, hs.2, hA.nan_within]
                simp
            rw [he]; exact hinv
          · by_cases hc : A.exceeds (A.quot (t.M na.id) (t.len na.id)) t.max_mean = true
                ∨ (A.within t.max_mean (A.quot (t.M na.id) (t.len na.id)) = true
                    ∧ t.max_len < t.len na.id)
            · rw [visit_edge_fl_taken A _ pj j t na.id hsk hj hc]
              refine ⟨by simp only [Function.update_same]; exact hsk, ?_⟩
              rcases hc with h1 | ⟨h1, _⟩
              · exact hA.floor_of_exceeds _ _ h1 hinv.2
              · exact hA.floor_of_within _ _ h1 hinv.2
            · rw [visit_edge_fl_skipped A _ pj j t na.id (fun h => hsk h.1)
                (fun h => hc (Or.inl h)) (fun h => hc (Or.inr h))]
              exact hinv
        exact ih _ r h (fun x hx nx hnx => hne x (List.mem_cons_of_mem _ hx) nx hnx) hs2 hinv2
      · rw [if_neg hin] at h; cases h

/-- A scan over edges that do not lead to the sink, one of them to a node with
a finite mean of at least `-25`: from the fresh state, or from a state whose
previous-node entry is not the sink, it ends with a previous-node entry other
than the sink and a running mean on which the test `-25 > max_mean + 0.000001`
fails. -/
theorem scan_nonsink_fl {P α : Type} (A : FloatArith α) (finite : α → Prop) (val : α → ℚ)
    (hA : SinkGuard A finite val) (g : KmerGraph P) (pj : α) (j : Nat)
    (hjs : g.nodes.length - 1 ≠ j) (s0 : Tables α) (outs : List Nat) :
    ∀ (t r : Tables α), scan_edges_fl A g pj j t outs = some r →
      (∀ a ∈ outs, ∀ na : KmerNode P, g.store[a]? = some na →
        na.id ≠ g.nodes.length - 1 ∧ na.id ≠ j) →
      (∀ i : Nat, i ≠ j → t.M i = s0.M i ∧ t.len i = s0.len i) →
      (s0.M (g.nodes.length - 1) = A.zero ∧ s0.len (g.nodes.length - 1) = 0) →
      (t.prev j ≠ g.nodes.length - 1 ∨ t.max_mean = A.lowest) →
      (∃ a ∈ outs, ∃ na : KmerNode P, g.store[a]? = some na
        ∧ finite (A.quot (s0.M na.id) (s0.len na.id))
        ∧ -25 ≤ val (A.quot (s0.M na.id) (s0.len na.id))) →
      r.prev j ≠ g.nodes.length - 1 ∧ A.below_floor r.max_mean = false := by
  induction outs with
  | nil =>
    intro t r _ _ _ _ _ hgood
    obtain ⟨a, ha, _⟩ := hgood
    cases ha
  | cons a rest ih =>
    intro t r h hns hframe hsink hinv hgood
    unfold scan_edges_fl at h
    cases hna : g.store[a]? with
    | none => simp [hna] at h
    | some na =>
      simp only [hna] at h
      by_cases hin : na.id < g.nodes.length
      · rw [if_pos hin] at h
        obtain ⟨hsk, hj⟩ := hns a (List.mem_cons_self _ _) na hna
        obtain ⟨hMf, hLf⟩ := hframe na.id hj
        have hframe2 : ∀ i : Nat, i ≠ j →
            (visit_edge_fl A g.nodes.length pj j t na.id).M i = s0.M i
              ∧ (visit_edge_fl A g.nodes.length pj j t na.id).len i = s0.len i := by
          intro i hi
          obtain ⟨h1, h2, _⟩ := visit_edge_fl_frame A g.nodes.length pj j t na.id i hi
          obtain ⟨h3, h4⟩ := hframe i hi
          exact ⟨h1.trans h3, h2.trans h4⟩
        have hrest : ∀ x ∈ rest, ∀ nx : KmerNode P, g.store[x]? = some nx →
            nx.id ≠ g.nodes.length - 1 ∧ nx.id ≠ j :=
          fun x hx nx hnx => hns x (List.mem_cons_of_mem _ hx) nx hnx
        have hinv2 : (visit_edge_fl A g.nodes.length pj j t na.id).prev j ≠ g.nodes.length - 1
            ∨ (visit_edge_fl A g.nodes.length pj j t na.id).max_mean = A.lowest := by
          rcases visit_edge_fl_effect A g.nodes.length pj j t na.id with he | ⟨h1, _, _⟩
          · rw [he]; exact hinv
          · left; rw [h1]; exact hsk
        obtain ⟨b, hb, nb, hnb, hfin, hval⟩ := hgood
        rcases List.mem_cons.mp hb with hba | hbr
        · rw [hba, hna] at hnb
          have e : na = nb := Option.some.inj hnb
          rw [← e] at hfin hval
          rw [← hMf, ← hLf] at hfin hval
          have hI : (visit_edge_fl A g.nodes.length pj j t na.id).prev j ≠ g.nodes.length - 1
              ∧ A.below_floor (visit_edge_fl A g.nodes.length pj j t na.id).max_mean = false := by
            by_cases hc : A.exceeds (A.quot (t.M na.id) (t.len na.id)) t.max_mean = true
                ∨ (A.within t.max_mean (A.quot (t.M na.id) (t.len na.id)) = true
                    ∧ t.max_len < t.len na.id)
            · rw [visit_edge_fl_taken A _ pj j t na.id hsk hj hc]
              exact ⟨by simp only [Function.update_same]; exact hsk,
                hA.floor_of_ge _ hfin hval⟩
            · rw [visit_edge_fl_skipped A _ pj j t na.id (fun h => hsk h.1)
                (fun h => hc (Or.inl h)) (fun h => hc (Or.inr h))]
              have hne : A.exceeds (A.quot (t.M na.id) (t.len na.id)) t.max_mean = false := by
                cases hx : A.exceeds (A.quot (t.M na.id) (t.len na.id)) t.max_mean with
                | false => rfl
                | true => exact absurd (Or.inl hx) hc
              have hsafe := hA.floor_of_not_exceeds _ _ hfin hval hne
              refine ⟨?_, hsafe⟩
              rcases hinv with hp | hm
              · exact hp
              · rw [hm, hA.lowest_floor] at hsafe
                cases hsafe
          have hs2 : (visit_edge_fl A g.nodes.length pj j t na.id).M (g.nodes.length - 1) = A.zero
              ∧ (visit_edge_fl A g.nodes.length pj j t na.id).len (g.nodes.length - 1) = 0 := by
            rw [(hframe2 _ hjs).1, (hframe2 _ hjs).2]; exact hsink
          exact scan_guarded_fl A finite val hA g pj j hjs rest _ r h
            (fun x hx nx hnx => (hrest x hx nx hnx).2) hs2 hI
        · exact ih _ r h hrest hframe2 hsink hinv2 ⟨b, hbr, nb, hnb, hfin, hval⟩
      · rw [if_neg hin] at h; cases h

theorem sink_guard_in_tables_fl {P α : Type} [LinearOrder P] (A : FloatArith α)
    (finite : α → Prop) (val : α → ℚ) (hA : SinkGuard A finite val) (g : KmerGraph P) (p : α)
    (s : Tables α) (hid : ids_are_positions g) (hchk : (check g 0).isSome = true)
    (hs : max_path_tables_fl A g p = some s)
    (j : Nat) (nd : KmerNode P) (pre rest : List Nat)
    (hnd : g.node_at j = some nd) (hj : j < g.nodes.length - 1)
    (hsplit : nd.outNodes = pre ++ rest)
    (hpre : ∀ b ∈ pre, ∀ nb : KmerNode P, g.store[b]? = some nb →
      nb.id ≠ g.nodes.length - 1)
    (hgood : ∃ a ∈ pre, ∃ na : KmerNode P, g.store[a]? = some na
      ∧ finite (A.quot (s.M na.id) (s.len na.id))
      ∧ -25 ≤ val (A.quot (s.M na.id) (s.len na.id))) :
    s.prev j ≠ g.nodes.length - 1 := by
  have hsink := table_fl_sink A g p s hs
  have hsw := max_path_tables_fl_sweep A g p s hs
  obtain ⟨nd2, pj, s0, s1, hnd2, hpj, hscan, hafter, hat, hinit⟩ :=
    sweep_fl_at A g p (g.nodes.length - 1) _ s hsw j hj
  rw [hnd] at hnd2
  have hnd3 : nd2 = nd := (Option.some.inj hnd2).symm
  rw [hnd3, hsplit] at hscan
  have hfwd : ∀ a ∈ nd.outNodes, ∀ na : KmerNode P, g.store[a]? = some na → j < na.id := by
    intro a ha na hna
    obtain ⟨na2, hna2, hlt, _⟩ := check_forward g 0 hid hchk j nd hnd a ha
    have e : na2 = na := Option.some.inj (hna2.symm.trans hna)
    rw [e] at hlt
    exact hlt
  obtain ⟨m, hm1, hm2⟩ := scan_edges_fl_append A g pj j pre rest _ s1 hscan
  have hjs : g.nodes.length - 1 ≠ j := by omega
  have hs0sink : s0.M (g.nodes.length - 1) = A.zero ∧ s0.len (g.nodes.length - 1) = 0 := by
    rw [(hafter (g.nodes.length - 1) hj).1, (hafter (g.nodes.length - 1) hj).2.1]
    exact hsink
  obtain ⟨a, ha, na, hna, hfin, hval⟩ := hgood
  have haL : a ∈ nd.outNodes := by rw [hsplit]; exact List.mem_append_left _ ha
  have hlt : j < na.id := hfwd a haL na hna
  obtain ⟨hM0, hL0, _⟩ := hafter na.id hlt
  rw [← hM0, ← hL0] at hfin hval
  have hI := scan_nonsink_fl A finite val hA g pj j hjs s0 pre _ m hm1
    (fun x hx nx hnx => ⟨hpre x hx nx hnx, by
      have := hfwd x (by rw [hsplit]; exact List.mem_append_left _ hx) nx hnx
      omega⟩)
    (fun _ _ => ⟨rfl, rfl⟩) hs0sink (Or.inr rfl) ⟨a, ha, na, hna, hfin, hval⟩
  have hmsink : m.M (g.nodes.length - 1) = A.zero ∧ m.len (g.nodes.length - 1) = 0 := by
    obtain ⟨h1, h2, _⟩ := scan_edges_fl_frame A g pj j pre _ m hm1 (g.nodes.length - 1) hjs
    rw [h1, h2]
    exact hs0sink
  have hfinal := scan_guarded_fl A finite val hA g pj j hjs rest m s1 hm2
    (fun x hx nx hnx => by
      have := hfwd x (by rw [hsplit]; exact List.mem_append_right _ hx) nx hnx
      omega)
    hmsink hI
  rw [← hat.2.2]
  exact hfinal.1

/-- C18 (amended): in the tables that `find_max_path` builds in `float`
arithmetic, for every value of `p`, on a sorted graph, a node `j` whose
out-edge list holds, before its first edge to the sink, an edge to a non-sink
successor whose mean `M[succ]/len[succ]` is finite and at least `-25` does not
end with the sink as its previous node.  What is used of the arithmetic is
`SinkGuard`, which IEEE 754 arithmetic has (`ieee_sink_guard`). -/
theorem sink_edge_guard {P α : Type} [LinearOrder P] (A : FloatArith α)
    (finite : α → Prop) (val : α → ℚ) (hA : SinkGuard A finite val) (g : KmerGraph P) (p : α)
    (hid : ids_are_positions g) (hchk : (check g 0).isSome = true) (hdec : decodable g) :
    ∃ s, max_path_tables_fl A g p = some s
      ∧ ∀ (j : Nat) (nd : KmerNode P) (pre rest : List Nat), g.node_at j = some nd →
          j < g.nodes.length - 1 → nd.outNodes = pre ++ rest →
          (∀ b ∈ pre, ∀ nb : KmerNode P, g.store[b]? = some nb →
            nb.id ≠ g.nodes.length - 1) →
          (∃ a ∈ pre, ∃ na : KmerNode P, g.store[a]? = some na
            ∧ finite (A.quot (s.M na.id) (s.len na.id))
            ∧ -25 ≤ val (A.quot (s.M na.id) (s.len na.id))) →
          s.prev j ≠ g.nodes.length - 1 := by
  obtain ⟨s, hs⟩ := max_path_tables_fl_isSome A g p hdec
  refine ⟨s, hs, ?_⟩
  intro j nd pre rest hnd hj hsplit hpre hgood
  exact sink_guard_in_tables_fl A finite val hA g p s hid hchk hs j nd pre rest hnd hj hsplit
    hpre hgood

theorem sink_last_tables_fl :
    (max_path_tables_fl decimal sink_last (some 600)).map
        (fun s => (s.prev 0, s.len 1, s.M 1))
      = some (1, 1, some (-9160)) := by
  decide

/-- Witness for C18: in `sink_last` the source lists node 1, whose mean is
`-9.16`, before the sink, and ends with node 1 as its previous node. -/
theorem sink_edge_guard_witness :
    ∃ s, max_path_tables_fl decimal sink_last (some 600) = some s
      ∧ decimal.quot (s.M 1) (s.len 1) = some (-9160) ∧ s.prev 0 ≠ 2 := by
  obtain ⟨s, hs, hall⟩ := sink_edge_guard decimal decimal_finite decimal_val
    decimal_sink_guard sink_last (some 600) (by decide) (by decide) sink_last_decodable
  have ht := sink_last_tables_fl
  rw [hs] at ht
  simp only [Option.map_some', Option.some.injEq, Prod.mk.injEq] at ht
  obtain ⟨_, hl, hm⟩ := ht
  have hq : decimal.quot (s.M 1) (s.len 1) = some (-9160) := by rw [hm, hl]; decide
  refine ⟨s, hs, hq, ?_⟩
  refine hall 0 _ [1] [2] rfl (by decide) rfl ?_ ?_
  · intro b hb nb hnb
    simp only [List.mem_singleton] at hb
    rw [hb] at hnb
    simp only [sink_last, List.getElem?_cons_succ, List.getElem?_cons_zero,
      Option.some.injEq] at hnb
    rw [← hnb]
    decide
  · refine ⟨1, List.mem_singleton_self _, _, rfl, ?_, ?_⟩
    · show decimal_finite (decimal.quot (s.M 1) (s.len 1))
      rw [hq]
      exact ⟨_, rfl, by decide, by decide⟩
    · show -25 ≤ decimal_val (decimal.quot (s.M 1) (s.len 1))
      rw [hq]
      norm_num [decimal_val]

/-! ## C19 -/

theorem set_map_same {α β : Type} (f : α → β) (l : List α) (i : Nat) (x xi : α)
    (h1 : l[i]? = some xi) (hx : f x = f xi) : (l.set i x).map f = l.map f := by
  apply List.ext_getElem?
  intro m
  simp only [List.getElem?_map, List.getElem?_set]
  by_cases him : i = m
  · subst him
    have hil : i < l.length := (List.getElem?_eq_some_iff.mp h1).1
    rw [if_pos rfl, if_pos hil, h1]
    simp [hx]
  · rw [if_neg him]

theorem indexed_of_same_ids {P : Type} (g g1 : KmerGraph P) (hi : Indexed g)
    (hn : g1.nodes = g.nodes) (hx : g1.next_id = g.next_id)
    (hs : g1.store.map KmerNode.id = g.store.map KmerNode.id) : Indexed g1 := by
  have hlen : g1.store.length = g.store.length := by
    have := congrArg List.length hs
    simpa using this
  have key : ∀ a : Nat, (g1.store[a]?).map KmerNode.id = (g.store[a]?).map KmerNode.id := by
    intro a
    rw [← List.getElem?_map, ← List.getElem?_map, hs]
  refine ⟨by rw [hx, hn]; exact hi.next_eq, by rw [hn]; exact hi.nodup,
    by rw [hn, hlen]; exact hi.valid, ?_⟩
  intro i hil
  rw [hn] at hil
  have h := hi.ids i hil
  unfold KmerGraph.node_at at h ⊢
  rw [hn]
  cases hna : g.nodes[i]? with
  | none => rw [hna] at h; simp at h
  | some a =>
    rw [hna] at h
    simp only at h ⊢
    rw [key a]
    exact h

theorem indexed_push {P : Type} (g g1 : KmerGraph P) (hi : Indexed g) (n : KmerNode P)
    (hid : n.id = g.next_id) (hs : g1.store = g.store ++ [n])
    (hn : g1.nodes = g.nodes ++ [g.store.length]) (hx : g1.next_id = g.next_id + 1) :
    Indexed g1 := by
  refine ⟨?_, ?_, ?_, ?_⟩
  · rw [hx, hn, hi.next_eq]; simp
  · rw [hn, List.nodup_append]
    refine ⟨hi.nodup, List.nodup_singleton _, ?_⟩
    intro a ha hb
    have h1 := hi.valid a ha
    simp only [List.mem_singleton] at hb
    omega
  · intro a ha
    rw [hn] at ha
    rw [hs, List.length_append, List.length_singleton]
    rcases List.mem_append.mp ha with h1 | h1
    · have := hi.valid a h1; omega
    · simp only [List.mem_singleton] at h1; omega
  · intro i hil
    rw [hn, List.length_append, List.length_singleton] at hil
    unfold KmerGraph.node_at
    by_cases hlt : i < g.nodes.length
    · have h := hi.ids i hlt
      unfold KmerGraph.node_at at h
      rw [hn, List.getElem?_append_left hlt]
      cases hna : g.nodes[i]? with
      | none => rw [hna] at h; simp at h
      | some a =>
        rw [hna] at h
        simp only at h ⊢
        have hal : a < g.store.length := hi.valid a (List.getElem?_mem hna)
        rw [hs, List.getElem?_append_left hal]
        exact h
    · have hie : i = g.nodes.length := by omega
      rw [hn, hie, List.getElem?_append_right (le_refl _)]
      simp only [Nat.sub_self, List.getElem?_cons_zero]
      rw [hs, List.getElem?_append_right (le_refl _)]
      simp only [Nat.sub_self, List.getElem?_cons_zero, Option.map_some', Option.some.injEq]
      rw [hid, hi.next_eq]

theorem add_node_indexed {P : Type} [DecidableEq P] (plen : P → Nat) (g g1 : KmerGraph P)
    (p : P) (n : Nat) (hi : Indexed g) (h : add_node plen g p = some (g1, n)) :
    Indexed g1 := by
  unfold add_node at h
  cases hfi : find_if g.store (pointer_values_equal (KmerNode.new g.next_id p)) g.nodes with
  | none => simp [hfi] at h
  | some r =>
    cases r with
    | some a =>
      simp only [hfi, Option.some.injEq, Prod.mk.injEq] at h
      rw [← h.1]; exact hi
    | none =>
      simp only [hfi] at h
      by_cases hc : g.k = 0 ∨ plen p = 0 ∨ plen p = g.k
      · rw [if_pos hc] at h
        simp only [Option.some.injEq, Prod.mk.injEq] at h
        rw [← h.1]
        exact indexed_push g _ hi (KmerNode.new g.next_id p) rfl rfl rfl rfl
      · rw [if_neg hc] at h; simp at h

theorem add_node_with_kh_indexed {P : Type} [DecidableEq P] (plen : P → Nat)
    (g g1 : KmerGraph P) (p : P) (kh num n : Nat) (hi : Indexed g)
    (h : add_node_with_kh plen g p kh num = some (g1, n)) : Indexed g1 := by
  unfold add_node_with_kh at h
  cases ha : add_node plen g p with
  | none => simp [ha] at h
  | some r =>
    obtain ⟨g0, m⟩ := r
    have hi0 := add_node_indexed plen g g0 p m hi ha
    simp only [ha] at h
    cases hm : g0.store[m]? with
    | none => simp [hm] at h
    | some nd =>
      simp only [hm] at h
      by_cases hk : kh < 2 ^ 64 - 1
      · rw [if_pos hk] at h
        simp only [Option.some.injEq, Prod.mk.injEq] at h
        rw [← h.1]
        exact indexed_of_same_ids g0 _ hi0 rfl rfl
          (set_map_same KmerNode.id g0.store m _ nd hm rfl)
      · rw [if_neg hk] at h; simp at h

theorem deref_all_perm_fst {P : Type} (store : List (KmerNode P)) (l : List Nat) :
    ∀ ps, deref_all store l = some ps → ps.map Prod.fst = l := by
  induction l with
  | nil => intro ps h; simp [deref_all] at h; rw [h]; rfl
  | cons a rest ih =>
    intro ps h
    unfold deref_all at h
    cases ha : store[a]? with
    | none => simp [ha] at h
    | some n =>
      cases hr : deref_all store rest with
      | none => simp [ha, hr] at h
      | some qs =>
        simp only [ha, hr, Option.some.injEq] at h
        rw [← h]
        simp [ih qs hr]

theorem deref_all_mem {P : Type} (store : List (KmerNode P)) (l : List Nat) :
    ∀ ps, deref_all store l = some ps → ∀ x ∈ ps, store[x.1]? = some x.2 := by
  induction l with
  | nil => intro ps h; simp [deref_all] at h; rw [h]; simp
  | cons a rest ih =>
    intro ps h
    unfold deref_all at h
    cases ha : store[a]? with
    | none => simp [ha] at h
    | some n =>
      cases hr : deref_all store rest with
      | none => simp [ha, hr] at h
      | some qs =>
        simp only [ha, hr, Option.some.injEq] at h
        rw [← h]
        intro x hx
        rcases List.mem_cons.mp hx with h1 | h1
        · rw [h1]; exact ha
        · exact ih qs hr x h1

theorem deref_all_of_mem {P : Type} (store : List (KmerNode P)) :
    ∀ qs : List (Nat × KmerNode P), (∀ x ∈ qs, store[x.1]? = some x.2) →
      deref_all store (qs.map Prod.fst) = some qs := by
  intro qs
  induction qs with
  | nil => intro _; rfl
  | cons q rest ih =>
    intro hq
    have h1 := hq q (List.mem_cons_self _ _)
    have h2 := ih (fun x hx => hq x (List.mem_cons_of_mem _ hx))
    simp only [List.map_cons, deref_all, h1, h2]

theorem deref_all_of_perm {P : Type} (store : List (KmerNode P)) (l : List Nat)
    (ps : List (Nat × KmerNode P)) (h : deref_all store l = some ps)
    (qs : List (Nat × KmerNode P)) (hp : qs.Perm ps) :
    deref_all store (qs.map Prod.fst) = some qs :=
  deref_all_of_mem store qs (fun x hx => deref_all_mem store l ps h x (hp.mem_iff.mp hx))

/-- The order computed by `sort_topologically` is one of the orders that
`std::sort` may produce. -/
theorem sort_topologically_is_outcome {P : Type} [LinearOrder P] (g g1 : KmerGraph P)
    (h : sort_topologically g = some g1) :
    ∃ sorted, std_sort_outcome g.store g.nodes sorted
      ∧ sort_topologically_to g sorted = some g1 := by
  unfold sort_topologically at h
  cases hps : deref_all g.store g.nodes with
  | none => simp [hps] at h
  | some ps =>
    simp only [hps] at h
    have hfst := deref_all_perm_fst g.store g.nodes ps hps
    refine ⟨(List.insertionSort sort_le ps).map Prod.fst, ⟨?_, List.insertionSort sort_le ps, ?_,
      List.sorted_insertionSort sort_le ps⟩, ?_⟩
    · rw [← hfst]
      exact (List.perm_insertionSort sort_le ps).map Prod.fst
    · exact deref_all_of_perm g.store g.nodes ps hps _ (List.perm_insertionSort sort_le ps)
    · unfold sort_topologically_to
      exact h

theorem sort_outcome_indexed {P : Type} [LinearOrder P] (g g1 : KmerGraph P)
    (sorted : List Nat) (hi : Indexed g) (ho : std_sort_outcome g.store g.nodes sorted)
    (h : sort_topologically_to g sorted = some g1) : Indexed g1 := by
  unfold sort_topologically_to at h
  have hperm : sorted.Perm g.nodes := ho.1
  have hv : ∀ a ∈ sorted, a < g.store.length :=
    fun a ha => hi.valid a (hperm.mem_iff.mp ha)
  have hnd : sorted.Nodup := hperm.nodup_iff.mpr hi.nodup
  obtain ⟨st, hst, hlen, _, hin⟩ := assign_ids_spec sorted g.store 0 hv hnd
  rw [hst] at h
  simp only [Option.some.injEq] at h
  rw [← h]
  refine ⟨?_, hnd, ?_, ?_⟩
  · show g.next_id = sorted.length
    rw [hi.next_eq, hperm.length_eq]
  · intro a ha
    show a < st.length
    rw [hlen]
    exact hv a ha
  · intro i hil
    have hil2 : i < sorted.length := hil
    have hsi : sorted[i]? = some sorted[i] := List.getElem?_eq_getElem hil2
    have hal : sorted[i] < g.store.length := hv _ (List.getElem?_mem hsi)
    have hstore : g.store[sorted[i]]? = some g.store[sorted[i]] := List.getElem?_eq_getElem hal
    have := hin i sorted[i] _ hsi hstore
    show (KmerGraph.node_at _ i).map KmerNode.id = some i
    simp only [KmerGraph.node_at, hsi, this, Option.map_some', Nat.zero_add]

theorem load_edge_frame {P : Type} (g g1 : KmerGraph P) (a b : Nat)
    (h : load_edge g a b = some g1) :
    g1.nodes = g.nodes ∧ g1.next_id = g.next_id
      ∧ g1.store.map KmerNode.id = g.store.map KmerNode.id := by
  unfold load_edge at h
  cases hf : g.nodes[a]? with
  | none => simp [hf] at h
  | some f =>
    cases ht : g.nodes[b]? with
    | none => simp [hf, ht] at h
    | some t =>
      simp only [hf, ht] at h
      cases hnf : g.store[f]? with
      | none => simp [hnf] at h
      | some nf =>
        simp only [hnf] at h
        cases hnt : (g.store.set f { nf with outNodes := nf.outNodes ++ [t] })[t]? with
        | none => simp [hnt] at h
        | some nt =>
          simp only [hnt, Option.some.injEq] at h
          rw [← h]
          exact ⟨rfl, rfl, set_set_map KmerNode.id g.store f t _ _ nf nt hnf rfl hnt rfl⟩

theorem load_links_indexed {P : Type} (lines : List (Line P)) :
    ∀ g g1 : KmerGraph P, Indexed g → load_links g lines = some g1 → Indexed g1 := by
  induction lines with
  | nil =>
    intro g g1 hi h
    simp only [load_links, Option.some.injEq] at h
    rw [← h]; exact hi
  | cons l rest ih =>
    intro g g1 hi h
    cases l with
    | header => simp only [load_links] at h; exact ih g g1 hi h
    | segment id p c t => simp only [load_links] at h; exact ih g g1 hi h
    | link a o1 b o2 =>
      simp only [load_links] at h
      cases ha : stoi a with
      | none => simp [ha] at h
      | some a1 =>
        cases hb : stoi b with
        | none => simp [ha, hb] at h
        | some b1 =>
          simp only [ha, hb] at h
          cases he : (if o1 = o2 then load_edge g a1 b1 else load_edge g b1 a1) with
          | none => simp [he] at h
          | some g0 =>
            simp only [he] at h
            have hfr : g0.nodes = g.nodes ∧ g0.next_id = g.next_id
                ∧ g0.store.map KmerNode.id = g.store.map KmerNode.id := by
              by_cases ho : o1 = o2
              · rw [if_pos ho] at he; exact load_edge_frame g g0 a1 b1 he
              · rw [if_neg ho] at he; exact load_edge_frame g g0 b1 a1 he
            exact ih g0 g1 (indexed_of_same_ids g g0 hi hfr.1 hfr.2.1 hfr.2.2) h

theorem load_segments_indexed {P : Type} (plen : P → Nat) (lines : List (Line P)) :
    ∀ g g1 : KmerGraph P, Indexed g → load_segments plen g lines = some g1 → Indexed g1 := by
  induction lines with
  | nil =>
    intro g g1 hi h
    simp only [load_segments, Option.some.injEq] at h
    rw [← h]; exact hi
  | cons l rest ih =>
    intro g g1 hi h
    cases l with
    | header => simp only [load_segments] at h; exact ih g g1 hi h
    | link a o1 b o2 => simp only [load_segments] at h; exact ih g g1 hi h
    | segment id p c t =>
      simp only [load_segments] at h
      cases ha : stoi id with
      | none => simp [ha] at h
      | some id1 =>
        cases hb : stoi c with
        | none => simp [ha, hb] at h
        | some c1 =>
          simp only [ha, hb] at h
          by_cases hnx : g.next_id = id1
          · rw [if_pos hnx] at h
            split at h
            · simp at h
            · rename_i tag _
              exact ih _ g1 (indexed_push g _ hi
                { KmerNode.new g.next_id p with covg0 := c1, num_AT := tag } rfl rfl rfl rfl) h
          · rw [if_neg hnx] at h; simp at h

theorem reachable_indexed {P : Type} [LinearOrder P] (plen : P → Nat) (g : KmerGraph P)
    (h : Reachable plen g) : Indexed g := by
  induction h with
  | init =>
    exact ⟨rfl, List.nodup_nil, fun a ha => by simp [KmerGraph.init] at ha,
      fun i hi => by simp [KmerGraph.init] at hi⟩
  | add_node g g1 p n _ h ih => exact add_node_indexed plen g g1 p n ih h
  | add_node_with_kh g g1 p kh num n _ h ih =>
    exact add_node_with_kh_indexed plen g g1 p kh num n ih h
  | add_edge g g1 f t _ h ih =>
    obtain ⟨a, b, _, _, _, _, _, _, _, hpush⟩ := add_edge_unfold g g1 f t h
    obtain ⟨h1, h2, _, _, _, h3, _⟩ := push_edge_frame g g1 a b hpush
    exact indexed_of_same_ids g g1 ih h1 h2 h3
  | add_edge_nodes g g1 a b _ h ih =>
    obtain ⟨_, _, _, _, _, hpush⟩ := add_edge_nodes_unfold g g1 a b h
    obtain ⟨h1, h2, _, _, _, h3, _⟩ := push_edge_frame g g1 a b hpush
    exact indexed_of_same_ids g g1 ih h1 h2 h3
  | sort_topologically g g1 sorted _ ho h ih => exact sort_outcome_indexed g g1 sorted ih ho h
  | clear g _ _ =>
    exact ⟨rfl, List.nodup_nil, fun a ha => by simp [clear] at ha,
      fun i hi => by simp [clear] at hi⟩
  | load g g1 lines _ h ih =>
    unfold load at h
    cases hs : load_segments plen g lines with
    | none => simp [hs] at h
    | some g0 =>
      simp only [hs] at h
      exact load_links_indexed lines g0 g1 (load_segments_indexed plen lines g g0 ih hs) h

/-- C19: in every graph reachable from the constructor by successful calls of
`add_node`, `add_node_with_kh`, `add_edge` (both forms), `sort_topologically`
(leaving the vector in any order that `std::sort` can produce), `clear` and
`load`, `next_id` is the number of nodes, the node at array position `i` has
id `i`, and the ids of the nodes are pairwise distinct. -/
theorem reachable_ids_are_positions {P : Type} [LinearOrder P] (plen : P → Nat)
    (g : KmerGraph P) (h : Reachable plen g) :
    g.next_id = g.nodes.length ∧ ids_are_positions g
      ∧ ∀ (i j : Nat) (ni nj : KmerNode P), g.node_at i = some ni → g.node_at j = some nj →
          ni.id = nj.id → i = j := by
  have hi := reachable_indexed plen g h
  refine ⟨hi.next_eq, hi.ids, ?_⟩
  have hpos : ∀ (i : Nat) (ni : KmerNode P), g.node_at i = some ni → ni.id = i := by
    intro i ni hni
    obtain ⟨c, hc, _⟩ := node_at_some g i ni hni
    obtain ⟨nd, _, hnd, hid⟩ := node_at_of_ids g hi.ids i c hc
    rw [hni] at hnd
    cases hnd
    exact hid
  intro i j ni nj hni hnj he
  rw [← hpos i ni hni, ← hpos j nj hnj]
  exact he

theorem reachable_ids_are_positions_witness :
    Reachable (fun p : Nat => p) twin_nodes_swapped
      ∧ (twin_nodes_swapped.next_id = twin_nodes_swapped.nodes.length
        ∧ ids_are_positions twin_nodes_swapped
        ∧ ∀ (i j : Nat) (ni nj : KmerNode Nat), twin_nodes_swapped.node_at i = some ni →
            twin_nodes_swapped.node_at j = some nj → ni.id = nj.id → i = j) :=
  have hr : Reachable (fun p : Nat => p) twin_nodes_swapped :=
    Reachable.sort_topologically twin_nodes twin_nodes_swapped [1, 0]
      (Reachable.load (KmerGraph.init Nat) twin_nodes
        [Line.segment 0 4 0 none, Line.segment 1 4 0 none] Reachable.init (by decide))
      ⟨by decide, _, rfl, by decide⟩
      (by decide)
  ⟨hr, reachable_ids_are_positions (fun p : Nat => p) twin_nodes_swapped hr⟩

/-! ## C20 -/

theorem find_if_cases {P : Type} (store : List (KmerNode P)) (pred : KmerNode P → Bool)
    (l : List Nat) (hv : ∀ b ∈ l, ∃ n : KmerNode P, store[b]? = some n) :
    (∃ e, find_if store pred l = some (some e) ∧ e ∈ l
        ∧ ∃ n : KmerNode P, store[e]? = some n ∧ pred n = true)
      ∨ (find_if store pred l = some none
        ∧ ∀ a ∈ l, ∀ n : KmerNode P, store[a]? = some n → pred n = false) := by
  induction l with
  | nil => right; exact ⟨rfl, fun a ha => by cases ha⟩
  | cons b rest ih =>
    obtain ⟨n, hn⟩ := hv b (List.mem_cons_self _ _)
    by_cases hp : pred n = true
    · left
      exact ⟨b, by simp only [find_if, hn, hp, if_true], List.mem_cons_self _ _, n, hn, hp⟩
    · have hpf : pred n = false := by simpa using hp
      rcases ih (fun z hz => hv z (List.mem_cons_of_mem _ hz)) with ⟨e, h1, h2, h3⟩ | ⟨h1, h2⟩
      · left
        refine ⟨e, ?_, List.mem_cons_of_mem _ h2, h3⟩
        simp only [find_if, hn, hpf]
        exact h1
      · right
        refine ⟨?_, ?_⟩
        · simp only [find_if, hn, hpf]
          exact h1
        · intro a ha m hm
          rcases List.mem_cons.mp ha with hab | har
          · rw [hab, hn] at hm
            rw [← Option.some.inj hm]
            exact hpf
          · exact h2 a har m hm

theorem eq_out_nodes_iff {P : Type} [DecidableEq P] (x y : KmerGraph P) (ys : List Nat)
    (hvy : ∀ e ∈ ys, ∃ n : KmerNode P, y.store[e]? = some n) (outs : List Nat)
    (hvx : ∀ o ∈ outs, ∃ n : KmerNode P, x.store[o]? = some n) :
    ∃ b : Bool, eq_out_nodes x y ys outs = some b
      ∧ (b = true ↔ ∀ o ∈ outs, ∀ no : KmerNode P, x.store[o]? = some no →
          ∃ e ∈ ys, ∃ ne : KmerNode P, y.store[e]? = some ne ∧ ne.path = no.path) := by
  induction outs with
  | nil => exact ⟨true, rfl, by simp⟩
  | cons o rest ih =>
    obtain ⟨no, hno⟩ := hvx o (List.mem_cons_self _ _)
    obtain ⟨b, hb, hiff⟩ := ih (fun z hz => hvx z (List.mem_cons_of_mem _ hz))
    rcases find_if_cases y.store (pointer_values_equal no) ys hvy with
      ⟨e, h1, h2, ne, h3, h4⟩ | ⟨h1, h2⟩
    · refine ⟨b, ?_, ?_⟩
      · simp only [eq_out_nodes, hno, h1]
        exact hb
      · rw [hiff]
        constructor
        · intro h z hz nz hnz
          rcases List.mem_cons.mp hz with hzo | hzr
          · rw [hzo, hno] at hnz
            rw [← Option.some.inj hnz]
            refine ⟨e, h2, ne, h3, ?_⟩
            simp only [pointer_values_equal, decide_eq_true_eq] at h4
            exact h4.symm
          · exact h z hzr nz hnz
        · intro h z hz nz hnz
          exact h z (List.mem_cons_of_mem _ hz) nz hnz
    · refine ⟨false, ?_, ?_⟩
      · simp only [eq_out_nodes, hno, h1]
      · constructor
        · intro h; cases h
        · intro h
          obtain ⟨e, he, ne, hne, hp⟩ := h o (List.mem_cons_self _ _) no hno
          have := h2 e he ne hne
          simp only [pointer_values_equal, decide_eq_false_iff_not] at this
          exact absurd hp.symm this

theorem eq_nodes_iff {P : Type} [DecidableEq P] (x y : KmerGraph P) (hx : Tidy x)
    (hy : Tidy y) (l : List Nat) (hl : ∀ c ∈ l, c ∈ x.nodes) :
    ∃ b : Bool, eq_nodes x y l = some b
      ∧ (b = true ↔ ∀ c ∈ l, ∀ nc : KmerNode P, x.store[c]? = some nc →
          ∃ d ∈ y.nodes, ∃ nd : KmerNode P, y.store[d]? = some nd ∧ node_match x y nc nd) := by
  induction l with
  | nil => exact ⟨true, rfl, by simp⟩
  | cons c rest ih =>
    have hc : c ∈ x.nodes := hl c (List.mem_cons_self _ _)
    obtain ⟨nc, hnc⟩ := hx.valid c hc
    obtain ⟨b, hb, hiff⟩ := ih (fun z hz => hl z (List.mem_cons_of_mem _ hz))
    -- a failed test at the head makes the result false
    have hfalse : ∀ (hnot : ¬ ∃ d ∈ y.nodes, ∃ nd : KmerNode P,
        y.store[d]? = some nd ∧ node_match x y nc nd),
        (false = true ↔ ∀ c2 ∈ c :: rest, ∀ n2 : KmerNode P, x.store[c2]? = some n2 →
          ∃ d ∈ y.nodes, ∃ nd : KmerNode P, y.store[d]? = some nd ∧ node_match x y n2 nd) := by
      intro hnot
      constructor
      · intro h; cases h
      · intro h
        exact absurd (h c (List.mem_cons_self _ _) nc hnc) hnot
    rcases find_if_cases y.store (pointer_values_equal nc) y.nodes hy.valid with
      ⟨e, h1, h2, ne, h3, h4⟩ | ⟨h1, h2⟩
    · simp only [pointer_values_equal, decide_eq_true_eq] at h4
      -- every match of `nc` in `y` is the node found
      have huniq : ∀ d ∈ y.nodes, ∀ nd : KmerNode P, y.store[d]? = some nd →
          nd.path = nc.path → nd = ne := by
        intro d hd nd hnd hp
        have hde : d = e := hy.paths d hd e h2 nd ne hnd h3 (by rw [hp, h4])
        rw [hde, h3] at hnd
        exact (Option.some.inj hnd).symm
      by_cases hout : nc.outNodes.length ≠ ne.outNodes.length
      · refine ⟨false, ?_, hfalse ?_⟩
        · simp only [eq_nodes, hnc, h1, h3, if_pos hout]
        · rintro ⟨d, hd, nd, hnd, hm⟩
          rw [huniq d hd nd hnd hm.1] at hm
          exact hout hm.2.1
      · by_cases hin : nc.inNodes.length ≠ ne.inNodes.length
        · refine ⟨false, ?_, hfalse ?_⟩
          · simp only [eq_nodes, hnc, h1, h3, if_neg hout, if_pos hin]
          · rintro ⟨d, hd, nd, hnd, hm⟩
            rw [huniq d hd nd hnd hm.1] at hm
            exact hin hm.2.2.1
        · obtain ⟨b1, hb1, hiff1⟩ := eq_out_nodes_iff x y ne.outNodes
            (fun z hz => hy.valid z (hy.out_mem e h2 ne h3 z hz)) nc.outNodes
            (fun z hz => hx.valid z (hx.out_mem c hc nc hnc z hz))
          cases b1 with
          | false =>
            refine ⟨false, ?_, hfalse ?_⟩
            · simp only [eq_nodes, hnc, h1, h3, if_neg hout, if_neg hin, hb1]
            · rintro ⟨d, hd, nd, hnd, hm⟩
              rw [huniq d hd nd hnd hm.1] at hm
              have := hiff1.mpr hm.2.2.2
              cases this
          | true =>
            refine ⟨b, ?_, ?_⟩
            · simp only [eq_nodes, hnc, h1, h3, if_neg hout, if_neg hin, hb1]
              exact hb
            · rw [hiff]
              constructor
              · intro h z hz nz hnz
                rcases List.mem_cons.mp hz with hzc | hzr
                · rw [hzc, hnc] at hnz
                  rw [← Option.some.inj hnz]
                  refine ⟨e, h2, ne, h3, h4.symm, ?_, ?_, hiff1.mp rfl⟩
                  · simpa using hout
                  · simpa using hin
                · exact h z hzr nz hnz
              · intro h z hz nz hnz
                exact h z (List.mem_cons_of_mem _ hz) nz hnz
    · refine ⟨false, ?_, hfalse ?_⟩
      · simp only [eq_nodes, hnc, h1]
      · rintro ⟨d, hd, nd, hnd, hm⟩
        have := h2 d hd nd hnd
        simp only [pointer_values_equal, decide_eq_false_iff_not] at this
        exact this hm.1.symm

theorem graph_eq_iff {P : Type} [DecidableEq P] (x y : KmerGraph P) (hx : Tidy x)
    (hy : Tidy y) :
    ∃ b : Bool, graph_eq x y = some b ∧ (b = true ↔ Matches x y) := by
  unfold graph_eq
  by_cases hlen : y.nodes.length ≠ x.nodes.length
  · refine ⟨false, by rw [if_pos hlen], ?_⟩
    constructor
    · intro h; cases h
    · intro h; exact absurd h.1.symm hlen
  · obtain ⟨b, hb, hiff⟩ := eq_nodes_iff x y hx hy x.nodes (fun _ h => h)
    refine ⟨b, by rw [if_neg hlen]; exact hb, ?_⟩
    rw [hiff]
    constructor
    · intro h
      exact ⟨by omega, h⟩
    · intro h
      exact h.2

theorem subset_of_nodup_length {α : Type} (l1 l2 : List α) (hnd : l1.Nodup)
    (hsub : l1 ⊆ l2) (hlen : l2.length ≤ l1.length) : l2 ⊆ l1 :=
  ((List.subperm_of_subset hnd hsub).perm_of_length_le hlen).symm.subset

theorem tidy_paths_nodup {P : Type} (g : KmerGraph P) (hg : Tidy g) (l : List Nat)
    (hl : l.Nodup) (hsub : ∀ a ∈ l, a ∈ g.nodes) :
    (l.map (fun a => (g.store[a]?).map KmerNode.path)).Nodup := by
  apply List.Nodup.map_on _ hl
  intro a ha b hb hab
  obtain ⟨na, hna⟩ := hg.valid a (hsub a ha)
  obtain ⟨nb, hnb⟩ := hg.valid b (hsub b hb)
  simp only [hna, hnb, Option.map_some', Option.some.injEq] at hab
  exact hg.paths a (hsub a ha) b (hsub b hb) na nb hna hnb hab

theorem matches_symm {P : Type} (x y : KmerGraph P) (hx : Tidy x) (hy : Tidy y)
    (h : Matches x y) : Matches y x := by
  obtain ⟨hlen, hall⟩ := h
  -- every Path of `y` is a Path of `x`
  have hback : ∀ d ∈ y.nodes, ∀ nd : KmerNode P, y.store[d]? = some nd →
      ∃ c ∈ x.nodes, ∃ nc : KmerNode P, x.store[c]? = some nc ∧ nc.path = nd.path := by
    have hsub : x.nodes.map (fun a => (x.store[a]?).map KmerNode.path)
        ⊆ y.nodes.map (fun a => (y.store[a]?).map KmerNode.path) := by
      intro p hp
      rw [List.mem_map] at hp
      obtain ⟨c, hc, hcp⟩ := hp
      obtain ⟨nc, hnc⟩ := hx.valid c hc
      obtain ⟨d, hd, nd, hnd, hm⟩ := hall c hc nc hnc
      rw [List.mem_map]
      refine ⟨d, hd, ?_⟩
      rw [← hcp, hnc, hnd]
      simp only [Option.map_some', Option.some.injEq]
      exact hm.1
    have hrev := subset_of_nodup_length _ _
      (tidy_paths_nodup x hx x.nodes hx.nodup (fun _ h => h)) hsub
      (by simp only [List.length_map]; omega)
    intro d hd nd hnd
    have hmem : (y.store[d]?).map KmerNode.path
        ∈ y.nodes.map (fun a => (y.store[a]?).map KmerNode.path) :=
      List.mem_map.mpr ⟨d, hd, rfl⟩
    have := hrev hmem
    rw [List.mem_map] at this
    obtain ⟨c, hc, hcp⟩ := this
    obtain ⟨nc, hnc⟩ := hx.valid c hc
    refine ⟨c, hc, nc, hnc, ?_⟩
    rw [hnc, hnd] at hcp
    simpa using hcp
  refine ⟨hlen.symm, ?_⟩
  intro d hd nd hnd
  obtain ⟨c, hc, nc, hnc, hp⟩ := hback d hd nd hnd
  obtain ⟨d2, hd2, nd2, hnd2, hm⟩ := hall c hc nc hnc
  have hdd : d2 = d := hy.paths d2 hd2 d hd nd2 nd hnd2 hnd (by rw [hm.1, hp])
  rw [hdd, hnd] at hnd2
  have hnn : nd2 = nd := (Option.some.inj hnd2).symm
  rw [hnn] at hm
  obtain ⟨_, ho, hi, hout⟩ := hm
  refine ⟨c, hc, nc, hnc, hp, ho.symm, hi.symm, ?_⟩
  -- the out-neighbour Paths of `nd` are among those of `nc`
  have hsub : nc.outNodes.map (fun a => (x.store[a]?).map KmerNode.path)
      ⊆ nd.outNodes.map (fun a => (y.store[a]?).map KmerNode.path) := by
    intro p hpm
    rw [List.mem_map] at hpm
    obtain ⟨o, hom, hop⟩ := hpm
    obtain ⟨no, hno⟩ := hx.valid o (hx.out_mem c hc nc hnc o hom)
    obtain ⟨e, he, ne, hne, hpe⟩ := hout o hom no hno
    rw [List.mem_map]
    refine ⟨e, he, ?_⟩
    rw [← hop, hno, hne]
    simp only [Option.map_some', Option.some.injEq]
    exact hpe
  have hrev := subset_of_nodup_length _ _
    (tidy_paths_nodup x hx nc.outNodes (hx.out_nodup c hc nc hnc)
      (fun o ho2 => hx.out_mem c hc nc hnc o ho2)) hsub
    (by simp only [List.length_map]; omega)
  intro e he ne hne
  have hmem : (y.store[e]?).map KmerNode.path
      ∈ nd.outNodes.map (fun a => (y.store[a]?).map KmerNode.path) :=
    List.mem_map.mpr ⟨e, he, rfl⟩
  have := hrev hmem
  rw [List.mem_map] at this
  obtain ⟨o, hom, hop⟩ := this
  obtain ⟨no, hno⟩ := hx.valid o (hx.out_mem c hc nc hnc o hom)
  refine ⟨o, hom, no, hno, ?_⟩
  rw [hno, hne] at hop
  simpa using hop

theorem matches_paths {P : Type} (x y : KmerGraph P) (h : Matches x y) (p : P)
    (hp : has_path x p) : has_path y p := by
  obtain ⟨c, hc, nc, hnc, hcp⟩ := hp
  obtain ⟨d, hd, nd, hnd, hm⟩ := h.2 c hc nc hnc
  exact ⟨d, hd, nd, hnd, by rw [hm.1, hcp]⟩

theorem matches_edges {P : Type} (x y : KmerGraph P) (h : Matches x y) (p q : P)
    (hp : has_edge x p q) : has_edge y p q := by
  obtain ⟨c, hc, nc, hnc, hcp, o, ho, no, hno, hoq⟩ := hp
  obtain ⟨d, hd, nd, hnd, hm⟩ := h.2 c hc nc hnc
  obtain ⟨e, he, ne, hne, hpe⟩ := hm.2.2.2 o ho no hno
  exact ⟨d, hd, nd, hnd, by rw [hm.1, hcp], e, he, ne, hne, by rw [hpe, hoq]⟩

/-- C20: for two graphs whose stored Paths are pairwise distinct and whose
out-lists are duplicate-free lists of their own nodes, `operator==` returns in
both directions, `x == y` holds exactly when `y == x` holds, and then the two
graphs have the same Paths and the same edges as pairs of Paths. -/
theorem graph_eq_symmetric {P : Type} [DecidableEq P] (x y : KmerGraph P) (hx : Tidy x)
    (hy : Tidy y) :
    (∃ b1 b2 : Bool, graph_eq x y = some b1 ∧ graph_eq y x = some b2)
      ∧ (graph_eq x y = some true ↔ graph_eq y x = some true)
      ∧ (graph_eq x y = some true →
          (∀ p : P, has_path x p ↔ has_path y p)
            ∧ (∀ p q : P, has_edge x p q ↔ has_edge y p q)) := by
  obtain ⟨b1, h1, hiff1⟩ := graph_eq_iff x y hx hy
  obtain ⟨b2, h2, hiff2⟩ := graph_eq_iff y x hy hx
  have hxy : graph_eq x y = some true ↔ Matches x y := by
    rw [h1]
    constructor
    · intro h; exact hiff1.mp (Option.some.inj h)
    · intro h; rw [hiff1.mpr h]
  have hyx : graph_eq y x = some true ↔ Matches y x := by
    rw [h2]
    constructor
    · intro h; exact hiff2.mp (Option.some.inj h)
    · intro h; rw [hiff2.mpr h]
  refine ⟨⟨b1, b2, h1, h2⟩, ?_, ?_⟩
  · rw [hxy, hyx]
    exact ⟨matches_symm x y hx hy, matches_symm y x hy hx⟩
  · intro h
    have hm := hxy.mp h
    have hm2 := matches_symm x y hx hy hm
    exact ⟨fun p => ⟨matches_paths x y hm p, matches_paths y x hm2 p⟩,
      fun p q => ⟨matches_edges x y hm p q, matches_edges y x hm2 p q⟩⟩

theorem two_nodes_linked_tidy : Tidy two_nodes_linked := by
  refine ⟨?_, by decide, ?_, ?_, ?_⟩
  · intro a ha
    simp only [two_nodes_linked, List.mem_cons, List.mem_singleton, List.not_mem_nil,
      or_false] at ha
    rcases ha with rfl | rfl
    · exact ⟨_, rfl⟩
    · exact ⟨_, rfl⟩
  · intro a ha b hb na nb hna hnb hp
    simp only [two_nodes_linked, List.mem_cons, List.mem_singleton, List.not_mem_nil,
      or_false] at ha hb
    rcases ha with rfl | rfl <;> rcases hb with rfl | rfl <;>
      simp [two_nodes_linked, KmerNode.new] at hna hnb <;> subst hna <;> subst hnb <;>
      simp at hp ⊢
  · intro a ha n hn
    simp only [two_nodes_linked, List.mem_cons, List.mem_singleton, List.not_mem_nil,
      or_false] at ha
    rcases ha with rfl | rfl <;> simp [two_nodes_linked, KmerNode.new] at hn <;> subst hn <;>
      simp
  · intro a ha n hn o ho
    simp only [two_nodes_linked, List.mem_cons, List.mem_singleton, List.not_mem_nil,
      or_false] at ha
    rcases ha with rfl | rfl
    · simp [two_nodes_linked, KmerNode.new] at hn
      subst hn
      simp at ho
      simp [two_nodes_linked, ho]
    · simp [two_nodes_linked, KmerNode.new] at hn
      subst hn
      simp at ho

theorem two_nodes_swapped_tidy : Tidy two_nodes_swapped := by
  refine ⟨?_, by decide, ?_, ?_, ?_⟩
  · intro a ha
    simp only [two_nodes_swapped, List.mem_cons, List.mem_singleton, List.not_mem_nil,
      or_false] at ha
    rcases ha with rfl | rfl
    · exact ⟨_, rfl⟩
    · exact ⟨_, rfl⟩
  · intro a ha b hb na nb hna hnb hp
    simp only [two_nodes_swapped, List.mem_cons, List.mem_singleton, List.not_mem_nil,
      or_false] at ha hb
    rcases ha with rfl | rfl <;> rcases hb with rfl | rfl <;>
      simp [two_nodes_swapped, KmerNode.new] at hna hnb <;> subst hna <;> subst hnb <;>
      simp at hp ⊢
  · intro a ha n hn
    simp only [two_nodes_swapped, List.mem_cons, List.mem_singleton, List.not_mem_nil,
      or_false] at ha
    rcases ha with rfl | rfl <;> simp [two_nodes_swapped, KmerNode.new] at hn <;> subst hn <;>
      simp
  · intro a ha n hn o ho
    simp only [two_nodes_swapped, List.mem_cons, List.mem_singleton, List.not_mem_nil,
      or_false] at ha
    rcases ha with rfl | rfl
    · simp [two_nodes_swapped, KmerNode.new] at hn
      subst hn
      simp at ho
    · simp [two_nodes_swapped, KmerNode.new] at hn
      subst hn
      simp at ho
      simp [two_nodes_swapped, ho]

theorem graph_eq_symmetric_witness :
    Tidy two_nodes_linked ∧ Tidy two_nodes_swapped
      ∧ graph_eq two_nodes_linked two_nodes_swapped = some true
      ∧ graph_eq two_nodes_swapped two_nodes_linked = some true
      ∧ (∀ p q : Nat, has_edge two_nodes_linked p q ↔ has_edge two_nodes_swapped p q) :=
  have h := graph_eq_symmetric two_nodes_linked two_nodes_swapped two_nodes_linked_tidy
    two_nodes_swapped_tidy
  have hxy : graph_eq two_nodes_linked two_nodes_swapped = some true := by decide
  ⟨two_nodes_linked_tidy, two_nodes_swapped_tidy, hxy, h.2.1.mp hxy, (h.2.2 hxy).2⟩

theorem tidy_of_wf {P : Type} [LinearOrder P] (g : KmerGraph P) (hw : Wf g) : Tidy g := by
  have hlt : ∀ a ∈ g.nodes, a < g.store.length := by
    intro a ha
    rw [hw.nodes_eq] at ha
    exact List.mem_range.mp ha
  refine ⟨?_, ?_, ?_, ?_, ?_⟩
  · intro a ha
    exact ⟨_, List.getElem?_eq_getElem (hlt a ha)⟩
  · rw [hw.nodes_eq]
    exact List.nodup_range _
  · intro a _ b _ na nb hna hnb hp
    exact path_inj_store g.store hw.paths_nodup a b na nb hna hnb hp
  · intro a _ n hn
    have := hw.out_nodup a
    rw [out_of_eq g a n hn] at this
    exact this
  · intro a _ n hn o ho
    obtain ⟨_, nb, _, hnb, _⟩ := hw.forward a o (by rw [out_of_eq g a n hn]; exact ho)
    rw [hw.nodes_eq]
    exact List.mem_range.mpr (List.getElem?_eq_some_iff.mp hnb).1

end Pandora
